import Mathlib

/-!
# Polycube enumeration: a shallow embedding

The definitions below follow `polycube_sparse.h`, `stack_allocator.h`,
`thread_safe_queue.h` and `cubes.h`.  Machine integers are modelled by `Int`: with at most 32 cubes
every coordinate stays below 40, every label below 200 and every grid below
`MAX_ENTRIES`, so no `int8_t`, `uint16_t` or `int` value wraps.  The count
returned by a search, a `size_t`, is modelled by `Nat`.  A C array
together with its element count is modelled by the list of its live
entries.  An access outside the live part of a grid reads `0` and a write
outside it is dropped.
-/

namespace Polycubes

/-! ## polycube_sparse.h -/

/-- Small position struct for storing locations (`struct position`). -/
structure position where
  x : Int
  y : Int
  z : Int
deriving DecidableEq

/-- Component-wise sum, `operator+` of the source. -/
def position.add (a b : position) : position :=
  ⟨a.x + b.x, a.y + b.y, a.z + b.z⟩

/-- Component-wise max of two positions; the result is the new `inout_base`. -/
def position_max (inout_base compare : position) : position :=
  ⟨max inout_base.x compare.x, max inout_base.y compare.y, max inout_base.z compare.z⟩

/-- Component-wise min of two positions; the result is the new `inout_base`. -/
def position_min (inout_base compare : position) : position :=
  ⟨min inout_base.x compare.x, min inout_base.y compare.y, min inout_base.z compare.z⟩

/-- Sparse polycube: `dim` and the first `num_cubes` entries of `cubes[32]`.
The array holds 32 cells and is written without a bound check: the list
stands for it as long as a shape has at most 32 cells, which is why the
theorems about the search carry a bound of 32 on the size. -/
structure polycube_sparse where
  dim : position
  cubes : List position
deriving DecidableEq

/-- The field `num_cubes`: the number of live entries of `cubes`. -/
def polycube_sparse.num_cubes (pc : polycube_sparse) : Nat := pc.cubes.length

/-- The loop of `log_smallest_power_of_16`: `while (power <= x) { power <<= 4; log++; }`. -/
def log_smallest_power_of_16_loop : Nat → Int → Nat → Int → Nat
  | 0, _, log, _ => log
  | fuel + 1, power, log, x =>
    if power ≤ x then log_smallest_power_of_16_loop fuel (power * 16) (log + 1) x else log

/-- Number of base-16 digits of `x` (at least 1).  The loop runs at most
`x` times, which is the fuel given. -/
def log_smallest_power_of_16 (x : Int) : Nat :=
  log_smallest_power_of_16_loop x.toNat 16 1 x

/-- The inner `while` of the insertion sort in `str_encoding_hex_sparse`.  The
sorted part `loc[0..i)` is passed top element first (`loc[i-1]` is the head). -/
def insert_label (label : Int) : List Int → List Int
  | [] => [label]
  | top :: rest => if label < top then top :: insert_label label rest else label :: top :: rest

/-- Linear index of a cell in a box: `z * (dim.y * dim.x) + y * dim.x + x`. -/
def cell_label (dim c : position) : Int :=
  c.z * (dim.y * dim.x) + c.y * dim.x + c.x

/-- First loop of `str_encoding_hex_sparse`: the labels of the cubes, insertion
sorted; the result is `loc[0..num_cubes)` in ascending order. -/
def sorted_labels (pc : polycube_sparse) : List Int :=
  (pc.cubes.foldl (fun loc c => insert_label (cell_label pc.dim c) loc) []).reverse

/-- The table `map[] = "0123456789ABCDEF"`. -/
def hex_map : List Char :=
  ['0', '1', '2', '3', '4', '5', '6', '7', '8', '9', 'A', 'B', 'C', 'D', 'E', 'F']

/-- The digit loop `for (k = digits - 1; k >= 0; k--)`: writes `digits` hex
digits of `tmp`, least significant last, in front of `rest`. -/
def hex_digits : Nat → Int → List Char → List Char
  | 0, _, rest => rest
  | digits + 1, tmp, rest => hex_digits digits (tmp / 16) (hex_map.getD (tmp % 16).toNat '0' :: rest)

/-- Second loop of `str_encoding_hex_sparse`: every label written with its own
number of hex digits, concatenated. -/
def encode_labels : List Int → List Char
  | [] => []
  | l :: rest => hex_digits (log_smallest_power_of_16 l) l (encode_labels rest)

/-- The string left in `buffer` by `str_encoding_hex_sparse` (without the NUL). -/
def str_encoding_hex_sparse (pc : polycube_sparse) : List Char :=
  encode_labels (sorted_labels pc)

/-- C `strcmp` on NUL-free strings: the difference of the first pair of bytes
that differ, the end of a string counting as byte 0. -/
def strcmp : List Char → List Char → Int
  | [], [] => 0
  | [], b :: _ => 0 - (b.toNat : Int)
  | a :: _, [] => (a.toNat : Int)
  | a :: as, b :: bs => if a = b then strcmp as bs else (a.toNat : Int) - (b.toNat : Int)

def X_AXIS : Nat := 0
def Y_AXIS : Nat := 1
def Z_AXIS : Nat := 2

/-- Rotates a sparse polycube 90 degrees around the given axis. -/
def rotate_90_once_sparse (axis : Nat) (pc : polycube_sparse) : polycube_sparse :=
  if axis = Z_AXIS then
    ⟨⟨pc.dim.y, pc.dim.x, pc.dim.z⟩,
      pc.cubes.map fun cube => ⟨pc.dim.y - 1 - cube.y, cube.x, cube.z⟩⟩
  else if axis = Y_AXIS then
    ⟨⟨pc.dim.z, pc.dim.y, pc.dim.x⟩,
      pc.cubes.map fun cube => ⟨cube.z, cube.y, pc.dim.x - 1 - cube.x⟩⟩
  else if axis = X_AXIS then
    ⟨⟨pc.dim.x, pc.dim.z, pc.dim.y⟩,
      pc.cubes.map fun cube => ⟨cube.x, pc.dim.z - 1 - cube.z, cube.y⟩⟩
  else ⟨⟨0, 0, 0⟩, []⟩

/-- Rotates a sparse polycube -90 degrees around the given axis. -/
def rotate_90_reverse_sparse (axis : Nat) (pc : polycube_sparse) : polycube_sparse :=
  if axis = Z_AXIS then
    ⟨⟨pc.dim.y, pc.dim.x, pc.dim.z⟩,
      pc.cubes.map fun cube => ⟨cube.y, pc.dim.x - 1 - cube.x, cube.z⟩⟩
  else if axis = Y_AXIS then
    ⟨⟨pc.dim.z, pc.dim.y, pc.dim.x⟩,
      pc.cubes.map fun cube => ⟨pc.dim.z - 1 - cube.z, cube.y, cube.x⟩⟩
  else if axis = X_AXIS then
    ⟨⟨pc.dim.x, pc.dim.z, pc.dim.y⟩,
      pc.cubes.map fun cube => ⟨cube.x, cube.z, pc.dim.y - 1 - cube.y⟩⟩
  else ⟨⟨0, 0, 0⟩, []⟩

/-- Rotates a sparse polycube 180 degrees around the given axis. -/
def rotate_twice_sparse (axis : Nat) (pc : polycube_sparse) : polycube_sparse :=
  if axis = Z_AXIS then
    ⟨pc.dim, pc.cubes.map fun cube => ⟨pc.dim.x - 1 - cube.x, pc.dim.y - 1 - cube.y, cube.z⟩⟩
  else if axis = Y_AXIS then
    ⟨pc.dim, pc.cubes.map fun cube => ⟨pc.dim.x - 1 - cube.x, cube.y, pc.dim.z - 1 - cube.z⟩⟩
  else if axis = X_AXIS then
    ⟨pc.dim, pc.cubes.map fun cube => ⟨cube.x, pc.dim.y - 1 - cube.y, pc.dim.z - 1 - cube.z⟩⟩
  else ⟨⟨0, 0, 0⟩, []⟩

/-- State of `all_rotations_generator_sparse`. -/
structure all_rotations_generator_sparse where
  m_original : polycube_sparse
  m_base : polycube_sparse
  m_index : Nat

/-- Constructor; `m_base` is not read before the first `next` overwrites it. -/
def all_rotations_generator_sparse.init (cube : polycube_sparse) :
    all_rotations_generator_sparse :=
  ⟨cube, ⟨⟨0, 0, 0⟩, []⟩, 0⟩

def all_rotations_generator_sparse.has_next (g : all_rotations_generator_sparse) : Bool :=
  decide (g.m_index < 24)

/-- One call of `next()`: the new generator state; the orientation returned is its `m_base`. -/
def all_rotations_generator_sparse.next (g : all_rotations_generator_sparse) :
    all_rotations_generator_sparse :=
  let i := g.m_index
  let base :=
    if i < 4 then
      if i = 0 then g.m_original else rotate_90_once_sparse X_AXIS g.m_base
    else if i < 8 then
      if i = 4 then rotate_twice_sparse Y_AXIS g.m_base else rotate_90_once_sparse X_AXIS g.m_base
    else if i < 12 then
      if i = 8 then rotate_90_once_sparse Y_AXIS g.m_original
      else rotate_90_once_sparse Z_AXIS g.m_base
    else if i < 16 then
      if i = 12 then rotate_90_reverse_sparse Y_AXIS g.m_original
      else rotate_90_once_sparse Z_AXIS g.m_base
    else if i < 20 then
      if i = 16 then rotate_90_once_sparse Z_AXIS g.m_original
      else rotate_90_once_sparse Y_AXIS g.m_base
    else if i < 24 then
      if i = 20 then rotate_90_reverse_sparse Z_AXIS g.m_original
      else rotate_90_once_sparse Y_AXIS g.m_base
    else g.m_base
  ⟨g.m_original, base, i + 1⟩

/-- State of `all_180_rotations_generator_sparse`. -/
structure all_180_rotations_generator_sparse where
  m_original : polycube_sparse
  m_base : polycube_sparse
  m_index : Nat

def all_180_rotations_generator_sparse.init (cube : polycube_sparse) :
    all_180_rotations_generator_sparse :=
  ⟨cube, ⟨⟨0, 0, 0⟩, []⟩, 0⟩

def all_180_rotations_generator_sparse.has_next (g : all_180_rotations_generator_sparse) : Bool :=
  decide (g.m_index < 8)

/-- One call of `next()` of the 180-degree generator (Gray-code walk). -/
def all_180_rotations_generator_sparse.next (g : all_180_rotations_generator_sparse) :
    all_180_rotations_generator_sparse :=
  let i := g.m_index
  let base :=
    if i = 0 then g.m_original
    else if i = 1 then rotate_twice_sparse X_AXIS g.m_base
    else if i = 2 then rotate_twice_sparse Y_AXIS g.m_base
    else if i = 3 then rotate_twice_sparse X_AXIS g.m_base
    else if i = 4 then rotate_twice_sparse Z_AXIS g.m_base
    else if i = 5 then rotate_twice_sparse X_AXIS g.m_base
    else if i = 6 then rotate_twice_sparse Y_AXIS g.m_base
    else if i = 7 then rotate_twice_sparse X_AXIS g.m_base
    else g.m_base
  ⟨g.m_original, base, i + 1⟩

/-- The `while (gen.has_next())` loop of the distinct-dims branch. -/
def canonical_loop_180 (pc_encoding : List Char) :
    Nat → all_180_rotations_generator_sparse → Bool
  | 0, _ => true
  | fuel + 1, gen =>
    if gen.has_next then
      let gen1 := gen.next
      if strcmp (str_encoding_hex_sparse gen1.m_base) pc_encoding < 0 then false
      else canonical_loop_180 pc_encoding fuel gen1
    else true

/-- The `while (gen.has_next())` loop of the general branch. -/
def canonical_loop_all (pc_encoding : List Char) :
    Nat → all_rotations_generator_sparse → Bool
  | 0, _ => true
  | fuel + 1, gen =>
    if gen.has_next then
      let gen1 := gen.next
      let cube := gen1.m_base
      if cube.dim.x ≥ cube.dim.y ∧ cube.dim.y ≥ cube.dim.z then
        if strcmp (str_encoding_hex_sparse cube) pc_encoding < 0 then false
        else canonical_loop_all pc_encoding fuel gen1
      else canonical_loop_all pc_encoding fuel gen1
    else true

/-- Checks if a sparse polycube is canonical.  (The parameter `n` of the
source is unused and left out.)  Each loop makes at most 8, respectively 24,
iterations, which is the fuel given. -/
def is_polycube_canonical_sparse (pc : polycube_sparse) : Bool :=
  if pc.dim.x < pc.dim.y ∨ pc.dim.x < pc.dim.z ∨ pc.dim.y < pc.dim.z then false
  else
    let pc_encoding := str_encoding_hex_sparse pc
    if pc.dim.x ≠ pc.dim.y ∧ pc.dim.x ≠ pc.dim.z ∧ pc.dim.y ≠ pc.dim.z then
      let temp := pc
      let temp :=
        if pc.dim.z ≥ pc.dim.x ∧ pc.dim.z ≥ pc.dim.y then rotate_90_once_sparse Y_AXIS temp
        else if pc.dim.y ≥ pc.dim.x ∧ pc.dim.y ≥ pc.dim.z then rotate_90_once_sparse Z_AXIS temp
        else temp
      let temp := if pc.dim.y < pc.dim.z then rotate_90_once_sparse X_AXIS temp else temp
      canonical_loop_180 pc_encoding 8 (all_180_rotations_generator_sparse.init temp)
    else
      canonical_loop_all pc_encoding 24 (all_rotations_generator_sparse.init pc)

/-! ## cubes.h -/

def MAX_DIMENSIONS : Int := 20
def MAX_ENTRIES : Int := MAX_DIMENSIONS * MAX_DIMENSIONS * MAX_DIMENSIONS
def FILLED_CUBE : Int := 0x7FFF

/-- Rooted polycube.  `cubes` holds the first `dim.x * dim.y * dim.z` entries
of the array, `filled_cubes` the entries `stack[0..current)` in push order.
The stack is `position stack[32]`, written without a bound check: the list
stands for it as long as a shape has at most 32 cubes, which is why the
theorems about the search carry a bound of 32 on the size. -/
structure rooted_polycube where
  k : Int
  root : position
  dim : position
  highest_numbering : Int
  highest_written : Int
  cubes : List Int
  min_bounds : position
  max_bounds : position
  labeled_min_bounds : position
  labeled_max_bounds : position
  filled_cubes : List position
deriving DecidableEq

/-- The number of grid cells, `size()`. -/
def rooted_polycube.size (pc : rooted_polycube) : Nat :=
  (pc.dim.x * pc.dim.y * pc.dim.z).toNat

/-- The linear index `z * (dim.y * dim.x) + y * dim.x + x` used by every accessor. -/
def rooted_polycube.index (pc : rooted_polycube) (x y z : Int) : Int :=
  z * (pc.dim.y * pc.dim.x) + y * pc.dim.x + x

/-- Reading `cubes[index]`. -/
def array_get (cubes : List Int) (index : Int) : Int :=
  if index < 0 then 0 else cubes.getD index.toNat 0

/-- Writing `cubes[index] = elem`. -/
def array_set (cubes : List Int) (index : Int) (elem : Int) : List Int :=
  if index < 0 then cubes else cubes.set index.toNat elem

def rooted_polycube.get_cube (pc : rooted_polycube) (x y z : Int) : Int :=
  array_get pc.cubes (pc.index x y z)

def rooted_polycube.set_cube (pc : rooted_polycube) (x y z : Int) (elem : Int) :
    rooted_polycube :=
  { pc with cubes := array_set pc.cubes (pc.index x y z) elem }

/-- Labels the cell with `inout_next_highest` when it holds 0; returns the new
shape and the new value of `inout_next_highest`. -/
def rooted_polycube.set_cube_if_zero_and_increment_and_update_bounds
    (pc : rooted_polycube) (x y z : Int) (inout_next_highest : Int) : rooted_polycube × Int :=
  if array_get pc.cubes (pc.index x y z) = 0 then
    let current : position := ⟨x, y, z⟩
    ({ pc with
        cubes := array_set pc.cubes (pc.index x y z) inout_next_highest
        labeled_min_bounds := position_min pc.labeled_min_bounds current
        labeled_max_bounds := position_max pc.labeled_max_bounds current },
      inout_next_highest + 1)
  else (pc, inout_next_highest)

/-- The cells visited by `for_each_cube`, in visiting order (x fastest, then y,
then z), each with the running `index`. -/
def for_each_cube_cells (dim : position) : List (Nat × position) :=
  ((List.range dim.z.toNat).flatMap fun (z : Nat) =>
    (List.range dim.y.toNat).flatMap fun (y : Nat) =>
      (List.range dim.x.toNat).map fun (x : Nat) => (⟨x, y, z⟩ : position)).enum

/-- The top of the filled stack, `stack[current - 1]`. -/
def rooted_polycube.last_filled (pc : rooted_polycube) : position :=
  pc.filled_cubes.getLastD ⟨0, 0, 0⟩

def rooted_polycube.check_root (pc : rooted_polycube) : Bool :=
  pc.get_cube pc.root.x pc.root.y pc.root.z == FILLED_CUBE

/-- The lower and higher padding chosen by `pad_cube`. -/
def pad_deltas (base : rooted_polycube) : position × position :=
  if base.k > 3 then
    let last := base.root.add base.last_filled
    let lower_delta : position :=
      if last.x = 0 then ⟨1, 0, 0⟩
      else if last.y = 0 then ⟨0, 1, 0⟩
      else if last.z = 0 then ⟨0, 0, 1⟩
      else ⟨0, 0, 0⟩
    let higher_delta : position :=
      if last.x = base.dim.x - 1 then ⟨1, 0, 0⟩
      else if last.y = base.dim.y - 1 then ⟨0, 1, 0⟩
      else if last.z = base.dim.z - 1 then ⟨0, 0, 1⟩
      else ⟨0, 0, 0⟩
    (lower_delta, higher_delta)
  else (⟨1, 1, 1⟩, ⟨1, 1, 1⟩)

/-- The fields of `out_padded` as set by `pad_cube` before the copy loop, the
grid cleared by `memset`. -/
def pad_cube_header (base : rooted_polycube) : rooted_polycube :=
  let lower_delta := (pad_deltas base).1
  let higher_delta := (pad_deltas base).2
  let delta := lower_delta.add higher_delta
  let dim := base.dim.add delta
  { k := base.k
    highest_numbering := base.highest_numbering
    highest_written := base.highest_written
    dim := dim
    root := base.root.add lower_delta
    min_bounds := base.min_bounds.add lower_delta
    max_bounds := base.max_bounds.add lower_delta
    labeled_min_bounds := base.labeled_min_bounds.add lower_delta
    labeled_max_bounds := base.labeled_max_bounds.add lower_delta
    filled_cubes := base.filled_cubes
    cubes := List.replicate (dim.x * dim.y * dim.z).toNat 0 }

/-- The body of the copy loop of `pad_cube` and of `crop_cube`: the cell `c` of
`base`, when not 0, is written to `out` at its position moved by `delta`. -/
def copy_cell (base : rooted_polycube) (delta : position) (out : rooted_polycube)
    (c : Nat × position) : rooted_polycube :=
  let element := array_get base.cubes c.1
  if element ≠ 0 then
    out.set_cube (c.2.x + delta.x) (c.2.y + delta.y) (c.2.z + delta.z) element
  else out

/-- Pads a polycube with zeros to allow for expanding; returns `out_padded`
and `out_lower_delta`. -/
def pad_cube (base : rooted_polycube) : rooted_polycube × position :=
  let lower_delta := (pad_deltas base).1
  ((for_each_cube_cells base.dim).foldl (copy_cell base lower_delta) (pad_cube_header base),
    lower_delta)

/-- Pads a cube and numbers the empty neighbours of the most recently filled cube. -/
def expand_empty_slots (base : rooted_polycube) : rooted_polycube :=
  let padded := pad_cube base
  let lower_delta := padded.2
  let next_highest := base.highest_written + 1
  let last := base.root.add base.last_filled
  let _x := last.x + lower_delta.x
  let _y := last.y + lower_delta.y
  let _z := last.z + lower_delta.z
  let s := padded.1.set_cube_if_zero_and_increment_and_update_bounds (_x + 1) _y _z next_highest
  let s := s.1.set_cube_if_zero_and_increment_and_update_bounds (_x - 1) _y _z s.2
  let s := s.1.set_cube_if_zero_and_increment_and_update_bounds _x (_y + 1) _z s.2
  let s := s.1.set_cube_if_zero_and_increment_and_update_bounds _x (_y - 1) _z s.2
  let s := s.1.set_cube_if_zero_and_increment_and_update_bounds _x _y (_z + 1) s.2
  let s := s.1.set_cube_if_zero_and_increment_and_update_bounds _x _y (_z - 1) s.2
  { s.1 with highest_written := s.2 - 1 }

/-- The fields of `out_cropped` as set by `crop_cube` before the copy loop, the
grid cleared by `memset`. -/
def crop_cube_header (base : rooted_polycube) : rooted_polycube :=
  let newX := base.labeled_max_bounds.x - base.labeled_min_bounds.x + 1
  let newY := base.labeled_max_bounds.y - base.labeled_min_bounds.y + 1
  let newZ := base.labeled_max_bounds.z - base.labeled_min_bounds.z + 1
  let delta : position :=
    ⟨-base.labeled_min_bounds.x, -base.labeled_min_bounds.y, -base.labeled_min_bounds.z⟩
  { k := base.k
    highest_numbering := base.highest_numbering
    highest_written := base.highest_written
    dim := ⟨newX, newY, newZ⟩
    root := base.root.add delta
    min_bounds := base.min_bounds.add delta
    max_bounds := base.max_bounds.add delta
    labeled_min_bounds := base.labeled_min_bounds.add delta
    labeled_max_bounds := base.labeled_max_bounds.add delta
    filled_cubes := base.filled_cubes
    cubes := List.replicate (newX * newY * newZ).toNat 0 }

/-- Crops a polycube to the bounds of its labelled cells.  The loop writes the
cell `(x, y, z)` at `(x - labeled_min_bounds.x, ...)`. -/
def crop_cube (base : rooted_polycube) : rooted_polycube :=
  let delta : position :=
    ⟨-base.labeled_min_bounds.x, -base.labeled_min_bounds.y, -base.labeled_min_bounds.z⟩
  (for_each_cube_cells base.dim).foldl (copy_cell base delta) (crop_cube_header base)

/-- Converts a rooted polycube to a sparse polycube. -/
def get_polycube_sparse_from_rooted (current : rooted_polycube) : polycube_sparse :=
  let min := current.min_bounds
  let offset : position := ⟨-min.x, -min.y, -min.z⟩
  { dim := ⟨current.max_bounds.x - current.min_bounds.x + 1,
            current.max_bounds.y - current.min_bounds.y + 1,
            current.max_bounds.z - current.min_bounds.z + 1⟩
    cubes := current.filled_cubes.map fun c => (c.add current.root).add offset }

/-- What a search has produced: the returned count, the shapes handed to
`on_found` and the shapes handed to `on_expanded`, both in call order. -/
structure dfs_output where
  count : Nat
  found : List polycube_sparse
  expanded : List rooted_polycube

/-- The bounding-box test made when `cropped->k == n`: the value of `consider_this`. -/
def consider_this (cropped : rooted_polycube) : Bool :=
  let bounds : position :=
    ⟨cropped.max_bounds.x - cropped.min_bounds.x + 1,
     cropped.max_bounds.y - cropped.min_bounds.y + 1,
     cropped.max_bounds.z - cropped.min_bounds.z + 1⟩
  if bounds.z > bounds.x ∧ bounds.z > bounds.y then false
  else if bounds.y > bounds.x ∧ bounds.y > bounds.z then false
  else if bounds.z > bounds.y then false
  else true

/-- The uniqueness filter: the three `return`s taken when the cell comes
before the root in (z, y, x) order. -/
def before_root (cropped : rooted_polycube) (x y z : Int) : Bool :=
  if z < cropped.root.z then true
  else if z = cropped.root.z ∧ y < cropped.root.y then true
  else if z = cropped.root.z ∧ y = cropped.root.y ∧ x < cropped.root.x then true
  else false

/-- The fill step: `k++`, the cell set to `FILLED_CUBE`, `highest_numbering`,
the filled bounds and the push on the filled stack. -/
def fill_cell (cropped : rooted_polycube) (x y z cube : Int) : rooted_polycube :=
  let current : position := ⟨x, y, z⟩
  { cropped.set_cube x y z FILLED_CUBE with
    k := cropped.k + 1
    highest_numbering := cube
    min_bounds := position_min cropped.min_bounds current
    max_bounds := position_max cropped.max_bounds current
    filled_cubes := cropped.filled_cubes ++
      [⟨x - cropped.root.x, y - cropped.root.y, z - cropped.root.z⟩] }

/-- What is done with the shape after the fill step: the canonical test when
it has `n` cubes, the hand-off when it has `m` cubes, the recursive call
otherwise.  `out` is what the search has produced so far. -/
def dfs_emit (recurse : rooted_polycube → dfs_output) (n m : Int) (filled : rooted_polycube)
    (out : dfs_output) : dfs_output :=
  if filled.k = n then
    if consider_this filled then
      let pc := get_polycube_sparse_from_rooted filled
      if is_polycube_canonical_sparse pc then
        { out with count := out.count + 1, found := out.found ++ [pc] }
      else out
    else out
  else if filled.k = m then
    { out with expanded := out.expanded ++ [filled] }
  else
    let sub := recurse filled
    { count := out.count + sub.count
      found := out.found ++ sub.found
      expanded := out.expanded ++ sub.expanded }

/-- The backtrack step at the end of the lambda. -/
def restore_cell (filled : rooted_polycube) (x y z cube : Int) (highest_number : Int)
    (current_min current_max : position) : rooted_polycube :=
  { filled.set_cube x y z cube with
    filled_cubes := filled.filled_cubes.dropLast
    min_bounds := current_min
    max_bounds := current_max
    highest_numbering := highest_number
    k := filled.k - 1 }

/-- The body of the lambda given to `cropped->for_each_cube` in
`expand_polycubes_dfs_from_current`, for the cell `c` with running index
`c.1`.  The state is the shape `*cropped` together with what the search has
produced so far; `recurse` stands for the recursive call. -/
def dfs_visit (recurse : rooted_polycube → dfs_output) (n m : Int) (highest_number : Int)
    (current_min current_max : position) (st : rooted_polycube × dfs_output)
    (c : Nat × position) : rooted_polycube × dfs_output :=
  let cropped := st.1
  let cube := array_get cropped.cubes c.1
  if cube ≠ FILLED_CUBE ∧ cube > cropped.highest_numbering then
    if before_root cropped c.2.x c.2.y c.2.z then st
    else
      let filled := fill_cell cropped c.2.x c.2.y c.2.z cube
      (restore_cell filled c.2.x c.2.y c.2.z cube highest_number current_min current_max,
        dfs_emit recurse n m filled st.2)
  else st

/-- One activation of `expand_polycubes_dfs_from_current`, the recursive call
being `recurse`. -/
def dfs_level (recurse : rooted_polycube → dfs_output) (n m : Int)
    (current : rooted_polycube) : dfs_output :=
  let expanded := expand_empty_slots current
  let cropped := if current.k < 3 then crop_cube expanded else expanded
  ((for_each_cube_cells cropped.dim).foldl
    (dfs_visit recurse n m cropped.highest_numbering cropped.min_bounds cropped.max_bounds)
    (cropped, ⟨0, [], []⟩)).2

/-- The function `expand_polycubes_dfs_from_current` with a bound on the recursion depth. -/
def expand_polycubes_dfs_from_current_fuel : Nat → Int → Int → rooted_polycube → dfs_output
  | 0, _, _, _ => ⟨0, [], []⟩
  | fuel + 1, n, m, current =>
    dfs_level (expand_polycubes_dfs_from_current_fuel fuel n m) n m current

/-- The function `expand_polycubes_dfs_from_current`: every recursive call is made on a
shape with one more cube and none is made on a shape with `n` cubes, so
`n - current.k` levels are enough (`from_current_fuel_enough`). -/
def expand_polycubes_dfs_from_current (n m : Int) (current : rooted_polycube) : dfs_output :=
  expand_polycubes_dfs_from_current_fuel (n - current.k).toNat n m current

/-- The single-cube shape built by `expand_polycubes_dfs`. -/
def initial_polycube : rooted_polycube :=
  { k := 1
    root := ⟨0, 0, 0⟩
    dim := ⟨1, 1, 1⟩
    cubes := [FILLED_CUBE]
    highest_numbering := 1
    highest_written := 1
    min_bounds := ⟨0, 0, 0⟩
    max_bounds := ⟨0, 0, 0⟩
    labeled_min_bounds := ⟨0, 0, 0⟩
    labeled_max_bounds := ⟨0, 0, 0⟩
    filled_cubes := [⟨0, 0, 0⟩] }

/-- Expand polycubes using dfs. -/
def expand_polycubes_dfs (n m : Int) : dfs_output :=
  if n < 1 then ⟨0, [], []⟩
  else if n = 1 ∨ n = 2 then ⟨1, [], []⟩
  else expand_polycubes_dfs_from_current n m initial_polycube

/-- What one worker computes for one job (`polycubes_worker_thread`, case
`ExpandPolyCubes`): the search from the job's shape with both sinks empty. -/
def polycubes_worker_thread_job (n : Int) (base : rooted_polycube) : Nat :=
  (expand_polycubes_dfs_from_current n n base).count

def EXPAND_SIZE_LIMIT : Int := 5

/-- The outputs of the jobs queued by `generate_polycubes_parallel`, in the
order in which the jobs were queued. -/
def job_outputs (n : Int) : List Nat :=
  (expand_polycubes_dfs n EXPAND_SIZE_LIMIT).expanded.map (polycubes_worker_thread_job n)

/-- The method `polycubes_thread_pool::generate_polycubes_parallel`.  The workers run
concurrently, so the outputs reach the output queue in an order the
dispatcher does not control: `arrival` is the content of the output queue in
arrival order.  The dispatcher dequeues `nodes_to_expand` of them and sums them. -/
def generate_polycubes_parallel (n : Int) (arrival : List Nat) : Nat :=
  if n ≤ EXPAND_SIZE_LIMIT then (expand_polycubes_dfs n n).count
  else
    let nodes_to_expand := (expand_polycubes_dfs n EXPAND_SIZE_LIMIT).expanded.length
    (arrival.take nodes_to_expand).sum

/-- Returns the number of polycubes, threaded. -/
def generate_polycubes_threaded (n : Int) (arrival : List Nat) : Nat :=
  if n < 1 then 0
  else if n = 1 then 1
  else if n = 2 then 1
  else generate_polycubes_parallel n arrival

/-! ## stack_allocator.h -/

/-- The typed stack allocator with `N` slots: the state is the cursor `m_ptr`.
A slot is named by its index in `stack`; the slots' contents are not modelled. -/
structure stack_allocator_typed (N : Nat) where
  m_ptr : Nat
deriving DecidableEq

def stack_allocator_typed.get_marker {N : Nat} (a : stack_allocator_typed N) : Nat := a.m_ptr

def stack_allocator_typed.set_marker {N : Nat} (_a : stack_allocator_typed N) (marker : Nat) :
    stack_allocator_typed N :=
  ⟨marker⟩

/-- The call `allocate()`: the slot returned (`none` for `nullptr`) and the new state. -/
def stack_allocator_typed.allocate {N : Nat} (a : stack_allocator_typed N) :
    Option Nat × stack_allocator_typed N :=
  if a.m_ptr ≥ N then (none, a) else (some a.m_ptr, ⟨a.m_ptr + 1⟩)

/-- The marker object: it remembers the cursor read by its constructor. -/
structure stack_marker_typed (N : Nat) where
  m_marker : Nat

/-- Constructor of `stack_marker_typed`. -/
def stack_marker_typed.create {N : Nat} (a : stack_allocator_typed N) : stack_marker_typed N :=
  ⟨a.get_marker⟩

/-- Destructor of `stack_marker_typed`, run on the allocator as it is at the end of the scope. -/
def stack_marker_typed.destroy {N : Nat} (mk : stack_marker_typed N)
    (a : stack_allocator_typed N) : stack_allocator_typed N :=
  a.set_marker mk.m_marker

/-- A call made on an allocator. -/
inductive allocator_call where
  | allocate : allocator_call
  | get_marker : allocator_call
  | set_marker : Nat → allocator_call

/-- The state after one call. -/
def allocator_call.run {N : Nat} (c : allocator_call) (a : stack_allocator_typed N) :
    stack_allocator_typed N :=
  match c with
  | .allocate => a.allocate.2
  | .get_marker => a
  | .set_marker marker => a.set_marker marker

/-- The state after a sequence of calls. -/
def run_calls {N : Nat} (calls : List allocator_call) (a : stack_allocator_typed N) :
    stack_allocator_typed N :=
  calls.foldl (fun s c => c.run s) a

/-- How many of `k` consecutive `allocate()` calls return a slot. -/
def successful_allocations {N : Nat} : Nat → stack_allocator_typed N → Nat
  | 0, _ => 0
  | k + 1, a =>
    (if a.allocate.1.isSome then 1 else 0) + successful_allocations k a.allocate.2

/-! ## Notions used to state the properties -/

/-- Lexicographic "less than" on integer sequences. -/
def labels_lt : List Int → List Int → Bool
  | [], [] => false
  | [], _ :: _ => true
  | _ :: _, [] => false
  | a :: as, b :: bs => if a < b then true else if b < a then false else labels_lt as bs

/-- The cell lies inside the box `[0, dim)`. -/
def in_box (dim c : position) : Prop :=
  0 ≤ c.x ∧ c.x < dim.x ∧ 0 ≤ c.y ∧ c.y < dim.y ∧ 0 ≤ c.z ∧ c.z < dim.z

instance (dim c : position) : Decidable (in_box dim c) := by
  unfold in_box
  infer_instance

/-- Two cells share a face. -/
def adjacent (a b : position) : Prop :=
  (a.x - b.x).natAbs + (a.y - b.y).natAbs + (a.z - b.z).natAbs = 1

instance (a b : position) : Decidable (adjacent a b) := by
  unfold adjacent
  infer_instance

/-- Every cell after the first shares a face with an earlier cell of the sequence. -/
def grown_by_faces (l : List position) : Prop :=
  ∀ i b, 0 < i → l[i]? = some b → ∃ j a, j < i ∧ l[j]? = some a ∧ adjacent a b

/-- The first hexacube of the order counterexample, in the box 3 x 3 x 2. -/
def order_example_a : polycube_sparse :=
  ⟨⟨3, 3, 2⟩, [⟨0, 0, 0⟩, ⟨0, 0, 1⟩, ⟨1, 0, 0⟩, ⟨1, 1, 0⟩, ⟨1, 2, 0⟩, ⟨2, 0, 0⟩]⟩

/-- The second hexacube of the order counterexample, in the box 3 x 3 x 2. -/
def order_example_b : polycube_sparse :=
  ⟨⟨3, 3, 2⟩, [⟨0, 0, 0⟩, ⟨1, 0, 0⟩, ⟨1, 1, 0⟩, ⟨1, 2, 0⟩, ⟨1, 2, 1⟩, ⟨2, 0, 0⟩]⟩

/-! ## Orientations as signed axis choices -/

/-- One of the three axes. -/
inductive axis_id where
  | x : axis_id
  | y : axis_id
  | z : axis_id
deriving DecidableEq

/-- The coordinate of a position along an axis. -/
def position.get (p : position) : axis_id → Int
  | .x => p.x
  | .y => p.y
  | .z => p.z

/-- A rigid motion of a box that maps axes to axes: output axis `x` reads the
source axis `sx`, mirrored inside the box when `fx` is set, and likewise for
`y` and `z`. -/
structure orientation where
  sx : axis_id
  sy : axis_id
  sz : axis_id
  fx : Bool
  fy : Bool
  fz : Bool
deriving DecidableEq

/-- The source axis read by an output axis. -/
def orientation.src (o : orientation) : axis_id → axis_id
  | .x => o.sx
  | .y => o.sy
  | .z => o.sz

/-- Whether an output axis is mirrored. -/
def orientation.flip (o : orientation) : axis_id → Bool
  | .x => o.fx
  | .y => o.fy
  | .z => o.fz

/-- One output coordinate: the coordinate along the source axis `a`, mirrored when `f` is set. -/
def orient_coord (dim c : position) (a : axis_id) (f : Bool) : Int :=
  if f then dim.get a - 1 - c.get a else c.get a

/-- The image of a cell of a box with dimensions `dim`. -/
def orientation.apply_pos (o : orientation) (dim c : position) : position :=
  ⟨orient_coord dim c o.sx o.fx, orient_coord dim c o.sy o.fy, orient_coord dim c o.sz o.fz⟩

/-- The dimensions of the image of a box. -/
def orientation.apply_dim (o : orientation) (dim : position) : position :=
  ⟨dim.get o.sx, dim.get o.sy, dim.get o.sz⟩

/-- The image of a sparse polycube, cell by cell. -/
def orientation.apply (o : orientation) (pc : polycube_sparse) : polycube_sparse :=
  ⟨o.apply_dim pc.dim, pc.cubes.map (o.apply_pos pc.dim)⟩

/-- The orientation "first `o2`, then `o1`". -/
def orientation.comp (o1 o2 : orientation) : orientation :=
  ⟨o2.src o1.sx, o2.src o1.sy, o2.src o1.sz,
    xor o1.fx (o2.flip o1.sx), xor o1.fy (o2.flip o1.sy), xor o1.fz (o2.flip o1.sz)⟩

/-- The orientation that changes nothing. -/
def orientation.one : orientation := ⟨.x, .y, .z, false, false, false⟩

/-- The function `rotate_90_once_sparse` as an orientation. -/
def orientation.rotate_90_once (axis : Nat) : orientation :=
  if axis = Z_AXIS then ⟨.y, .x, .z, true, false, false⟩
  else if axis = Y_AXIS then ⟨.z, .y, .x, false, false, true⟩
  else ⟨.x, .z, .y, false, true, false⟩

/-- The function `rotate_90_reverse_sparse` as an orientation. -/
def orientation.rotate_90_reverse (axis : Nat) : orientation :=
  if axis = Z_AXIS then ⟨.y, .x, .z, false, true, false⟩
  else if axis = Y_AXIS then ⟨.z, .y, .x, true, false, false⟩
  else ⟨.x, .z, .y, false, false, true⟩

/-- The function `rotate_twice_sparse` as an orientation. -/
def orientation.rotate_twice (axis : Nat) : orientation :=
  if axis = Z_AXIS then ⟨.x, .y, .z, true, true, false⟩
  else if axis = Y_AXIS then ⟨.x, .y, .z, true, false, true⟩
  else ⟨.x, .y, .z, false, true, true⟩

/-- The orientation reached by the `i`-th call of
`all_rotations_generator_sparse::next`, given the orientation `o` of `m_base`. -/
def rotations_step (i : Nat) (o : orientation) : orientation :=
  if i < 4 then
    if i = 0 then orientation.one else (orientation.rotate_90_once X_AXIS).comp o
  else if i < 8 then
    if i = 4 then (orientation.rotate_twice Y_AXIS).comp o
    else (orientation.rotate_90_once X_AXIS).comp o
  else if i < 12 then
    if i = 8 then orientation.rotate_90_once Y_AXIS
    else (orientation.rotate_90_once Z_AXIS).comp o
  else if i < 16 then
    if i = 12 then orientation.rotate_90_reverse Y_AXIS
    else (orientation.rotate_90_once Z_AXIS).comp o
  else if i < 20 then
    if i = 16 then orientation.rotate_90_once Z_AXIS
    else (orientation.rotate_90_once Y_AXIS).comp o
  else if i < 24 then
    if i = 20 then orientation.rotate_90_reverse Z_AXIS
    else (orientation.rotate_90_once Y_AXIS).comp o
  else o

/-- The orientations reached by the calls `i, i + 1, ...` of `next`, as long as `has_next`. -/
def rotations_from : Nat → Nat → orientation → List orientation
  | 0, _, _ => []
  | fuel + 1, i, o =>
    if i < 24 then rotations_step i o :: rotations_from fuel (i + 1) (rotations_step i o) else []

/-- The 24 orientations walked by `all_rotations_generator_sparse`. -/
def rotations_24 : List orientation := rotations_from 24 0 orientation.one

/-- The orientations yielded by `all_rotations_generator_sparse` from the state `g` on. -/
def all_rotations_from : Nat → all_rotations_generator_sparse → List polycube_sparse
  | 0, _ => []
  | fuel + 1, g => if g.has_next then g.next.m_base :: all_rotations_from fuel g.next else []

/-- The 24 orientations yielded by `all_rotations_generator_sparse` for `pc`. -/
def all_rotations (pc : polycube_sparse) : List polycube_sparse :=
  all_rotations_from 24 (all_rotations_generator_sparse.init pc)

/-- The orientations yielded by `all_180_rotations_generator_sparse` from the state `g` on. -/
def all_180_rotations_from : Nat → all_180_rotations_generator_sparse → List polycube_sparse
  | 0, _ => []
  | fuel + 1, g =>
    if g.has_next then g.next.m_base :: all_180_rotations_from fuel g.next else []

/-- The 8 orientations yielded by `all_180_rotations_generator_sparse` for `pc`. -/
def all_180_rotations (pc : polycube_sparse) : List polycube_sparse :=
  all_180_rotations_from 8 (all_180_rotations_generator_sparse.init pc)

/-- The bounding box has width >= height >= depth. -/
def dims_sorted (dim : position) : Prop := dim.x ≥ dim.y ∧ dim.y ≥ dim.z

instance (dim : position) : Decidable (dims_sorted dim) := by
  unfold dims_sorted
  infer_instance

/-- The orientation reached by the `i`-th call of
`all_180_rotations_generator_sparse::next`, given the orientation `o` of `m_base`. -/
def rotations_180_step (i : Nat) (o : orientation) : orientation :=
  if i = 0 then orientation.one
  else if i = 1 then (orientation.rotate_twice X_AXIS).comp o
  else if i = 2 then (orientation.rotate_twice Y_AXIS).comp o
  else if i = 3 then (orientation.rotate_twice X_AXIS).comp o
  else if i = 4 then (orientation.rotate_twice Z_AXIS).comp o
  else if i = 5 then (orientation.rotate_twice X_AXIS).comp o
  else if i = 6 then (orientation.rotate_twice Y_AXIS).comp o
  else if i = 7 then (orientation.rotate_twice X_AXIS).comp o
  else o

/-- The orientations reached by the calls `i, i + 1, ...` of the 180-degree generator. -/
def rotations_180_from : Nat → Nat → orientation → List orientation
  | 0, _, _ => []
  | fuel + 1, i, o =>
    if i < 8 then
      rotations_180_step i o :: rotations_180_from fuel (i + 1) (rotations_180_step i o)
    else []

/-- The 8 orientations walked by `all_180_rotations_generator_sparse`. -/
def rotations_8 : List orientation := rotations_180_from 8 0 orientation.one

/-- Every output axis reads its own source axis. -/
def orientation.keeps_axes (o : orientation) : Bool :=
  decide (o.sx = .x ∧ o.sy = .y ∧ o.sz = .z)

/-- The position of an axis in the order x, y, z. -/
def axis_id.rank : axis_id → Nat
  | .x => 0
  | .y => 1
  | .z => 2

/-- Two neighbouring output axes read their source axes in the opposite order. -/
def orientation.has_inversion (o : orientation) : Bool :=
  decide (o.sx.rank > o.sy.rank ∨ o.sy.rank > o.sz.rank)

/-- A number that tells orientations apart cheaply. -/
def orientation.code (o : orientation) : Nat :=
  ((((o.sx.rank * 3 + o.sy.rank) * 3 + o.sz.rank) * 2 + o.fx.toNat) * 2 + o.fy.toNat) * 2
    + o.fz.toNat

/-- The first orientation of a list with the given code. -/
def find_by_code (c : Nat) : List orientation → Option orientation
  | [] => none
  | o :: rest => if o.code = c then some o else find_by_code c rest

/-- Check that composing with a member of `rs` on the right maps `rs` onto itself. -/
def closed_under_comp (rs : List orientation) : Bool :=
  rs.all fun r => rs.all fun o =>
    (match find_by_code (o.comp r).code rs with
      | some o1 => decide (o1 = o.comp r)
      | none => false) &&
    (rs.any fun o1 => decide ((o1.comp r).code = o.code) && decide (o1.comp r = o))

/-- The members of `rotations_24`, written out. -/
def rotations_24_table : List orientation :=
  [⟨.x, .y, .z, false, false, false⟩, ⟨.x, .z, .y, false, true, false⟩,
   ⟨.x, .y, .z, false, true, true⟩, ⟨.x, .z, .y, false, false, true⟩,
   ⟨.x, .z, .y, true, false, false⟩, ⟨.x, .y, .z, true, true, false⟩,
   ⟨.x, .z, .y, true, true, true⟩, ⟨.x, .y, .z, true, false, true⟩,
   ⟨.z, .y, .x, false, false, true⟩, ⟨.y, .z, .x, true, false, true⟩,
   ⟨.z, .y, .x, true, true, true⟩, ⟨.y, .z, .x, false, true, true⟩,
   ⟨.z, .y, .x, true, false, false⟩, ⟨.y, .z, .x, true, true, false⟩,
   ⟨.z, .y, .x, false, true, false⟩, ⟨.y, .z, .x, false, false, false⟩,
   ⟨.y, .x, .z, true, false, false⟩, ⟨.z, .x, .y, false, false, false⟩,
   ⟨.y, .x, .z, false, false, true⟩, ⟨.z, .x, .y, true, false, true⟩,
   ⟨.y, .x, .z, false, true, false⟩, ⟨.z, .x, .y, false, true, true⟩,
   ⟨.y, .x, .z, true, true, true⟩, ⟨.z, .x, .y, true, true, false⟩]

/-- The three output axes read three different source axes. -/
def orientation.is_permutation (o : orientation) : Bool :=
  decide (o.sx ≠ o.sy ∧ o.sy ≠ o.sz ∧ o.sx ≠ o.sz)

/-- The source axes are a cyclic shift of x, y, z. -/
def orientation.is_cyclic (o : orientation) : Bool :=
  decide ((o.sx, o.sy, o.sz) = (axis_id.x, axis_id.y, axis_id.z) ∨
    (o.sx, o.sy, o.sz) = (axis_id.y, axis_id.z, axis_id.x) ∨
    (o.sx, o.sy, o.sz) = (axis_id.z, axis_id.x, axis_id.y))

/-- The signed axis choice is a proper rotation (determinant 1): the axes are
permuted, and the number of mirrored axes is even for a cyclic shift and odd
for a swap of two axes. -/
def orientation.is_proper (o : orientation) : Bool :=
  o.is_permutation && (xor (xor o.fx o.fy) o.fz == !o.is_cyclic)

/-! ## Invariants of the rooted shapes reached by the search -/

/-- The opposite vector. -/
def position.neg (a : position) : position := ⟨-a.x, -a.y, -a.z⟩

/-- Componentwise order on positions. -/
def position.le (a b : position) : Prop := a.x ≤ b.x ∧ a.y ≤ b.y ∧ a.z ≤ b.z

/-- The value of the grid at a position: the cell when the position is inside
the grid, 0 outside. -/
def rooted_polycube.value (pc : rooted_polycube) (p : position) : Int :=
  if in_box pc.dim p then pc.get_cube p.x p.y p.z else 0

/-- The position lies on at most one of the three lower faces and on at most
one of the three upper faces of the box. -/
def on_one_face (dim p : position) : Prop :=
  (p.x = 0 → p.y ≠ 0 ∧ p.z ≠ 0) ∧ (p.y = 0 → p.z ≠ 0) ∧
  (p.x = dim.x - 1 → p.y ≠ dim.y - 1 ∧ p.z ≠ dim.z - 1) ∧ (p.y = dim.y - 1 → p.z ≠ dim.z - 1)

/-- The position has a margin of one cell to every face of the box. -/
def strictly_inside (dim p : position) : Prop :=
  1 ≤ p.x ∧ p.x ≤ dim.x - 2 ∧ 1 ≤ p.y ∧ p.y ≤ dim.y - 2 ∧ 1 ≤ p.z ∧ p.z ≤ dim.z - 2

/-- What holds of every rooted shape the search works on. -/
structure rooted_polycube.wf (s : rooted_polycube) : Prop where
  dim_pos : 0 < s.dim.x ∧ 0 < s.dim.y ∧ 0 < s.dim.z
  length_eq : s.cubes.length = s.size
  k_eq : s.k = s.filled_cubes.length
  nonempty : s.filled_cubes ≠ []
  filled : ∀ e ∈ s.filled_cubes, s.value (s.root.add e) = FILLED_CUBE
  nodup : s.filled_cubes.Nodup
  grown : grown_by_faces s.filled_cubes
  bounds : ∀ e ∈ s.filled_cubes, s.min_bounds.le (s.root.add e) ∧ (s.root.add e).le s.max_bounds
  min_x : ∃ e ∈ s.filled_cubes, (s.root.add e).x = s.min_bounds.x
  min_y : ∃ e ∈ s.filled_cubes, (s.root.add e).y = s.min_bounds.y
  min_z : ∃ e ∈ s.filled_cubes, (s.root.add e).z = s.min_bounds.z
  max_x : ∃ e ∈ s.filled_cubes, (s.root.add e).x = s.max_bounds.x
  max_y : ∃ e ∈ s.filled_cubes, (s.root.add e).y = s.max_bounds.y
  max_z : ∃ e ∈ s.filled_cubes, (s.root.add e).z = s.max_bounds.z
  labels_adjacent : ∀ p, s.value p ≠ 0 → s.value p ≠ FILLED_CUBE →
    ∃ e ∈ s.filled_cubes, adjacent (s.root.add e) p
  numbering_nonneg : 0 ≤ s.highest_numbering
  labeled_bounds : ∀ p, s.value p ≠ 0 → s.labeled_min_bounds.le p ∧ p.le s.labeled_max_bounds
  labeled_in_box : in_box s.dim s.labeled_min_bounds ∧ in_box s.dim s.labeled_max_bounds

/-- The condition under which the padding of `pad_cube` makes room for all six
neighbours of the last filled cell: beyond three cubes, no cell in use lies on
two lower or on two upper faces of the grid. -/
def rooted_polycube.faces_ok (s : rooted_polycube) : Prop :=
  ∀ p, s.value p ≠ 0 → on_one_face s.dim p

/-- What is asked of a sparse shape handed to the found sink, for the target size `n`. -/
structure polycube_sparse.is_polycube (pc : polycube_sparse) (n : Int) : Prop where
  size_eq : (pc.num_cubes : Int) = n
  nodup : pc.cubes.Nodup
  inside : ∀ c ∈ pc.cubes, in_box pc.dim c
  face_x_low : ∃ c ∈ pc.cubes, c.x = 0
  face_y_low : ∃ c ∈ pc.cubes, c.y = 0
  face_z_low : ∃ c ∈ pc.cubes, c.z = 0
  face_x_high : ∃ c ∈ pc.cubes, c.x = pc.dim.x - 1
  face_y_high : ∃ c ∈ pc.cubes, c.y = pc.dim.y - 1
  face_z_high : ∃ c ∈ pc.cubes, c.z = pc.dim.z - 1
  connected : grown_by_faces pc.cubes

/-- Two shapes agree in every field other than the content of the grid. -/
def same_header (a b : rooted_polycube) : Prop :=
  a.k = b.k ∧ a.root = b.root ∧ a.dim = b.dim ∧ a.highest_numbering = b.highest_numbering ∧
  a.highest_written = b.highest_written ∧ a.min_bounds = b.min_bounds ∧
  a.max_bounds = b.max_bounds ∧ a.labeled_min_bounds = b.labeled_min_bounds ∧
  a.labeled_max_bounds = b.labeled_max_bounds ∧ a.filled_cubes = b.filled_cubes ∧
  a.cubes.length = b.cubes.length

/-- The shape `r` is the shape `base` moved by `delta` inside a grid of its own. -/
structure moved_by (base r : rooted_polycube) (delta : position) : Prop where
  dim_pos : 0 < r.dim.x ∧ 0 < r.dim.y ∧ 0 < r.dim.z
  length_eq : r.cubes.length = r.size
  value_eq : ∀ p, r.value p = base.value (p.add delta.neg)
  k_eq : r.k = base.k
  root_eq : r.root = base.root.add delta
  numbering_eq : r.highest_numbering = base.highest_numbering
  written_eq : r.highest_written = base.highest_written
  min_eq : r.min_bounds = base.min_bounds.add delta
  max_eq : r.max_bounds = base.max_bounds.add delta
  labeled_min_eq : r.labeled_min_bounds = base.labeled_min_bounds.add delta
  labeled_max_eq : r.labeled_max_bounds = base.labeled_max_bounds.add delta
  filled_eq : r.filled_cubes = base.filled_cubes

/-- The shape `s` is the shape `r0` with some empty neighbours of the cell `q0` labelled. -/
structure labelled_from (r0 s : rooted_polycube) (q0 : position) : Prop where
  dim_eq : s.dim = r0.dim
  length_eq : s.cubes.length = r0.cubes.length
  k_eq : s.k = r0.k
  root_eq : s.root = r0.root
  numbering_eq : s.highest_numbering = r0.highest_numbering
  min_eq : s.min_bounds = r0.min_bounds
  max_eq : s.max_bounds = r0.max_bounds
  filled_eq : s.filled_cubes = r0.filled_cubes
  old_kept : ∀ p, r0.value p ≠ 0 → s.value p = r0.value p
  new_adjacent : ∀ p, s.value p ≠ 0 → r0.value p = 0 → adjacent q0 p
  new_in_bounds : ∀ p, s.value p ≠ 0 → r0.value p = 0 →
    s.labeled_min_bounds.le p ∧ p.le s.labeled_max_bounds
  bounds_grow : s.labeled_min_bounds.le r0.labeled_min_bounds ∧
    r0.labeled_max_bounds.le s.labeled_max_bounds
  bounds_in_box : in_box s.dim s.labeled_min_bounds ∧ in_box s.dim s.labeled_max_bounds

/-! ## thread_safe_queue.h -/

/-- The queue: the list `m_queue`, front first, and `m_size_bound` (negative:
no bound).  The mutex is modelled by taking each critical section as one
step that no other thread interrupts. -/
structure thread_safe_queue (T : Type) where
  m_queue : List T
  m_size_bound : Int

/-- The constructor `thread_safe_queue(bound)`. -/
def thread_safe_queue.create (T : Type) (bound : Int) : thread_safe_queue T :=
  ⟨[], bound⟩

/-- The default constructor, which delegates to `thread_safe_queue(-1)`. -/
def thread_safe_queue.create_unbounded (T : Type) : thread_safe_queue T :=
  thread_safe_queue.create T (-1)

/-- One pass through the critical section of `enqueue`: when there is room the
node is spliced to the end of `m_queue` and the call returns (`some`);
otherwise the lock is released without a change and the caller sleeps
(`none`). -/
def thread_safe_queue.enqueue_pass {T : Type} (q : thread_safe_queue T) (element : T) :
    Option (thread_safe_queue T) :=
  if q.m_size_bound < 0 ∨ (q.m_queue.length : Int) < q.m_size_bound then
    some { q with m_queue := q.m_queue ++ [element] }
  else none

/-- The call `enqueue(element)` while no other thread touches the queue: the
loop `while (true)`, given up after `fuel` passes (`none`). -/
def thread_safe_queue.enqueue {T : Type} :
    Nat → thread_safe_queue T → T → Option (thread_safe_queue T)
  | 0, _, _ => none
  | fuel + 1, q, element =>
    match q.enqueue_pass element with
    | some q1 => some q1
    | none => thread_safe_queue.enqueue fuel q element

/-- The call `dequeue(outElement)`: the flag returned, the new content of
`outElement` and the new queue.  With `m_queue.size() < 1` nothing changes;
otherwise the front node is spliced out and moved to `outElement`. -/
def thread_safe_queue.dequeue {T : Type} (q : thread_safe_queue T) (outElement : T) :
    Bool × T × thread_safe_queue T :=
  match q.m_queue with
  | [] => (false, outElement, q)
  | front :: rest => (true, front, { q with m_queue := rest })

/-- A call made on a queue by its only user. -/
inductive queue_call (T : Type) where
  | enqueue : T → queue_call T
  | dequeue : T → queue_call T

/-- What a call gave back: `enqueue` returned, `enqueue` did not return, or
`dequeue` returned the flag with the content of `outElement`. -/
inductive queue_return (T : Type) where
  | enqueued : queue_return T
  | blocked : queue_return T
  | dequeued : Bool → T → queue_return T

/-- One call of a sequential history, `enqueue` being allowed `fuel` passes. -/
def queue_call.run {T : Type} (fuel : Nat) (c : queue_call T) (q : thread_safe_queue T) :
    queue_return T × thread_safe_queue T :=
  match c with
  | .enqueue element =>
    match q.enqueue fuel element with
    | some q1 => (.enqueued, q1)
    | none => (.blocked, q)
  | .dequeue outElement =>
    (.dequeued (q.dequeue outElement).1 (q.dequeue outElement).2.1, (q.dequeue outElement).2.2)

/-- A sequential history: the returns of the calls, in call order, and the final queue. -/
def run_history {T : Type} (fuel : Nat) :
    List (queue_call T) → thread_safe_queue T → List (queue_return T) × thread_safe_queue T
  | [], q => ([], q)
  | c :: rest, q =>
    ((c.run fuel q).1 :: (run_history fuel rest (c.run fuel q).2).1,
      (run_history fuel rest (c.run fuel q).2).2)

/-- The items passed to the `enqueue` calls of a history, in call order. -/
def enqueued_items {T : Type} : List (queue_call T) → List T
  | [] => []
  | .enqueue element :: rest => element :: enqueued_items rest
  | .dequeue _ :: rest => enqueued_items rest

/-- The items handed out by the `dequeue` calls that returned `true`, in call order. -/
def dequeued_items {T : Type} : List (queue_return T) → List T
  | [] => []
  | .dequeued true element :: rest => element :: dequeued_items rest
  | _ :: rest => dequeued_items rest

/-- The results of `k` consecutive calls of `allocate`, in call order. -/
def allocate_many {N : Nat} : Nat → stack_allocator_typed N → List (Option Nat)
  | 0, _ => []
  | k + 1, a => a.allocate.1 :: allocate_many k a.allocate.2

/-- The shape scanned by one activation of `expand_polycubes_dfs_from_current`:
`*cropped`, which is the expanded shape, cropped as long as `current.k < 3`. -/
def scanned_shape (current : rooted_polycube) : rooted_polycube :=
  if current.k < 3 then crop_cube (expand_empty_slots current) else expand_empty_slots current

/-- The cell `c` of the scanned shape passes the tests of the lambda: it holds
a label above `highest_numbering` and does not come before the root. -/
def is_candidate (cropped : rooted_polycube) (c : Nat × position) : Prop :=
  (array_get cropped.cubes c.1 ≠ FILLED_CUBE ∧
    array_get cropped.cubes c.1 > cropped.highest_numbering) ∧
  before_root cropped c.2.x c.2.y c.2.z = false

instance (cropped : rooted_polycube) (c : Nat × position) : Decidable (is_candidate cropped c) := by
  unfold is_candidate
  infer_instance

/-- The shape after the fill step for the cell `c` of the scanned shape of `current`. -/
def filled_shape (current : rooted_polycube) (c : Nat × position) : rooted_polycube :=
  fill_cell (scanned_shape current) c.2.x c.2.y c.2.z (array_get (scanned_shape current).cubes c.1)

/-- The shapes on which the search is run: the single cube, and every shape
that a fill step makes from the scanned shape of such a shape.  These are the
shapes passed as `current`, handed to `on_expanded` or tested at full size,
for any target size and any cutoff. -/
inductive search_current : rooted_polycube → Prop where
  | initial : search_current initial_polycube
  | filled (current : rooted_polycube) (c : Nat × position) :
      search_current current →
      c ∈ for_each_cube_cells (scanned_shape current).dim →
      is_candidate (scanned_shape current) c →
      search_current (filled_shape current c)

/-- Every shape the search builds: the shapes it is run on and what
`pad_cube`, `expand_empty_slots` and `crop_cube` make of them (a backtrack
step gives the scanned shape again). -/
inductive search_shape : rooted_polycube → Prop where
  | current (s : rooted_polycube) : search_current s → search_shape s
  | padded (s : rooted_polycube) : search_current s → search_shape (pad_cube s).1
  | expanded (s : rooted_polycube) : search_current s → search_shape (expand_empty_slots s)
  | cropped (s : rooted_polycube) : search_current s → s.k < 3 →
      search_shape (crop_cube (expand_empty_slots s))

/-- The offset `e` does not come before `(0, 0, 0)` when compared by z, then y, then x. -/
def lex_ge_root (e : position) : Prop :=
  e.z > 0 ∨ (e.z = 0 ∧ (e.y > 0 ∨ (e.y = 0 ∧ e.x ≥ 0)))

instance (e : position) : Decidable (lex_ge_root e) := by
  unfold lex_ge_root
  infer_instance

/-- The six face neighbours of a cell, in the order in which
`expand_empty_slots` visits them: +x, -x, +y, -y, +z, -z. -/
def face_neighbours (q : position) : List position :=
  [⟨q.x + 1, q.y, q.z⟩, ⟨q.x - 1, q.y, q.z⟩, ⟨q.x, q.y + 1, q.z⟩, ⟨q.x, q.y - 1, q.z⟩,
    ⟨q.x, q.y, q.z + 1⟩, ⟨q.x, q.y, q.z - 1⟩]

/-- The padding that the specification asks of `pad_cube`: beyond three cubes
one cell on every face that the last filled cell touches and nothing on the
other faces, up to three cubes one cell on all six faces. -/
def touched_deltas (base : rooted_polycube) : position × position :=
  if base.k > 3 then
    let last := base.root.add base.last_filled
    (⟨if last.x = 0 then 1 else 0, if last.y = 0 then 1 else 0, if last.z = 0 then 1 else 0⟩,
      ⟨if last.x = base.dim.x - 1 then 1 else 0, if last.y = base.dim.y - 1 then 1 else 0,
        if last.z = base.dim.z - 1 then 1 else 0⟩)
  else (⟨1, 1, 1⟩, ⟨1, 1, 1⟩)

/-- The labelling loop of `expand_empty_slots`, for any list of cells: the
calls of `set_cube_if_zero_and_increment_and_update_bounds` in list order,
threading `next_highest`. -/
def label_cells (l : List position) (st : rooted_polycube × Int) : rooted_polycube × Int :=
  l.foldl (fun s p => s.1.set_cube_if_zero_and_increment_and_update_bounds p.x p.y p.z s.2) st

/-- The cell that `expand_empty_slots` expands around, in the padded grid:
the last filled cell moved by the lower padding. -/
def expansion_cell (base : rooted_polycube) : position :=
  (base.root.add base.last_filled).add (pad_cube base).2

/-- The face neighbours of the expansion cell that hold 0 after `pad_cube`,
in visiting order. -/
def fresh_cells (base : rooted_polycube) : List position :=
  (face_neighbours (expansion_cell base)).filter fun p => decide ((pad_cube base).1.value p = 0)

/-! ## Notions used to state that the search reaches every fixed polycube once -/

/-- The content of the grid at an offset from the root. -/
def rooted_polycube.label (s : rooted_polycube) (e : position) : Int :=
  s.value (s.root.add e)

/-- The cells of a rooted shape relative to its root, as a set: the shape
normalised by translation. -/
def rooted_polycube.cells (s : rooted_polycube) : Finset position :=
  s.filled_cubes.toFinset

/-- Any two cells of the set are joined by a chain of cells of the set in
which consecutive cells share a face. -/
def face_connected (S : Finset position) : Prop :=
  ∀ a ∈ S, ∀ b ∈ S, Relation.ReflTransGen (fun u v => u ∈ S ∧ v ∈ S ∧ adjacent u v) a b

/-- The set moved by the vector `t`. -/
def translate (t : position) (S : Finset position) : Finset position :=
  S.image fun p => p.add t

/-- The rooted shapes with `n` cubes that the search reaches, in the order in
which it reaches them: the shapes that the search with cutoff `n` hands to
`on_expanded`.  The search for the target size `n` runs the bounding-box test
and the canonical test on exactly these shapes (`found_eq_filter`). -/
def full_size_shapes (n : Int) : List rooted_polycube :=
  (expand_polycubes_dfs (n + 1) n).expanded

/-- The test that decides whether a shape with `n` cubes is counted. -/
def is_counted (s : rooted_polycube) : Bool :=
  consider_this s && is_polycube_canonical_sparse (get_polycube_sparse_from_rooted s)

/-- What holds of the labels of every shape of the search; `b` bounds `highest_written`. -/
structure rooted_polycube.label_inv (s : rooted_polycube) (b : Int) : Prop where
  filled_only : ∀ e, s.label e = FILLED_CUBE → e ∈ s.filled_cubes
  label_range : ∀ e, s.label e ≠ 0 → s.label e ≠ FILLED_CUBE →
    0 < s.label e ∧ s.label e ≤ s.highest_written
  label_inj : ∀ e1 e2, s.label e1 ≠ 0 → s.label e1 ≠ FILLED_CUBE →
    s.label e1 = s.label e2 → e1 = e2
  numbering_le : s.highest_numbering ≤ s.highest_written
  written_le : s.highest_written ≤ b

/-- Every face neighbour of the cells at the offsets `l` holds a label or is filled. -/
def neighbours_labelled (s : rooted_polycube) (l : List position) : Prop :=
  ∀ e ∈ l, ∀ e2, adjacent e e2 → s.label e2 ≠ 0

/-- The set `S` of offsets is a shape with `n` cells that the search can still
reach from `s`: it is face-connected, holds the cells of `s`, holds no offset
that comes before the root, and holds no cell whose label the search has
passed over (a label that is at most `highest_numbering`). -/
structure extends_to (s : rooted_polycube) (n : Int) (S : Finset position) : Prop where
  card_eq : (S.card : Int) = n
  connected : face_connected S
  contains : ∀ e ∈ s.filled_cubes, e ∈ S
  lex : ∀ e ∈ S, lex_ge_root e
  avoids : ∀ e ∈ S, s.label e = 0 ∨ s.label e = FILLED_CUBE ∨ s.label e > s.highest_numbering

/-- What the invariants give for one activation of the search on `s`. -/
structure level_facts (s : rooted_polycube) : Prop where
  wf : s.wf
  faces : s.k > 3 → s.faces_ok
  scan_wf : (scanned_shape s).wf
  scan_inv : (scanned_shape s).label_inv (6 * s.k + 6)
  scan_nb : neighbours_labelled (scanned_shape s) s.filled_cubes
  kept : ∀ e, s.label e ≠ 0 → (scanned_shape s).label e = s.label e
  fresh : ∀ e, (scanned_shape s).label e ≠ s.label e →
    s.label e = 0 ∧ s.highest_written < (scanned_shape s).label e
  numbering : (scanned_shape s).highest_numbering = s.highest_numbering
  numbering_le : s.highest_numbering ≤ s.highest_written
  lex : ∀ e ∈ s.filled_cubes, lex_ge_root e

/-! ## A table of the labels, used to count the shapes of the search

The source keeps the labels in the grid.  The table below keeps the same
labels by offset from the root, without the grid; it is not a structure of
the source.  `table_count_eq` proves that the count on the table is the
number of shapes that the search hands to `on_expanded`, so the table serves
to evaluate that number. -/

/-- The label state of a rooted shape without its grid: the offset of the last
filled cell, the offsets that hold a label or are filled with what they hold
(the first entry for an offset counts), and the two label counters. -/
structure label_table where
  last : position
  labels : List (position × Int)
  highest_numbering : Int
  highest_written : Int

/-- What the table holds at the offset `e`; 0 when there is no entry. -/
def table_get : List (position × Int) → position → Int
  | [], _ => 0
  | (p, l) :: rest, e => if p = e then l else table_get rest e

/-- The cells of the list numbered `v`, `v + 1`, ... in list order. -/
def number_from : List position → Int → List (position × Int)
  | [], _ => []
  | e :: rest, v => (e, v) :: number_from rest (v + 1)

/-- The face neighbours of the last filled cell that hold 0, in visiting order. -/
def label_table.fresh (t : label_table) : List position :=
  (face_neighbours t.last).filter fun e => decide (table_get t.labels e = 0)

/-- The table after `expand_empty_slots`: the fresh neighbours of the last
filled cell get the next labels. -/
def label_table.scan (t : label_table) : label_table :=
  { last := t.last
    labels := number_from t.fresh (t.highest_written + 1) ++ t.labels
    highest_numbering := t.highest_numbering
    highest_written := t.highest_written + (t.fresh.length : Int) }

/-- The offsets that pass the tests of the scan: a label above
`highest_numbering`, not before the root. -/
def label_table.candidates (t : label_table) : List position :=
  ((t.labels.map Prod.fst).dedup).filter fun e =>
    decide ((table_get t.labels e ≠ FILLED_CUBE ∧ table_get t.labels e > t.highest_numbering) ∧
      lex_ge_root e)

/-- The table after the fill step at the offset `e`. -/
def label_table.fill (t : label_table) (e : position) : label_table :=
  { last := e
    labels := (e, FILLED_CUBE) :: t.labels
    highest_numbering := table_get t.labels e
    highest_written := t.highest_written }

/-- The number of shapes with `m` more cubes that the search reaches from the
state `t`, counted on the table. -/
def label_table.count : Nat → label_table → Nat
  | 0, _ => 1
  | m + 1, t => ((t.scan.candidates).map fun e => label_table.count m (t.scan.fill e)).sum

/-- The table of the single-cube shape. -/
def initial_table : label_table :=
  { last := ⟨0, 0, 0⟩
    labels := [(⟨0, 0, 0⟩, FILLED_CUBE)]
    highest_numbering := 1
    highest_written := 1 }

/-- The table `t` holds the label state of the rooted shape `s`. -/
structure represents (s : rooted_polycube) (t : label_table) : Prop where
  label_eq : ∀ e, s.label e = table_get t.labels e
  last_eq : s.last_filled = t.last
  numbering_eq : s.highest_numbering = t.highest_numbering
  written_eq : s.highest_written = t.highest_written

/-! ## Notions used for the order of the scan and the bounding-box test -/

/-- The shape of two cubes made by the first fill step of the search: the
single cube with its neighbour in the +x direction (the cell `(2, 1, 1)` of
the first scanned grid, which holds the label 2). -/
def label_order_example : rooted_polycube :=
  filled_shape initial_polycube (14, ⟨2, 1, 1⟩)

/-- The extents of the filled bounding box: width, height and depth, as
computed in `bounds` by the search when a shape has `n` cubes. -/
def filled_extents (s : rooted_polycube) : position :=
  ⟨s.max_bounds.x - s.min_bounds.x + 1, s.max_bounds.y - s.min_bounds.y + 1,
    s.max_bounds.z - s.min_bounds.z + 1⟩

/-! ## The search without the bounding-box test

The definitions below repeat `dfs_emit`, `dfs_visit`, `dfs_level`,
`expand_polycubes_dfs_from_current` and `expand_polycubes_dfs` with one
change: a shape with `n` cubes goes to the canonical test whatever its
bounding box.  They are not in the source; they state what the search is
compared with. -/

/-- The function `dfs_emit` without the test of `consider_this`. -/
def dfs_emit_unfiltered (recurse : rooted_polycube → dfs_output) (n m : Int)
    (filled : rooted_polycube) (out : dfs_output) : dfs_output :=
  if filled.k = n then
    let pc := get_polycube_sparse_from_rooted filled
    if is_polycube_canonical_sparse pc then
      { out with count := out.count + 1, found := out.found ++ [pc] }
    else out
  else if filled.k = m then
    { out with expanded := out.expanded ++ [filled] }
  else
    let sub := recurse filled
    { count := out.count + sub.count
      found := out.found ++ sub.found
      expanded := out.expanded ++ sub.expanded }

/-- The function `dfs_visit` with `dfs_emit_unfiltered` in the place of `dfs_emit`. -/
def dfs_visit_unfiltered (recurse : rooted_polycube → dfs_output) (n m : Int)
    (highest_number : Int) (current_min current_max : position)
    (st : rooted_polycube × dfs_output) (c : Nat × position) : rooted_polycube × dfs_output :=
  let cropped := st.1
  let cube := array_get cropped.cubes c.1
  if cube ≠ FILLED_CUBE ∧ cube > cropped.highest_numbering then
    if before_root cropped c.2.x c.2.y c.2.z then st
    else
      let filled := fill_cell cropped c.2.x c.2.y c.2.z cube
      (restore_cell filled c.2.x c.2.y c.2.z cube highest_number current_min current_max,
        dfs_emit_unfiltered recurse n m filled st.2)
  else st

/-- The function `dfs_level` with `dfs_visit_unfiltered` in the place of `dfs_visit`. -/
def dfs_level_unfiltered (recurse : rooted_polycube → dfs_output) (n m : Int)
    (current : rooted_polycube) : dfs_output :=
  let expanded := expand_empty_slots current
  let cropped := if current.k < 3 then crop_cube expanded else expanded
  ((for_each_cube_cells cropped.dim).foldl
    (dfs_visit_unfiltered recurse n m cropped.highest_numbering cropped.min_bounds
      cropped.max_bounds)
    (cropped, ⟨0, [], []⟩)).2

/-- The search from a shape without the bounding-box test, with a bound on the recursion depth. -/
def expand_polycubes_dfs_from_current_fuel_unfiltered :
    Nat → Int → Int → rooted_polycube → dfs_output
  | 0, _, _, _ => ⟨0, [], []⟩
  | fuel + 1, n, m, current =>
    dfs_level_unfiltered (expand_polycubes_dfs_from_current_fuel_unfiltered fuel n m) n m current

/-- The search without the bounding-box test. -/
def expand_polycubes_dfs_unfiltered (n m : Int) : dfs_output :=
  if n < 1 then ⟨0, [], []⟩
  else if n = 1 ∨ n = 2 then ⟨1, [], []⟩
  else expand_polycubes_dfs_from_current_fuel_unfiltered (n - initial_polycube.k).toNat n m
    initial_polycube

/-! ## Search paths -/

/-- One step down a search path: a shape the search is run on is padded, the
padded shape is labelled, the labelled shape is cropped as long as there are
fewer than three cubes, and a candidate of the scanned shape is filled, which
gives the next shape the search is run on. -/
inductive search_step : rooted_polycube → rooted_polycube → Prop where
  | pad (s : rooted_polycube) : search_current s → search_step s (pad_cube s).1
  | expand (s : rooted_polycube) : search_current s →
      search_step (pad_cube s).1 (expand_empty_slots s)
  | crop (s : rooted_polycube) : search_current s → s.k < 3 →
      search_step (expand_empty_slots s) (crop_cube (expand_empty_slots s))
  | fill (s : rooted_polycube) (c : Nat × position) : search_current s →
      c ∈ for_each_cube_cells (scanned_shape s).dim → is_candidate (scanned_shape s) c →
      search_step (scanned_shape s) (filled_shape s c)

/-! ## Orientations as matrices -/

/-- The row of a signed axis choice: 1, or -1 when mirrored, in the column
of the source axis and 0 elsewhere. -/
def axis_row (a : axis_id) (f : Bool) : Fin 3 → Int :=
  fun j => if a.rank = j.val then (if f then -1 else 1) else 0

/-- The matrix of the linear part of an orientation. -/
def orientation.matrix (o : orientation) : Matrix (Fin 3) (Fin 3) Int :=
  Matrix.of ![axis_row o.sx o.fx, axis_row o.sy o.fy, axis_row o.sz o.fz]

/-- A position as a vector. -/
def position.vec (p : position) : Fin 3 → Int := ![p.x, p.y, p.z]

/-! ## Examples for the half-turn walk and for the encoding -/

/-- An L-shaped tetracube in the box 3 x 2 x 1, whose three dimensions are different. -/
def half_turn_example : polycube_sparse :=
  ⟨⟨3, 2, 1⟩, [⟨0, 0, 0⟩, ⟨1, 0, 0⟩, ⟨2, 0, 0⟩, ⟨2, 1, 0⟩]⟩

/-- Four cells, not face-connected, with bounding box 10 x 10 x 6; their labels
are 0, 1, 564, 599. -/
def encoding_example_a : polycube_sparse :=
  ⟨⟨10, 10, 6⟩, [⟨0, 0, 0⟩, ⟨1, 0, 0⟩, ⟨4, 6, 5⟩, ⟨9, 9, 5⟩]⟩

/-- Four cells, not face-connected, with bounding box 10 x 10 x 6; their labels
are 0, 18, 52, 599. -/
def encoding_example_b : polycube_sparse :=
  ⟨⟨10, 10, 6⟩, [⟨0, 0, 0⟩, ⟨8, 1, 0⟩, ⟨2, 5, 0⟩, ⟨9, 9, 5⟩]⟩

/-! ### The encoding as the spec words it

The two definitions below follow the words of the specification, not the
source: the labels sorted in ascending order, each written as an upper-case
base-16 numeral, the numerals concatenated. -/

/-- The upper-case base-16 numeral of a natural number: the digits of
`Nat.toDigits 16`, in upper case. -/
def upper_hex (label : Nat) : List Char :=
  (Nat.toDigits 16 label).map Char.toUpper

/-- The labels of the cells of a shape, sorted in ascending order. -/
def sorted_labels_spec (pc : polycube_sparse) : List Int :=
  (pc.cubes.map (cell_label pc.dim)).insertionSort (fun a b => a ≤ b)

/-- The concatenation of the ascending-sorted labels written in upper-case base 16. -/
def str_encoding_spec (pc : polycube_sparse) : List Char :=
  ((sorted_labels_spec pc).map (fun label => upper_hex label.toNat)).flatten

/-- A shape whose cells are not stored in label order, and the same cells in another order. -/
def permuted_example_a : polycube_sparse :=
  ⟨⟨3, 2, 3⟩, [⟨2, 1, 2⟩, ⟨0, 0, 0⟩, ⟨1, 1, 1⟩, ⟨2, 1, 1⟩, ⟨1, 0, 0⟩]⟩

def permuted_example_b : List position :=
  [⟨1, 1, 1⟩, ⟨1, 0, 0⟩, ⟨2, 1, 2⟩, ⟨2, 1, 1⟩, ⟨0, 0, 0⟩]

/-! ### The search with the recursion depth checked

The same functions as `dfs_emit`, `dfs_visit`, `dfs_level` and
`expand_polycubes_dfs_from_current_fuel`, with the result `none` when the
bound on the recursion depth is used up: `none` stands for a call that has
not returned within the bound. -/

/-- The function `dfs_emit` with a recursive call that may not return. -/
def dfs_emit_checked (recurse : rooted_polycube → Option dfs_output) (n m : Int)
    (filled : rooted_polycube) (out : dfs_output) : Option dfs_output :=
  if filled.k = n then
    if consider_this filled then
      let pc := get_polycube_sparse_from_rooted filled
      if is_polycube_canonical_sparse pc then
        some { out with count := out.count + 1, found := out.found ++ [pc] }
      else some out
    else some out
  else if filled.k = m then
    some { out with expanded := out.expanded ++ [filled] }
  else
    match recurse filled with
    | none => none
    | some sub =>
      some { count := out.count + sub.count
             found := out.found ++ sub.found
             expanded := out.expanded ++ sub.expanded }

/-- The function `dfs_visit` with a recursive call that may not return. -/
def dfs_visit_checked (recurse : rooted_polycube → Option dfs_output) (n m : Int)
    (highest_number : Int) (current_min current_max : position)
    (st : Option (rooted_polycube × dfs_output)) (c : Nat × position) :
    Option (rooted_polycube × dfs_output) :=
  match st with
  | none => none
  | some st =>
    let cropped := st.1
    let cube := array_get cropped.cubes c.1
    if cube ≠ FILLED_CUBE ∧ cube > cropped.highest_numbering then
      if before_root cropped c.2.x c.2.y c.2.z then some st
      else
        let filled := fill_cell cropped c.2.x c.2.y c.2.z cube
        match dfs_emit_checked recurse n m filled st.2 with
        | none => none
        | some out =>
          some (restore_cell filled c.2.x c.2.y c.2.z cube highest_number current_min current_max,
            out)
    else some st

/-- The function `dfs_level` with a recursive call that may not return. -/
def dfs_level_checked (recurse : rooted_polycube → Option dfs_output) (n m : Int)
    (current : rooted_polycube) : Option dfs_output :=
  let expanded := expand_empty_slots current
  let cropped := if current.k < 3 then crop_cube expanded else expanded
  ((for_each_cube_cells cropped.dim).foldl
    (dfs_visit_checked recurse n m cropped.highest_numbering cropped.min_bounds
      cropped.max_bounds)
    (some (cropped, ⟨0, [], []⟩))).map Prod.snd

/-- The function `expand_polycubes_dfs_from_current` run with at most `depth` nested
activations: `none` when an activation at depth `depth` makes a further
recursive call. -/
def expand_polycubes_dfs_from_current_checked :
    Nat → Int → Int → rooted_polycube → Option dfs_output
  | 0, _, _, _ => none
  | depth + 1, n, m, current =>
    dfs_level_checked (expand_polycubes_dfs_from_current_checked depth n m) n m current

/-- A recursive call that returns only on a shape with one cube more than
`current` and fewer than `n` cubes. -/
def guarded_call (recurse : rooted_polycube → dfs_output) (n : Int) (current : rooted_polycube)
    (s : rooted_polycube) : Option dfs_output :=
  if s.k = current.k + 1 ∧ s.k ≠ n then some (recurse s) else none

/-! ### The search with the arena

The same functions once more, with the arena passed along as the source
passes `allocator`: the marker taken at the entry of a function, the
`allocate()` calls, and the reset of the cursor when the marker goes out of
scope.  The bound on the recursion depth is checked as in the section above. -/

/-- The arena during a run: the allocator, the results of the `allocate()` calls
made so far (oldest first, `none` for `nullptr`), and the highest value the
cursor has had. -/
structure arena_run where
  allocator : stack_allocator_typed 64
  returned : List (Option Nat)
  peak : Nat

/-- One call `allocator.allocate()`. -/
def arena_run.allocate (a : arena_run) : arena_run :=
  { allocator := a.allocator.allocate.2
    returned := a.returned ++ [a.allocator.allocate.1]
    peak := max a.peak a.allocator.allocate.2.m_ptr }

/-- The end of the scope of a `stack_marker`. -/
def arena_run.release (a : arena_run) (marker : stack_marker_typed 64) : arena_run :=
  { a with allocator := marker.destroy a.allocator }

/-- An arena on which nothing has been allocated. -/
def empty_arena : arena_run := ⟨⟨0⟩, [], 0⟩

/-- The function `dfs_emit` with the arena. -/
def dfs_emit_arena (recurse : rooted_polycube → arena_run → Option (dfs_output × arena_run))
    (n m : Int) (filled : rooted_polycube) (out : dfs_output) (a : arena_run) :
    Option (dfs_output × arena_run) :=
  if filled.k = n then
    if consider_this filled then
      let pc := get_polycube_sparse_from_rooted filled
      if is_polycube_canonical_sparse pc then
        some ({ out with count := out.count + 1, found := out.found ++ [pc] }, a)
      else some (out, a)
    else some (out, a)
  else if filled.k = m then
    some ({ out with expanded := out.expanded ++ [filled] }, a)
  else
    match recurse filled a with
    | none => none
    | some sub =>
      some ({ count := out.count + sub.1.count
              found := out.found ++ sub.1.found
              expanded := out.expanded ++ sub.1.expanded }, sub.2)

/-- The function `dfs_visit` with the arena. -/
def dfs_visit_arena (recurse : rooted_polycube → arena_run → Option (dfs_output × arena_run))
    (n m : Int) (highest_number : Int) (current_min current_max : position)
    (st : Option (rooted_polycube × dfs_output × arena_run)) (c : Nat × position) :
    Option (rooted_polycube × dfs_output × arena_run) :=
  match st with
  | none => none
  | some st =>
    let cropped := st.1
    let cube := array_get cropped.cubes c.1
    if cube ≠ FILLED_CUBE ∧ cube > cropped.highest_numbering then
      if before_root cropped c.2.x c.2.y c.2.z then some st
      else
        let filled := fill_cell cropped c.2.x c.2.y c.2.z cube
        match dfs_emit_arena recurse n m filled st.2.1 st.2.2 with
        | none => none
        | some res =>
          some (restore_cell filled c.2.x c.2.y c.2.z cube highest_number current_min current_max,
            res.1, res.2)
    else some st

/-- One activation of `expand_polycubes_dfs_from_current` with the arena: the
marker, the slot for `expanded`, the slot for `cropped` when `current.k < 3`,
the scan, and the reset of the cursor at the return. -/
def dfs_level_arena (recurse : rooted_polycube → arena_run → Option (dfs_output × arena_run))
    (n m : Int) (current : rooted_polycube) (a : arena_run) :
    Option (dfs_output × arena_run) :=
  let marker : stack_marker_typed 64 := stack_marker_typed.create a.allocator
  let a1 := a.allocate
  let expanded := expand_empty_slots current
  let a2 := if current.k < 3 then a1.allocate else a1
  let cropped := if current.k < 3 then crop_cube expanded else expanded
  match (for_each_cube_cells cropped.dim).foldl
    (dfs_visit_arena recurse n m cropped.highest_numbering cropped.min_bounds
      cropped.max_bounds)
    (some (cropped, ⟨0, [], []⟩, a2)) with
  | none => none
  | some res => some (res.2.1, res.2.2.release marker)

/-- The function `expand_polycubes_dfs_from_current` with the arena, run with at most
`depth` nested activations. -/
def expand_polycubes_dfs_from_current_arena :
    Nat → Int → Int → rooted_polycube → arena_run → Option (dfs_output × arena_run)
  | 0, _, _, _, _ => none
  | depth + 1, n, m, current, a =>
    dfs_level_arena (expand_polycubes_dfs_from_current_arena depth n m) n m current a

/-- The function `expand_polycubes_dfs` with the arena: the marker and the slot for
`next` after the two base cases, then the search from the single cube. -/
def expand_polycubes_dfs_arena (depth : Nat) (n m : Int) (a : arena_run) :
    Option (dfs_output × arena_run) :=
  if n < 1 then some (⟨0, [], []⟩, a)
  else if n = 1 ∨ n = 2 then some (⟨1, [], []⟩, a)
  else
    let marker : stack_marker_typed 64 := stack_marker_typed.create a.allocator
    let a1 := a.allocate
    match expand_polycubes_dfs_from_current_arena depth n m initial_polycube a1 with
    | none => none
    | some res => some (res.1, res.2.release marker)

/-- What a stretch of the run from `a` to `b` may do to the record: every
`allocate()` call made in it has returned a slot with an index below `hi`,
and the cursor has not gone above `hi`. -/
def arena_run.grows (a b : arena_run) (hi : Nat) : Prop :=
  (∃ new : List (Option Nat), b.returned = a.returned ++ new ∧
    ∀ r ∈ new, ∃ i, r = some i ∧ i < hi) ∧
  b.peak ≤ max a.peak hi

/-! ### Shapes of the search used as examples -/

/-- A shape of three cubes that the search reaches: from the single cube the
fill of the cell above the root in y, then the fill of the cell next to that
one on the lower x side.  Its filled stack is `(0,0,0), (0,1,0), (-1,1,0)`. -/
def root_first_example : rooted_polycube :=
  filled_shape (filled_shape initial_polycube (16, ⟨1, 2, 1⟩)) (18, ⟨0, 2, 1⟩)

/-- A shape of four cubes in a row along x that the search reaches; its grid
is 6 x 5 x 5 and its last filled cell `(5, 2, 2)` lies on the upper x face. -/
def pad_face_example : rooted_polycube :=
  filled_shape (filled_shape label_order_example (19, ⟨3, 1, 1⟩)) (77, ⟨5, 2, 2⟩)

/-! ### Notions used for the injectivity of the encoding -/

/-- The value of a hex digit: its place in the table `hex_map`. -/
def hex_digit_value (c : Char) : Nat := hex_map.indexOf c

/-- The number that a string of hex digits writes, most significant digit first. -/
def hex_value (s : List Char) : Nat :=
  s.foldl (fun acc c => 16 * acc + hex_digit_value c) 0

/-- The numeral of one label as `str_encoding_hex_sparse` writes it: the digits
written by the inner loop for this label. -/
def label_numeral (l : Int) : List Char :=
  hex_digits (log_smallest_power_of_16 l) l []

/-- The largest difference between the labels of two cells of the box that
share a face: `dim.y * dim.x` for two cells one above the other in z, and
`dim.x` in a box of depth 1, where no such pair exists. -/
def label_stride (dim : position) : Int :=
  if dim.z = 1 then dim.x else dim.y * dim.x

/-- The label `y` comes below the label `x`, at a distance of at most `stride`. -/
def label_step (stride : Int) (x y : Int) : Prop :=
  0 ≤ y ∧ y < x ∧ x ≤ y + stride

/-- A check that every cell of `rest` shares a face with a cell of `pre` or
with an earlier cell of `rest`. -/
def grown_check (pre : List position) : List position → Bool
  | [] => true
  | e :: rest => pre.any (fun a => decide (adjacent a e)) && grown_check (pre ++ [e]) rest

/-- A polycube of 18 cells in the box 7 x 7 x 6: a path from `(0,0,0)` along
x, then along y, then along z.  Its labels are 0..6, then 13, 20, .., 48,
then 97, 146, 195, 244, 293. -/
def staircase_a : polycube_sparse :=
  ⟨⟨7, 7, 6⟩, [⟨0, 0, 0⟩, ⟨1, 0, 0⟩, ⟨2, 0, 0⟩, ⟨3, 0, 0⟩, ⟨4, 0, 0⟩, ⟨5, 0, 0⟩, ⟨6, 0, 0⟩,
    ⟨6, 1, 0⟩, ⟨6, 2, 0⟩, ⟨6, 3, 0⟩, ⟨6, 4, 0⟩, ⟨6, 5, 0⟩, ⟨6, 6, 0⟩,
    ⟨6, 6, 1⟩, ⟨6, 6, 2⟩, ⟨6, 6, 3⟩, ⟨6, 6, 4⟩, ⟨6, 6, 5⟩]⟩

/-- A polycube of 18 cells in the same box: a path from `(0,0,0)` along z, then
along y, then along x.  Its labels are 0, 49, .., 245, then 252, 259, ..,
287, then 288..293. -/
def staircase_b : polycube_sparse :=
  ⟨⟨7, 7, 6⟩, [⟨0, 0, 0⟩, ⟨0, 0, 1⟩, ⟨0, 0, 2⟩, ⟨0, 0, 3⟩, ⟨0, 0, 4⟩, ⟨0, 0, 5⟩,
    ⟨0, 1, 5⟩, ⟨0, 2, 5⟩, ⟨0, 3, 5⟩, ⟨0, 4, 5⟩, ⟨0, 5, 5⟩, ⟨0, 6, 5⟩,
    ⟨1, 6, 5⟩, ⟨2, 6, 5⟩, ⟨3, 6, 5⟩, ⟨4, 6, 5⟩, ⟨5, 6, 5⟩, ⟨6, 6, 5⟩]⟩

/-! ## Notions used to state that one shape is found per free polycube -/

/-- The cells of a sparse shape as a set. -/
def polycube_sparse.cells (pc : polycube_sparse) : Finset position := pc.cubes.toFinset

/-- The rotation of the grid that belongs to an orientation: output axis x is
the source axis `sx`, negated when `fx` is set, and likewise for y and z.
This is `apply_pos` in a box of one cell, where mirroring is negation; its
matrix is `orientation.matrix`. -/
def orientation.rotate (o : orientation) (p : position) : position :=
  o.apply_pos ⟨1, 1, 1⟩ p

/-- The set `T` is the set `S` turned by one of the 24 orientations of the
generator, which are the 24 proper rotations of the grid, and translated:
the two sets are the same free polycube. -/
def same_free_polycube (S T : Finset position) : Prop :=
  ∃ o ∈ rotations_24, ∃ t : position, T = translate t (S.image o.rotate)

/-! ## Theorems -/

theorem successful_allocations_eq {N : Nat} (k : Nat) (a : stack_allocator_typed N) :
    successful_allocations k a = min k (N - a.m_ptr) := by
  induction k generalizing a with
  | zero => simp [successful_allocations]
  | succ k ih =>
    unfold successful_allocations
    rw [ih]
    unfold stack_allocator_typed.allocate
    by_cases h : a.m_ptr ≥ N
    · simp [h]
    · simp [h]
      omega

/-- C10: a mark taken from a `stack_allocator_typed` with capacity `N` is
restored by `set_marker`, whatever calls were made in between: the cursor is
the marked one again, any `k` further `allocate` calls succeed exactly as
often as they would have at the moment of the mark, namely `min k (N - m)`
times, and the destructor of a `stack_marker_typed` created at the mark
performs exactly this `set_marker`. -/
theorem c10_marker_restores_capacity (N : Nat) (a : stack_allocator_typed N)
    (calls : List allocator_call) (k : Nat) :
    ((run_calls calls a).set_marker a.get_marker).m_ptr = a.get_marker ∧
    (run_calls calls a).set_marker a.get_marker = a ∧
    successful_allocations k ((run_calls calls a).set_marker a.get_marker)
      = successful_allocations k a ∧
    successful_allocations k ((run_calls calls a).set_marker a.get_marker)
      = min k (N - a.get_marker) ∧
    (stack_marker_typed.create a).destroy (run_calls calls a)
      = (run_calls calls a).set_marker a.get_marker := by
  have h : (run_calls calls a).set_marker a.get_marker = a := by
    cases a
    rfl
  refine ⟨by rw [h]; rfl, h, by rw [h], ?_, rfl⟩
  rw [h, successful_allocations_eq]
  rfl

/-- C4: `expand_polycubes_dfs` returns 0 for a target size below 1 and 1 for
the target sizes 1 and 2, whatever the cutoff `m`, and
`generate_polycubes_threaded` returns the same values. -/
theorem c4_base_cases (n m : Int) (arrival : List Nat) :
    (n < 1 → (expand_polycubes_dfs n m).count = 0 ∧ generate_polycubes_threaded n arrival = 0) ∧
    (n = 1 ∨ n = 2 →
      (expand_polycubes_dfs n m).count = 1 ∧ generate_polycubes_threaded n arrival = 1) := by
  constructor
  · intro h
    simp [expand_polycubes_dfs, generate_polycubes_threaded, h]
  · intro h
    have h1 : ¬ n < 1 := by omega
    rcases h with h | h <;> subst h <;>
      simp [expand_polycubes_dfs, generate_polycubes_threaded]

theorem c4_base_cases_witness :
    ((0 : Int) < 1 ∧ (expand_polycubes_dfs 0 7).count = 0 ∧ generate_polycubes_threaded 0 [] = 0) ∧
    (((2 : Int) = 1 ∨ (2 : Int) = 2) ∧
      (expand_polycubes_dfs 2 7).count = 1 ∧ generate_polycubes_threaded 2 [] = 1) :=
  ⟨⟨by decide, (c4_base_cases 0 7 []).1 (by decide)⟩,
   ⟨by decide, (c4_base_cases 2 7 []).2 (by decide)⟩⟩

theorem foldl_invariant {α β : Type} (P : β → Prop) (f : β → α → β) (l : List α) (b : β)
    (hb : P b) (hf : ∀ b a, a ∈ l → P b → P (f b a)) : P (l.foldl f b) := by
  induction l generalizing b with
  | nil => exact hb
  | cons a l ih =>
    simp only [List.foldl_cons]
    apply ih
    · exact hf b a (List.mem_cons_self _ _) hb
    · intro b' a' ha' hb'
      exact hf b' a' (List.mem_cons_of_mem _ ha') hb'

theorem foldl_relation {α β γ : Type} (R : β → γ → Prop) (f : β → α → β) (g : γ → α → γ)
    (l : List α) (b : β) (c : γ) (hbc : R b c)
    (hfg : ∀ b c a, a ∈ l → R b c → R (f b a) (g c a)) : R (l.foldl f b) (l.foldl g c) := by
  induction l generalizing b c with
  | nil => exact hbc
  | cons a l ih =>
    simp only [List.foldl_cons]
    apply ih
    · exact hfg b c a (List.mem_cons_self _ _) hbc
    · intro b' c' a' ha' h'
      exact hfg b' c' a' (List.mem_cons_of_mem _ ha') h'

/-! ### The fields that the grid operations leave alone -/

theorem copy_cell_k (base : rooted_polycube) (delta : position) (out : rooted_polycube)
    (c : Nat × position) : (copy_cell base delta out c).k = out.k := by
  unfold copy_cell
  dsimp only
  split <;> rfl

theorem pad_cube_k (base : rooted_polycube) : (pad_cube base).1.k = base.k :=
  foldl_invariant (fun out : rooted_polycube => out.k = base.k) _ _ _ rfl
    (fun b a _ hb => (copy_cell_k _ _ b a).trans hb)

theorem set_if_zero_k (pc : rooted_polycube) (x y z nh : Int) :
    (pc.set_cube_if_zero_and_increment_and_update_bounds x y z nh).1.k = pc.k := by
  unfold rooted_polycube.set_cube_if_zero_and_increment_and_update_bounds
  split <;> rfl

theorem expand_empty_slots_k (base : rooted_polycube) : (expand_empty_slots base).k = base.k := by
  unfold expand_empty_slots
  simp only [set_if_zero_k, pad_cube_k]

theorem crop_cube_k (base : rooted_polycube) : (crop_cube base).k = base.k :=
  foldl_invariant (fun out : rooted_polycube => out.k = base.k) _ _ _ rfl
    (fun b a _ hb => (copy_cell_k _ _ b a).trans hb)

/-- The shape scanned by one activation of the search has as many cubes as `current`. -/
theorem cropped_k (current : rooted_polycube) :
    (if current.k < 3 then crop_cube (expand_empty_slots current)
      else expand_empty_slots current).k = current.k := by
  split
  · rw [crop_cube_k, expand_empty_slots_k]
  · rw [expand_empty_slots_k]

theorem dfs_visit_k (recurse : rooted_polycube → dfs_output) (n m hn : Int)
    (cmin cmax : position) (st : rooted_polycube × dfs_output) (c : Nat × position) :
    (dfs_visit recurse n m hn cmin cmax st c).1.k = st.1.k := by
  unfold dfs_visit
  dsimp only
  split
  · split
    · rfl
    · simp [restore_cell, fill_cell, rooted_polycube.set_cube]
  · rfl

/-! ### The found sink is called once per shape counted -/

theorem dfs_emit_found (recurse : rooted_polycube → dfs_output) (n m : Int)
    (filled : rooted_polycube) (out : dfs_output)
    (hrec : ∀ s, (recurse s).found.length = (recurse s).count)
    (h : out.found.length = out.count) :
    (dfs_emit recurse n m filled out).found.length = (dfs_emit recurse n m filled out).count := by
  unfold dfs_emit
  dsimp only
  split
  · split
    · split
      · simp [h]
      · exact h
    · exact h
  · split
    · exact h
    · simp [h, hrec]

theorem dfs_visit_found (recurse : rooted_polycube → dfs_output) (n m hn : Int)
    (cmin cmax : position) (st : rooted_polycube × dfs_output) (c : Nat × position)
    (hrec : ∀ s, (recurse s).found.length = (recurse s).count)
    (h : st.2.found.length = st.2.count) :
    (dfs_visit recurse n m hn cmin cmax st c).2.found.length
      = (dfs_visit recurse n m hn cmin cmax st c).2.count := by
  unfold dfs_visit
  dsimp only
  split
  · split
    · exact h
    · exact dfs_emit_found recurse n m _ _ hrec h
  · exact h

theorem dfs_level_found (recurse : rooted_polycube → dfs_output) (n m : Int)
    (current : rooted_polycube)
    (hrec : ∀ s, (recurse s).found.length = (recurse s).count) :
    (dfs_level recurse n m current).found.length = (dfs_level recurse n m current).count :=
  foldl_invariant (fun st : rooted_polycube × dfs_output => st.2.found.length = st.2.count)
    _ _ _ rfl
    (fun b a _ hb => dfs_visit_found recurse n m _ _ _ b a hrec hb)

theorem from_current_fuel_found (fuel : Nat) (n m : Int) (current : rooted_polycube) :
    (expand_polycubes_dfs_from_current_fuel fuel n m current).found.length
      = (expand_polycubes_dfs_from_current_fuel fuel n m current).count := by
  induction fuel generalizing current with
  | zero => rfl
  | succ fuel ih =>
    unfold expand_polycubes_dfs_from_current_fuel
    exact dfs_level_found _ n m current ih

/-- C8 (as amended): for every target size up to 32 (what the arrays of the
shapes hold) other than 1 and 2, the number of shapes handed to the found
sink by `expand_polycubes_dfs n m` equals the count it returns. -/
theorem c8_found_calls_eq_count (n m : Int) (h1 : n ≠ 1) (h2 : n ≠ 2) (h32 : n ≤ 32) :
    (expand_polycubes_dfs n m).found.length = (expand_polycubes_dfs n m).count := by
  unfold expand_polycubes_dfs
  split
  · rfl
  · split
    · omega
    · exact from_current_fuel_found _ n m _

theorem c8_found_calls_eq_count_witness :
    (3 : Int) ≠ 1 ∧ (3 : Int) ≠ 2 ∧ (3 : Int) ≤ 32 ∧
    (expand_polycubes_dfs 3 3).found.length = (expand_polycubes_dfs 3 3).count :=
  ⟨by decide, by decide, by decide,
    c8_found_calls_eq_count 3 3 (by decide) (by decide) (by decide)⟩

/-- C8, as stated, fails for the target sizes 1 and 2: the count returned is
1 and the found sink is never called. -/
theorem c8_counterexample :
    ((expand_polycubes_dfs 1 1).count = 1 ∧ (expand_polycubes_dfs 1 1).found.length = 0 ∧
      (expand_polycubes_dfs 1 1).found.length ≠ (expand_polycubes_dfs 1 1).count) ∧
    ((expand_polycubes_dfs 2 2).count = 1 ∧ (expand_polycubes_dfs 2 2).found.length = 0 ∧
      (expand_polycubes_dfs 2 2).found.length ≠ (expand_polycubes_dfs 2 2).count) := by
  decide

/-! ### The parallel dispatch computes the serial count -/

theorem fill_cell_k (cropped : rooted_polycube) (x y z cube : Int) :
    (fill_cell cropped x y z cube).k = cropped.k + 1 := rfl

/-- One visited cell: the search with cutoff `n` and the pre-pass with cutoff
`EXPAND_SIZE_LIMIT` move the scanned shape in the same way, and the count of
the first is the sum of the job outputs of the second. -/
theorem dfs_visit_dispatch (n hn : Int) (cmin cmax : position) (fuel : Nat)
    (st1 st2 : rooted_polycube × dfs_output) (c : Nat × position)
    (hk : st1.1.k < EXPAND_SIZE_LIMIT) (hn5 : EXPAND_SIZE_LIMIT < n)
    (hfuel : fuel = (n - (st1.1.k + 1)).toNat)
    (ih : ∀ s : rooted_polycube, s.k = st1.1.k + 1 → s.k < EXPAND_SIZE_LIMIT →
      (expand_polycubes_dfs_from_current_fuel fuel n n s).count
        = ((expand_polycubes_dfs_from_current_fuel fuel n EXPAND_SIZE_LIMIT s).expanded.map
            (polycubes_worker_thread_job n)).sum)
    (hst : st1.1 = st2.1)
    (hsum : st1.2.count = (st2.2.expanded.map (polycubes_worker_thread_job n)).sum) :
    (dfs_visit (expand_polycubes_dfs_from_current_fuel fuel n n) n n hn cmin cmax st1 c).1
      = (dfs_visit (expand_polycubes_dfs_from_current_fuel fuel n EXPAND_SIZE_LIMIT) n
          EXPAND_SIZE_LIMIT hn cmin cmax st2 c).1 ∧
    (dfs_visit (expand_polycubes_dfs_from_current_fuel fuel n n) n n hn cmin cmax st1 c).2.count
      = ((dfs_visit (expand_polycubes_dfs_from_current_fuel fuel n EXPAND_SIZE_LIMIT) n
          EXPAND_SIZE_LIMIT hn cmin cmax st2 c).2.expanded.map
            (polycubes_worker_thread_job n)).sum := by
  unfold dfs_visit
  dsimp only
  rw [← hst]
  split
  · split
    · exact ⟨hst, hsum⟩
    · refine ⟨rfl, ?_⟩
      have hfk : (fill_cell st1.1 c.2.x c.2.y c.2.z (array_get st1.1.cubes c.1)).k
          = st1.1.k + 1 := rfl
      have hne : ¬ (fill_cell st1.1 c.2.x c.2.y c.2.z (array_get st1.1.cubes c.1)).k = n := by
        rw [hfk]; omega
      unfold dfs_emit
      simp only [hne, if_false]
      by_cases h5 : (fill_cell st1.1 c.2.x c.2.y c.2.z (array_get st1.1.cubes c.1)).k
          = EXPAND_SIZE_LIMIT
      · simp only [h5, if_true, List.map_append, List.sum_append, List.map_cons, List.map_nil,
          List.sum_cons, List.sum_nil, Nat.add_zero]
        rw [hsum]
        congr 1
        unfold polycubes_worker_thread_job expand_polycubes_dfs_from_current
        rw [hfuel, hfk]
      · simp only [h5, if_false, List.map_append, List.sum_append]
        rw [hsum, ih _ hfk (by rw [hfk] at h5 ⊢; omega)]
  · exact ⟨hst, hsum⟩

theorem dfs_fold_dispatch (n hn : Int) (cmin cmax : position) (fuel : Nat)
    (l : List (Nat × position)) (cr : rooted_polycube)
    (hk : cr.k < EXPAND_SIZE_LIMIT) (hn5 : EXPAND_SIZE_LIMIT < n)
    (hfuel : fuel = (n - (cr.k + 1)).toNat)
    (ih : ∀ s : rooted_polycube, s.k = cr.k + 1 → s.k < EXPAND_SIZE_LIMIT →
      (expand_polycubes_dfs_from_current_fuel fuel n n s).count
        = ((expand_polycubes_dfs_from_current_fuel fuel n EXPAND_SIZE_LIMIT s).expanded.map
            (polycubes_worker_thread_job n)).sum) :
    (l.foldl (dfs_visit (expand_polycubes_dfs_from_current_fuel fuel n n) n n hn cmin cmax)
        (cr, ⟨0, [], []⟩)).2.count
      = ((l.foldl (dfs_visit (expand_polycubes_dfs_from_current_fuel fuel n EXPAND_SIZE_LIMIT)
          n EXPAND_SIZE_LIMIT hn cmin cmax) (cr, ⟨0, [], []⟩)).2.expanded.map
            (polycubes_worker_thread_job n)).sum := by
  have hrel := foldl_relation
    (fun (s1 s2 : rooted_polycube × dfs_output) => s1.1.k = cr.k ∧ s1.1 = s2.1 ∧
      s1.2.count = (s2.2.expanded.map (polycubes_worker_thread_job n)).sum)
    (dfs_visit (expand_polycubes_dfs_from_current_fuel fuel n n) n n hn cmin cmax)
    (dfs_visit (expand_polycubes_dfs_from_current_fuel fuel n EXPAND_SIZE_LIMIT)
      n EXPAND_SIZE_LIMIT hn cmin cmax)
    l (cr, ⟨0, [], []⟩) (cr, ⟨0, [], []⟩) ⟨rfl, rfl, rfl⟩
    (fun s1 s2 c _ h => by
      have hv := dfs_visit_dispatch n hn cmin cmax fuel s1 s2 c
        (by rw [h.1]; exact hk) hn5 (by rw [h.1]; exact hfuel)
        (fun s hs hs5 => ih s (by rw [hs, h.1]) hs5) h.2.1 h.2.2
      exact ⟨by rw [dfs_visit_k]; exact h.1, hv.1, hv.2⟩)
  exact hrel.2.2

theorem dfs_dispatch (n : Int) (hn5 : EXPAND_SIZE_LIMIT < n) (d : Nat) :
    ∀ current : rooted_polycube, current.k + (d : Int) + 1 = EXPAND_SIZE_LIMIT →
      (expand_polycubes_dfs_from_current_fuel (n - current.k).toNat n n current).count
        = ((expand_polycubes_dfs_from_current_fuel (n - current.k).toNat n
            EXPAND_SIZE_LIMIT current).expanded.map (polycubes_worker_thread_job n)).sum := by
  induction d with
  | zero =>
    intro current hk
    have hf : (n - current.k).toNat = (n - (current.k + 1)).toNat + 1 := by omega
    rw [hf]
    unfold expand_polycubes_dfs_from_current_fuel dfs_level
    dsimp only
    apply dfs_fold_dispatch
    · rw [cropped_k]; omega
    · exact hn5
    · rw [cropped_k]
    · intro s hs hs5
      rw [cropped_k] at hs
      omega
  | succ d ih =>
    intro current hk
    have hf : (n - current.k).toNat = (n - (current.k + 1)).toNat + 1 := by omega
    rw [hf]
    unfold expand_polycubes_dfs_from_current_fuel dfs_level
    dsimp only
    apply dfs_fold_dispatch
    · rw [cropped_k]; omega
    · exact hn5
    · rw [cropped_k]
    · intro s hs hs5
      rw [cropped_k] at hs
      have := ih s (by rw [hs]; push_cast at hk ⊢; omega)
      rw [hs] at this
      exact this

/-- C3: for every target size `n > 5` up to 32 (what the arrays of the
shapes hold), the outputs of the jobs handed off by
the serial pre-pass `expand_polycubes_dfs n 5` add up to the count of the
single-threaded search `expand_polycubes_dfs n n`, in whatever order they
reach the output queue; hence `generate_polycubes_parallel` returns the
single-threaded count for every worker count and every job order. -/
theorem c3_parallel_sum_eq_serial (n : Int) (hn : n > 5) (hn32 : n ≤ 32)
    (arrival : List Nat) (harr : arrival.Perm (job_outputs n)) :
    arrival.sum = (expand_polycubes_dfs n n).count ∧
    generate_polycubes_parallel n arrival = (expand_polycubes_dfs n n).count := by
  have hn5 : EXPAND_SIZE_LIMIT < n := hn
  have hserial : (job_outputs n).sum = (expand_polycubes_dfs n n).count := by
    unfold job_outputs expand_polycubes_dfs
    have h1 : ¬ n < 1 := by omega
    have h2 : ¬ (n = 1 ∨ n = 2) := by omega
    simp only [h1, h2, if_false]
    unfold expand_polycubes_dfs_from_current
    exact (dfs_dispatch n hn5 3 initial_polycube (by decide)).symm
  have hsum : arrival.sum = (expand_polycubes_dfs n n).count := by
    rw [harr.sum_eq, hserial]
  refine ⟨hsum, ?_⟩
  unfold generate_polycubes_parallel
  have hle : ¬ n ≤ EXPAND_SIZE_LIMIT := by omega
  simp only [hle, if_false]
  have hlen : arrival.length = (expand_polycubes_dfs n EXPAND_SIZE_LIMIT).expanded.length := by
    rw [harr.length_eq]
    unfold job_outputs
    rw [List.length_map]
  rw [← hlen, List.take_length, hsum]

theorem c3_parallel_sum_eq_serial_witness :
    (6 : Int) > 5 ∧ (6 : Int) ≤ 32 ∧ (job_outputs 6).Perm (job_outputs 6) ∧
    (job_outputs 6).sum = (expand_polycubes_dfs 6 6).count ∧
    generate_polycubes_parallel 6 (job_outputs 6) = (expand_polycubes_dfs 6 6).count :=
  ⟨by decide, by decide, List.Perm.refl _,
    c3_parallel_sum_eq_serial 6 (by decide) (by decide) (job_outputs 6) (List.Perm.refl _)⟩

/-! ### The recursion bound is never reached -/

theorem dfs_visit_congr (r1 r2 : rooted_polycube → dfs_output) (n m hn : Int)
    (cmin cmax : position) (st : rooted_polycube × dfs_output) (c : Nat × position)
    (h : ∀ s : rooted_polycube, s.k = st.1.k + 1 → s.k ≠ n → r1 s = r2 s) :
    dfs_visit r1 n m hn cmin cmax st c = dfs_visit r2 n m hn cmin cmax st c := by
  unfold dfs_visit
  dsimp only
  split
  · split
    · rfl
    · congr 1
      unfold dfs_emit
      dsimp only
      split
      · rfl
      · rename_i hne
        split
        · rfl
        · rw [h _ (fill_cell_k _ _ _ _ _) hne]
  · rfl

theorem dfs_fold_congr (r1 r2 : rooted_polycube → dfs_output) (n m hn : Int)
    (cmin cmax : position) (l : List (Nat × position)) (st : rooted_polycube × dfs_output)
    (h : ∀ s : rooted_polycube, s.k = st.1.k + 1 → s.k ≠ n → r1 s = r2 s) :
    l.foldl (dfs_visit r1 n m hn cmin cmax) st = l.foldl (dfs_visit r2 n m hn cmin cmax) st := by
  have hrel := foldl_relation
    (fun (s1 s2 : rooted_polycube × dfs_output) => s1.1.k = st.1.k ∧ s1 = s2)
    (dfs_visit r1 n m hn cmin cmax) (dfs_visit r2 n m hn cmin cmax) l st st ⟨rfl, rfl⟩
    (fun s1 s2 c _ hs => by
      have hv := dfs_visit_congr r1 r2 n m hn cmin cmax s1 c
        (fun s hk hne => h s (by rw [hk, hs.1]) hne)
      refine ⟨by rw [dfs_visit_k]; exact hs.1, ?_⟩
      rw [← hs.2]
      exact hv)
  exact hrel.2

theorem dfs_level_congr (r1 r2 : rooted_polycube → dfs_output) (n m : Int)
    (current : rooted_polycube)
    (h : ∀ s : rooted_polycube, s.k = current.k + 1 → s.k ≠ n → r1 s = r2 s) :
    dfs_level r1 n m current = dfs_level r2 n m current := by
  unfold dfs_level
  dsimp only
  rw [dfs_fold_congr r1 r2 n m _ _ _ _ _
    (fun s hk hne => h s (by rw [hk]; exact congrArg (· + 1) (cropped_k current)) hne)]

/-- The recursion of `expand_polycubes_dfs_from_current` started on a shape
with fewer than `n` cubes never uses up `n - current.k` levels: every larger
bound gives the same output. -/
theorem from_current_fuel_enough (n m : Int) (f1 : Nat) :
    ∀ (f2 : Nat) (current : rooted_polycube), current.k < n →
      (n - current.k).toNat ≤ f1 → (n - current.k).toNat ≤ f2 →
      expand_polycubes_dfs_from_current_fuel f1 n m current
        = expand_polycubes_dfs_from_current_fuel f2 n m current := by
  induction f1 with
  | zero =>
    intro f2 current hk h1 _
    omega
  | succ f1 ih =>
    intro f2 current hk h1 h2
    cases f2 with
    | zero => omega
    | succ f2 =>
      unfold expand_polycubes_dfs_from_current_fuel
      apply dfs_level_congr
      intro s hs hne
      exact ih f2 s (by omega) (by omega) (by omega)

/-- With any recursion bound of at least `n - current.k` the bounded search
is `expand_polycubes_dfs_from_current`. -/
theorem from_current_fuel_eq (n m : Int) (current : rooted_polycube) (hk : current.k < n)
    (fuel : Nat) (hf : (n - current.k).toNat ≤ fuel) :
    expand_polycubes_dfs_from_current_fuel fuel n m current
      = expand_polycubes_dfs_from_current n m current :=
  from_current_fuel_enough n m fuel _ current hk hf (le_refl _)


/-- C7 fails on the code: the two hexacubes `order_example_a` and
`order_example_b` have the same box and the same number of cells, both lie
inside the box, their sorted label sequences are `0 1 2 4 7 9` and
`0 1 2 4 7 16`, so the first is lexicographically smaller, but its encoding
`012479` is greater under `strcmp` than the encoding `0124710` of the second. -/
theorem c7_order_counterexample :
    order_example_a.dim = order_example_b.dim ∧
    order_example_a.num_cubes = order_example_b.num_cubes ∧
    (∀ c ∈ order_example_a.cubes, in_box order_example_a.dim c) ∧
    (∀ c ∈ order_example_b.cubes, in_box order_example_b.dim c) ∧
    sorted_labels order_example_a = [0, 1, 2, 4, 7, 9] ∧
    sorted_labels order_example_b = [0, 1, 2, 4, 7, 16] ∧
    labels_lt (sorted_labels order_example_a) (sorted_labels order_example_b) = true ∧
    str_encoding_hex_sparse order_example_a = ['0', '1', '2', '4', '7', '9'] ∧
    str_encoding_hex_sparse order_example_b = ['0', '1', '2', '4', '7', '1', '0'] ∧
    strcmp (str_encoding_hex_sparse order_example_a) (str_encoding_hex_sparse order_example_b)
      > 0 := by
  decide

theorem apply_dim_comp (o1 o2 : orientation) (dim : position) :
    o1.apply_dim (o2.apply_dim dim) = (o1.comp o2).apply_dim dim := by
  obtain ⟨sx, sy, sz, fx, fy, fz⟩ := o1
  cases sx <;> cases sy <;> cases sz <;> rfl

theorem orient_coord_comp (o2 : orientation) (dim c : position) (a : axis_id) (f : Bool) :
    orient_coord (o2.apply_dim dim) (o2.apply_pos dim c) a f
      = orient_coord dim c (o2.src a) (xor f (o2.flip a)) := by
  obtain ⟨sx, sy, sz, fx, fy, fz⟩ := o2
  cases a <;> cases f <;> cases fx <;> cases fy <;> cases fz <;>
    simp [orient_coord, orientation.apply_dim, orientation.apply_pos, position.get,
      orientation.src, orientation.flip]

theorem apply_pos_comp (o1 o2 : orientation) (dim c : position) :
    o1.apply_pos (o2.apply_dim dim) (o2.apply_pos dim c) = (o1.comp o2).apply_pos dim c := by
  show (⟨orient_coord (o2.apply_dim dim) (o2.apply_pos dim c) o1.sx o1.fx,
      orient_coord (o2.apply_dim dim) (o2.apply_pos dim c) o1.sy o1.fy,
      orient_coord (o2.apply_dim dim) (o2.apply_pos dim c) o1.sz o1.fz⟩ : position) = _
  rw [orient_coord_comp, orient_coord_comp, orient_coord_comp]
  rfl

theorem apply_comp (o1 o2 : orientation) (pc : polycube_sparse) :
    o1.apply (o2.apply pc) = (o1.comp o2).apply pc := by
  simp only [orientation.apply, apply_dim_comp, List.map_map]
  congr 1
  apply List.map_congr_left
  intro c _
  exact apply_pos_comp o1 o2 pc.dim c

theorem apply_one (pc : polycube_sparse) : orientation.one.apply pc = pc := by
  obtain ⟨⟨dx, dy, dz⟩, cubes⟩ := pc
  simp only [orientation.apply, orientation.one, orientation.apply_dim, position.get,
    orientation.apply_pos, orient_coord, if_false, Bool.false_eq_true]
  congr 1
  exact List.map_id' cubes

theorem rotate_90_once_X (pc : polycube_sparse) :
    rotate_90_once_sparse X_AXIS pc = (orientation.rotate_90_once X_AXIS).apply pc := rfl
theorem rotate_90_once_Y (pc : polycube_sparse) :
    rotate_90_once_sparse Y_AXIS pc = (orientation.rotate_90_once Y_AXIS).apply pc := rfl
theorem rotate_90_once_Z (pc : polycube_sparse) :
    rotate_90_once_sparse Z_AXIS pc = (orientation.rotate_90_once Z_AXIS).apply pc := rfl
theorem rotate_90_reverse_Y (pc : polycube_sparse) :
    rotate_90_reverse_sparse Y_AXIS pc = (orientation.rotate_90_reverse Y_AXIS).apply pc := rfl
theorem rotate_90_reverse_Z (pc : polycube_sparse) :
    rotate_90_reverse_sparse Z_AXIS pc = (orientation.rotate_90_reverse Z_AXIS).apply pc := rfl
theorem rotate_twice_X (pc : polycube_sparse) :
    rotate_twice_sparse X_AXIS pc = (orientation.rotate_twice X_AXIS).apply pc := rfl
theorem rotate_twice_Y (pc : polycube_sparse) :
    rotate_twice_sparse Y_AXIS pc = (orientation.rotate_twice Y_AXIS).apply pc := rfl
theorem rotate_twice_Z (pc : polycube_sparse) :
    rotate_twice_sparse Z_AXIS pc = (orientation.rotate_twice Z_AXIS).apply pc := rfl

/-- One call of `next()` of the 24-orientation generator, in terms of orientations. -/
theorem all_rotations_next (pc : polycube_sparse) (g : all_rotations_generator_sparse)
    (o : orientation) (horig : g.m_original = pc)
    (hbase : g.m_index = 0 ∨ g.m_base = o.apply pc) :
    g.next.m_original = pc ∧ g.next.m_index = g.m_index + 1 ∧
    g.next.m_base = (rotations_step g.m_index o).apply pc := by
  refine ⟨horig, rfl, ?_⟩
  unfold all_rotations_generator_sparse.next rotations_step
  dsimp only
  rw [horig]
  rcases hbase with h0 | hb
  · simp [h0, apply_one]
  · rw [hb]
    simp only [rotate_90_once_X, rotate_90_once_Y, rotate_90_once_Z, rotate_90_reverse_Y,
      rotate_90_reverse_Z, rotate_twice_Y, apply_comp]
    split_ifs <;> first | rfl | exact (apply_one pc).symm

theorem all_rotations_from_eq (pc : polycube_sparse) (fuel : Nat) :
    ∀ (g : all_rotations_generator_sparse) (o : orientation), g.m_original = pc →
      (g.m_index = 0 ∨ g.m_base = o.apply pc) →
      all_rotations_from fuel g = (rotations_from fuel g.m_index o).map (fun r => r.apply pc) := by
  induction fuel with
  | zero => intro g o _ _; rfl
  | succ fuel ih =>
    intro g o horig hbase
    obtain ⟨h1, h2, h3⟩ := all_rotations_next pc g o horig hbase
    unfold all_rotations_from rotations_from
    by_cases hi : g.m_index < 24
    · simp only [all_rotations_generator_sparse.has_next, hi, decide_True, if_true, List.map_cons]
      rw [h3, ih g.next (rotations_step g.m_index o) h1 (Or.inr h3), h2]
    · simp [all_rotations_generator_sparse.has_next, hi]

/-- The generator yields the images of the shape under `rotations_24`. -/
theorem all_rotations_eq (pc : polycube_sparse) :
    all_rotations pc = rotations_24.map (fun r => r.apply pc) :=
  all_rotations_from_eq pc 24 (all_rotations_generator_sparse.init pc) orientation.one rfl
    (Or.inl rfl)

theorem all_180_rotations_next (pc : polycube_sparse) (g : all_180_rotations_generator_sparse)
    (o : orientation) (horig : g.m_original = pc)
    (hbase : g.m_index = 0 ∨ g.m_base = o.apply pc) :
    g.next.m_original = pc ∧ g.next.m_index = g.m_index + 1 ∧
    g.next.m_base = (rotations_180_step g.m_index o).apply pc := by
  refine ⟨horig, rfl, ?_⟩
  unfold all_180_rotations_generator_sparse.next rotations_180_step
  dsimp only
  rw [horig]
  rcases hbase with h0 | hb
  · simp [h0, apply_one]
  · rw [hb]
    simp only [rotate_twice_X, rotate_twice_Y, rotate_twice_Z, apply_comp]
    split_ifs <;> first | rfl | exact (apply_one pc).symm

theorem all_180_rotations_from_eq (pc : polycube_sparse) (fuel : Nat) :
    ∀ (g : all_180_rotations_generator_sparse) (o : orientation), g.m_original = pc →
      (g.m_index = 0 ∨ g.m_base = o.apply pc) →
      all_180_rotations_from fuel g
        = (rotations_180_from fuel g.m_index o).map (fun r => r.apply pc) := by
  induction fuel with
  | zero => intro g o _ _; rfl
  | succ fuel ih =>
    intro g o horig hbase
    obtain ⟨h1, h2, h3⟩ := all_180_rotations_next pc g o horig hbase
    unfold all_180_rotations_from rotations_180_from
    by_cases hi : g.m_index < 8
    · simp only [all_180_rotations_generator_sparse.has_next, hi, decide_True, if_true,
        List.map_cons]
      rw [h3, ih g.next (rotations_180_step g.m_index o) h1 (Or.inr h3), h2]
    · simp [all_180_rotations_generator_sparse.has_next, hi]

/-- The 180-degree generator yields the images of the shape under `rotations_8`. -/
theorem all_180_rotations_eq (pc : polycube_sparse) :
    all_180_rotations pc = rotations_8.map (fun r => r.apply pc) :=
  all_180_rotations_from_eq pc 8 (all_180_rotations_generator_sparse.init pc) orientation.one rfl
    (Or.inl rfl)

/-! ### The canonical test -/

theorem canonical_loop_all_iff (enc : List Char) (fuel : Nat) :
    ∀ g : all_rotations_generator_sparse,
      canonical_loop_all enc fuel g = true ↔
        ∀ r ∈ all_rotations_from fuel g, dims_sorted r.dim →
          ¬ strcmp (str_encoding_hex_sparse r) enc < 0 := by
  induction fuel with
  | zero => intro g; simp [canonical_loop_all, all_rotations_from]
  | succ fuel ih =>
    intro g
    unfold canonical_loop_all all_rotations_from
    by_cases hn : g.has_next = true
    · rw [if_pos hn, if_pos hn, List.forall_mem_cons]
      dsimp only
      by_cases hs : g.next.m_base.dim.x ≥ g.next.m_base.dim.y ∧
          g.next.m_base.dim.y ≥ g.next.m_base.dim.z
      · rw [if_pos hs]
        by_cases hlt : strcmp (str_encoding_hex_sparse g.next.m_base) enc < 0
        · rw [if_pos hlt]
          constructor
          · intro h; exact absurd h (by decide)
          · intro h; exact absurd hlt (h.1 hs)
        · rw [if_neg hlt, ih g.next]
          constructor
          · intro h; exact ⟨fun _ => hlt, h⟩
          · intro h; exact h.2
      · rw [if_neg hs, ih g.next]
        constructor
        · intro h; exact ⟨fun hc => absurd hc hs, h⟩
        · intro h; exact h.2
    · rw [if_neg hn, if_neg hn]
      simp

theorem canonical_loop_180_iff (enc : List Char) (fuel : Nat) :
    ∀ g : all_180_rotations_generator_sparse,
      canonical_loop_180 enc fuel g = true ↔
        ∀ r ∈ all_180_rotations_from fuel g,
          ¬ strcmp (str_encoding_hex_sparse r) enc < 0 := by
  induction fuel with
  | zero => intro g; simp [canonical_loop_180, all_180_rotations_from]
  | succ fuel ih =>
    intro g
    unfold canonical_loop_180 all_180_rotations_from
    by_cases hn : g.has_next = true
    · rw [if_pos hn, if_pos hn, List.forall_mem_cons]
      dsimp only
      by_cases hlt : strcmp (str_encoding_hex_sparse g.next.m_base) enc < 0
      · rw [if_pos hlt]
        constructor
        · intro h; exact absurd h (by decide)
        · intro h; exact absurd hlt h.1
      · rw [if_neg hlt, ih g.next]
        constructor
        · intro h; exact ⟨hlt, h⟩
        · intro h; exact h.2
    · rw [if_neg hn, if_neg hn]
      simp

theorem keeps_axes_apply_dim (o : orientation) (h : o.keeps_axes = true) (dim : position) :
    o.apply_dim dim = dim := by
  obtain ⟨sx, sy, sz, fx, fy, fz⟩ := o
  simp only [orientation.keeps_axes, decide_eq_true_eq] at h
  obtain ⟨h1, h2, h3⟩ := h
  subst h1 h2 h3
  rfl

theorem has_inversion_unsorted (o : orientation) (h : o.has_inversion = true) (dim : position)
    (hxy : dim.x > dim.y) (hyz : dim.y > dim.z) : ¬ dims_sorted (o.apply_dim dim) := by
  obtain ⟨sx, sy, sz, fx, fy, fz⟩ := o
  cases sx <;> cases sy <;> cases sz <;>
    simp [orientation.has_inversion, axis_id.rank, dims_sorted, orientation.apply_dim,
      position.get] at h ⊢ <;> omega

theorem rotations_24_cases :
    ∀ o ∈ rotations_24, (o.keeps_axes = true ∧ o ∈ rotations_8) ∨ o.has_inversion = true := by
  decide

theorem rotations_8_cases : ∀ o ∈ rotations_8, o.keeps_axes = true ∧ o ∈ rotations_24 := by
  decide

/-- C5: `is_polycube_canonical_sparse` accepts a shape exactly when its own
box has width >= height >= depth and none of the 24 orientations yielded by
`all_rotations_generator_sparse` whose box has width >= height >= depth has a
hex encoding that is smaller under `strcmp` than the shape's own encoding.
This covers the branch for mutually distinct dimensions, which walks the
180-degree generator, as well as the branch that walks the 24 orientations;
in particular it holds for every shape whose cells lie inside its box.  The
orientations yielded are the images of the shape under the 24 proper
rotations (`all_rotations_eq`, `rotations_24_proper`,
`proper_mem_rotations_24`). -/
theorem c5_canonical_iff_minimal (pc : polycube_sparse) :
    is_polycube_canonical_sparse pc = true ↔
      (pc.dim.x ≥ pc.dim.y ∧ pc.dim.y ≥ pc.dim.z ∧
        ∀ r ∈ all_rotations pc, r.dim.x ≥ r.dim.y ∧ r.dim.y ≥ r.dim.z →
          ¬ strcmp (str_encoding_hex_sparse r) (str_encoding_hex_sparse pc) < 0) := by
  unfold is_polycube_canonical_sparse
  by_cases hbad : pc.dim.x < pc.dim.y ∨ pc.dim.x < pc.dim.z ∨ pc.dim.y < pc.dim.z
  · rw [if_pos hbad]
    constructor
    · intro h; exact absurd h (by decide)
    · intro h; omega
  · have hxy : pc.dim.x ≥ pc.dim.y := by omega
    have hyz : pc.dim.y ≥ pc.dim.z := by omega
    rw [if_neg hbad]
    dsimp only
    refine Iff.trans ?_ (show _ ↔ _ from ⟨fun h => ⟨hxy, hyz, h⟩, fun h => h.2.2⟩)
    by_cases hd : pc.dim.x ≠ pc.dim.y ∧ pc.dim.x ≠ pc.dim.z ∧ pc.dim.y ≠ pc.dim.z
    · have hx : pc.dim.x > pc.dim.y := by omega
      have hy : pc.dim.y > pc.dim.z := by omega
      have h1 : ¬ (pc.dim.z ≥ pc.dim.x ∧ pc.dim.z ≥ pc.dim.y) := by omega
      have h2 : ¬ (pc.dim.y ≥ pc.dim.x ∧ pc.dim.y ≥ pc.dim.z) := by omega
      have h3 : ¬ pc.dim.y < pc.dim.z := by omega
      rw [if_pos hd, if_neg h1, if_neg h2, if_neg h3,
        canonical_loop_180_iff (str_encoding_hex_sparse pc) 8
          (all_180_rotations_generator_sparse.init pc)]
      have e8 : all_180_rotations_from 8 (all_180_rotations_generator_sparse.init pc)
          = rotations_8.map (fun r => r.apply pc) := all_180_rotations_eq pc
      rw [e8, all_rotations_eq]
      constructor
      · intro h r hr hs
        obtain ⟨o, ho, rfl⟩ := List.mem_map.mp hr
        rcases rotations_24_cases o ho with ⟨_, h8⟩ | hinv
        · exact h _ (List.mem_map.mpr ⟨o, h8, rfl⟩)
        · exact absurd hs (has_inversion_unsorted o hinv pc.dim hx hy)
      · intro h r hr
        obtain ⟨o, ho, rfl⟩ := List.mem_map.mp hr
        obtain ⟨hk, h24⟩ := rotations_8_cases o ho
        apply h _ (List.mem_map.mpr ⟨o, h24, rfl⟩)
        show dims_sorted (o.apply_dim pc.dim)
        rw [keeps_axes_apply_dim o hk]
        exact ⟨hxy, hyz⟩
    · rw [if_neg hd]
      exact canonical_loop_all_iff (str_encoding_hex_sparse pc) 24
        (all_rotations_generator_sparse.init pc)

/-! ### The canonical test and rotated shapes -/

theorem find_by_code_mem (c : Nat) (rs : List orientation) (o : orientation)
    (h : find_by_code c rs = some o) : o ∈ rs := by
  induction rs with
  | nil => simp [find_by_code] at h
  | cons a rs ih =>
    unfold find_by_code at h
    split at h
    · simp only [Option.some.injEq] at h
      subst h
      exact List.mem_cons_self _ _
    · exact List.mem_cons_of_mem _ (ih h)

theorem closed_under_comp_spec (rs : List orientation) (h : closed_under_comp rs = true) :
    ∀ r ∈ rs, ∀ o ∈ rs, o.comp r ∈ rs ∧ ∃ o1 ∈ rs, o1.comp r = o := by
  intro r hr o ho
  unfold closed_under_comp at h
  rw [List.all_eq_true] at h
  have h1 := h r hr
  rw [List.all_eq_true] at h1
  have h2 := h1 o ho
  rw [Bool.and_eq_true] at h2
  obtain ⟨ha, hb⟩ := h2
  constructor
  · cases hf : find_by_code (o.comp r).code rs with
    | none => rw [hf] at ha; exact absurd ha Bool.false_ne_true
    | some o1 =>
      rw [hf] at ha
      simp only [decide_eq_true_eq] at ha
      rw [← ha]
      exact find_by_code_mem _ _ _ hf
  · rw [List.any_eq_true] at hb
    obtain ⟨o1, ho1, hc⟩ := hb
    rw [Bool.and_eq_true] at hc
    exact ⟨o1, ho1, of_decide_eq_true hc.2⟩

theorem rotations_24_eq_table : rotations_24 = rotations_24_table := by
  decide!

theorem rotations_24_closed : closed_under_comp rotations_24 = true := by
  rw [rotations_24_eq_table]
  decide!

/-- The orientations of a rotated shape are the orientations of the shape. -/
theorem mem_all_rotations_of_rotated (pc r t : polycube_sparse) (hr : r ∈ all_rotations pc) :
    t ∈ all_rotations r ↔ t ∈ all_rotations pc := by
  rw [all_rotations_eq] at hr
  obtain ⟨o, ho, rfl⟩ := List.mem_map.mp hr
  rw [all_rotations_eq, all_rotations_eq]
  constructor
  · intro ht
    obtain ⟨o2, ho2, rfl⟩ := List.mem_map.mp ht
    rw [apply_comp]
    exact List.mem_map.mpr
      ⟨o2.comp o, (closed_under_comp_spec _ rotations_24_closed o ho o2 ho2).1, rfl⟩
  · intro ht
    obtain ⟨o2, ho2, rfl⟩ := List.mem_map.mp ht
    obtain ⟨o1, ho1, h1⟩ := (closed_under_comp_spec _ rotations_24_closed o ho o2 ho2).2
    refine List.mem_map.mpr ⟨o1, ho1, ?_⟩
    show o1.apply (o.apply pc) = o2.apply pc
    rw [apply_comp, h1]

/-- C6: for every orientation `r` of a shape `pc` yielded by
`all_rotations_generator_sparse`, the orientations that
`is_polycube_canonical_sparse` accepts among the 24 orientations of `r` are
exactly the ones it accepts among the 24 orientations of `pc` (same
dimensions, same cells); in particular this holds for every shape whose
cells lie inside its box. -/
theorem c6_canonical_rotation_invariant (pc r : polycube_sparse) (hr : r ∈ all_rotations pc)
    (t : polycube_sparse) :
    (t ∈ all_rotations r ∧ is_polycube_canonical_sparse t = true) ↔
      (t ∈ all_rotations pc ∧ is_polycube_canonical_sparse t = true) := by
  rw [mem_all_rotations_of_rotated pc r t hr]

theorem c6_canonical_rotation_invariant_witness :
    rotate_90_once_sparse X_AXIS order_example_a ∈ all_rotations order_example_a ∧
    ∀ t : polycube_sparse,
      (t ∈ all_rotations (rotate_90_once_sparse X_AXIS order_example_a) ∧
          is_polycube_canonical_sparse t = true) ↔
        (t ∈ all_rotations order_example_a ∧ is_polycube_canonical_sparse t = true) :=
  ⟨by decide, fun t => c6_canonical_rotation_invariant order_example_a
    (rotate_90_once_sparse X_AXIS order_example_a) (by decide) t⟩

/-! ### The 24 orientations are the proper rotations -/

/-- The generator walks 24 pairwise different orientations, all of them proper rotations. -/
theorem rotations_24_proper :
    rotations_24.length = 24 ∧ rotations_24.Nodup ∧
    ∀ o ∈ rotations_24, o.is_proper = true := by
  rw [rotations_24_eq_table]
  decide

/-- Every proper rotation is one of the orientations walked by the generator. -/
theorem proper_mem_rotations_24 (o : orientation) (h : o.is_proper = true) :
    o ∈ rotations_24 := by
  rw [rotations_24_eq_table]
  obtain ⟨sx, sy, sz, fx, fy, fz⟩ := o
  revert h
  cases sx <;> cases sy <;> cases sz <;> cases fx <;> cases fy <;> cases fz <;> decide


/-! ### The linear index of a cell -/

theorem row_index_bounds (dx dy x y : Int) (hdx : 0 < dx) (hx0 : 0 ≤ x) (hx1 : x < dx)
    (hy0 : 0 ≤ y) (hy1 : y < dy) : 0 ≤ y * dx + x ∧ y * dx + x < dy * dx := by
  have h1 : 0 ≤ y * dx := Int.mul_nonneg hy0 hdx.le
  have h2 : y * dx ≤ (dy - 1) * dx := Int.mul_le_mul_of_nonneg_right (by omega) hdx.le
  have h3 : (dy - 1) * dx = dy * dx - dx := by ring
  constructor
  · omega
  · omega

theorem index_nonneg (dim p : position) (hd : 0 < dim.x ∧ 0 < dim.y ∧ 0 < dim.z)
    (hp : in_box dim p) : 0 ≤ p.z * (dim.y * dim.x) + p.y * dim.x + p.x := by
  obtain ⟨hx0, hx1, hy0, hy1, hz0, hz1⟩ := hp
  have h1 : 0 ≤ p.z * (dim.y * dim.x) := Int.mul_nonneg hz0 (Int.mul_nonneg hd.2.1.le hd.1.le)
  have h2 : 0 ≤ p.y * dim.x := Int.mul_nonneg hy0 hd.1.le
  omega

theorem index_lt (dim p : position) (hp : in_box dim p) :
    p.z * (dim.y * dim.x) + p.y * dim.x + p.x < dim.x * dim.y * dim.z := by
  obtain ⟨hx0, hx1, hy0, hy1, hz0, hz1⟩ := hp
  have hr := row_index_bounds dim.x dim.y p.x p.y (by omega) hx0 hx1 hy0 hy1
  have hr2 := row_index_bounds (dim.y * dim.x) dim.z (p.y * dim.x + p.x) p.z (by omega)
    hr.1 hr.2 hz0 hz1
  have h3 : dim.z * (dim.y * dim.x) = dim.x * dim.y * dim.z := by ring
  omega

theorem mixed_radix (a b a1 b1 m : Int) (hb : 0 ≤ b) (hb1 : b < m) (hc : 0 ≤ b1)
    (hc1 : b1 < m) (h : a * m + b = a1 * m + b1) : a = a1 ∧ b = b1 := by
  have hm : m ≠ 0 := by omega
  have e1 : (b + a * m) / m = a := by
    rw [Int.add_mul_ediv_right b a hm, Int.ediv_eq_zero_of_lt hb hb1]
    omega
  have e2 : (b1 + a1 * m) / m = a1 := by
    rw [Int.add_mul_ediv_right b1 a1 hm, Int.ediv_eq_zero_of_lt hc hc1]
    omega
  have e3 : b + a * m = b1 + a1 * m := by omega
  have ha : a = a1 := by rw [← e1, ← e2, e3]
  subst ha
  exact ⟨rfl, by omega⟩

theorem index_inj (dim p q : position) (hp : in_box dim p) (hq : in_box dim q)
    (h : p.z * (dim.y * dim.x) + p.y * dim.x + p.x = q.z * (dim.y * dim.x) + q.y * dim.x + q.x) :
    p = q := by
  obtain ⟨hx0, hx1, hy0, hy1, hz0, hz1⟩ := hp
  obtain ⟨gx0, gx1, gy0, gy1, gz0, gz1⟩ := hq
  have hp1 := row_index_bounds dim.x dim.y p.x p.y (by omega) hx0 hx1 hy0 hy1
  have hq1 := row_index_bounds dim.x dim.y q.x q.y (by omega) gx0 gx1 gy0 gy1
  have h1 := mixed_radix p.z (p.y * dim.x + p.x) q.z (q.y * dim.x + q.x) (dim.y * dim.x)
    hp1.1 hp1.2 hq1.1 hq1.2 (by omega)
  have h2 := mixed_radix p.y p.x q.y q.x dim.x hx0 hx1 gx0 gx1 h1.2
  cases p; cases q
  simp only [position.mk.injEq]
  exact ⟨h2.2, h2.1, h1.1⟩

/-! ### Reading and writing grid cells -/

theorem array_get_set_same (cubes : List Int) (i v : Int) (h0 : 0 ≤ i)
    (h1 : i < cubes.length) : array_get (array_set cubes i v) i = v := by
  unfold array_get array_set
  have hn : ¬ i < 0 := by omega
  simp only [hn, if_false, List.getD_eq_getElem?_getD]
  rw [List.getElem?_set_self (by omega)]
  rfl

theorem array_get_set_other (cubes : List Int) (i j v : Int) (h0 : 0 ≤ i) (hj : 0 ≤ j)
    (hne : i ≠ j) : array_get (array_set cubes i v) j = array_get cubes j := by
  unfold array_get array_set
  have hn : ¬ i < 0 := by omega
  have hn' : ¬ j < 0 := by omega
  simp only [hn, hn', if_false, List.getD_eq_getElem?_getD]
  rw [List.getElem?_set_ne (by omega)]

theorem array_set_length (cubes : List Int) (i v : Int) :
    (array_set cubes i v).length = cubes.length := by
  unfold array_set
  split
  · rfl
  · exact List.length_set _ _ _

theorem list_set_getD (l : List Int) (i : Nat) (d : Int) : l.set i (l.getD i d) = l := by
  induction l generalizing i with
  | nil => rfl
  | cons a l ih =>
    cases i with
    | zero => rfl
    | succ i =>
      simp only [List.set_cons_succ, List.getD_cons_succ]
      rw [ih]

theorem array_set_restore (cubes : List Int) (i v : Int) :
    array_set (array_set cubes i v) i (array_get cubes i) = cubes := by
  unfold array_get array_set
  by_cases hn : i < 0
  · simp only [hn, if_true]
  · simp only [hn, if_false, List.set_set]
    exact list_set_getD cubes i.toNat 0

/-! ### The cells visited by `for_each_cube` -/

theorem length_flatMap_range {α : Type} (n m : Nat) (f : Nat → List α)
    (hf : ∀ a, (f a).length = m) : ((List.range n).flatMap f).length = n * m := by
  induction n with
  | zero => simp
  | succ n ih =>
    rw [List.range_succ, List.flatMap_append, List.length_append, ih]
    simp only [List.flatMap_cons, List.flatMap_nil, List.append_nil, hf]
    rw [Nat.succ_mul]

theorem getElem?_flatMap_range {α : Type} (n m : Nat) (f : Nat → List α)
    (hf : ∀ a, (f a).length = m) (i : Nat) (hi : i < n * m) :
    ((List.range n).flatMap f)[i]? = (f (i / m))[i % m]? := by
  induction n with
  | zero => simp at hi
  | succ n ih =>
    rw [List.range_succ, List.flatMap_append]
    simp only [List.flatMap_cons, List.flatMap_nil, List.append_nil]
    by_cases hlt : i < n * m
    · rw [List.getElem?_append_left (by rw [length_flatMap_range n m f hf]; exact hlt)]
      exact ih hlt
    · rw [List.getElem?_append_right (by rw [length_flatMap_range n m f hf]; omega),
        length_flatMap_range n m f hf]
      have hi2 : i < n * m + m := by rw [Nat.succ_mul] at hi; exact hi
      have h1 : i / m = n := Nat.div_eq_of_lt_le (Nat.le_of_not_lt hlt) hi
      have h2 : i % m = i - n * m := by
        have e : i = (i - n * m) + m * n := by rw [Nat.mul_comm m n]; omega
        rw [e, Nat.add_mul_mod_self_left, Nat.mod_eq_of_lt (by omega)]
        omega
      rw [h1, h2]

/-- The cells of one row of the grid, in visiting order. -/
theorem row_length (dx : Nat) (y z : Nat) :
    ((List.range dx).map fun (x : Nat) => (⟨x, y, z⟩ : position)).length = dx := by
  rw [List.length_map, List.length_range]

theorem slab_length (dx dy : Nat) (z : Nat) :
    ((List.range dy).flatMap fun (y : Nat) =>
      (List.range dx).map fun (x : Nat) => (⟨x, y, z⟩ : position)).length = dy * dx :=
  length_flatMap_range dy dx
    (fun (y : Nat) => (List.range dx).map fun (x : Nat) => (⟨x, y, z⟩ : position)) (fun (y : Nat) => row_length dx y z)

/-- The `i`-th cell visited by `for_each_cube`. -/
theorem cells_getElem? (dim : position) (i : Nat)
    (hi : i < dim.z.toNat * (dim.y.toNat * dim.x.toNat)) :
    ((List.range dim.z.toNat).flatMap fun (z : Nat) =>
      (List.range dim.y.toNat).flatMap fun (y : Nat) =>
        (List.range dim.x.toNat).map fun (x : Nat) => (⟨x, y, z⟩ : position))[i]?
      = some ⟨((i % (dim.y.toNat * dim.x.toNat) % dim.x.toNat : Nat) : Int),
          ((i % (dim.y.toNat * dim.x.toNat) / dim.x.toNat : Nat) : Int),
          ((i / (dim.y.toNat * dim.x.toNat) : Nat) : Int)⟩ := by
  have hM : 0 < dim.y.toNat * dim.x.toNat := by
    rcases Nat.eq_zero_or_pos (dim.y.toNat * dim.x.toNat) with h | h
    · rw [h] at hi; simp at hi
    · exact h
  have hX : 0 < dim.x.toNat := Nat.pos_of_mul_pos_left hM
  rw [getElem?_flatMap_range dim.z.toNat (dim.y.toNat * dim.x.toNat)
    (fun (z : Nat) => (List.range dim.y.toNat).flatMap fun (y : Nat) =>
        (List.range dim.x.toNat).map fun (x : Nat) => (⟨x, y, z⟩ : position))
    (fun (z : Nat) => slab_length dim.x.toNat dim.y.toNat z) i hi]
  rw [getElem?_flatMap_range dim.y.toNat dim.x.toNat
    (fun (y : Nat) => (List.range dim.x.toNat).map fun (x : Nat) =>
      (⟨x, y, ((i / (dim.y.toNat * dim.x.toNat) : Nat) : Int)⟩ : position))
    (fun (y : Nat) => row_length dim.x.toNat y _) _ (Nat.mod_lt _ hM)]
  rw [List.getElem?_map, List.getElem?_range (Nat.mod_lt _ hX)]
  rfl

theorem cells_length (dim : position) :
    ((List.range dim.z.toNat).flatMap fun (z : Nat) =>
      (List.range dim.y.toNat).flatMap fun (y : Nat) =>
        (List.range dim.x.toNat).map fun (x : Nat) => (⟨x, y, z⟩ : position)).length
      = dim.z.toNat * (dim.y.toNat * dim.x.toNat) :=
  length_flatMap_range dim.z.toNat (dim.y.toNat * dim.x.toNat)
    (fun (z : Nat) => (List.range dim.y.toNat).flatMap fun (y : Nat) =>
        (List.range dim.x.toNat).map fun (x : Nat) => (⟨x, y, z⟩ : position))
    (fun (z : Nat) => slab_length dim.x.toNat dim.y.toNat z)

/-- The loop of `for_each_cube` visits exactly the cells of the grid, each
with its linear index as running index. -/
theorem cells_mem_iff (dim : position) (i : Nat) (p : position) :
    (i, p) ∈ for_each_cube_cells dim ↔
      in_box dim p ∧ (i : Int) = p.z * (dim.y * dim.x) + p.y * dim.x + p.x := by
  unfold for_each_cube_cells
  rw [List.mk_mem_enum_iff_getElem?]
  by_cases hi : i < dim.z.toNat * (dim.y.toNat * dim.x.toNat)
  · have hM : 0 < dim.y.toNat * dim.x.toNat := by
      rcases Nat.eq_zero_or_pos (dim.y.toNat * dim.x.toNat) with h | h
      · rw [h] at hi; simp at hi
      · exact h
    have hX : 0 < dim.x.toNat := Nat.pos_of_mul_pos_left hM
    have hY : 0 < dim.y.toNat := Nat.pos_of_mul_pos_right hM
    have hZ : 0 < dim.z.toNat := by
      rcases Nat.eq_zero_or_pos dim.z.toNat with h | h
      · rw [h] at hi; simp at hi
      · exact h
    have hdx : (dim.x.toNat : Int) = dim.x := Int.toNat_of_nonneg (by omega)
    have hdy : (dim.y.toNat : Int) = dim.y := Int.toNat_of_nonneg (by omega)
    have hdz : (dim.z.toNat : Int) = dim.z := Int.toNat_of_nonneg (by omega)
    rw [cells_getElem? dim i hi]
    have hx1 : i % (dim.y.toNat * dim.x.toNat) % dim.x.toNat < dim.x.toNat := Nat.mod_lt _ hX
    have hy1 : i % (dim.y.toNat * dim.x.toNat) / dim.x.toNat < dim.y.toNat := by
      apply Nat.div_lt_of_lt_mul
      have := Nat.mod_lt i hM
      rw [Nat.mul_comm dim.x.toNat dim.y.toNat]
      exact this
    have hz1 : i / (dim.y.toNat * dim.x.toNat) < dim.z.toNat := by
      apply Nat.div_lt_of_lt_mul
      rw [Nat.mul_comm (dim.y.toNat * dim.x.toNat) dim.z.toNat]
      exact hi
    have hbox : in_box dim ⟨((i % (dim.y.toNat * dim.x.toNat) % dim.x.toNat : Nat) : Int),
          ((i % (dim.y.toNat * dim.x.toNat) / dim.x.toNat : Nat) : Int),
          ((i / (dim.y.toNat * dim.x.toNat) : Nat) : Int)⟩ := by
      refine ⟨Int.natCast_nonneg _, ?_, Int.natCast_nonneg _, ?_, Int.natCast_nonneg _, ?_⟩
      · show ((i % (dim.y.toNat * dim.x.toNat) % dim.x.toNat : Nat) : Int) < dim.x
        rw [← hdx]; exact_mod_cast hx1
      · show ((i % (dim.y.toNat * dim.x.toNat) / dim.x.toNat : Nat) : Int) < dim.y
        rw [← hdy]; exact_mod_cast hy1
      · show ((i / (dim.y.toNat * dim.x.toNat) : Nat) : Int) < dim.z
        rw [← hdz]; exact_mod_cast hz1
    have hidx : (i : Int) = ((i / (dim.y.toNat * dim.x.toNat) : Nat) : Int) * (dim.y * dim.x)
        + ((i % (dim.y.toNat * dim.x.toNat) / dim.x.toNat : Nat) : Int) * dim.x
        + ((i % (dim.y.toNat * dim.x.toNat) % dim.x.toNat : Nat) : Int) := by
      have e1 := Nat.div_add_mod i (dim.y.toNat * dim.x.toNat)
      have e2 := Nat.div_add_mod (i % (dim.y.toNat * dim.x.toNat)) dim.x.toNat
      have e3 : i = dim.y.toNat * dim.x.toNat * (i / (dim.y.toNat * dim.x.toNat))
        + (dim.x.toNat * (i % (dim.y.toNat * dim.x.toNat) / dim.x.toNat)
          + i % (dim.y.toNat * dim.x.toNat) % dim.x.toNat) := by
        rw [e2, e1]
      have e4 := congrArg (fun t : Nat => (t : Int)) e3
      simp only [Nat.cast_add, Nat.cast_mul] at e4
      rw [hdx, hdy] at e4
      rw [e4]
      ring
    constructor
    · intro h
      simp only [Option.some.injEq] at h
      subst h
      exact ⟨hbox, hidx⟩
    · rintro ⟨hp, hpi⟩
      simp only [Option.some.injEq]
      exact index_inj dim _ _ hbox hp (by rw [← hidx, hpi])
  · rw [List.getElem?_eq_none (by rw [cells_length]; omega)]
    constructor
    · intro h; exact absurd h (by simp)
    · rintro ⟨hp, hpi⟩
      exfalso
      have hlt := index_lt dim p hp
      have hd : 0 < dim.x ∧ 0 < dim.y ∧ 0 < dim.z := by
        unfold in_box at hp; omega
      have hdx : (dim.x.toNat : Int) = dim.x := Int.toNat_of_nonneg (by omega)
      have hdy : (dim.y.toNat : Int) = dim.y := Int.toNat_of_nonneg (by omega)
      have hdz : (dim.z.toNat : Int) = dim.z := Int.toNat_of_nonneg (by omega)
      have : ((dim.z.toNat * (dim.y.toNat * dim.x.toNat) : Nat) : Int)
          = dim.x * dim.y * dim.z := by
        push_cast
        rw [hdx, hdy, hdz]
        ring
      have h2 : ((dim.z.toNat * (dim.y.toNat * dim.x.toNat) : Nat) : Int) ≤ (i : Int) := by
        exact_mod_cast Nat.le_of_not_lt hi
      omega

/-! ### The grid as a function of the position -/

theorem position_ext (p q : position) (hx : p.x = q.x) (hy : p.y = q.y) (hz : p.z = q.z) :
    p = q := by
  cases p; cases q
  simp only [position.mk.injEq]
  exact ⟨hx, hy, hz⟩

theorem add_neg_cancel_pos (p d : position) : (p.add d.neg).add d = p := by
  apply position_ext <;> simp [position.add, position.neg]

theorem add_add_neg_pos (p d : position) : (p.add d).add d.neg = p := by
  apply position_ext <;> simp [position.add, position.neg]

theorem size_eq_of_pos (s : rooted_polycube) (hd : 0 < s.dim.x ∧ 0 < s.dim.y ∧ 0 < s.dim.z) :
    (s.size : Int) = s.dim.x * s.dim.y * s.dim.z := by
  unfold rooted_polycube.size
  apply Int.toNat_of_nonneg
  have := Int.mul_pos (Int.mul_pos hd.1 hd.2.1) hd.2.2
  omega

theorem value_of_in_box (s : rooted_polycube) (p : position) (hp : in_box s.dim p) :
    s.value p = array_get s.cubes (p.z * (s.dim.y * s.dim.x) + p.y * s.dim.x + p.x) := by
  unfold rooted_polycube.value
  rw [if_pos hp]
  rfl

theorem value_of_not_in_box (s : rooted_polycube) (p : position) (hp : ¬ in_box s.dim p) :
    s.value p = 0 := by
  unfold rooted_polycube.value
  rw [if_neg hp]

theorem in_box_of_value_ne_zero (s : rooted_polycube) (p : position) (h : s.value p ≠ 0) :
    in_box s.dim p := by
  by_contra hp
  exact h (value_of_not_in_box s p hp)

/-- Writing one cell of the grid changes the value at that position only. -/
theorem value_set_cube (s : rooted_polycube) (q : position) (v : Int)
    (hd : 0 < s.dim.x ∧ 0 < s.dim.y ∧ 0 < s.dim.z) (hl : s.cubes.length = s.size)
    (hq : in_box s.dim q) (p : position) :
    (s.set_cube q.x q.y q.z v).value p = if p = q then v else s.value p := by
  have hsz := size_eq_of_pos s hd
  by_cases hp : in_box s.dim p
  · have hp' : in_box (s.set_cube q.x q.y q.z v).dim p := hp
    rw [value_of_in_box _ p hp', value_of_in_box s p hp]
    show array_get (array_set s.cubes (q.z * (s.dim.y * s.dim.x) + q.y * s.dim.x + q.x) v)
      (p.z * (s.dim.y * s.dim.x) + p.y * s.dim.x + p.x) = _
    by_cases hpq : p = q
    · subst hpq
      rw [if_pos rfl]
      apply array_get_set_same
      · exact index_nonneg s.dim p hd hp
      · have := index_lt s.dim p hp
        rw [hl]
        omega
    · rw [if_neg hpq]
      apply array_get_set_other
      · exact index_nonneg s.dim q hd hq
      · exact index_nonneg s.dim p hd hp
      · intro h
        exact hpq (index_inj s.dim p q hp hq h.symm)
  · have hp' : ¬ in_box (s.set_cube q.x q.y q.z v).dim p := hp
    rw [value_of_not_in_box _ p hp', value_of_not_in_box s p hp]
    have hpq : p ≠ q := by
      intro h; subst h; exact hp hq
    rw [if_neg hpq]

theorem set_cube_length (s : rooted_polycube) (x y z v : Int) :
    (s.set_cube x y z v).cubes.length = s.cubes.length :=
  array_set_length _ _ _

/-- The value of a grid that `memset` has just cleared. -/
theorem value_of_replicate (s : rooted_polycube) (n : Nat) (h : s.cubes = List.replicate n 0)
    (p : position) : s.value p = 0 := by
  unfold rooted_polycube.value rooted_polycube.get_cube array_get
  split
  · rw [h]
    split
    · rfl
    · rw [List.getD_eq_getElem?_getD, List.getElem?_replicate]
      split <;> rfl
  · rfl

/-! ### The copy loop of `pad_cube` and `crop_cube` -/

theorem same_header_refl (a : rooted_polycube) : same_header a a :=
  ⟨rfl, rfl, rfl, rfl, rfl, rfl, rfl, rfl, rfl, rfl, rfl⟩

theorem same_header_trans {a b c : rooted_polycube} (h1 : same_header a b)
    (h2 : same_header b c) : same_header a c := by
  obtain ⟨a1, a2, a3, a4, a5, a6, a7, a8, a9, a10, a11⟩ := h1
  obtain ⟨b1, b2, b3, b4, b5, b6, b7, b8, b9, b10, b11⟩ := h2
  exact ⟨a1.trans b1, a2.trans b2, a3.trans b3, a4.trans b4, a5.trans b5, a6.trans b6,
    a7.trans b7, a8.trans b8, a9.trans b9, a10.trans b10, a11.trans b11⟩

theorem same_header_set_cube (s : rooted_polycube) (x y z v : Int) :
    same_header (s.set_cube x y z v) s :=
  ⟨rfl, rfl, rfl, rfl, rfl, rfl, rfl, rfl, rfl, rfl, array_set_length _ _ _⟩

theorem same_header_copy_cell (base : rooted_polycube) (delta : position)
    (out : rooted_polycube) (c : Nat × position) :
    same_header (copy_cell base delta out c) out := by
  unfold copy_cell
  dsimp only
  split
  · exact same_header_set_cube _ _ _ _ _
  · exact same_header_refl _

theorem copy_fold (base : rooted_polycube) (delta : position) (l : List (Nat × position)) :
    ∀ out0 : rooted_polycube,
      (0 < out0.dim.x ∧ 0 < out0.dim.y ∧ 0 < out0.dim.z) → out0.cubes.length = out0.size →
      (∀ c ∈ l, in_box base.dim c.2 ∧
        (c.1 : Int) = c.2.z * (base.dim.y * base.dim.x) + c.2.y * base.dim.x + c.2.x) →
      (∀ c ∈ l, array_get base.cubes c.1 ≠ 0 → in_box out0.dim (c.2.add delta)) →
      same_header (l.foldl (copy_cell base delta) out0) out0 ∧
      (∀ c ∈ l, array_get base.cubes c.1 ≠ 0 →
        (l.foldl (copy_cell base delta) out0).value (c.2.add delta) = array_get base.cubes c.1) ∧
      (∀ p, (∀ c ∈ l, array_get base.cubes c.1 ≠ 0 → c.2.add delta ≠ p) →
        (l.foldl (copy_cell base delta) out0).value p = out0.value p) := by
  induction l with
  | nil =>
    intro out0 _ _ _ _
    exact ⟨same_header_refl _, fun c hc => absurd hc (List.not_mem_nil c), fun p _ => rfl⟩
  | cons c l ih =>
    intro out0 hd hl hcells hfit
    have hh1 := same_header_copy_cell base delta out0 c
    have hdim1 : (copy_cell base delta out0 c).dim = out0.dim := hh1.2.2.1
    have hlen1 : (copy_cell base delta out0 c).cubes.length = out0.cubes.length :=
      hh1.2.2.2.2.2.2.2.2.2.2
    have hsize1 : (copy_cell base delta out0 c).size = out0.size := by
      unfold rooted_polycube.size; rw [hdim1]
    obtain ⟨ihh, iha, ihb⟩ := ih (copy_cell base delta out0 c) (by rw [hdim1]; exact hd)
      (by rw [hlen1, hsize1]; exact hl)
      (fun c' hc' => hcells c' (List.mem_cons_of_mem _ hc'))
      (fun c' hc' hne => by rw [hdim1]; exact hfit c' (List.mem_cons_of_mem _ hc') hne)
    -- the value after the first step
    have hstep : ∀ p, (copy_cell base delta out0 c).value p
        = if array_get base.cubes c.1 ≠ 0 ∧ p = c.2.add delta then array_get base.cubes c.1
          else out0.value p := by
      intro p
      unfold copy_cell
      dsimp only
      by_cases hne : array_get base.cubes c.1 ≠ 0
      · rw [if_pos hne]
        have := value_set_cube out0 (c.2.add delta) (array_get base.cubes c.1) hd hl
          (hfit c (List.mem_cons_self _ _) hne) p
        rw [show (c.2.add delta).x = c.2.x + delta.x from rfl,
          show (c.2.add delta).y = c.2.y + delta.y from rfl,
          show (c.2.add delta).z = c.2.z + delta.z from rfl] at this
        rw [this]
        by_cases hp : p = c.2.add delta
        · rw [if_pos hp, if_pos ⟨hne, hp⟩]
        · rw [if_neg hp, if_neg (fun h => hp h.2)]
      · rw [if_neg hne, if_neg (fun h => hne h.1)]
    simp only [List.foldl_cons]
    refine ⟨same_header_trans ihh hh1, ?_, ?_⟩
    · intro c' hc' hne'
      rcases List.mem_cons.mp hc' with heq | hmem
      · subst heq
        by_cases hex : ∃ c'' ∈ l, array_get base.cubes c''.1 ≠ 0 ∧ c''.2.add delta = c'.2.add delta
        · obtain ⟨c'', hc'', hne'', htarget⟩ := hex
          have h2 := iha c'' hc'' hne''
          rw [htarget] at h2
          rw [h2]
          have hpos : c''.2 = c'.2 := by
            have := congrArg (fun q : position => q.add delta.neg) htarget
            simp only [add_add_neg_pos] at this
            exact this
          have hi'' := (hcells c'' (List.mem_cons_of_mem _ hc'')).2
          have hi' := (hcells c' (List.mem_cons_self _ _)).2
          rw [hpos] at hi''
          have : c''.1 = c'.1 := by
            have : (c''.1 : Int) = (c'.1 : Int) := by rw [hi'', hi']
            exact_mod_cast this
          rw [this]
        · rw [ihb (c'.2.add delta) (fun c'' hc'' hne'' htarget => hex ⟨c'', hc'', hne'', htarget⟩),
            hstep, if_pos ⟨hne', rfl⟩]
      · exact iha c' hmem hne'
    · intro p hp
      rw [ihb p (fun c' hc' hne' => hp c' (List.mem_cons_of_mem _ hc') hne'), hstep]
      rw [if_neg]
      intro h
      exact hp c (List.mem_cons_self _ _) h.1 h.2.symm

/-- The whole copy loop moves the grid by `delta`, provided every cell in use
lands inside the new grid. -/
theorem copy_grid (base : rooted_polycube) (delta : position) (out0 : rooted_polycube)
    (hd : 0 < out0.dim.x ∧ 0 < out0.dim.y ∧ 0 < out0.dim.z)
    (hl : out0.cubes.length = out0.size) (hzero : ∀ p, out0.value p = 0)
    (hfit : ∀ q, base.value q ≠ 0 → in_box out0.dim (q.add delta)) :
    same_header ((for_each_cube_cells base.dim).foldl (copy_cell base delta) out0) out0 ∧
    ∀ p, ((for_each_cube_cells base.dim).foldl (copy_cell base delta) out0).value p
      = base.value (p.add delta.neg) := by
  have hcells : ∀ c ∈ for_each_cube_cells base.dim, in_box base.dim c.2 ∧
      (c.1 : Int) = c.2.z * (base.dim.y * base.dim.x) + c.2.y * base.dim.x + c.2.x := by
    intro c hc
    exact (cells_mem_iff base.dim c.1 c.2).mp hc
  have hval : ∀ c ∈ for_each_cube_cells base.dim, array_get base.cubes c.1 = base.value c.2 := by
    intro c hc
    rw [value_of_in_box base c.2 (hcells c hc).1, ← (hcells c hc).2]
  obtain ⟨hh, ha, hb⟩ := copy_fold base delta (for_each_cube_cells base.dim) out0 hd hl hcells
    (fun c hc hne => hfit c.2 (by rw [← hval c hc]; exact hne))
  refine ⟨hh, ?_⟩
  intro p
  by_cases hv : base.value (p.add delta.neg) = 0
  · rw [hv, hb p, hzero]
    intro c hc hne htarget
    apply hne
    rw [hval c hc]
    have : c.2 = p.add delta.neg := by
      rw [← htarget, add_add_neg_pos]
    rw [this]
    exact hv
  · have hbox := in_box_of_value_ne_zero base _ hv
    have hidx := index_nonneg base.dim (p.add delta.neg)
      (by unfold in_box at hbox; omega) hbox
    have hmem : (((p.add delta.neg).z * (base.dim.y * base.dim.x)
        + (p.add delta.neg).y * base.dim.x + (p.add delta.neg).x).toNat, p.add delta.neg)
        ∈ for_each_cube_cells base.dim := by
      rw [cells_mem_iff]
      exact ⟨hbox, Int.toNat_of_nonneg hidx⟩
    have h1 := ha _ hmem (by rw [hval _ hmem]; exact hv)
    dsimp only at h1
    rw [add_neg_cancel_pos] at h1
    rw [h1, hval _ hmem]

/-! ### `pad_cube` and `crop_cube` move the grid -/

/-- The paddings chosen by `pad_cube` are 0 or 1 on every axis. -/
theorem pad_deltas_range (base : rooted_polycube) :
    (0 ≤ (pad_deltas base).1.x ∧ (pad_deltas base).1.x ≤ 1) ∧
    (0 ≤ (pad_deltas base).1.y ∧ (pad_deltas base).1.y ≤ 1) ∧
    (0 ≤ (pad_deltas base).1.z ∧ (pad_deltas base).1.z ≤ 1) ∧
    (0 ≤ (pad_deltas base).2.x ∧ (pad_deltas base).2.x ≤ 1) ∧
    (0 ≤ (pad_deltas base).2.y ∧ (pad_deltas base).2.y ≤ 1) ∧
    (0 ≤ (pad_deltas base).2.z ∧ (pad_deltas base).2.z ≤ 1) := by
  unfold pad_deltas
  dsimp only
  split
  · split_ifs <;> simp
  · simp

theorem header_size (s : rooted_polycube) (n : Nat) (h : s.cubes = List.replicate n 0)
    (hn : n = (s.dim.x * s.dim.y * s.dim.z).toNat) : s.cubes.length = s.size := by
  rw [h, List.length_replicate, hn]
  rfl

/-- The function `pad_cube` moves the shape by the lower padding. -/
theorem pad_cube_moved (base : rooted_polycube)
    (hd : 0 < base.dim.x ∧ 0 < base.dim.y ∧ 0 < base.dim.z) :
    moved_by base (pad_cube base).1 (pad_deltas base).1 ∧
    (pad_cube base).2 = (pad_deltas base).1 ∧
    (pad_cube base).1.dim = base.dim.add ((pad_deltas base).1.add (pad_deltas base).2) := by
  obtain ⟨⟨lx0, lx1⟩, ⟨ly0, ly1⟩, ⟨lz0, lz1⟩, ⟨hx0, hx1⟩, ⟨hy0, hy1⟩, ⟨hz0, hz1⟩⟩ :=
    pad_deltas_range base
  have hdim0 : (pad_cube_header base).dim
      = base.dim.add ((pad_deltas base).1.add (pad_deltas base).2) := rfl
  have hd0 : 0 < (pad_cube_header base).dim.x ∧ 0 < (pad_cube_header base).dim.y ∧
      0 < (pad_cube_header base).dim.z := by
    rw [hdim0]
    simp only [position.add]
    omega
  have hl0 : (pad_cube_header base).cubes.length = (pad_cube_header base).size :=
    header_size _ _ rfl rfl
  have hz0 : ∀ p, (pad_cube_header base).value p = 0 :=
    fun p => value_of_replicate _ _ rfl p
  have hfit : ∀ q, base.value q ≠ 0 →
      in_box (pad_cube_header base).dim (q.add (pad_deltas base).1) := by
    intro q hq
    have hb := in_box_of_value_ne_zero base q hq
    rw [hdim0]
    unfold in_box at hb ⊢
    simp only [position.add]
    omega
  obtain ⟨hh, hv⟩ := copy_grid base (pad_deltas base).1 (pad_cube_header base) hd0 hl0 hz0 hfit
  obtain ⟨h1, h2, h3, h4, h5, h6, h7, h8, h9, h10, h11⟩ := hh
  have hdimr : (pad_cube base).1.dim = (pad_cube_header base).dim := h3
  refine ⟨⟨?_, ?_, hv, h1, h2, h4, h5, h6, h7, h8, h9, h10⟩, rfl, hdimr.trans hdim0⟩
  · rw [hdimr]; exact hd0
  · show (pad_cube base).1.cubes.length = (pad_cube base).1.size
    unfold rooted_polycube.size
    rw [hdimr]
    exact h11.trans hl0

/-- The function `crop_cube` moves the shape by minus the lower labelled bound, provided
the labelled bounds enclose every cell in use. -/
theorem crop_cube_moved (base : rooted_polycube)
    (hbounds : ∀ p, base.value p ≠ 0 →
      base.labeled_min_bounds.le p ∧ p.le base.labeled_max_bounds)
    (hle : base.labeled_min_bounds.le base.labeled_max_bounds) :
    moved_by base (crop_cube base) base.labeled_min_bounds.neg ∧
    (crop_cube base).dim = ⟨base.labeled_max_bounds.x - base.labeled_min_bounds.x + 1,
      base.labeled_max_bounds.y - base.labeled_min_bounds.y + 1,
      base.labeled_max_bounds.z - base.labeled_min_bounds.z + 1⟩ := by
  have hdim0 : (crop_cube_header base).dim
      = ⟨base.labeled_max_bounds.x - base.labeled_min_bounds.x + 1,
      base.labeled_max_bounds.y - base.labeled_min_bounds.y + 1,
      base.labeled_max_bounds.z - base.labeled_min_bounds.z + 1⟩ := rfl
  obtain ⟨hlx, hly, hlz⟩ := hle
  have hd0 : 0 < (crop_cube_header base).dim.x ∧ 0 < (crop_cube_header base).dim.y ∧
      0 < (crop_cube_header base).dim.z := by
    rw [hdim0]
    dsimp only
    omega
  have hl0 : (crop_cube_header base).cubes.length = (crop_cube_header base).size :=
    header_size _ _ rfl rfl
  have hz0 : ∀ p, (crop_cube_header base).value p = 0 :=
    fun p => value_of_replicate _ _ rfl p
  have hfit : ∀ q, base.value q ≠ 0 →
      in_box (crop_cube_header base).dim (q.add base.labeled_min_bounds.neg) := by
    intro q hq
    obtain ⟨⟨a1, a2, a3⟩, ⟨b1, b2, b3⟩⟩ := hbounds q hq
    rw [hdim0]
    unfold in_box
    simp only [position.add, position.neg]
    omega
  obtain ⟨hh, hv⟩ := copy_grid base base.labeled_min_bounds.neg (crop_cube_header base)
    hd0 hl0 hz0 hfit
  obtain ⟨h1, h2, h3, h4, h5, h6, h7, h8, h9, h10, h11⟩ := hh
  have hdimr : (crop_cube base).dim = (crop_cube_header base).dim := h3
  refine ⟨⟨?_, ?_, hv, h1, h2, h4, h5, h6, h7, h8, h9, h10⟩, hdimr.trans hdim0⟩
  · rw [hdimr]; exact hd0
  · show (crop_cube base).cubes.length = (crop_cube base).size
    unfold rooted_polycube.size
    rw [hdimr]
    exact h11.trans hl0

/-! ### The invariant survives a move of the grid -/

theorem adjacent_add (a b d : position) : adjacent (a.add d) (b.add d) ↔ adjacent a b := by
  unfold adjacent
  simp only [position.add]
  have hx : a.x + d.x - (b.x + d.x) = a.x - b.x := by omega
  have hy : a.y + d.y - (b.y + d.y) = a.y - b.y := by omega
  have hz : a.z + d.z - (b.z + d.z) = a.z - b.z := by omega
  rw [hx, hy, hz]

theorem moved_cell (root e d : position) : ((root.add d).add e).add d.neg = root.add e := by
  apply position_ext <;> simp only [position.add, position.neg] <;> omega

theorem moved_cell_back (root e d p : position) (h : adjacent (root.add e) (p.add d.neg)) :
    adjacent ((root.add d).add e) p := by
  have h1 := (adjacent_add (root.add e) (p.add d.neg) d).mpr h
  rw [add_neg_cancel_pos] at h1
  have h2 : (root.add e).add d = (root.add d).add e := by
    apply position_ext <;> simp only [position.add] <;> omega
  rw [h2] at h1
  exact h1

/-- A well-formed shape stays well-formed when it is moved inside a grid that
holds its labelled bounds. -/
theorem wf_moved (base r : rooted_polycube) (d : position) (hwf : base.wf)
    (hm : moved_by base r d)
    (hbox : in_box r.dim r.labeled_min_bounds ∧ in_box r.dim r.labeled_max_bounds) : r.wf := by
  have hval : ∀ e, r.value (r.root.add e) = base.value (base.root.add e) := by
    intro e
    rw [hm.value_eq, hm.root_eq, moved_cell]
  have hcoord : ∀ e : position, (r.root.add e).x = (base.root.add e).x + d.x ∧
      (r.root.add e).y = (base.root.add e).y + d.y ∧
      (r.root.add e).z = (base.root.add e).z + d.z := by
    intro e
    rw [hm.root_eq]
    simp only [position.add]
    omega
  refine
    { dim_pos := hm.dim_pos
      length_eq := hm.length_eq
      k_eq := by rw [hm.k_eq, hm.filled_eq]; exact hwf.k_eq
      nonempty := by rw [hm.filled_eq]; exact hwf.nonempty
      filled := ?_
      nodup := by rw [hm.filled_eq]; exact hwf.nodup
      grown := by rw [hm.filled_eq]; exact hwf.grown
      bounds := ?_
      min_x := ?_
      min_y := ?_
      min_z := ?_
      max_x := ?_
      max_y := ?_
      max_z := ?_
      labels_adjacent := ?_
      numbering_nonneg := by rw [hm.numbering_eq]; exact hwf.numbering_nonneg
      labeled_bounds := ?_
      labeled_in_box := hbox }
  · intro e he
    rw [hm.filled_eq] at he
    rw [hval]
    exact hwf.filled e he
  · intro e he
    rw [hm.filled_eq] at he
    obtain ⟨⟨a1, a2, a3⟩, ⟨b1, b2, b3⟩⟩ := hwf.bounds e he
    obtain ⟨c1, c2, c3⟩ := hcoord e
    rw [hm.min_eq, hm.max_eq]
    unfold position.le
    simp only [position.add] at *
    omega
  · obtain ⟨e, he, h⟩ := hwf.min_x
    refine ⟨e, by rw [hm.filled_eq]; exact he, ?_⟩
    rw [(hcoord e).1, hm.min_eq, h]; rfl
  · obtain ⟨e, he, h⟩ := hwf.min_y
    refine ⟨e, by rw [hm.filled_eq]; exact he, ?_⟩
    rw [(hcoord e).2.1, hm.min_eq, h]; rfl
  · obtain ⟨e, he, h⟩ := hwf.min_z
    refine ⟨e, by rw [hm.filled_eq]; exact he, ?_⟩
    rw [(hcoord e).2.2, hm.min_eq, h]; rfl
  · obtain ⟨e, he, h⟩ := hwf.max_x
    refine ⟨e, by rw [hm.filled_eq]; exact he, ?_⟩
    rw [(hcoord e).1, hm.max_eq, h]; rfl
  · obtain ⟨e, he, h⟩ := hwf.max_y
    refine ⟨e, by rw [hm.filled_eq]; exact he, ?_⟩
    rw [(hcoord e).2.1, hm.max_eq, h]; rfl
  · obtain ⟨e, he, h⟩ := hwf.max_z
    refine ⟨e, by rw [hm.filled_eq]; exact he, ?_⟩
    rw [(hcoord e).2.2, hm.max_eq, h]; rfl
  · intro p hp0 hpf
    rw [hm.value_eq] at hp0 hpf
    obtain ⟨e, he, hadj⟩ := hwf.labels_adjacent _ hp0 hpf
    refine ⟨e, by rw [hm.filled_eq]; exact he, ?_⟩
    rw [hm.root_eq]
    exact moved_cell_back _ _ _ _ hadj
  · intro p hp0
    rw [hm.value_eq] at hp0
    obtain ⟨⟨a1, a2, a3⟩, ⟨b1, b2, b3⟩⟩ := hwf.labeled_bounds _ hp0
    rw [hm.labeled_min_eq, hm.labeled_max_eq]
    unfold position.le
    simp only [position.add, position.neg] at *
    omega

/-! ### Labelling the neighbours of the last filled cell -/

theorem labelled_from_refl (r0 : rooted_polycube) (q0 : position)
    (hbox : in_box r0.dim r0.labeled_min_bounds ∧ in_box r0.dim r0.labeled_max_bounds) :
    labelled_from r0 r0 q0 :=
  { dim_eq := rfl, length_eq := rfl, k_eq := rfl, root_eq := rfl, numbering_eq := rfl
    min_eq := rfl, max_eq := rfl, filled_eq := rfl
    old_kept := fun _ _ => rfl
    new_adjacent := fun _ h1 h2 => absurd h2 h1
    new_in_bounds := fun _ h1 h2 => absurd h2 h1
    bounds_grow := ⟨⟨le_refl _, le_refl _, le_refl _⟩, ⟨le_refl _, le_refl _, le_refl _⟩⟩
    bounds_in_box := hbox }

theorem labelled_from_step (r0 s : rooted_polycube) (q0 q : position) (nh : Int)
    (hd : 0 < r0.dim.x ∧ 0 < r0.dim.y ∧ 0 < r0.dim.z) (hl : r0.cubes.length = r0.size)
    (h : labelled_from r0 s q0) (hq : in_box r0.dim q) (hadj : adjacent q0 q) :
    labelled_from r0 (s.set_cube_if_zero_and_increment_and_update_bounds q.x q.y q.z nh).1 q0 := by
  have hds : 0 < s.dim.x ∧ 0 < s.dim.y ∧ 0 < s.dim.z := by rw [h.dim_eq]; exact hd
  have hls : s.cubes.length = s.size := by
    rw [h.length_eq, hl]; unfold rooted_polycube.size; rw [h.dim_eq]
  have hqs : in_box s.dim q := by rw [h.dim_eq]; exact hq
  unfold rooted_polycube.set_cube_if_zero_and_increment_and_update_bounds
  have hvq : array_get s.cubes (s.index q.x q.y q.z) = s.value q := by
    rw [value_of_in_box s q hqs]; rfl
  rw [hvq]
  by_cases hz : s.value q = 0
  · rw [if_pos hz]
    dsimp only
    have hval : ∀ p, (rooted_polycube.mk s.k s.root s.dim s.highest_numbering s.highest_written
        (array_set s.cubes (s.index q.x q.y q.z) nh) s.min_bounds s.max_bounds
        (position_min s.labeled_min_bounds q) (position_max s.labeled_max_bounds q)
        s.filled_cubes).value p = if p = q then nh else s.value p := by
      intro p
      have := value_set_cube s q nh hds hls hqs p
      rw [← this]
      rfl
    obtain ⟨⟨g1, g2, g3⟩, ⟨g4, g5, g6⟩⟩ := h.bounds_grow
    obtain ⟨b1, b2⟩ := h.bounds_in_box
    have hq' := hqs
    unfold in_box at b1 b2 hq'
    refine
      { dim_eq := h.dim_eq, length_eq := ?_, k_eq := h.k_eq, root_eq := h.root_eq
        numbering_eq := h.numbering_eq, min_eq := h.min_eq, max_eq := h.max_eq
        filled_eq := h.filled_eq, old_kept := ?_, new_adjacent := ?_, new_in_bounds := ?_
        bounds_grow := ?_, bounds_in_box := ?_ }
    · show (array_set s.cubes (s.index q.x q.y q.z) nh).length = r0.cubes.length
      rw [array_set_length]; exact h.length_eq
    · intro p hp
      rw [hval]
      have hsp := h.old_kept p hp
      have hne : p ≠ q := by
        intro he; subst he; rw [hz] at hsp; exact hp hsp.symm
      rw [if_neg hne]; exact hsp
    · intro p hp hp0
      rw [hval] at hp
      by_cases he : p = q
      · subst he; exact hadj
      · rw [if_neg he] at hp
        exact h.new_adjacent p hp hp0
    · intro p hp hp0
      rw [hval] at hp
      show (position_min s.labeled_min_bounds q).le p ∧ p.le (position_max s.labeled_max_bounds q)
      by_cases he : p = q
      · subst he
        unfold position.le position_min position_max
        dsimp only
        omega
      · rw [if_neg he] at hp
        obtain ⟨⟨a1, a2, a3⟩, ⟨a4, a5, a6⟩⟩ := h.new_in_bounds p hp hp0
        unfold position.le position_min position_max
        dsimp only
        omega
    · show (position_min s.labeled_min_bounds q).le r0.labeled_min_bounds ∧
        r0.labeled_max_bounds.le (position_max s.labeled_max_bounds q)
      unfold position.le position_min position_max
      dsimp only
      omega
    · show in_box s.dim (position_min s.labeled_min_bounds q) ∧
        in_box s.dim (position_max s.labeled_max_bounds q)
      unfold in_box position_min position_max
      dsimp only
      omega
  · rw [if_neg hz]
    exact h

/-! ### `expand_empty_slots` -/

theorem adjacent_step (q : position) :
    adjacent q ⟨q.x + 1, q.y, q.z⟩ ∧ adjacent q ⟨q.x - 1, q.y, q.z⟩ ∧
    adjacent q ⟨q.x, q.y + 1, q.z⟩ ∧ adjacent q ⟨q.x, q.y - 1, q.z⟩ ∧
    adjacent q ⟨q.x, q.y, q.z + 1⟩ ∧ adjacent q ⟨q.x, q.y, q.z - 1⟩ := by
  unfold adjacent
  dsimp only
  refine ⟨?_, ?_, ?_, ?_, ?_, ?_⟩ <;> omega

theorem labelled_from_step_at (r0 s : rooted_polycube) (q0 : position) (x y z nh : Int)
    (hd : 0 < r0.dim.x ∧ 0 < r0.dim.y ∧ 0 < r0.dim.z) (hl : r0.cubes.length = r0.size)
    (hq : in_box r0.dim ⟨x, y, z⟩) (hadj : adjacent q0 ⟨x, y, z⟩)
    (h : labelled_from r0 s q0) :
    labelled_from r0 (s.set_cube_if_zero_and_increment_and_update_bounds x y z nh).1 q0 :=
  labelled_from_step r0 s q0 ⟨x, y, z⟩ nh hd hl h hq hadj

theorem labelled_from_written (r0 s : rooted_polycube) (q0 : position) (w : Int)
    (h : labelled_from r0 s q0) : labelled_from r0 { s with highest_written := w } q0 :=
  { dim_eq := h.dim_eq, length_eq := h.length_eq, k_eq := h.k_eq, root_eq := h.root_eq
    numbering_eq := h.numbering_eq, min_eq := h.min_eq, max_eq := h.max_eq
    filled_eq := h.filled_eq, old_kept := h.old_kept, new_adjacent := h.new_adjacent
    new_in_bounds := h.new_in_bounds, bounds_grow := h.bounds_grow
    bounds_in_box := h.bounds_in_box }

/-- The labelling part of `expand_empty_slots`: when the padded grid has room
around the last filled cell, the result is the padded shape with some empty
neighbours of that cell labelled. -/
theorem expand_labelled (base : rooted_polycube)
    (hd : 0 < (pad_cube base).1.dim.x ∧ 0 < (pad_cube base).1.dim.y ∧
      0 < (pad_cube base).1.dim.z)
    (hl : (pad_cube base).1.cubes.length = (pad_cube base).1.size)
    (hbox : in_box (pad_cube base).1.dim (pad_cube base).1.labeled_min_bounds ∧
      in_box (pad_cube base).1.dim (pad_cube base).1.labeled_max_bounds)
    (hroom : strictly_inside (pad_cube base).1.dim
      ((base.root.add base.last_filled).add (pad_cube base).2)) :
    labelled_from (pad_cube base).1 (expand_empty_slots base)
      ((base.root.add base.last_filled).add (pad_cube base).2) := by
  obtain ⟨a1, a2, a3, a4, a5, a6⟩ :=
    adjacent_step ((base.root.add base.last_filled).add (pad_cube base).2)
  obtain ⟨r1, r2, r3, r4, r5, r6⟩ := hroom
  unfold expand_empty_slots
  dsimp only
  apply labelled_from_written
  apply labelled_from_step_at _ _ _ _ _ _ _ hd hl (by unfold in_box; dsimp only; omega) a6
  apply labelled_from_step_at _ _ _ _ _ _ _ hd hl (by unfold in_box; dsimp only; omega) a5
  apply labelled_from_step_at _ _ _ _ _ _ _ hd hl (by unfold in_box; dsimp only; omega) a4
  apply labelled_from_step_at _ _ _ _ _ _ _ hd hl (by unfold in_box; dsimp only; omega) a3
  apply labelled_from_step_at _ _ _ _ _ _ _ hd hl (by unfold in_box; dsimp only; omega) a2
  apply labelled_from_step_at _ _ _ _ _ _ _ hd hl (by unfold in_box; dsimp only; omega) a1
  exact labelled_from_refl _ _ hbox

/-! ### The invariant after `expand_empty_slots` -/

theorem FILLED_CUBE_ne_zero : FILLED_CUBE ≠ 0 := by decide

theorem wf_labelled (r0 s : rooted_polycube) (q0 : position) (hwf : r0.wf)
    (h : labelled_from r0 s q0) (hq0 : ∃ e ∈ r0.filled_cubes, r0.root.add e = q0) : s.wf := by
  have hsize : s.size = r0.size := by unfold rooted_polycube.size; rw [h.dim_eq]
  refine
    { dim_pos := by rw [h.dim_eq]; exact hwf.dim_pos
      length_eq := by rw [h.length_eq, hsize]; exact hwf.length_eq
      k_eq := by rw [h.k_eq, h.filled_eq]; exact hwf.k_eq
      nonempty := by rw [h.filled_eq]; exact hwf.nonempty
      filled := ?_
      nodup := by rw [h.filled_eq]; exact hwf.nodup
      grown := by rw [h.filled_eq]; exact hwf.grown
      bounds := by rw [h.filled_eq, h.root_eq, h.min_eq, h.max_eq]; exact hwf.bounds
      min_x := by rw [h.filled_eq, h.root_eq, h.min_eq]; exact hwf.min_x
      min_y := by rw [h.filled_eq, h.root_eq, h.min_eq]; exact hwf.min_y
      min_z := by rw [h.filled_eq, h.root_eq, h.min_eq]; exact hwf.min_z
      max_x := by rw [h.filled_eq, h.root_eq, h.max_eq]; exact hwf.max_x
      max_y := by rw [h.filled_eq, h.root_eq, h.max_eq]; exact hwf.max_y
      max_z := by rw [h.filled_eq, h.root_eq, h.max_eq]; exact hwf.max_z
      labels_adjacent := ?_
      numbering_nonneg := by rw [h.numbering_eq]; exact hwf.numbering_nonneg
      labeled_bounds := ?_
      labeled_in_box := h.bounds_in_box }
  · intro e he
    rw [h.filled_eq] at he
    rw [h.root_eq]
    have h1 := hwf.filled e he
    rw [h.old_kept _ (by rw [h1]; exact FILLED_CUBE_ne_zero)]
    exact h1
  · intro p hp0 hpf
    rw [h.filled_eq, h.root_eq]
    by_cases hr : r0.value p = 0
    · obtain ⟨e, he, heq⟩ := hq0
      exact ⟨e, he, by rw [heq]; exact h.new_adjacent p hp0 hr⟩
    · have hk := h.old_kept p hr
      rw [hk] at hpf
      exact hwf.labels_adjacent p hr hpf
  · intro p hp0
    by_cases hr : r0.value p = 0
    · exact h.new_in_bounds p hp0 hr
    · obtain ⟨⟨a1, a2, a3⟩, ⟨a4, a5, a6⟩⟩ := hwf.labeled_bounds p hr
      obtain ⟨⟨g1, g2, g3⟩, ⟨g4, g5, g6⟩⟩ := h.bounds_grow
      unfold position.le at *
      omega

theorem on_one_face_of_adjacent (dim q p : position) (hq : strictly_inside dim q)
    (hadj : adjacent q p) : on_one_face dim p := by
  unfold strictly_inside at hq
  unfold adjacent at hadj
  unfold on_one_face
  omega

theorem faces_labelled (r0 s : rooted_polycube) (q0 : position)
    (h : labelled_from r0 s q0) (hf : r0.faces_ok) (hroom : strictly_inside r0.dim q0) :
    s.faces_ok := by
  intro p hp0
  rw [h.dim_eq]
  by_cases hr : r0.value p = 0
  · exact on_one_face_of_adjacent _ _ _ hroom (h.new_adjacent p hp0 hr)
  · exact hf p hr

/-- The last filled cell is one of the filled cells. -/
theorem last_filled_mem (s : rooted_polycube) (h : s.filled_cubes ≠ []) :
    s.last_filled ∈ s.filled_cubes := by
  unfold rooted_polycube.last_filled
  rw [List.getLastD_eq_getLast?, List.getLast?_eq_getLast _ h]
  exact List.getLast_mem h

/-- After `pad_cube` the last filled cell has a margin to every face of the
grid and no cell in use lies on two lower or two upper faces. -/
theorem pad_room (base : rooted_polycube) (hwf : base.wf) (hf : base.k > 3 → base.faces_ok) :
    strictly_inside (base.dim.add ((pad_deltas base).1.add (pad_deltas base).2))
      ((base.root.add base.last_filled).add (pad_deltas base).1) ∧
    ∀ q, base.value q ≠ 0 →
      on_one_face (base.dim.add ((pad_deltas base).1.add (pad_deltas base).2))
        (q.add (pad_deltas base).1) := by
  have hlast : base.value (base.root.add base.last_filled) ≠ 0 := by
    rw [hwf.filled _ (last_filled_mem base hwf.nonempty)]
    exact FILLED_CUBE_ne_zero
  have hlbox := in_box_of_value_ne_zero base _ hlast
  unfold in_box at hlbox
  by_cases hk : base.k > 3
  · have hlf := hf hk _ hlast
    unfold on_one_face at hlf
    unfold pad_deltas
    rw [if_pos hk]
    dsimp only
    generalize base.root.add base.last_filled = last at *
    constructor
    · unfold strictly_inside
      split_ifs <;> simp only [position.add] <;> omega
    · intro q hq
      have hqb := in_box_of_value_ne_zero base q hq
      have hqf := hf hk q hq
      unfold in_box at hqb
      unfold on_one_face at hqf ⊢
      split_ifs <;> simp only [position.add] <;> omega
  · unfold pad_deltas
    rw [if_neg hk]
    dsimp only
    generalize base.root.add base.last_filled = last at *
    constructor
    · unfold strictly_inside
      simp only [position.add]
      omega
    · intro q hq
      have hqb := in_box_of_value_ne_zero base q hq
      unfold in_box at hqb
      unfold on_one_face
      simp only [position.add]
      omega

/-! ### The shape scanned by one activation of the search -/

/-- What `pad_cube` followed by the labelling gives, for a well-formed shape. -/
theorem expand_wf (current : rooted_polycube) (hwf : current.wf)
    (hf : current.k > 3 → current.faces_ok) :
    (expand_empty_slots current).wf ∧ (expand_empty_slots current).faces_ok := by
  obtain ⟨hm, hlo, hdim⟩ := pad_cube_moved current hwf.dim_pos
  obtain ⟨hroom, hfaces⟩ := pad_room current hwf hf
  obtain ⟨⟨lx0, lx1⟩, ⟨ly0, ly1⟩, ⟨lz0, lz1⟩, ⟨hx0, hx1⟩, ⟨hy0, hy1⟩, ⟨hz0, hz1⟩⟩ :=
    pad_deltas_range current
  have hbox : in_box (pad_cube current).1.dim (pad_cube current).1.labeled_min_bounds ∧
      in_box (pad_cube current).1.dim (pad_cube current).1.labeled_max_bounds := by
    rw [hdim, hm.labeled_min_eq, hm.labeled_max_eq]
    obtain ⟨b1, b2⟩ := hwf.labeled_in_box
    unfold in_box at *
    simp only [position.add]
    omega
  have hwf0 : (pad_cube current).1.wf := wf_moved current _ _ hwf hm hbox
  have hf0 : (pad_cube current).1.faces_ok := by
    intro p hp
    rw [hm.value_eq] at hp
    have := hfaces _ hp
    rw [add_neg_cancel_pos, ← hdim] at this
    exact this
  have hroom0 : strictly_inside (pad_cube current).1.dim
      ((current.root.add current.last_filled).add (pad_cube current).2) := by
    rw [hdim, hlo]; exact hroom
  have hlab := expand_labelled current hwf0.dim_pos hwf0.length_eq hbox hroom0
  have hq0 : ∃ e ∈ (pad_cube current).1.filled_cubes,
      (pad_cube current).1.root.add e
        = (current.root.add current.last_filled).add (pad_cube current).2 := by
    refine ⟨current.last_filled, ?_, ?_⟩
    · rw [hm.filled_eq]; exact last_filled_mem current hwf.nonempty
    · rw [hm.root_eq, hlo]
      apply position_ext <;> simp only [position.add] <;> omega
  exact ⟨wf_labelled _ _ _ hwf0 hlab hq0, faces_labelled _ _ _ hlab hf0 hroom0⟩

/-- The shape scanned by one activation of the search is well-formed, and from
three cubes on no cell in use lies on two lower or two upper faces of its grid. -/
theorem cropped_wf (current : rooted_polycube) (hwf : current.wf)
    (hf : current.k > 3 → current.faces_ok) :
    (if current.k < 3 then crop_cube (expand_empty_slots current)
      else expand_empty_slots current).wf ∧
    ((if current.k < 3 then crop_cube (expand_empty_slots current)
      else expand_empty_slots current).k ≥ 3 →
      (if current.k < 3 then crop_cube (expand_empty_slots current)
        else expand_empty_slots current).faces_ok) := by
  obtain ⟨hwe, hfe⟩ := expand_wf current hwf hf
  by_cases hk : current.k < 3
  · rw [if_pos hk]
    have hroot : (expand_empty_slots current).value
        ((expand_empty_slots current).root.add (expand_empty_slots current).last_filled)
          ≠ 0 := by
      rw [hwe.filled _ (last_filled_mem _ hwe.nonempty)]
      exact FILLED_CUBE_ne_zero
    obtain ⟨⟨a1, a2, a3⟩, ⟨a4, a5, a6⟩⟩ := hwe.labeled_bounds _ hroot
    have hle : (expand_empty_slots current).labeled_min_bounds.le
        (expand_empty_slots current).labeled_max_bounds := by
      unfold position.le; omega
    obtain ⟨hm, hdim⟩ := crop_cube_moved (expand_empty_slots current) hwe.labeled_bounds hle
    have hbox : in_box (crop_cube (expand_empty_slots current)).dim
          (crop_cube (expand_empty_slots current)).labeled_min_bounds ∧
        in_box (crop_cube (expand_empty_slots current)).dim
          (crop_cube (expand_empty_slots current)).labeled_max_bounds := by
      rw [hdim, hm.labeled_min_eq, hm.labeled_max_eq]
      obtain ⟨l1, l2, l3⟩ := hle
      unfold in_box
      simp only [position.add, position.neg]
      omega
    refine ⟨wf_moved _ _ _ hwe hm hbox, ?_⟩
    intro h3
    rw [crop_cube_k, expand_empty_slots_k] at h3
    omega
  · rw [if_neg hk]
    exact ⟨hwe, fun _ => hfe⟩

/-! ### The fill step -/

theorem value_fill_cell (cr : rooted_polycube) (hwf : cr.wf) (p : position)
    (hp : in_box cr.dim p) (cube : Int) (q : position) :
    (fill_cell cr p.x p.y p.z cube).value q = if q = p then FILLED_CUBE else cr.value q := by
  rw [← value_set_cube cr p FILLED_CUBE hwf.dim_pos hwf.length_eq hp q]
  rfl

theorem adjacent_sub (a b d : position) (h : adjacent (d.add a) b) :
    adjacent a ⟨b.x - d.x, b.y - d.y, b.z - d.z⟩ := by
  unfold adjacent at *
  simp only [position.add] at h
  dsimp only
  have hx : a.x - (b.x - d.x) = d.x + a.x - b.x := by omega
  have hy : a.y - (b.y - d.y) = d.y + a.y - b.y := by omega
  have hz : a.z - (b.z - d.z) = d.z + a.z - b.z := by omega
  rw [hx, hy, hz]
  exact h

theorem grown_by_faces_concat (l : List position) (e : position) (h : grown_by_faces l)
    (he : ∃ a ∈ l, adjacent a e) : grown_by_faces (l ++ [e]) := by
  intro i b hi hb
  by_cases hlt : i < l.length
  · rw [List.getElem?_append_left hlt] at hb
    obtain ⟨j, a, hj, ha, hadj⟩ := h i b hi hb
    exact ⟨j, a, hj, by rw [List.getElem?_append_left (by omega)]; exact ha, hadj⟩
  · have hi2 : i = l.length := by
      by_contra hne
      rw [List.getElem?_eq_none (by simp only [List.length_append, List.length_singleton]; omega)]
        at hb
      exact absurd hb (by simp)
    subst hi2
    rw [List.getElem?_append_right (le_refl _)] at hb
    simp only [Nat.sub_self, List.getElem?_cons_zero, Option.some.injEq] at hb
    subst hb
    obtain ⟨a, ha, hadj⟩ := he
    obtain ⟨j, hj, hja⟩ := List.mem_iff_getElem.mp ha
    refine ⟨j, a, hj, ?_, hadj⟩
    rw [List.getElem?_append_left hj, List.getElem?_eq_getElem hj, hja]

/-- Filling a labelled cell of a well-formed shape gives a well-formed shape. -/
theorem fill_wf (cr : rooted_polycube) (hwf : cr.wf) (hfo : cr.k ≥ 3 → cr.faces_ok)
    (p : position) (hp : in_box cr.dim p) (hc1 : cr.value p ≠ FILLED_CUBE)
    (hc2 : cr.value p > cr.highest_numbering) :
    (fill_cell cr p.x p.y p.z (cr.value p)).wf ∧
    ((fill_cell cr p.x p.y p.z (cr.value p)).k > 3 →
      (fill_cell cr p.x p.y p.z (cr.value p)).faces_ok) := by
  have hnn := hwf.numbering_nonneg
  have hp0 : cr.value p ≠ 0 := by omega
  have hval := value_fill_cell cr hwf p hp (cr.value p)
  have hstack : (fill_cell cr p.x p.y p.z (cr.value p)).filled_cubes
      = cr.filled_cubes ++ [⟨p.x - cr.root.x, p.y - cr.root.y, p.z - cr.root.z⟩] := rfl
  have hroot : (fill_cell cr p.x p.y p.z (cr.value p)).root = cr.root := rfl
  have hnew : cr.root.add ⟨p.x - cr.root.x, p.y - cr.root.y, p.z - cr.root.z⟩ = p := by
    apply position_ext <;> simp only [position.add] <;> omega
  have hnotin : (⟨p.x - cr.root.x, p.y - cr.root.y, p.z - cr.root.z⟩ : position)
      ∉ cr.filled_cubes := by
    intro hmem
    have := hwf.filled _ hmem
    rw [hnew] at this
    exact hc1 this
  obtain ⟨e1, he1, hadj1⟩ := hwf.labels_adjacent p hp0 hc1
  constructor
  · refine
      { dim_pos := hwf.dim_pos
        length_eq := ?_
        k_eq := ?_
        nonempty := ?_
        filled := ?_
        nodup := ?_
        grown := ?_
        bounds := ?_
        min_x := ?_
        min_y := ?_
        min_z := ?_
        max_x := ?_
        max_y := ?_
        max_z := ?_
        labels_adjacent := ?_
        numbering_nonneg := ?_
        labeled_bounds := ?_
        labeled_in_box := hwf.labeled_in_box }
    · show (array_set cr.cubes _ _).length = cr.size
      rw [array_set_length]; exact hwf.length_eq
    · have h1 : (fill_cell cr p.x p.y p.z (cr.value p)).k = cr.k + 1 := rfl
      rw [h1, hstack, List.length_append, List.length_singleton, hwf.k_eq]
      push_cast
      rfl
    · rw [hstack]; simp
    · intro e he
      rw [hval, hroot]
      rw [hstack] at he
      rcases List.mem_append.mp he with h | h
      · by_cases hq : cr.root.add e = p
        · rw [if_pos hq]
        · rw [if_neg hq]; exact hwf.filled e h
      · rw [List.mem_singleton] at h
        rw [h, hnew, if_pos rfl]
    · rw [hstack]
      exact List.Nodup.append hwf.nodup (List.nodup_singleton _)
        (by
          intro a ha hb
          rw [List.mem_singleton] at hb
          rw [hb] at ha
          exact hnotin ha)
    · rw [hstack]
      exact grown_by_faces_concat _ _ hwf.grown ⟨e1, he1, adjacent_sub _ _ _ hadj1⟩
    · intro e he
      rw [hroot]
      show (position_min cr.min_bounds ⟨p.x, p.y, p.z⟩).le (cr.root.add e) ∧
        (cr.root.add e).le (position_max cr.max_bounds ⟨p.x, p.y, p.z⟩)
      rw [hstack] at he
      rcases List.mem_append.mp he with h | h
      · obtain ⟨⟨a1, a2, a3⟩, ⟨a4, a5, a6⟩⟩ := hwf.bounds e h
        unfold position.le position_min position_max
        dsimp only
        omega
      · rw [List.mem_singleton] at h
        rw [h, hnew]
        unfold position.le position_min position_max
        dsimp only
        omega
    · show ∃ e ∈ (fill_cell cr p.x p.y p.z (cr.value p)).filled_cubes,
        (cr.root.add e).x = (position_min cr.min_bounds ⟨p.x, p.y, p.z⟩).x
      rw [hstack]
      obtain ⟨e, he, h⟩ := hwf.min_x
      by_cases hc : p.x ≤ cr.min_bounds.x
      · refine ⟨_, List.mem_append_right _ (List.mem_singleton_self _), ?_⟩
        rw [hnew]; unfold position_min; dsimp only; omega
      · refine ⟨e, List.mem_append_left _ he, ?_⟩
        rw [h]; unfold position_min; dsimp only; omega
    · show ∃ e ∈ (fill_cell cr p.x p.y p.z (cr.value p)).filled_cubes,
        (cr.root.add e).y = (position_min cr.min_bounds ⟨p.x, p.y, p.z⟩).y
      rw [hstack]
      obtain ⟨e, he, h⟩ := hwf.min_y
      by_cases hc : p.y ≤ cr.min_bounds.y
      · refine ⟨_, List.mem_append_right _ (List.mem_singleton_self _), ?_⟩
        rw [hnew]; unfold position_min; dsimp only; omega
      · refine ⟨e, List.mem_append_left _ he, ?_⟩
        rw [h]; unfold position_min; dsimp only; omega
    · show ∃ e ∈ (fill_cell cr p.x p.y p.z (cr.value p)).filled_cubes,
        (cr.root.add e).z = (position_min cr.min_bounds ⟨p.x, p.y, p.z⟩).z
      rw [hstack]
      obtain ⟨e, he, h⟩ := hwf.min_z
      by_cases hc : p.z ≤ cr.min_bounds.z
      · refine ⟨_, List.mem_append_right _ (List.mem_singleton_self _), ?_⟩
        rw [hnew]; unfold position_min; dsimp only; omega
      · refine ⟨e, List.mem_append_left _ he, ?_⟩
        rw [h]; unfold position_min; dsimp only; omega
    · show ∃ e ∈ (fill_cell cr p.x p.y p.z (cr.value p)).filled_cubes,
        (cr.root.add e).x = (position_max cr.max_bounds ⟨p.x, p.y, p.z⟩).x
      rw [hstack]
      obtain ⟨e, he, h⟩ := hwf.max_x
      by_cases hc : cr.max_bounds.x ≤ p.x
      · refine ⟨_, List.mem_append_right _ (List.mem_singleton_self _), ?_⟩
        rw [hnew]; unfold position_max; dsimp only; omega
      · refine ⟨e, List.mem_append_left _ he, ?_⟩
        rw [h]; unfold position_max; dsimp only; omega
    · show ∃ e ∈ (fill_cell cr p.x p.y p.z (cr.value p)).filled_cubes,
        (cr.root.add e).y = (position_max cr.max_bounds ⟨p.x, p.y, p.z⟩).y
      rw [hstack]
      obtain ⟨e, he, h⟩ := hwf.max_y
      by_cases hc : cr.max_bounds.y ≤ p.y
      · refine ⟨_, List.mem_append_right _ (List.mem_singleton_self _), ?_⟩
        rw [hnew]; unfold position_max; dsimp only; omega
      · refine ⟨e, List.mem_append_left _ he, ?_⟩
        rw [h]; unfold position_max; dsimp only; omega
    · show ∃ e ∈ (fill_cell cr p.x p.y p.z (cr.value p)).filled_cubes,
        (cr.root.add e).z = (position_max cr.max_bounds ⟨p.x, p.y, p.z⟩).z
      rw [hstack]
      obtain ⟨e, he, h⟩ := hwf.max_z
      by_cases hc : cr.max_bounds.z ≤ p.z
      · refine ⟨_, List.mem_append_right _ (List.mem_singleton_self _), ?_⟩
        rw [hnew]; unfold position_max; dsimp only; omega
      · refine ⟨e, List.mem_append_left _ he, ?_⟩
        rw [h]; unfold position_max; dsimp only; omega
    · intro q hq0 hqf
      rw [hval] at hq0 hqf
      by_cases hq : q = p
      · rw [if_pos hq] at hqf; exact absurd rfl hqf
      · rw [if_neg hq] at hq0 hqf
        obtain ⟨e, he, hadj⟩ := hwf.labels_adjacent q hq0 hqf
        exact ⟨e, by rw [hstack]; exact List.mem_append_left _ he, hadj⟩
    · show 0 ≤ cr.value p
      omega
    · intro q hq0
      rw [hval] at hq0
      show cr.labeled_min_bounds.le q ∧ q.le cr.labeled_max_bounds
      by_cases hq : q = p
      · rw [hq]; exact hwf.labeled_bounds p hp0
      · rw [if_neg hq] at hq0
        exact hwf.labeled_bounds q hq0
  · intro hk q hq0
    have hk' : cr.k ≥ 3 := by
      have : (fill_cell cr p.x p.y p.z (cr.value p)).k = cr.k + 1 := rfl
      omega
    rw [hval] at hq0
    show on_one_face cr.dim q
    by_cases hq : q = p
    · rw [hq]; exact hfo hk' p hp0
    · rw [if_neg hq] at hq0
      exact hfo hk' q hq0

/-- The backtrack step undoes the fill step. -/
theorem restore_fill (cr : rooted_polycube) (x y z : Int) :
    restore_cell (fill_cell cr x y z (array_get cr.cubes (cr.index x y z))) x y z
      (array_get cr.cubes (cr.index x y z)) cr.highest_numbering cr.min_bounds cr.max_bounds
      = cr := by
  obtain ⟨k, root, dim, hn, hw, cubes, mn, mx, lmn, lmx, stack⟩ := cr
  simp only [restore_cell, fill_cell, rooted_polycube.set_cube, rooted_polycube.index,
    List.dropLast_concat, array_set_restore, rooted_polycube.mk.injEq, and_true, true_and]
  omega

/-! ### The shapes handed to the found sink -/

theorem grown_by_faces_map (l : List position) (f : position → position)
    (hf : ∀ a b, adjacent a b → adjacent (f a) (f b)) (h : grown_by_faces l) :
    grown_by_faces (l.map f) := by
  intro i b hi hb
  rw [List.getElem?_map] at hb
  cases hli : l[i]? with
  | none => rw [hli] at hb; exact absurd hb (by simp)
  | some b0 =>
    rw [hli] at hb
    simp only [Option.map_some', Option.some.injEq] at hb
    subst hb
    obtain ⟨j, a, hj, ha, hadj⟩ := h i b0 hi hli
    exact ⟨j, f a, hj, by rw [List.getElem?_map, ha]; rfl, hf a b0 hadj⟩

/-- The sparse form of a well-formed rooted shape with `n` cubes is a polycube
of size `n` that sits tightly in its box. -/
theorem sparse_is_polycube (s : rooted_polycube) (hwf : s.wf) (n : Int) (hk : s.k = n) :
    (get_polycube_sparse_from_rooted s).is_polycube n := by
  have hcubes : (get_polycube_sparse_from_rooted s).cubes
      = s.filled_cubes.map fun c => (c.add s.root).add
          ⟨-s.min_bounds.x, -s.min_bounds.y, -s.min_bounds.z⟩ := rfl
  have hdim : (get_polycube_sparse_from_rooted s).dim
      = ⟨s.max_bounds.x - s.min_bounds.x + 1, s.max_bounds.y - s.min_bounds.y + 1,
          s.max_bounds.z - s.min_bounds.z + 1⟩ := rfl
  have hcoord : ∀ e : position,
      ((e.add s.root).add ⟨-s.min_bounds.x, -s.min_bounds.y, -s.min_bounds.z⟩).x
        = (s.root.add e).x - s.min_bounds.x ∧
      ((e.add s.root).add ⟨-s.min_bounds.x, -s.min_bounds.y, -s.min_bounds.z⟩).y
        = (s.root.add e).y - s.min_bounds.y ∧
      ((e.add s.root).add ⟨-s.min_bounds.x, -s.min_bounds.y, -s.min_bounds.z⟩).z
        = (s.root.add e).z - s.min_bounds.z := by
    intro e
    simp only [position.add]
    omega
  refine
    { size_eq := ?_, nodup := ?_, inside := ?_, face_x_low := ?_, face_y_low := ?_
      face_z_low := ?_, face_x_high := ?_, face_y_high := ?_, face_z_high := ?_
      connected := ?_ }
  · unfold polycube_sparse.num_cubes
    rw [hcubes, List.length_map, ← hwf.k_eq, hk]
  · rw [hcubes]
    apply List.Nodup.map _ hwf.nodup
    intro a b hab
    have hx := congrArg position.x hab
    have hy := congrArg position.y hab
    have hz := congrArg position.z hab
    simp only [position.add] at hx hy hz
    apply position_ext <;> omega
  · intro c hc
    rw [hcubes] at hc
    obtain ⟨e, he, rfl⟩ := List.mem_map.mp hc
    obtain ⟨⟨a1, a2, a3⟩, ⟨a4, a5, a6⟩⟩ := hwf.bounds e he
    obtain ⟨c1, c2, c3⟩ := hcoord e
    rw [hdim]
    unfold in_box
    dsimp only
    omega
  · obtain ⟨e, he, h⟩ := hwf.min_x
    exact ⟨_, by rw [hcubes]; exact List.mem_map.mpr ⟨e, he, rfl⟩, by rw [(hcoord e).1]; omega⟩
  · obtain ⟨e, he, h⟩ := hwf.min_y
    exact ⟨_, by rw [hcubes]; exact List.mem_map.mpr ⟨e, he, rfl⟩, by rw [(hcoord e).2.1]; omega⟩
  · obtain ⟨e, he, h⟩ := hwf.min_z
    exact ⟨_, by rw [hcubes]; exact List.mem_map.mpr ⟨e, he, rfl⟩, by rw [(hcoord e).2.2]; omega⟩
  · obtain ⟨e, he, h⟩ := hwf.max_x
    exact ⟨_, by rw [hcubes]; exact List.mem_map.mpr ⟨e, he, rfl⟩,
      by rw [(hcoord e).1, hdim]; dsimp only; omega⟩
  · obtain ⟨e, he, h⟩ := hwf.max_y
    exact ⟨_, by rw [hcubes]; exact List.mem_map.mpr ⟨e, he, rfl⟩,
      by rw [(hcoord e).2.1, hdim]; dsimp only; omega⟩
  · obtain ⟨e, he, h⟩ := hwf.max_z
    exact ⟨_, by rw [hcubes]; exact List.mem_map.mpr ⟨e, he, rfl⟩,
      by rw [(hcoord e).2.2, hdim]; dsimp only; omega⟩
  · rw [hcubes]
    apply grown_by_faces_map _ _ _ hwf.grown
    intro a b hab
    unfold adjacent at *
    simp only [position.add]
    have hx : a.x + s.root.x + -s.min_bounds.x - (b.x + s.root.x + -s.min_bounds.x)
        = a.x - b.x := by omega
    have hy : a.y + s.root.y + -s.min_bounds.y - (b.y + s.root.y + -s.min_bounds.y)
        = a.y - b.y := by omega
    have hz : a.z + s.root.z + -s.min_bounds.z - (b.z + s.root.z + -s.min_bounds.z)
        = a.z - b.z := by omega
    rw [hx, hy, hz]
    exact hab

/-- One visited cell, for a scanned shape that is well-formed: the scanned
shape is left as it was, and what is added to the found shapes is a polycube. -/
theorem dfs_visit_good (recurse : rooted_polycube → dfs_output) (n m : Int)
    (cr : rooted_polycube) (hwf : cr.wf) (hfo : cr.k ≥ 3 → cr.faces_ok)
    (hrec : ∀ s : rooted_polycube, s.wf → (s.k > 3 → s.faces_ok) →
      ∀ pc ∈ (recurse s).found, pc.is_polycube n)
    (out : dfs_output) (hout : ∀ pc ∈ out.found, pc.is_polycube n)
    (c : Nat × position) (hc : c ∈ for_each_cube_cells cr.dim) :
    (dfs_visit recurse n m cr.highest_numbering cr.min_bounds cr.max_bounds (cr, out) c).1 = cr ∧
    ∀ pc ∈ (dfs_visit recurse n m cr.highest_numbering cr.min_bounds cr.max_bounds
      (cr, out) c).2.found, pc.is_polycube n := by
  obtain ⟨hbox, hidx⟩ := (cells_mem_iff cr.dim c.1 c.2).mp hc
  have hcube : array_get cr.cubes c.1 = cr.value c.2 := by
    rw [value_of_in_box cr c.2 hbox, ← hidx]
  have hcube2 : array_get cr.cubes (cr.index c.2.x c.2.y c.2.z) = cr.value c.2 := by
    rw [value_of_in_box cr c.2 hbox]; rfl
  unfold dfs_visit
  dsimp only
  rw [hcube]
  split
  · rename_i hcand
    split
    · exact ⟨rfl, hout⟩
    · constructor
      · have := restore_fill cr c.2.x c.2.y c.2.z
        rw [hcube2] at this
        exact this
      · obtain ⟨hwf2, hfo2⟩ := fill_wf cr hwf hfo c.2 hbox hcand.1 hcand.2
        unfold dfs_emit
        dsimp only
        split
        · rename_i hkn
          split
          · split
            · intro pc hpc
              rcases List.mem_append.mp hpc with h | h
              · exact hout pc h
              · rw [List.mem_singleton] at h
                rw [h]
                exact sparse_is_polycube _ hwf2 n hkn
            · exact hout
          · exact hout
        · split
          · exact hout
          · intro pc hpc
            rcases List.mem_append.mp hpc with h | h
            · exact hout pc h
            · exact hrec _ hwf2 hfo2 pc h
  · exact ⟨rfl, hout⟩

theorem dfs_level_good (recurse : rooted_polycube → dfs_output) (n m : Int)
    (current : rooted_polycube) (hwf : current.wf) (hf : current.k > 3 → current.faces_ok)
    (hrec : ∀ s : rooted_polycube, s.wf → (s.k > 3 → s.faces_ok) →
      ∀ pc ∈ (recurse s).found, pc.is_polycube n) :
    ∀ pc ∈ (dfs_level recurse n m current).found, pc.is_polycube n := by
  obtain ⟨hwc, hfc⟩ := cropped_wf current hwf hf
  unfold dfs_level
  dsimp only
  generalize (if current.k < 3 then crop_cube (expand_empty_slots current)
    else expand_empty_slots current) = cr at hwc hfc ⊢
  have hinv := foldl_invariant
    (fun st : rooted_polycube × dfs_output =>
      st.1 = cr ∧ ∀ pc ∈ st.2.found, pc.is_polycube n)
    (dfs_visit recurse n m cr.highest_numbering cr.min_bounds cr.max_bounds)
    (for_each_cube_cells cr.dim) (cr, ⟨0, [], []⟩)
    ⟨rfl, fun pc hpc => absurd hpc (List.not_mem_nil pc)⟩
    (fun st c hc hst => by
      obtain ⟨st1, st2⟩ := st
      obtain ⟨h1, h2⟩ := hst
      dsimp only at h1 h2
      subst h1
      exact dfs_visit_good recurse n m st1 hwc hfc hrec st2 h2 c hc)
  exact hinv.2

theorem from_current_fuel_good (fuel : Nat) (n m : Int) :
    ∀ current : rooted_polycube, current.wf → (current.k > 3 → current.faces_ok) →
      ∀ pc ∈ (expand_polycubes_dfs_from_current_fuel fuel n m current).found,
        pc.is_polycube n := by
  induction fuel with
  | zero =>
    intro current _ _ pc hpc
    exact absurd hpc (List.not_mem_nil pc)
  | succ fuel ih =>
    intro current hwf hf
    unfold expand_polycubes_dfs_from_current_fuel
    exact dfs_level_good _ n m current hwf hf ih

theorem initial_polycube_wf : initial_polycube.wf := by
  have hv : ∀ p, initial_polycube.value p ≠ 0 → p = ⟨0, 0, 0⟩ := by
    intro p hp
    have hb := in_box_of_value_ne_zero _ p hp
    unfold in_box at hb
    have h1 : initial_polycube.dim = ⟨1, 1, 1⟩ := rfl
    rw [h1] at hb
    dsimp only at hb
    apply position_ext <;> dsimp only <;> omega
  have hroot : initial_polycube.value ⟨0, 0, 0⟩ = FILLED_CUBE := by decide
  refine
    { dim_pos := by decide
      length_eq := by decide
      k_eq := by decide
      nonempty := by decide
      filled := ?_
      nodup := by
        show [(⟨0, 0, 0⟩ : position)].Nodup
        exact List.nodup_singleton _
      grown := ?_
      bounds := ?_
      min_x := ⟨⟨0, 0, 0⟩, List.mem_singleton_self _, rfl⟩
      min_y := ⟨⟨0, 0, 0⟩, List.mem_singleton_self _, rfl⟩
      min_z := ⟨⟨0, 0, 0⟩, List.mem_singleton_self _, rfl⟩
      max_x := ⟨⟨0, 0, 0⟩, List.mem_singleton_self _, rfl⟩
      max_y := ⟨⟨0, 0, 0⟩, List.mem_singleton_self _, rfl⟩
      max_z := ⟨⟨0, 0, 0⟩, List.mem_singleton_self _, rfl⟩
      labels_adjacent := ?_
      numbering_nonneg := by decide
      labeled_bounds := ?_
      labeled_in_box := by decide }
  · intro e he
    have : e = ⟨0, 0, 0⟩ := List.mem_singleton.mp he
    rw [this]
    exact hroot
  · intro i b hi hb
    have hlen : initial_polycube.filled_cubes.length = 1 := rfl
    rw [List.getElem?_eq_none (by omega)] at hb
    exact absurd hb (by simp)
  · intro e he
    have : e = ⟨0, 0, 0⟩ := List.mem_singleton.mp he
    rw [this]
    exact ⟨⟨by decide, by decide, by decide⟩, ⟨by decide, by decide, by decide⟩⟩
  · intro p hp0 hpf
    rw [hv p hp0] at hpf
    exact absurd hroot hpf
  · intro p hp0
    rw [hv p hp0]
    exact ⟨⟨by decide, by decide, by decide⟩, ⟨by decide, by decide, by decide⟩⟩

/-- The search for the target size 3 hands two shapes to the found sink. -/
theorem dfs_three_found : (expand_polycubes_dfs 3 3).found.length = 2 := by
  decide!

/-- C9: every sparse shape handed to the found sink by
`expand_polycubes_dfs n n`, `3 <= n <= 32` (32 cells is what the arrays of
a shape hold), is a polycube of size `n` that sits tightly in its box: it
has `n` cells, the cells are pairwise distinct, every cell lies inside the
box, each of the six faces of the box is touched by some cell, and every
cell after the first shares a face with an earlier cell of the sequence. -/
theorem c9_found_shapes_are_polycubes (n : Int) (hn : n ≥ 3) (hn32 : n ≤ 32) :
    ∀ pc ∈ (expand_polycubes_dfs n n).found, pc.is_polycube n := by
  unfold expand_polycubes_dfs
  have h1 : ¬ n < 1 := by omega
  have h2 : ¬ (n = 1 ∨ n = 2) := by omega
  rw [if_neg h1, if_neg h2]
  unfold expand_polycubes_dfs_from_current
  exact from_current_fuel_good _ n n initial_polycube initial_polycube_wf
    (fun h => absurd h (by decide))

theorem c9_found_shapes_are_polycubes_witness :
    (3 : Int) ≥ 3 ∧ (3 : Int) ≤ 32 ∧ (expand_polycubes_dfs 3 3).found.length = 2 ∧
    ∀ pc ∈ (expand_polycubes_dfs 3 3).found, pc.is_polycube 3 :=
  ⟨by decide, by decide, dfs_three_found,
    c9_found_shapes_are_polycubes 3 (by decide) (by decide)⟩


/-! ### The allocator and the queue -/

theorem allocate_many_some {N : Nat} (k : Nat) :
    ∀ a : stack_allocator_typed N,
      (allocate_many k a).filterMap id = List.range' a.m_ptr (min k (N - a.m_ptr)) := by
  induction k with
  | zero =>
    intro a
    simp [allocate_many]
  | succ k ih =>
    intro a
    unfold allocate_many
    by_cases h : a.m_ptr ≥ N
    · have h0 : N - a.m_ptr = 0 := by omega
      have ha : a.allocate = (none, a) := by
        unfold stack_allocator_typed.allocate
        rw [if_pos h]
      rw [ha]
      have := ih a
      rw [h0] at this ⊢
      simpa using this
    · have ha : a.allocate = (some a.m_ptr, ⟨a.m_ptr + 1⟩) := by
        unfold stack_allocator_typed.allocate
        rw [if_neg h]
      rw [ha]
      have := ih (⟨a.m_ptr + 1⟩ : stack_allocator_typed N)
      have hmin : min (k + 1) (N - a.m_ptr) = min k (N - (a.m_ptr + 1)) + 1 := by omega
      rw [hmin, List.range'_succ]
      simpa using this

/-- C11: `allocate` returns the null result exactly when the cursor has
reached the capacity `N`, and then leaves the allocator as it is; otherwise it
returns the slot at the cursor and moves the cursor forward by one.  Hence
the slots returned by any number of consecutive calls are the consecutive
indices from the cursor on, as many as fit: they are pairwise distinct and in
increasing order. -/
theorem c11_allocate_contract (N : Nat) (a : stack_allocator_typed N) (k : Nat) :
    (a.allocate.1 = none ↔ a.m_ptr ≥ N) ∧
    (a.m_ptr ≥ N → a.allocate.2 = a) ∧
    (a.m_ptr < N → a.allocate.1 = some a.m_ptr ∧ a.allocate.2.m_ptr = a.m_ptr + 1) ∧
    (allocate_many k a).filterMap id = List.range' a.m_ptr (min k (N - a.m_ptr)) ∧
    ((allocate_many k a).filterMap id).Nodup ∧
    ((allocate_many k a).filterMap id).Sorted (· < ·) := by
  have hmany := allocate_many_some k a
  refine ⟨?_, ?_, ?_, hmany, ?_, ?_⟩
  · unfold stack_allocator_typed.allocate
    by_cases h : a.m_ptr ≥ N
    · simp [h]
    · simp [h]
  · intro h
    unfold stack_allocator_typed.allocate
    rw [if_pos h]
  · intro h
    unfold stack_allocator_typed.allocate
    rw [if_neg (by omega)]
    exact ⟨rfl, rfl⟩
  · rw [hmany]
    exact List.nodup_range' _ _
  · rw [hmany]
    exact List.pairwise_lt_range' _ _

theorem c11_allocate_contract_witness :
    ((⟨1⟩ : stack_allocator_typed 3).allocate.1 = none ↔ 1 ≥ 3) ∧
    ((allocate_many 4 (⟨1⟩ : stack_allocator_typed 3)).filterMap id = [1, 2]) :=
  ⟨(c11_allocate_contract 3 ⟨1⟩ 4).1, (c11_allocate_contract 3 ⟨1⟩ 4).2.2.2.1⟩

theorem enqueue_unbounded {T : Type} (fuel : Nat) (q : thread_safe_queue T) (element : T)
    (hb : q.m_size_bound < 0) :
    q.enqueue (fuel + 1) element = some { q with m_queue := q.m_queue ++ [element] } := by
  unfold thread_safe_queue.enqueue thread_safe_queue.enqueue_pass
  rw [if_pos (Or.inl hb)]

theorem run_history_fifo {T : Type} (fuel : Nat) (history : List (queue_call T)) :
    ∀ q : thread_safe_queue T, q.m_size_bound < 0 →
      queue_return.blocked ∉ (run_history (fuel + 1) history q).1 ∧
      (run_history (fuel + 1) history q).2.m_size_bound < 0 ∧
      dequeued_items (run_history (fuel + 1) history q).1
          ++ (run_history (fuel + 1) history q).2.m_queue
        = q.m_queue ++ enqueued_items history := by
  induction history with
  | nil =>
    intro q hb
    simp [run_history, dequeued_items, enqueued_items, hb]
  | cons c rest ih =>
    intro q hb
    cases c with
    | enqueue element =>
      have hrun : (queue_call.enqueue element).run (fuel + 1) q
          = (.enqueued, { q with m_queue := q.m_queue ++ [element] }) := by
        simp only [queue_call.run]
        rw [enqueue_unbounded fuel q element hb]
      have h := ih { q with m_queue := q.m_queue ++ [element] } hb
      unfold run_history
      rw [hrun]
      dsimp only
      refine ⟨?_, h.2.1, ?_⟩
      · intro hmem
        rcases List.mem_cons.mp hmem with h1 | h1
        · cases h1
        · exact h.1 h1
      · unfold dequeued_items enqueued_items
        rw [h.2.2]
        simp
    | dequeue outElement =>
      unfold run_history
      cases hq : q.m_queue with
      | nil =>
        have hd : q.dequeue outElement = (false, outElement, q) := by
          unfold thread_safe_queue.dequeue
          rw [hq]
        have hrun : (queue_call.dequeue outElement).run (fuel + 1) q
            = (.dequeued false outElement, q) := by
          simp only [queue_call.run]
          rw [hd]
        have h := ih q hb
        rw [hrun]
        dsimp only
        refine ⟨?_, h.2.1, ?_⟩
        · intro hmem
          rcases List.mem_cons.mp hmem with h1 | h1
          · cases h1
          · exact h.1 h1
        · unfold dequeued_items enqueued_items
          rw [h.2.2, hq]
      | cons front tail =>
        have hd : q.dequeue outElement = (true, front, { q with m_queue := tail }) := by
          unfold thread_safe_queue.dequeue
          rw [hq]
        have hrun : (queue_call.dequeue outElement).run (fuel + 1) q
            = (.dequeued true front, { q with m_queue := tail }) := by
          simp only [queue_call.run]
          rw [hd]
        have h := ih { q with m_queue := tail } hb
        rw [hrun]
        dsimp only
        refine ⟨?_, h.2.1, ?_⟩
        · intro hmem
          rcases List.mem_cons.mp hmem with h1 | h1
          · cases h1
          · exact h.1 h1
        · unfold dequeued_items enqueued_items
          rw [List.cons_append, h.2.2]
          rfl

/-- C12: in a sequential history on a queue without bound, `dequeue` returns
`false` exactly when the queue is empty and then changes neither the queue nor
`outElement`; otherwise it takes the front item out and returns it.  Every
`enqueue` returns, and the items handed out so far followed by the items still
queued are the items enqueued, in enqueue order: items come out in that
order, none is lost and none comes out twice. -/
theorem c12_sequential_fifo (T : Type) (fuel : Nat) (bound : Int) (hb : bound < 0)
    (q : thread_safe_queue T) (outElement : T) (history : List (queue_call T)) :
    ((q.dequeue outElement).1 = false ↔ q.m_queue = []) ∧
    (q.m_queue = [] → q.dequeue outElement = (false, outElement, q)) ∧
    (∀ front rest, q.m_queue = front :: rest →
      q.dequeue outElement = (true, front, { q with m_queue := rest })) ∧
    queue_return.blocked ∉ (run_history (fuel + 1) history (thread_safe_queue.create T bound)).1 ∧
    dequeued_items (run_history (fuel + 1) history (thread_safe_queue.create T bound)).1
        ++ (run_history (fuel + 1) history (thread_safe_queue.create T bound)).2.m_queue
      = enqueued_items history := by
  have h := run_history_fifo fuel history (thread_safe_queue.create T bound) hb
  refine ⟨?_, ?_, ?_, h.1, ?_⟩
  · unfold thread_safe_queue.dequeue
    cases q.m_queue <;> simp
  · intro hq
    unfold thread_safe_queue.dequeue
    rw [hq]
  · intro front rest hq
    unfold thread_safe_queue.dequeue
    rw [hq]
  · rw [h.2.2]
    rfl

theorem c12_sequential_fifo_witness :
    ((-1 : Int) < 0) ∧
    dequeued_items (run_history 1
        [queue_call.enqueue 7, queue_call.enqueue 8, queue_call.dequeue 0, queue_call.dequeue 0,
          queue_call.dequeue 0, queue_call.enqueue 9]
        (thread_safe_queue.create Nat (-1))).1
      ++ (run_history 1
        [queue_call.enqueue 7, queue_call.enqueue 8, queue_call.dequeue 0, queue_call.dequeue 0,
          queue_call.dequeue 0, queue_call.enqueue 9]
        (thread_safe_queue.create Nat (-1))).2.m_queue
      = [7, 8, 9] :=
  ⟨by decide, (c12_sequential_fifo Nat 0 (-1) (by decide) (thread_safe_queue.create Nat (-1)) 0
    [queue_call.enqueue 7, queue_call.enqueue 8, queue_call.dequeue 0, queue_call.dequeue 0,
      queue_call.dequeue 0, queue_call.enqueue 9]).2.2.2.2⟩
/-! ### The queue under concurrent use -/

theorem scanned_shape_wf (current : rooted_polycube) (hwf : current.wf)
    (hf : current.k > 3 → current.faces_ok) :
    (scanned_shape current).wf ∧
    ((scanned_shape current).k ≥ 3 → (scanned_shape current).faces_ok) :=
  cropped_wf current hwf hf

theorem scanned_shape_k (current : rooted_polycube) : (scanned_shape current).k = current.k :=
  cropped_k current

/-- The candidate test of the scan, read on the value of the grid. -/
theorem is_candidate_value (cr : rooted_polycube) (c : Nat × position)
    (hc : c ∈ for_each_cube_cells cr.dim) :
    in_box cr.dim c.2 ∧ array_get cr.cubes c.1 = cr.value c.2 ∧
    array_get cr.cubes (cr.index c.2.x c.2.y c.2.z) = cr.value c.2 := by
  obtain ⟨hbox, hidx⟩ := (cells_mem_iff cr.dim c.1 c.2).mp hc
  refine ⟨hbox, ?_, ?_⟩
  · rw [value_of_in_box cr c.2 hbox, ← hidx]
  · rw [value_of_in_box cr c.2 hbox]; rfl

theorem search_current_wf (s : rooted_polycube) (h : search_current s) :
    s.wf ∧ (s.k > 3 → s.faces_ok) := by
  induction h with
  | initial => exact ⟨initial_polycube_wf, fun hk => absurd hk (by decide)⟩
  | filled current c _ hc hcand ih =>
    obtain ⟨hwc, hfc⟩ := scanned_shape_wf current ih.1 ih.2
    obtain ⟨hbox, hv, _⟩ := is_candidate_value _ c hc
    unfold filled_shape
    rw [hv]
    unfold is_candidate at hcand
    rw [hv] at hcand
    exact fill_wf _ hwc hfc c.2 hbox hcand.1.1 hcand.1.2

theorem padded_wf (s : rooted_polycube) (hwf : s.wf) :
    (pad_cube s).1.wf := by
  obtain ⟨hm, _, hdim⟩ := pad_cube_moved s hwf.dim_pos
  obtain ⟨⟨lx0, lx1⟩, ⟨ly0, ly1⟩, ⟨lz0, lz1⟩, ⟨hx0, hx1⟩, ⟨hy0, hy1⟩, ⟨hz0, hz1⟩⟩ :=
    pad_deltas_range s
  have hbox : in_box (pad_cube s).1.dim (pad_cube s).1.labeled_min_bounds ∧
      in_box (pad_cube s).1.dim (pad_cube s).1.labeled_max_bounds := by
    rw [hdim, hm.labeled_min_eq, hm.labeled_max_eq]
    obtain ⟨b1, b2⟩ := hwf.labeled_in_box
    unfold in_box at *
    simp only [position.add]
    omega
  exact wf_moved s _ _ hwf hm hbox

theorem search_shape_wf (s : rooted_polycube) (h : search_shape s) : s.wf := by
  cases h with
  | current s hs => exact (search_current_wf s hs).1
  | padded s hs => exact padded_wf s (search_current_wf s hs).1
  | expanded s hs => exact (expand_wf s (search_current_wf s hs).1 (search_current_wf s hs).2).1
  | cropped s hs hk =>
    have := (scanned_shape_wf s (search_current_wf s hs).1 (search_current_wf s hs).2).1
    unfold scanned_shape at this
    rw [if_pos hk] at this
    exact this

/-! ### What the search hands out comes from these shapes -/

theorem dfs_visit_searched (recurse : rooted_polycube → dfs_output) (n m : Int)
    (current : rooted_polycube) (hcur : search_current current)
    (hrec : ∀ s : rooted_polycube, search_current s →
      (∀ t ∈ (recurse s).expanded, search_current t ∧ t.k = m) ∧
      ∀ pc ∈ (recurse s).found, ∃ t, search_current t ∧ t.k = n ∧
        pc = get_polycube_sparse_from_rooted t)
    (out : dfs_output)
    (hout : (∀ t ∈ out.expanded, search_current t ∧ t.k = m) ∧
      ∀ pc ∈ out.found, ∃ t, search_current t ∧ t.k = n ∧
        pc = get_polycube_sparse_from_rooted t)
    (c : Nat × position) (hc : c ∈ for_each_cube_cells (scanned_shape current).dim) :
    (dfs_visit recurse n m (scanned_shape current).highest_numbering
        (scanned_shape current).min_bounds (scanned_shape current).max_bounds
        (scanned_shape current, out) c).1 = scanned_shape current ∧
    (∀ t ∈ (dfs_visit recurse n m (scanned_shape current).highest_numbering
        (scanned_shape current).min_bounds (scanned_shape current).max_bounds
        (scanned_shape current, out) c).2.expanded, search_current t ∧ t.k = m) ∧
    ∀ pc ∈ (dfs_visit recurse n m (scanned_shape current).highest_numbering
        (scanned_shape current).min_bounds (scanned_shape current).max_bounds
        (scanned_shape current, out) c).2.found, ∃ t, search_current t ∧ t.k = n ∧
          pc = get_polycube_sparse_from_rooted t := by
  obtain ⟨hbox, hv, hv2⟩ := is_candidate_value _ c hc
  unfold dfs_visit
  dsimp only
  split
  · rename_i hcand
    split
    · exact ⟨rfl, hout⟩
    · rename_i hbr
      have hfs : search_current (filled_shape current c) :=
        search_current.filled current c hcur hc ⟨hcand, by simpa using hbr⟩
      constructor
      · have := restore_fill (scanned_shape current) c.2.x c.2.y c.2.z
        rw [hv2, ← hv] at this
        exact this
      · show (∀ t ∈ (dfs_emit recurse n m (filled_shape current c) out).expanded,
            search_current t ∧ t.k = m) ∧
          ∀ pc ∈ (dfs_emit recurse n m (filled_shape current c) out).found,
            ∃ t, search_current t ∧ t.k = n ∧ pc = get_polycube_sparse_from_rooted t
        unfold dfs_emit
        dsimp only
        split
        · rename_i hkn
          split
          · split
            · refine ⟨hout.1, ?_⟩
              intro pc hpc
              rcases List.mem_append.mp hpc with h | h
              · exact hout.2 pc h
              · rw [List.mem_singleton] at h
                exact ⟨_, hfs, hkn, h⟩
            · exact hout
          · exact hout
        · split
          · rename_i hkm
            refine ⟨?_, hout.2⟩
            intro t ht
            rcases List.mem_append.mp ht with h | h
            · exact hout.1 t h
            · rw [List.mem_singleton] at h
              rw [h]
              exact ⟨hfs, hkm⟩
          · obtain ⟨r1, r2⟩ := hrec _ hfs
            constructor
            · intro t ht
              rcases List.mem_append.mp ht with h | h
              · exact hout.1 t h
              · exact r1 t h
            · intro pc hpc
              rcases List.mem_append.mp hpc with h | h
              · exact hout.2 pc h
              · exact r2 pc h
  · exact ⟨rfl, hout⟩

theorem dfs_level_searched (recurse : rooted_polycube → dfs_output) (n m : Int)
    (current : rooted_polycube) (hcur : search_current current)
    (hrec : ∀ s : rooted_polycube, search_current s →
      (∀ t ∈ (recurse s).expanded, search_current t ∧ t.k = m) ∧
      ∀ pc ∈ (recurse s).found, ∃ t, search_current t ∧ t.k = n ∧
        pc = get_polycube_sparse_from_rooted t) :
    (∀ t ∈ (dfs_level recurse n m current).expanded, search_current t ∧ t.k = m) ∧
    ∀ pc ∈ (dfs_level recurse n m current).found, ∃ t, search_current t ∧ t.k = n ∧
      pc = get_polycube_sparse_from_rooted t := by
  have hinv := foldl_invariant
    (fun st : rooted_polycube × dfs_output =>
      st.1 = scanned_shape current ∧
      (∀ t ∈ st.2.expanded, search_current t ∧ t.k = m) ∧
      ∀ pc ∈ st.2.found, ∃ t, search_current t ∧ t.k = n ∧
        pc = get_polycube_sparse_from_rooted t)
    (dfs_visit recurse n m (scanned_shape current).highest_numbering
      (scanned_shape current).min_bounds (scanned_shape current).max_bounds)
    (for_each_cube_cells (scanned_shape current).dim) (scanned_shape current, ⟨0, [], []⟩)
    ⟨rfl, fun t ht => absurd ht (List.not_mem_nil t),
      fun pc hpc => absurd hpc (List.not_mem_nil pc)⟩
    (fun st c hc hst => by
      obtain ⟨st1, st2⟩ := st
      obtain ⟨h1, h2⟩ := hst
      dsimp only at h1 h2
      subst h1
      exact dfs_visit_searched recurse n m current hcur hrec st2 h2 c hc)
  exact hinv.2

theorem from_current_fuel_searched (fuel : Nat) (n m : Int) :
    ∀ current : rooted_polycube, search_current current →
      (∀ t ∈ (expand_polycubes_dfs_from_current_fuel fuel n m current).expanded,
        search_current t ∧ t.k = m) ∧
      ∀ pc ∈ (expand_polycubes_dfs_from_current_fuel fuel n m current).found,
        ∃ t, search_current t ∧ t.k = n ∧ pc = get_polycube_sparse_from_rooted t := by
  induction fuel with
  | zero =>
    intro current _
    exact ⟨fun t ht => absurd ht (List.not_mem_nil t),
      fun pc hpc => absurd hpc (List.not_mem_nil pc)⟩
  | succ fuel ih =>
    intro current hcur
    unfold expand_polycubes_dfs_from_current_fuel
    exact dfs_level_searched _ n m current hcur ih

/-- Every shape handed to `on_expanded` is a shape of the search with `m`
cubes, and every shape handed to `on_found` is the sparse form of a shape of
the search with `n` cubes. -/
theorem dfs_searched (n m : Int) :
    (∀ t ∈ (expand_polycubes_dfs n m).expanded, search_current t ∧ t.k = m) ∧
    ∀ pc ∈ (expand_polycubes_dfs n m).found, ∃ t, search_current t ∧ t.k = n ∧
      pc = get_polycube_sparse_from_rooted t := by
  unfold expand_polycubes_dfs
  split
  · exact ⟨fun t ht => absurd ht (List.not_mem_nil t),
      fun pc hpc => absurd hpc (List.not_mem_nil pc)⟩
  · split
    · exact ⟨fun t ht => absurd ht (List.not_mem_nil t),
        fun pc hpc => absurd hpc (List.not_mem_nil pc)⟩
    · exact from_current_fuel_searched _ n m initial_polycube search_current.initial


/-! ### The root is the first filled cell -/

theorem copy_fold_header (base : rooted_polycube) (delta : position)
    (l : List (Nat × position)) (out0 : rooted_polycube) :
    same_header (l.foldl (copy_cell base delta) out0) out0 :=
  foldl_invariant (fun out : rooted_polycube => same_header out out0) _ _ _
    (same_header_refl out0)
    (fun b a _ hb => same_header_trans (same_header_copy_cell base delta b a) hb)

theorem pad_cube_filled (s : rooted_polycube) : (pad_cube s).1.filled_cubes = s.filled_cubes :=
  (copy_fold_header s _ _ (pad_cube_header s)).2.2.2.2.2.2.2.2.2.1

theorem crop_cube_filled (s : rooted_polycube) : (crop_cube s).filled_cubes = s.filled_cubes :=
  (copy_fold_header s _ _ (crop_cube_header s)).2.2.2.2.2.2.2.2.2.1

theorem set_if_zero_filled (pc : rooted_polycube) (x y z nh : Int) :
    (pc.set_cube_if_zero_and_increment_and_update_bounds x y z nh).1.filled_cubes
      = pc.filled_cubes := by
  unfold rooted_polycube.set_cube_if_zero_and_increment_and_update_bounds
  split <;> rfl

theorem expand_filled (s : rooted_polycube) :
    (expand_empty_slots s).filled_cubes = s.filled_cubes := by
  unfold expand_empty_slots
  simp only [set_if_zero_filled, pad_cube_filled]

theorem scanned_filled (s : rooted_polycube) :
    (scanned_shape s).filled_cubes = s.filled_cubes := by
  unfold scanned_shape
  split
  · rw [crop_cube_filled, expand_filled]
  · rw [expand_filled]

theorem filled_shape_filled (current : rooted_polycube) (c : Nat × position) :
    (filled_shape current c).filled_cubes = current.filled_cubes ++
      [⟨c.2.x - (scanned_shape current).root.x, c.2.y - (scanned_shape current).root.y,
        c.2.z - (scanned_shape current).root.z⟩] := by
  show (scanned_shape current).filled_cubes ++ _ = _
  rw [scanned_filled]

theorem lex_of_not_before_root (cr : rooted_polycube) (p : position)
    (h : before_root cr p.x p.y p.z = false) :
    lex_ge_root ⟨p.x - cr.root.x, p.y - cr.root.y, p.z - cr.root.z⟩ := by
  unfold before_root at h
  unfold lex_ge_root
  dsimp only
  split at h
  · exact absurd h (by decide)
  · split at h
    · exact absurd h (by decide)
    · split at h
      · exact absurd h (by decide)
      · omega

theorem search_current_lex (s : rooted_polycube) (h : search_current s) :
    s.filled_cubes.head? = some ⟨0, 0, 0⟩ ∧ ∀ e ∈ s.filled_cubes, lex_ge_root e := by
  induction h with
  | initial =>
    refine ⟨rfl, ?_⟩
    intro e he
    have : e = ⟨0, 0, 0⟩ := List.mem_singleton.mp he
    rw [this]
    decide
  | filled current c hcur _ hcand ih =>
    rw [filled_shape_filled]
    have hne : current.filled_cubes ≠ [] := (search_current_wf current hcur).1.nonempty
    constructor
    · rw [List.head?_append_of_ne_nil _ hne]
      exact ih.1
    · intro e he
      rcases List.mem_append.mp he with h1 | h1
      · exact ih.2 e h1
      · rw [List.mem_singleton] at h1
        rw [h1]
        exact lex_of_not_before_root _ c.2 hcand.2

theorem search_shape_filled (s : rooted_polycube) (h : search_shape s) :
    ∃ t, search_current t ∧ s.filled_cubes = t.filled_cubes := by
  cases h with
  | current s hs => exact ⟨s, hs, rfl⟩
  | padded s hs => exact ⟨s, hs, pad_cube_filled s⟩
  | expanded s hs => exact ⟨s, hs, expand_filled s⟩
  | cropped s hs hk => exact ⟨s, hs, by rw [crop_cube_filled, expand_filled]⟩

/-! ### Some shapes that the search reaches -/

theorem first_fill_y_searched : search_current (filled_shape initial_polycube (16, ⟨1, 2, 1⟩)) :=
  search_current.filled initial_polycube (16, ⟨1, 2, 1⟩) search_current.initial
    ((cells_mem_iff _ 16 ⟨1, 2, 1⟩).mpr ⟨by decide, by decide⟩) (by decide)

theorem root_first_example_searched : search_current root_first_example :=
  search_current.filled _ (18, ⟨0, 2, 1⟩) first_fill_y_searched
    ((cells_mem_iff _ 18 ⟨0, 2, 1⟩).mpr ⟨by decide!, by decide!⟩) (by decide!)

theorem label_order_example_searched : search_current label_order_example :=
  search_current.filled initial_polycube (14, ⟨2, 1, 1⟩) search_current.initial
    ((cells_mem_iff _ 14 ⟨2, 1, 1⟩).mpr ⟨by decide, by decide⟩) (by decide)

theorem three_in_a_row_searched :
    search_current (filled_shape label_order_example (19, ⟨3, 1, 1⟩)) :=
  search_current.filled _ (19, ⟨3, 1, 1⟩) label_order_example_searched
    ((cells_mem_iff _ 19 ⟨3, 1, 1⟩).mpr ⟨by decide!, by decide!⟩) (by decide!)

theorem pad_face_example_searched : search_current pad_face_example :=
  search_current.filled _ (77, ⟨5, 2, 2⟩) three_in_a_row_searched
    ((cells_mem_iff _ 77 ⟨5, 2, 2⟩).mpr ⟨by decide!, by decide!⟩) (by decide!)

/-- C15: in every shape the search builds, the filled stack starts with the
root, whose offset is `(0, 0, 0)`, and no entry of the stack comes before
`(0, 0, 0)` when compared by z, then y, then x: the root is the first filled
cell in that order. -/
theorem c15_root_is_first (s : rooted_polycube) (h : search_shape s) :
    s.filled_cubes.head? = some ⟨0, 0, 0⟩ ∧ ∀ e ∈ s.filled_cubes, lex_ge_root e := by
  obtain ⟨t, ht, heq⟩ := search_shape_filled s h
  rw [heq]
  exact search_current_lex t ht

theorem c15_root_is_first_witness :
    search_shape root_first_example ∧
    root_first_example.filled_cubes = [⟨0, 0, 0⟩, ⟨0, 1, 0⟩, ⟨-1, 1, 0⟩] ∧
    root_first_example.filled_cubes.head? = some ⟨0, 0, 0⟩ ∧
    ∀ e ∈ root_first_example.filled_cubes, lex_ge_root e :=
  ⟨search_shape.current _ root_first_example_searched, by decide!,
    c15_root_is_first root_first_example (search_shape.current _ root_first_example_searched)⟩

/-! ### The padding -/

theorem pad_deltas_touched (base : rooted_polycube)
    (hface : base.k > 3 → on_one_face base.dim (base.root.add base.last_filled)) :
    pad_deltas base = touched_deltas base := by
  unfold pad_deltas touched_deltas
  by_cases hk : base.k > 3
  · rw [if_pos hk, if_pos hk]
    have hf := hface hk
    unfold on_one_face at hf
    dsimp only
    generalize base.root.add base.last_filled = last at *
    obtain ⟨f1, f2, f3, f4⟩ := hf
    congr 1
    · by_cases hx : last.x = 0
      · obtain ⟨g1, g2⟩ := f1 hx
        simp [hx, g1, g2]
      · by_cases hy : last.y = 0
        · have g := f2 hy
          simp [hx, hy, g]
        · by_cases hz : last.z = 0
          · simp [hx, hy, hz]
          · simp [hx, hy, hz]
    · by_cases hx : last.x = base.dim.x - 1
      · obtain ⟨g1, g2⟩ := f3 hx
        simp [hx, g1, g2]
      · by_cases hy : last.y = base.dim.y - 1
        · have g := f4 hy
          simp [hx, hy, g]
        · by_cases hz : last.z = base.dim.z - 1
          · simp [hx, hy, hz]
          · simp [hx, hy, hz]
  · rw [if_neg hk, if_neg hk]

theorem search_current_last_face (s : rooted_polycube) (h : search_current s) (hk : s.k > 3) :
    on_one_face s.dim (s.root.add s.last_filled) := by
  obtain ⟨hwf, hf⟩ := search_current_wf s h
  apply hf hk
  rw [hwf.filled _ (last_filled_mem s hwf.nonempty)]
  exact FILLED_CUBE_ne_zero

/-- C16: in every shape the search is run on, which are the shapes that
`pad_cube` receives, `pad_cube` grows the grid by exactly one cell on each
face that the last filled cell touches and by nothing on the other faces
when the shape has more than three cubes, and by one cell on all six faces
when it has at most three.  With more than three cubes the last filled cell
lies on at most one lower and at most one upper face of the grid. -/
theorem c16_pad_one_per_touched_face (s : rooted_polycube) (h : search_current s) :
    (s.k > 3 → on_one_face s.dim (s.root.add s.last_filled)) ∧
    (pad_cube s).2 = (touched_deltas s).1 ∧
    (pad_cube s).1.dim = s.dim.add ((touched_deltas s).1.add (touched_deltas s).2) ∧
    (pad_cube s).1.root = s.root.add (touched_deltas s).1 := by
  obtain ⟨hm, hlo, hdim⟩ := pad_cube_moved s (search_current_wf s h).1.dim_pos
  have ht := pad_deltas_touched s (search_current_last_face s h)
  rw [← ht]
  exact ⟨search_current_last_face s h, hlo, hdim, hm.root_eq⟩

theorem c16_pad_one_per_touched_face_witness :
    (search_current pad_face_example ∧ pad_face_example.k > 3) ∧
    pad_face_example.dim = ⟨6, 5, 5⟩ ∧
    pad_face_example.root.add pad_face_example.last_filled = ⟨5, 2, 2⟩ ∧
    touched_deltas pad_face_example = (⟨0, 0, 0⟩, ⟨1, 0, 0⟩) ∧
    on_one_face pad_face_example.dim (pad_face_example.root.add pad_face_example.last_filled) ∧
    (pad_cube pad_face_example).2 = ⟨0, 0, 0⟩ ∧
    (pad_cube pad_face_example).1.dim = ⟨7, 5, 5⟩ ∧
    (search_current initial_polycube ∧ ¬ initial_polycube.k > 3) ∧
    (pad_cube initial_polycube).2 = ⟨1, 1, 1⟩ ∧
    (pad_cube initial_polycube).1.dim = ⟨3, 3, 3⟩ :=
  ⟨⟨pad_face_example_searched, by decide!⟩, by decide!, by decide!, by decide!,
    (c16_pad_one_per_touched_face _ pad_face_example_searched).1 (by decide!),
    ((c16_pad_one_per_touched_face _ pad_face_example_searched).2.1).trans (by decide!),
    ((c16_pad_one_per_touched_face _ pad_face_example_searched).2.2.1).trans (by decide!),
    ⟨search_current.initial, by decide⟩,
    ((c16_pad_one_per_touched_face _ search_current.initial).2.1).trans (by decide),
    ((c16_pad_one_per_touched_face _ search_current.initial).2.2.1).trans (by decide)⟩

/-- C17: in every call of `expand_empty_slots` that the search makes, the six
face neighbours of the last filled cell lie inside the padded grid; hence the
linear index of each of them is an index of the grid and belongs to no other
cell of the grid. -/
theorem c17_neighbours_in_grid (s : rooted_polycube) (h : search_current s) :
    ∀ p ∈ face_neighbours ((s.root.add s.last_filled).add (pad_cube s).2),
      in_box (pad_cube s).1.dim p ∧
      0 ≤ (pad_cube s).1.index p.x p.y p.z ∧
      (pad_cube s).1.index p.x p.y p.z < (pad_cube s).1.cubes.length ∧
      ∀ q, in_box (pad_cube s).1.dim q →
        (pad_cube s).1.index q.x q.y q.z = (pad_cube s).1.index p.x p.y p.z → q = p := by
  obtain ⟨hwf, hf⟩ := search_current_wf s h
  obtain ⟨hm, hlo, hdim⟩ := pad_cube_moved s hwf.dim_pos
  obtain ⟨hroom, _⟩ := pad_room s hwf hf
  rw [← hdim, ← hlo] at hroom
  intro p hp
  have hbox : in_box (pad_cube s).1.dim p := by
    unfold strictly_inside at hroom
    unfold face_neighbours at hp
    unfold in_box
    simp only [List.mem_cons, List.mem_singleton, List.not_mem_nil, or_false] at hp
    rcases hp with h1 | h1 | h1 | h1 | h1 | h1 <;> rw [h1] <;> dsimp only <;> omega
  refine ⟨hbox, index_nonneg _ p hm.dim_pos hbox, ?_, ?_⟩
  · have h1 := index_lt _ p hbox
    have h2 := size_eq_of_pos _ hm.dim_pos
    rw [hm.length_eq]
    unfold rooted_polycube.index
    omega
  · intro q hq hidx
    exact index_inj _ q p hq hbox hidx

theorem c17_neighbours_in_grid_witness :
    search_current initial_polycube ∧
    ∀ p ∈ face_neighbours ((initial_polycube.root.add initial_polycube.last_filled).add
        (pad_cube initial_polycube).2),
      in_box (pad_cube initial_polycube).1.dim p :=
  ⟨search_current.initial,
    fun p hp => (c17_neighbours_in_grid initial_polycube search_current.initial p hp).1⟩


/-! ### The copies made by `pad_cube` and `crop_cube` -/

theorem get_cube_eq_value (s : rooted_polycube) (p : position) (hp : in_box s.dim p) :
    s.get_cube p.x p.y p.z = s.value p := by
  unfold rooted_polycube.value
  rw [if_pos hp]

/-- C18: for every rooted shape with a grid of positive dimensions, with `d`
the lower offset returned by `pad_cube`: the padded grid holds at `p + d` what
the base held at `p`, for every cell `p` of the base, and 0 in every other
cell; the root, the filled bounds and the labelled bounds are moved by `d`;
the dimensions grow by the lower plus the upper offset; and `k`,
`highest_numbering`, `highest_written` and the filled stack are unchanged. -/
theorem c18_pad_cube_copy (base : rooted_polycube)
    (hd : 0 < base.dim.x ∧ 0 < base.dim.y ∧ 0 < base.dim.z) :
    (∀ p, in_box base.dim p →
      in_box (pad_cube base).1.dim (p.add (pad_cube base).2) ∧
      (pad_cube base).1.get_cube (p.x + (pad_cube base).2.x) (p.y + (pad_cube base).2.y)
        (p.z + (pad_cube base).2.z) = base.get_cube p.x p.y p.z) ∧
    (∀ q, in_box (pad_cube base).1.dim q → ¬ in_box base.dim (q.add (pad_cube base).2.neg) →
      (pad_cube base).1.get_cube q.x q.y q.z = 0) ∧
    (pad_cube base).2 = (pad_deltas base).1 ∧
    (pad_cube base).1.dim = base.dim.add ((pad_deltas base).1.add (pad_deltas base).2) ∧
    (pad_cube base).1.cubes.length = (pad_cube base).1.size ∧
    (pad_cube base).1.root = base.root.add (pad_cube base).2 ∧
    (pad_cube base).1.min_bounds = base.min_bounds.add (pad_cube base).2 ∧
    (pad_cube base).1.max_bounds = base.max_bounds.add (pad_cube base).2 ∧
    (pad_cube base).1.labeled_min_bounds = base.labeled_min_bounds.add (pad_cube base).2 ∧
    (pad_cube base).1.labeled_max_bounds = base.labeled_max_bounds.add (pad_cube base).2 ∧
    (pad_cube base).1.k = base.k ∧
    (pad_cube base).1.highest_numbering = base.highest_numbering ∧
    (pad_cube base).1.highest_written = base.highest_written ∧
    (pad_cube base).1.filled_cubes = base.filled_cubes := by
  obtain ⟨hm, hlo, hdim⟩ := pad_cube_moved base hd
  obtain ⟨⟨lx0, lx1⟩, ⟨ly0, ly1⟩, ⟨lz0, lz1⟩, ⟨hx0, hx1⟩, ⟨hy0, hy1⟩, ⟨hz0, hz1⟩⟩ :=
    pad_deltas_range base
  rw [hlo]
  refine ⟨?_, ?_, rfl, hdim, hm.length_eq, hm.root_eq, hm.min_eq, hm.max_eq, hm.labeled_min_eq,
    hm.labeled_max_eq, hm.k_eq, hm.numbering_eq, hm.written_eq, hm.filled_eq⟩
  · intro p hp
    have hbox : in_box (pad_cube base).1.dim (p.add (pad_deltas base).1) := by
      rw [hdim]
      unfold in_box at hp ⊢
      simp only [position.add]
      omega
    refine ⟨hbox, ?_⟩
    have h1 := get_cube_eq_value _ _ hbox
    have h2 := hm.value_eq (p.add (pad_deltas base).1)
    rw [add_add_neg_pos] at h2
    rw [get_cube_eq_value base p hp, ← h2, ← h1]
    rfl
  · intro q hq hnot
    rw [get_cube_eq_value _ q hq, hm.value_eq, value_of_not_in_box _ _ hnot]

theorem c18_pad_cube_copy_witness :
    (0 < initial_polycube.dim.x ∧ 0 < initial_polycube.dim.y ∧ 0 < initial_polycube.dim.z) ∧
    (pad_cube initial_polycube).1.dim = ⟨3, 3, 3⟩ ∧
    (pad_cube initial_polycube).1.root = ⟨1, 1, 1⟩ ∧
    (pad_cube initial_polycube).1.get_cube 1 1 1 = FILLED_CUBE :=
  ⟨by decide,
    (c18_pad_cube_copy initial_polycube (by decide)).2.2.2.1,
    (c18_pad_cube_copy initial_polycube (by decide)).2.2.2.2.2.1,
    ((c18_pad_cube_copy initial_polycube (by decide)).1 ⟨0, 0, 0⟩ (by decide)).2⟩

/-- C20: for every shape the search builds, the grid made by `crop_cube` has
the dimensions `labeled_max - labeled_min + 1`; every nonzero cell of the
base appears in it with its value at its position minus `labeled_min`, and
every cell of it holds what the base held at its position plus `labeled_min`,
so all its other cells are 0; the labelled bounds enclose the filled bounds;
the root and the bounds are moved by `-labeled_min`; and `k`,
`highest_numbering`, `highest_written` and the filled stack are unchanged. -/
theorem c20_crop_cube_copy (s : rooted_polycube) (h : search_shape s) :
    (crop_cube s).dim = ⟨s.labeled_max_bounds.x - s.labeled_min_bounds.x + 1,
      s.labeled_max_bounds.y - s.labeled_min_bounds.y + 1,
      s.labeled_max_bounds.z - s.labeled_min_bounds.z + 1⟩ ∧
    (∀ p, in_box s.dim p → s.get_cube p.x p.y p.z ≠ 0 →
      in_box (crop_cube s).dim (p.add s.labeled_min_bounds.neg) ∧
      (crop_cube s).get_cube (p.x - s.labeled_min_bounds.x) (p.y - s.labeled_min_bounds.y)
        (p.z - s.labeled_min_bounds.z) = s.get_cube p.x p.y p.z) ∧
    (∀ q, in_box (crop_cube s).dim q →
      in_box s.dim (q.add s.labeled_min_bounds) ∧
      (crop_cube s).get_cube q.x q.y q.z
        = s.get_cube (q.x + s.labeled_min_bounds.x) (q.y + s.labeled_min_bounds.y)
            (q.z + s.labeled_min_bounds.z)) ∧
    (s.labeled_min_bounds.le s.min_bounds ∧ s.max_bounds.le s.labeled_max_bounds) ∧
    (crop_cube s).cubes.length = (crop_cube s).size ∧
    (crop_cube s).root = s.root.add s.labeled_min_bounds.neg ∧
    (crop_cube s).min_bounds = s.min_bounds.add s.labeled_min_bounds.neg ∧
    (crop_cube s).max_bounds = s.max_bounds.add s.labeled_min_bounds.neg ∧
    (crop_cube s).labeled_min_bounds = s.labeled_min_bounds.add s.labeled_min_bounds.neg ∧
    (crop_cube s).labeled_max_bounds = s.labeled_max_bounds.add s.labeled_min_bounds.neg ∧
    (crop_cube s).k = s.k ∧
    (crop_cube s).highest_numbering = s.highest_numbering ∧
    (crop_cube s).highest_written = s.highest_written ∧
    (crop_cube s).filled_cubes = s.filled_cubes := by
  have hwf := search_shape_wf s h
  have hfilled : ∀ e ∈ s.filled_cubes, s.value (s.root.add e) ≠ 0 := by
    intro e he
    rw [hwf.filled e he]
    exact FILLED_CUBE_ne_zero
  obtain ⟨⟨a1, a2, a3⟩, ⟨a4, a5, a6⟩⟩ :=
    hwf.labeled_bounds _ (hfilled _ (last_filled_mem s hwf.nonempty))
  have hle : s.labeled_min_bounds.le s.labeled_max_bounds := by
    unfold position.le; omega
  obtain ⟨hm, hdim⟩ := crop_cube_moved s hwf.labeled_bounds hle
  obtain ⟨l1, l2, l3⟩ := hle
  obtain ⟨b1, b2⟩ := hwf.labeled_in_box
  unfold in_box at b1 b2
  refine ⟨hdim, ?_, ?_, ?_, hm.length_eq, hm.root_eq, hm.min_eq, hm.max_eq, hm.labeled_min_eq,
    hm.labeled_max_eq, hm.k_eq, hm.numbering_eq, hm.written_eq, hm.filled_eq⟩
  · intro p hp hne
    rw [get_cube_eq_value s p hp] at hne ⊢
    obtain ⟨⟨c1, c2, c3⟩, ⟨c4, c5, c6⟩⟩ := hwf.labeled_bounds p hne
    have hbox : in_box (crop_cube s).dim (p.add s.labeled_min_bounds.neg) := by
      rw [hdim]
      unfold in_box
      simp only [position.add, position.neg]
      omega
    refine ⟨hbox, ?_⟩
    have h1 := get_cube_eq_value _ _ hbox
    have h2 := hm.value_eq (p.add s.labeled_min_bounds.neg)
    rw [add_add_neg_pos] at h2
    rw [← h2, ← h1]
    simp only [position.add, position.neg]
    rfl
  · intro q hq
    have hbox : in_box s.dim (q.add s.labeled_min_bounds) := by
      rw [hdim] at hq
      unfold in_box at hq ⊢
      simp only [position.add] at hq ⊢
      omega
    refine ⟨hbox, ?_⟩
    have h1 := get_cube_eq_value _ _ hbox
    have h2 := hm.value_eq q
    have h3 : q.add s.labeled_min_bounds.neg.neg = q.add s.labeled_min_bounds := by
      apply position_ext <;> simp [position.add, position.neg]
    rw [h3] at h2
    rw [get_cube_eq_value _ q hq, h2, ← h1]
    rfl
  · obtain ⟨ex, hex, hexv⟩ := hwf.min_x
    obtain ⟨ey, hey, heyv⟩ := hwf.min_y
    obtain ⟨ez, hez, hezv⟩ := hwf.min_z
    obtain ⟨fx, hfx, hfxv⟩ := hwf.max_x
    obtain ⟨fy, hfy, hfyv⟩ := hwf.max_y
    obtain ⟨fz, hfz, hfzv⟩ := hwf.max_z
    obtain ⟨⟨p1, _, _⟩, _⟩ := hwf.labeled_bounds _ (hfilled ex hex)
    obtain ⟨⟨_, p2, _⟩, _⟩ := hwf.labeled_bounds _ (hfilled ey hey)
    obtain ⟨⟨_, _, p3⟩, _⟩ := hwf.labeled_bounds _ (hfilled ez hez)
    obtain ⟨_, ⟨p4, _, _⟩⟩ := hwf.labeled_bounds _ (hfilled fx hfx)
    obtain ⟨_, ⟨_, p5, _⟩⟩ := hwf.labeled_bounds _ (hfilled fy hfy)
    obtain ⟨_, ⟨_, _, p6⟩⟩ := hwf.labeled_bounds _ (hfilled fz hfz)
    unfold position.le
    omega

theorem c20_crop_cube_copy_witness :
    search_shape (expand_empty_slots label_order_example) ∧
    (expand_empty_slots label_order_example).dim = ⟨5, 5, 5⟩ ∧
    (expand_empty_slots label_order_example).labeled_min_bounds = ⟨1, 1, 1⟩ ∧
    (expand_empty_slots label_order_example).labeled_max_bounds = ⟨4, 3, 3⟩ ∧
    (expand_empty_slots label_order_example).root = ⟨2, 2, 2⟩ ∧
    (crop_cube (expand_empty_slots label_order_example)).dim = ⟨4, 3, 3⟩ ∧
    (crop_cube (expand_empty_slots label_order_example)).root = ⟨1, 1, 1⟩ ∧
    (crop_cube (expand_empty_slots label_order_example)).get_cube 2 1 1 = FILLED_CUBE ∧
    (crop_cube (expand_empty_slots label_order_example)).get_cube 3 1 1 = 8 ∧
    (crop_cube (expand_empty_slots label_order_example)).k = 2 ∧
    (crop_cube (expand_empty_slots label_order_example)).filled_cubes
      = [⟨0, 0, 0⟩, ⟨1, 0, 0⟩] :=
  ⟨search_shape.expanded _ label_order_example_searched, by decide!, by decide!, by decide!,
    by decide!,
    ((c20_crop_cube_copy _ (search_shape.expanded _ label_order_example_searched)).1).trans
      (by decide!),
    ((c20_crop_cube_copy _ (search_shape.expanded _
      label_order_example_searched)).2.2.2.2.2.1).trans (by decide!),
    by
      have h := ((c20_crop_cube_copy _ (search_shape.expanded _ label_order_example_searched)).2.1
        ⟨3, 2, 2⟩ (by decide!) (by decide!)).2
      have e : (expand_empty_slots label_order_example).labeled_min_bounds = ⟨1, 1, 1⟩ := by
        decide!
      rw [e] at h
      exact h.trans (by decide!),
    by
      have h := ((c20_crop_cube_copy _ (search_shape.expanded _ label_order_example_searched)).2.1
        ⟨4, 2, 2⟩ (by decide!) (by decide!)).2
      have e : (expand_empty_slots label_order_example).labeled_min_bounds = ⟨1, 1, 1⟩ := by
        decide!
      rw [e] at h
      exact h.trans (by decide!),
    ((c20_crop_cube_copy _ (search_shape.expanded _
      label_order_example_searched)).2.2.2.2.2.2.2.2.2.2.1).trans (by decide!),
    ((c20_crop_cube_copy _ (search_shape.expanded _
      label_order_example_searched)).2.2.2.2.2.2.2.2.2.2.2.2.2).trans (by decide!)⟩

/-! ### The labels written by `expand_empty_slots` -/

theorem expand_eq_label_cells (base : rooted_polycube) :
    expand_empty_slots base =
      { (label_cells (face_neighbours (expansion_cell base))
          ((pad_cube base).1, base.highest_written + 1)).1 with
        highest_written := (label_cells (face_neighbours (expansion_cell base))
          ((pad_cube base).1, base.highest_written + 1)).2 - 1 } := rfl

theorem face_neighbours_nodup (q : position) : (face_neighbours q).Nodup := by
  unfold face_neighbours
  simp only [List.nodup_cons, List.mem_cons, List.mem_singleton, List.not_mem_nil,
    List.nodup_nil, position.mk.injEq, or_false, not_or, and_true, not_false_eq_true]
  refine ⟨⟨?_, ?_, ?_, ?_, ?_⟩, ⟨?_, ?_, ?_, ?_⟩, ⟨?_, ?_, ?_⟩, ⟨?_, ?_⟩, ?_⟩ <;>
    intro h <;> omega

theorem face_neighbours_adjacent (q p : position) (h : p ∈ face_neighbours q) : adjacent q p := by
  obtain ⟨a1, a2, a3, a4, a5, a6⟩ := adjacent_step q
  unfold face_neighbours at h
  simp only [List.mem_cons, List.mem_singleton, List.not_mem_nil, or_false] at h
  rcases h with h | h | h | h | h | h <;> rw [h] <;> assumption

theorem mem_face_neighbours_of_adjacent (q p : position) (h : adjacent q p) :
    p ∈ face_neighbours q := by
  unfold adjacent at h
  unfold face_neighbours
  simp only [List.mem_cons, List.mem_singleton, List.not_mem_nil, or_false]
  obtain ⟨px, py, pz⟩ := p
  simp only [position.mk.injEq]
  dsimp only at h
  have hx : px = q.x + 1 ∨ px = q.x - 1 ∨ px = q.x := by omega
  have hy : py = q.y + 1 ∨ py = q.y - 1 ∨ py = q.y := by omega
  have hz : pz = q.z + 1 ∨ pz = q.z - 1 ∨ pz = q.z := by omega
  rcases hx with hx | hx | hx
  · exact Or.inl ⟨hx, by omega, by omega⟩
  · exact Or.inr (Or.inl ⟨hx, by omega, by omega⟩)
  · rcases hy with hy | hy | hy
    · exact Or.inr (Or.inr (Or.inl ⟨hx, hy, by omega⟩))
    · exact Or.inr (Or.inr (Or.inr (Or.inl ⟨hx, hy, by omega⟩)))
    · rcases hz with hz | hz | hz
      · exact Or.inr (Or.inr (Or.inr (Or.inr (Or.inl ⟨hx, hy, hz⟩))))
      · exact Or.inr (Or.inr (Or.inr (Or.inr (Or.inr ⟨hx, hy, hz⟩))))
      · omega

/-- One call of `set_cube_if_zero_and_increment_and_update_bounds` on a cell of the grid. -/
theorem set_if_zero_spec (r : rooted_polycube) (q : position) (nh : Int)
    (hd : 0 < r.dim.x ∧ 0 < r.dim.y ∧ 0 < r.dim.z) (hl : r.cubes.length = r.size)
    (hq : in_box r.dim q) :
    (r.value q = 0 →
      (r.set_cube_if_zero_and_increment_and_update_bounds q.x q.y q.z nh).2 = nh + 1 ∧
      (∀ p, (r.set_cube_if_zero_and_increment_and_update_bounds q.x q.y q.z nh).1.value p
        = if p = q then nh else r.value p) ∧
      (r.set_cube_if_zero_and_increment_and_update_bounds q.x q.y q.z nh).1.labeled_min_bounds
        = position_min r.labeled_min_bounds q ∧
      (r.set_cube_if_zero_and_increment_and_update_bounds q.x q.y q.z nh).1.labeled_max_bounds
        = position_max r.labeled_max_bounds q) ∧
    (r.value q ≠ 0 →
      r.set_cube_if_zero_and_increment_and_update_bounds q.x q.y q.z nh = (r, nh)) ∧
    (r.set_cube_if_zero_and_increment_and_update_bounds q.x q.y q.z nh).1.dim = r.dim ∧
    (r.set_cube_if_zero_and_increment_and_update_bounds q.x q.y q.z nh).1.cubes.length
      = r.cubes.length ∧
    (r.set_cube_if_zero_and_increment_and_update_bounds q.x q.y q.z nh).1.k = r.k ∧
    (r.set_cube_if_zero_and_increment_and_update_bounds q.x q.y q.z nh).1.root = r.root ∧
    (r.set_cube_if_zero_and_increment_and_update_bounds q.x q.y q.z nh).1.highest_numbering
      = r.highest_numbering ∧
    (r.set_cube_if_zero_and_increment_and_update_bounds q.x q.y q.z nh).1.highest_written
      = r.highest_written ∧
    (r.set_cube_if_zero_and_increment_and_update_bounds q.x q.y q.z nh).1.min_bounds
      = r.min_bounds ∧
    (r.set_cube_if_zero_and_increment_and_update_bounds q.x q.y q.z nh).1.max_bounds
      = r.max_bounds ∧
    (r.set_cube_if_zero_and_increment_and_update_bounds q.x q.y q.z nh).1.filled_cubes
      = r.filled_cubes := by
  have hvq : array_get r.cubes (r.index q.x q.y q.z) = r.value q := by
    rw [value_of_in_box r q hq]; rfl
  unfold rooted_polycube.set_cube_if_zero_and_increment_and_update_bounds
  rw [hvq]
  by_cases hz : r.value q = 0
  · rw [if_pos hz]
    dsimp only
    refine ⟨fun _ => ⟨rfl, ?_, rfl, rfl⟩, fun h => absurd hz h, rfl, ?_, rfl, rfl, rfl, rfl, rfl,
      rfl, rfl⟩
    · intro p
      have := value_set_cube r q nh hd hl hq p
      rw [← this]
      rfl
    · exact array_set_length _ _ _
  · rw [if_neg hz]
    exact ⟨fun h => absurd h hz, fun _ => rfl, rfl, rfl, rfl, rfl, rfl, rfl, rfl, rfl, rfl⟩

/-- The labelling loop on a list of pairwise different cells of the grid: the
cells of the list that hold 0 receive the labels `nh`, `nh + 1`, ... in list
order, and nothing else changes in the grid. -/
theorem label_cells_spec (l : List position) :
    ∀ (r : rooted_polycube) (nh : Int),
      (0 < r.dim.x ∧ 0 < r.dim.y ∧ 0 < r.dim.z) → r.cubes.length = r.size →
      l.Nodup → (∀ p ∈ l, in_box r.dim p) →
      (label_cells l (r, nh)).2 = nh + ((l.filter fun p => decide (r.value p = 0)).length : Int) ∧
      (∀ p, (label_cells l (r, nh)).1.value p =
        if p ∈ l.filter (fun p => decide (r.value p = 0)) then
          nh + ((l.filter fun p => decide (r.value p = 0)).indexOf p : Int)
        else r.value p) ∧
      (label_cells l (r, nh)).1.labeled_min_bounds
        = (l.filter fun p => decide (r.value p = 0)).foldl position_min r.labeled_min_bounds ∧
      (label_cells l (r, nh)).1.labeled_max_bounds
        = (l.filter fun p => decide (r.value p = 0)).foldl position_max r.labeled_max_bounds ∧
      (label_cells l (r, nh)).1.dim = r.dim ∧
      (label_cells l (r, nh)).1.cubes.length = r.cubes.length ∧
      (label_cells l (r, nh)).1.k = r.k ∧
      (label_cells l (r, nh)).1.root = r.root ∧
      (label_cells l (r, nh)).1.highest_numbering = r.highest_numbering ∧
      (label_cells l (r, nh)).1.highest_written = r.highest_written ∧
      (label_cells l (r, nh)).1.min_bounds = r.min_bounds ∧
      (label_cells l (r, nh)).1.max_bounds = r.max_bounds ∧
      (label_cells l (r, nh)).1.filled_cubes = r.filled_cubes := by
  induction l with
  | nil =>
    intro r nh _ _ _ _
    simp [label_cells]
  | cons q l ih =>
    intro r nh hd hl hnd hbox
    have hq : in_box r.dim q := hbox q (List.mem_cons_self _ _)
    have hql : q ∉ l := (List.nodup_cons.mp hnd).1
    have hndl : l.Nodup := (List.nodup_cons.mp hnd).2
    obtain ⟨s1, s2, s3, s4, s5, s6, s7, s8, s9, s10, s11⟩ := set_if_zero_spec r q nh hd hl hq
    have hstep : label_cells (q :: l) (r, nh)
        = label_cells l (r.set_cube_if_zero_and_increment_and_update_bounds q.x q.y q.z nh) := rfl
    rw [hstep]
    by_cases hz : r.value q = 0
    · obtain ⟨t1, t2, t3, t4⟩ := s1 hz
      have hpair : r.set_cube_if_zero_and_increment_and_update_bounds q.x q.y q.z nh
          = ((r.set_cube_if_zero_and_increment_and_update_bounds q.x q.y q.z nh).1, nh + 1) := by
        rw [← t1]
      rw [hpair]
      generalize (r.set_cube_if_zero_and_increment_and_update_bounds q.x q.y q.z nh).1 = r1
        at t2 t3 t4 s3 s4 s5 s6 s7 s8 s9 s10 s11 ⊢
      have hfl : (l.filter fun p => decide (r1.value p = 0))
          = l.filter fun p => decide (r.value p = 0) := by
        apply List.filter_congr
        intro p hp
        have hne : p ≠ q := fun h => hql (h ▸ hp)
        rw [t2 p, if_neg hne]
      have hfq : ((q :: l).filter fun p => decide (r.value p = 0))
          = q :: l.filter fun p => decide (r.value p = 0) := by
        rw [List.filter_cons_of_pos (by simpa using hz)]
      have hqf : q ∉ l.filter fun p => decide (r.value p = 0) :=
        fun h => hql (List.mem_of_mem_filter h)
      obtain ⟨i1, i2, i3, i4, i5, i6, i7, i8, i9, i10, i11, i12, i13⟩ :=
        ih r1 (nh + 1) (by rw [s3]; exact hd)
          (by rw [s4, hl]; unfold rooted_polycube.size; rw [s3]) hndl
          (fun p hp => by rw [s3]; exact hbox p (List.mem_cons_of_mem _ hp))
      rw [hfl] at i1 i2 i3 i4
      rw [hfq]
      refine ⟨?_, ?_, ?_, ?_, i5.trans s3, i6.trans s4, i7.trans s5, i8.trans s6, i9.trans s7,
        i10.trans s8, i11.trans s9, i12.trans s10, i13.trans s11⟩
      · rw [i1, List.length_cons]; push_cast; ring
      · intro p
        rw [i2 p]
        by_cases hpq : p = q
        · subst hpq
          rw [if_neg hqf, if_pos (List.mem_cons_self _ _), List.indexOf_cons_self, t2 p,
            if_pos rfl]
          simp
        · by_cases hpf : p ∈ l.filter fun p => decide (r.value p = 0)
          · rw [if_pos hpf, if_pos (List.mem_cons_of_mem _ hpf),
              List.indexOf_cons_ne _ (fun h => hpq h.symm)]
            push_cast; ring
          · rw [if_neg hpf, if_neg (fun h => (List.mem_cons.mp h).elim hpq hpf), t2 p,
              if_neg hpq]
      · rw [i3, t3]; rfl
      · rw [i4, t4]; rfl
    · rw [s2 hz]
      have hfq : ((q :: l).filter fun p => decide (r.value p = 0))
          = l.filter fun p => decide (r.value p = 0) := by
        rw [List.filter_cons_of_neg (by simpa using hz)]
      rw [hfq]
      exact ih r nh hd hl hndl (fun p hp => hbox p (List.mem_cons_of_mem _ hp))
theorem foldl_min_le (l : List position) :
    ∀ b : position, (l.foldl position_min b).le b ∧ ∀ p ∈ l, (l.foldl position_min b).le p := by
  induction l with
  | nil =>
    intro b
    exact ⟨⟨le_refl _, le_refl _, le_refl _⟩, fun p hp => absurd hp (List.not_mem_nil p)⟩
  | cons q l ih =>
    intro b
    obtain ⟨⟨h1, h2, h3⟩, h4⟩ := ih (position_min b q)
    simp only [List.foldl_cons]
    unfold position.le position_min at *
    dsimp only at h1 h2 h3
    refine ⟨by omega, ?_⟩
    intro p hp
    rcases List.mem_cons.mp hp with h | h
    · subst h; omega
    · exact h4 p h

theorem foldl_max_ge (l : List position) :
    ∀ b : position, b.le (l.foldl position_max b) ∧ ∀ p ∈ l, p.le (l.foldl position_max b) := by
  induction l with
  | nil =>
    intro b
    exact ⟨⟨le_refl _, le_refl _, le_refl _⟩, fun p hp => absurd hp (List.not_mem_nil p)⟩
  | cons q l ih =>
    intro b
    obtain ⟨⟨h1, h2, h3⟩, h4⟩ := ih (position_max b q)
    simp only [List.foldl_cons]
    unfold position.le position_max at *
    dsimp only at h1 h2 h3
    refine ⟨by omega, ?_⟩
    intro p hp
    rcases List.mem_cons.mp hp with h | h
    · subst h; omega
    · exact h4 p h

theorem fresh_cells_nodup (base : rooted_polycube) : (fresh_cells base).Nodup :=
  (face_neighbours_nodup _).filter _

/-- What `expand_empty_slots` writes, given room around the expansion cell. -/
theorem expand_spec (base : rooted_polycube)
    (hd : 0 < base.dim.x ∧ 0 < base.dim.y ∧ 0 < base.dim.z)
    (hroom : strictly_inside (pad_cube base).1.dim (expansion_cell base)) :
    (∀ p, (expand_empty_slots base).value p =
      if p ∈ fresh_cells base then
        base.highest_written + 1 + ((fresh_cells base).indexOf p : Int)
      else (pad_cube base).1.value p) ∧
    (expand_empty_slots base).highest_written
      = base.highest_written + ((fresh_cells base).length : Int) ∧
    (expand_empty_slots base).labeled_min_bounds
      = (fresh_cells base).foldl position_min (pad_cube base).1.labeled_min_bounds ∧
    (expand_empty_slots base).labeled_max_bounds
      = (fresh_cells base).foldl position_max (pad_cube base).1.labeled_max_bounds ∧
    (expand_empty_slots base).dim = (pad_cube base).1.dim ∧
    (expand_empty_slots base).cubes.length = (pad_cube base).1.cubes.length ∧
    (expand_empty_slots base).k = base.k ∧
    (expand_empty_slots base).root = (pad_cube base).1.root ∧
    (expand_empty_slots base).highest_numbering = base.highest_numbering ∧
    (expand_empty_slots base).min_bounds = (pad_cube base).1.min_bounds ∧
    (expand_empty_slots base).max_bounds = (pad_cube base).1.max_bounds ∧
    (expand_empty_slots base).filled_cubes = base.filled_cubes := by
  obtain ⟨hm, _, _⟩ := pad_cube_moved base hd
  have hbox : ∀ p ∈ face_neighbours (expansion_cell base), in_box (pad_cube base).1.dim p := by
    intro p hp
    unfold strictly_inside at hroom
    unfold face_neighbours at hp
    unfold in_box
    simp only [List.mem_cons, List.mem_singleton, List.not_mem_nil, or_false] at hp
    rcases hp with h1 | h1 | h1 | h1 | h1 | h1 <;> rw [h1] <;> dsimp only <;> omega
  obtain ⟨i1, i2, i3, i4, i5, i6, i7, i8, i9, _, i11, i12, i13⟩ :=
    label_cells_spec (face_neighbours (expansion_cell base)) (pad_cube base).1
      (base.highest_written + 1) hm.dim_pos hm.length_eq (face_neighbours_nodup _) hbox
  rw [expand_eq_label_cells]
  refine ⟨?_, ?_, i3, i4, i5, i6, i7.trans hm.k_eq, i8, i9.trans hm.numbering_eq, i11, i12,
    i13.trans hm.filled_eq⟩
  · intro p
    exact (i2 p)
  · show (label_cells _ _).2 - 1 = _
    rw [i1]
    unfold fresh_cells
    ring

/-- C19: when the six face neighbours of the expansion cell lie inside the
padded grid, as they do in the search, `expand_empty_slots` gives to those of
them that hold 0 after `pad_cube`, taken in the order +x, -x, +y, -y, +z, -z,
the labels `highest_written + 1`, `highest_written + 2`, ...; every other
cell, a nonzero neighbour included, keeps its padded value; `highest_written`
grows by the number of cells labelled; and the labelled bounds are the
padded ones extended by each cell labelled, so they contain each of them. -/
theorem c19_expand_labels (base : rooted_polycube)
    (hd : 0 < base.dim.x ∧ 0 < base.dim.y ∧ 0 < base.dim.z)
    (hroom : strictly_inside (pad_cube base).1.dim (expansion_cell base)) :
    (∀ (i : Nat) (hi : i < (fresh_cells base).length),
      (expand_empty_slots base).value ((fresh_cells base).get ⟨i, hi⟩)
        = base.highest_written + 1 + (i : Int)) ∧
    (∀ p, p ∉ fresh_cells base →
      (expand_empty_slots base).value p = (pad_cube base).1.value p) ∧
    (expand_empty_slots base).highest_written
      = base.highest_written + ((fresh_cells base).length : Int) ∧
    (expand_empty_slots base).labeled_min_bounds
      = (fresh_cells base).foldl position_min (pad_cube base).1.labeled_min_bounds ∧
    (expand_empty_slots base).labeled_max_bounds
      = (fresh_cells base).foldl position_max (pad_cube base).1.labeled_max_bounds ∧
    (∀ p ∈ fresh_cells base, (expand_empty_slots base).labeled_min_bounds.le p ∧
      p.le (expand_empty_slots base).labeled_max_bounds) ∧
    ((expand_empty_slots base).labeled_min_bounds.le (pad_cube base).1.labeled_min_bounds ∧
      (pad_cube base).1.labeled_max_bounds.le (expand_empty_slots base).labeled_max_bounds) := by
  obtain ⟨e1, e2, e3, e4, _⟩ := expand_spec base hd hroom
  refine ⟨?_, ?_, e2, e3, e4, ?_, ?_⟩
  · intro i hi
    rw [e1, if_pos (List.get_mem _ _ _)]
    have := List.indexOf_getElem (fresh_cells_nodup base) i hi
    rw [List.get_eq_getElem, this]
  · intro p hp
    rw [e1, if_neg hp]
  · intro p hp
    rw [e3, e4]
    exact ⟨(foldl_min_le _ _).2 p hp, (foldl_max_ge _ _).2 p hp⟩
  · rw [e3, e4]
    exact ⟨(foldl_min_le _ _).1, (foldl_max_ge _ _).1⟩

theorem c19_expand_labels_witness :
    (0 < initial_polycube.dim.x ∧ 0 < initial_polycube.dim.y ∧ 0 < initial_polycube.dim.z) ∧
    strictly_inside (pad_cube initial_polycube).1.dim (expansion_cell initial_polycube) ∧
    fresh_cells initial_polycube
      = [⟨2, 1, 1⟩, ⟨0, 1, 1⟩, ⟨1, 2, 1⟩, ⟨1, 0, 1⟩, ⟨1, 1, 2⟩, ⟨1, 1, 0⟩] ∧
    (expand_empty_slots initial_polycube).highest_written
      = initial_polycube.highest_written + ((fresh_cells initial_polycube).length : Int) :=
  ⟨by decide, by unfold strictly_inside; decide, by decide,
    (c19_expand_labels initial_polycube (by decide) (by unfold strictly_inside; decide)).2.2.1⟩


/-! ### The labels of the shapes of the search -/

theorem label_moved (base r : rooted_polycube) (d : position) (hm : moved_by base r d)
    (e : position) : r.label e = base.label e := by
  unfold rooted_polycube.label
  rw [hm.value_eq, hm.root_eq, moved_cell]

theorem label_inv_moved (base r : rooted_polycube) (d : position) (b : Int)
    (hm : moved_by base r d) (h : base.label_inv b) : r.label_inv b :=
  { filled_only := fun e he => by
      rw [label_moved base r d hm] at he
      rw [hm.filled_eq]
      exact h.filled_only e he
    label_range := fun e h0 hf => by
      rw [label_moved base r d hm] at h0 hf ⊢
      rw [hm.written_eq]
      exact h.label_range e h0 hf
    label_inj := fun e1 e2 h0 hf heq => by
      rw [label_moved base r d hm] at h0 hf heq
      rw [label_moved base r d hm] at heq
      exact h.label_inj e1 e2 h0 hf heq
    numbering_le := by rw [hm.numbering_eq, hm.written_eq]; exact h.numbering_le
    written_le := by rw [hm.written_eq]; exact h.written_le }

theorem neighbours_labelled_moved (base r : rooted_polycube) (d : position)
    (hm : moved_by base r d) (l : List position) (h : neighbours_labelled base l) :
    neighbours_labelled r l := by
  intro e he e2 hadj
  rw [label_moved base r d hm]
  exact h e he e2 hadj

theorem adjacent_root_add (root e1 e2 : position) :
    adjacent (root.add e1) (root.add e2) ↔ adjacent e1 e2 := by
  unfold adjacent
  simp only [position.add]
  have hx : root.x + e1.x - (root.x + e2.x) = e1.x - e2.x := by omega
  have hy : root.y + e1.y - (root.y + e2.y) = e1.y - e2.y := by omega
  have hz : root.z + e1.z - (root.z + e2.z) = e1.z - e2.z := by omega
  rw [hx, hy, hz]

theorem root_add_inj (root e1 e2 : position) (h : root.add e1 = root.add e2) : e1 = e2 := by
  have hx := congrArg position.x h
  have hy := congrArg position.y h
  have hz := congrArg position.z h
  simp only [position.add] at hx hy hz
  exact position_ext _ _ (by omega) (by omega) (by omega)

theorem fresh_cells_length (base : rooted_polycube) : (fresh_cells base).length ≤ 6 := by
  unfold fresh_cells
  exact (List.length_filter_le _ _).trans (by simp [face_neighbours])

/-- The labels after `expand_empty_slots`, read at offsets from the root. -/
theorem expand_label (s : rooted_polycube) (hwf : s.wf) (hf : s.k > 3 → s.faces_ok) :
    (∀ e, (pad_cube s).1.root.add e ∉ fresh_cells s →
      (expand_empty_slots s).label e = s.label e) ∧
    (∀ e, (pad_cube s).1.root.add e ∈ fresh_cells s →
      s.label e = 0 ∧ adjacent s.last_filled e ∧
      (expand_empty_slots s).label e
        = s.highest_written + 1 + ((fresh_cells s).indexOf ((pad_cube s).1.root.add e) : Int)) ∧
    (∀ e, adjacent s.last_filled e →
      (pad_cube s).1.root.add e ∈ fresh_cells s ∨ s.label e ≠ 0) ∧
    (expand_empty_slots s).highest_written
      = s.highest_written + ((fresh_cells s).length : Int) ∧
    (expand_empty_slots s).highest_numbering = s.highest_numbering ∧
    (expand_empty_slots s).filled_cubes = s.filled_cubes ∧
    (expand_empty_slots s).k = s.k := by
  obtain ⟨hm, hlo, hdim⟩ := pad_cube_moved s hwf.dim_pos
  obtain ⟨hroom, _⟩ := pad_room s hwf hf
  have hroom0 : strictly_inside (pad_cube s).1.dim (expansion_cell s) := by
    unfold expansion_cell
    rw [hdim, hlo]; exact hroom
  obtain ⟨e1, e2, _, _, _, _, e7, e8, e9, _, _, e12⟩ := expand_spec s hwf.dim_pos hroom0
  have hcell : expansion_cell s = (pad_cube s).1.root.add s.last_filled := by
    unfold expansion_cell
    rw [hm.root_eq, hlo]
    apply position_ext <;> simp only [position.add] <;> omega
  have hlab : ∀ e, (pad_cube s).1.value ((pad_cube s).1.root.add e) = s.label e :=
    fun e => label_moved s _ _ hm e
  refine ⟨?_, ?_, ?_, e2, e9, e12, e7⟩
  · intro e he
    unfold rooted_polycube.label
    rw [e8, e1, if_neg he]
    exact hlab e
  · intro e he
    have hmem := he
    unfold fresh_cells at hmem
    rw [List.mem_filter] at hmem
    obtain ⟨hnb, hzero⟩ := hmem
    refine ⟨?_, ?_, ?_⟩
    · rw [← hlab e]
      simpa using hzero
    · have := face_neighbours_adjacent _ _ hnb
      rw [hcell] at this
      exact (adjacent_root_add _ _ _).mp this
    · unfold rooted_polycube.label
      rw [e8, e1, if_pos he]
  · intro e hadj
    have hnb : (pad_cube s).1.root.add e ∈ face_neighbours (expansion_cell s) := by
      apply mem_face_neighbours_of_adjacent
      rw [hcell]
      exact (adjacent_root_add _ _ _).mpr hadj
    by_cases hz : s.label e = 0
    · left
      unfold fresh_cells
      rw [List.mem_filter]
      refine ⟨hnb, ?_⟩
      rw [← hlab e] at hz
      simpa using hz
    · exact Or.inr hz

/-- The labels of the scanned shape, read at offsets from the root: old labels
are kept, the new ones lie above `highest_written`, are pairwise different
and sit next to the last filled cell, and every neighbour of the last filled
cell is labelled. -/
theorem scanned_label (s : rooted_polycube) (hwf : s.wf) (hf : s.k > 3 → s.faces_ok)
    (hw0 : 0 ≤ s.highest_written) :
    (∀ e, s.label e ≠ 0 → (scanned_shape s).label e = s.label e) ∧
    (∀ e, (scanned_shape s).label e ≠ s.label e →
      s.label e = 0 ∧ adjacent s.last_filled e ∧ s.highest_written < (scanned_shape s).label e ∧
      (scanned_shape s).label e ≤ (scanned_shape s).highest_written) ∧
    (∀ e1 e2, (scanned_shape s).label e1 ≠ s.label e1 → (scanned_shape s).label e2 ≠ s.label e2 →
      (scanned_shape s).label e1 = (scanned_shape s).label e2 → e1 = e2) ∧
    (∀ e, adjacent s.last_filled e → (scanned_shape s).label e ≠ 0) ∧
    (s.highest_written ≤ (scanned_shape s).highest_written ∧
      (scanned_shape s).highest_written ≤ s.highest_written + 6) ∧
    (scanned_shape s).highest_numbering = s.highest_numbering := by
  obtain ⟨x1, x2, x3, x4, x5, _, _⟩ := expand_label s hwf hf
  have hlen := fresh_cells_length s
  have hscan : (∀ e, (scanned_shape s).label e = (expand_empty_slots s).label e) ∧
      (scanned_shape s).highest_written = (expand_empty_slots s).highest_written ∧
      (scanned_shape s).highest_numbering = (expand_empty_slots s).highest_numbering := by
    unfold scanned_shape
    by_cases hk : s.k < 3
    · rw [if_pos hk]
      obtain ⟨hwe, _⟩ := expand_wf s hwf hf
      have hroot : (expand_empty_slots s).value
          ((expand_empty_slots s).root.add (expand_empty_slots s).last_filled) ≠ 0 := by
        rw [hwe.filled _ (last_filled_mem _ hwe.nonempty)]
        exact FILLED_CUBE_ne_zero
      obtain ⟨⟨a1, a2, a3⟩, ⟨a4, a5, a6⟩⟩ := hwe.labeled_bounds _ hroot
      have hle : (expand_empty_slots s).labeled_min_bounds.le
          (expand_empty_slots s).labeled_max_bounds := by
        unfold position.le; omega
      obtain ⟨hm, _⟩ := crop_cube_moved (expand_empty_slots s) hwe.labeled_bounds hle
      exact ⟨fun e => label_moved _ _ _ hm e, hm.written_eq, hm.numbering_eq⟩
    · rw [if_neg hk]
      exact ⟨fun _ => rfl, rfl, rfl⟩
  obtain ⟨y1, y2, y3⟩ := hscan
  have hidx : ∀ e, (pad_cube s).1.root.add e ∈ fresh_cells s →
      (fresh_cells s).indexOf ((pad_cube s).1.root.add e) < (fresh_cells s).length :=
    fun e he => List.indexOf_lt_length.mpr he
  refine ⟨?_, ?_, ?_, ?_, ?_, ?_⟩
  · intro e he
    rw [y1]
    by_cases hfr : (pad_cube s).1.root.add e ∈ fresh_cells s
    · exact absurd (x2 e hfr).1 he
    · exact x1 e hfr
  · intro e he
    rw [y1] at he
    by_cases hfr : (pad_cube s).1.root.add e ∈ fresh_cells s
    · obtain ⟨z1, z2, z3⟩ := x2 e hfr
      have := hidx e hfr
      rw [y1, y2, x4, z3]
      exact ⟨z1, z2, by omega, by omega⟩
    · exact absurd (x1 e hfr) he
  · intro e1 e2 h1 h2 heq
    rw [y1] at h1 h2 heq
    rw [y1] at heq
    by_cases hf1 : (pad_cube s).1.root.add e1 ∈ fresh_cells s
    · by_cases hf2 : (pad_cube s).1.root.add e2 ∈ fresh_cells s
      · rw [(x2 e1 hf1).2.2, (x2 e2 hf2).2.2] at heq
        have hi : (fresh_cells s).indexOf ((pad_cube s).1.root.add e1)
            = (fresh_cells s).indexOf ((pad_cube s).1.root.add e2) := by omega
        exact root_add_inj _ _ _ ((List.indexOf_inj hf1 hf2).mp hi)
      · exact absurd (x1 e2 hf2) h2
    · exact absurd (x1 e1 hf1) h1
  · intro e hadj
    rw [y1]
    rcases x3 e hadj with h | h
    · obtain ⟨_, _, z3⟩ := x2 e h
      rw [z3]
      omega
    · by_cases hfr : (pad_cube s).1.root.add e ∈ fresh_cells s
      · exact absurd (x2 e hfr).1 h
      · rw [x1 e hfr]
        exact h
  · rw [y2, x4]
    omega
  · rw [y3, x5]
theorem mem_last_or_dropLast (l : List position) (e : position) (he : e ∈ l) :
    e = l.getLastD ⟨0, 0, 0⟩ ∨ e ∈ l.dropLast := by
  induction l with
  | nil => exact absurd he (List.not_mem_nil e)
  | cons a l ih =>
    cases l with
    | nil =>
      left
      simpa using he
    | cons b l =>
      rcases List.mem_cons.mp he with h | h
      · right
        rw [h]
        simp [List.dropLast]
      · rcases ih h with h1 | h1
        · left
          rw [h1]
          simp [List.getLastD]
        · right
          simp only [List.dropLast_cons₂, List.mem_cons]
          exact Or.inr h1

/-- The labels of the scanned shape satisfy the invariant, with six more
labels allowed, and every neighbour of every filled cell is labelled. -/
theorem scanned_label_inv (s : rooted_polycube) (hwf : s.wf) (hf : s.k > 3 → s.faces_ok)
    (b : Int) (h : s.label_inv b) (hb : b + 6 < FILLED_CUBE)
    (hn : neighbours_labelled s s.filled_cubes.dropLast) :
    (scanned_shape s).label_inv (b + 6) ∧
    neighbours_labelled (scanned_shape s) (scanned_shape s).filled_cubes := by
  have hw0 : 0 ≤ s.highest_written := le_trans hwf.numbering_nonneg h.numbering_le
  obtain ⟨p1, p2, p3, p4, ⟨p5, p6⟩, p7⟩ := scanned_label s hwf hf hw0
  have hwb := h.written_le
  constructor
  · refine
      { filled_only := ?_, label_range := ?_, label_inj := ?_, numbering_le := ?_
        written_le := ?_ }
    · intro e he
      rw [scanned_filled]
      by_cases hsame : (scanned_shape s).label e = s.label e
      · rw [hsame] at he
        exact h.filled_only e he
      · obtain ⟨_, _, _, q4⟩ := p2 e hsame
        omega
    · intro e h0 hfl
      by_cases hsame : (scanned_shape s).label e = s.label e
      · rw [hsame] at h0 hfl ⊢
        obtain ⟨r1, r2⟩ := h.label_range e h0 hfl
        exact ⟨r1, by omega⟩
      · obtain ⟨_, _, q3, q4⟩ := p2 e hsame
        exact ⟨by omega, q4⟩
    · intro e1 e2 h0 hfl heq
      by_cases hs1 : (scanned_shape s).label e1 = s.label e1
      · by_cases hs2 : (scanned_shape s).label e2 = s.label e2
        · rw [hs1] at h0 hfl heq
          rw [hs2] at heq
          exact h.label_inj e1 e2 h0 hfl heq
        · obtain ⟨_, _, q3, _⟩ := p2 e2 hs2
          rw [hs1] at h0 hfl heq
          obtain ⟨_, r2⟩ := h.label_range e1 h0 hfl
          omega
      · by_cases hs2 : (scanned_shape s).label e2 = s.label e2
        · obtain ⟨_, _, q3, q4⟩ := p2 e1 hs1
          have h0' : s.label e2 ≠ 0 := by rw [← hs2, ← heq]; omega
          have hf' : s.label e2 ≠ FILLED_CUBE := by rw [← hs2, ← heq]; omega
          obtain ⟨_, r2⟩ := h.label_range e2 h0' hf'
          omega
        · exact p3 e1 e2 hs1 hs2 heq
    · rw [p7]
      have := h.numbering_le
      omega
    · omega
  · rw [scanned_filled]
    intro e he e2 hadj
    rcases mem_last_or_dropLast _ e he with h1 | h1
    · apply p4
      rw [h1] at hadj
      exact hadj
    · have := hn e h1 e2 hadj
      rw [p1 e2 this]
      exact this

theorem filled_shape_label (s : rooted_polycube) (hwf : s.wf) (hf : s.k > 3 → s.faces_ok)
    (c : Nat × position) (hc : c ∈ for_each_cube_cells (scanned_shape s).dim) (e : position) :
    (filled_shape s c).label e =
      if (scanned_shape s).root.add e = c.2 then FILLED_CUBE else (scanned_shape s).label e := by
  obtain ⟨hwc, _⟩ := scanned_shape_wf s hwf hf
  obtain ⟨hbox, _, _⟩ := is_candidate_value _ c hc
  unfold filled_shape rooted_polycube.label
  have hroot : (fill_cell (scanned_shape s) c.2.x c.2.y c.2.z
      (array_get (scanned_shape s).cubes c.1)).root = (scanned_shape s).root := rfl
  rw [hroot, value_fill_cell _ hwc c.2 hbox]

theorem filled_shape_header (s : rooted_polycube) (c : Nat × position) :
    (filled_shape s c).k = s.k + 1 ∧
    (filled_shape s c).highest_numbering = array_get (scanned_shape s).cubes c.1 ∧
    (filled_shape s c).highest_written = (scanned_shape s).highest_written ∧
    (filled_shape s c).root = (scanned_shape s).root := by
  refine ⟨?_, rfl, rfl, rfl⟩
  show (scanned_shape s).k + 1 = s.k + 1
  rw [scanned_shape_k]

/-- The offset of a cell of the scanned grid. -/
theorem offset_of_cell (root p : position) :
    root.add ⟨p.x - root.x, p.y - root.y, p.z - root.z⟩ = p := by
  apply position_ext <;> simp only [position.add] <;> omega

theorem filled_label_inv (s : rooted_polycube) (hwf : s.wf) (hf : s.k > 3 → s.faces_ok)
    (b : Int) (h : (scanned_shape s).label_inv b)
    (hn : neighbours_labelled (scanned_shape s) (scanned_shape s).filled_cubes)
    (c : Nat × position) (hc : c ∈ for_each_cube_cells (scanned_shape s).dim)
    (hcand : is_candidate (scanned_shape s) c) :
    (filled_shape s c).label_inv b ∧
    neighbours_labelled (filled_shape s c) (filled_shape s c).filled_cubes.dropLast := by
  obtain ⟨hwc, _⟩ := scanned_shape_wf s hwf hf
  obtain ⟨hbox, hv, _⟩ := is_candidate_value _ c hc
  have hlab := filled_shape_label s hwf hf c hc
  obtain ⟨_, k2, k3, _⟩ := filled_shape_header s c
  have hfl := filled_shape_filled s c
  obtain ⟨⟨c1, c2⟩, _⟩ := hcand
  have hcv : (scanned_shape s).label ⟨c.2.x - (scanned_shape s).root.x,
      c.2.y - (scanned_shape s).root.y, c.2.z - (scanned_shape s).root.z⟩
      = array_get (scanned_shape s).cubes c.1 := by
    unfold rooted_polycube.label
    rw [offset_of_cell, hv]
  constructor
  · refine
      { filled_only := ?_, label_range := ?_, label_inj := ?_, numbering_le := ?_
        written_le := ?_ }
    · intro e he
      rw [hlab] at he
      rw [hfl]
      by_cases hec : (scanned_shape s).root.add e = c.2
      · apply List.mem_append_right
        rw [List.mem_singleton]
        apply root_add_inj (scanned_shape s).root
        rw [offset_of_cell]
        exact hec
      · rw [if_neg hec] at he
        apply List.mem_append_left
        rw [← scanned_filled]
        exact h.filled_only e he
    · intro e h0 hfc
      rw [hlab] at h0 hfc ⊢
      by_cases hec : (scanned_shape s).root.add e = c.2
      · rw [if_pos hec] at hfc
        exact absurd rfl hfc
      · rw [if_neg hec] at h0 hfc ⊢
        rw [k3]
        exact h.label_range e h0 hfc
    · intro e1 e2 h0 hfc heq
      rw [hlab] at h0 hfc heq
      rw [hlab] at heq
      by_cases h1 : (scanned_shape s).root.add e1 = c.2
      · rw [if_pos h1] at hfc
        exact absurd rfl hfc
      · rw [if_neg h1] at h0 hfc heq
        by_cases h2 : (scanned_shape s).root.add e2 = c.2
        · rw [if_pos h2] at heq
          exact absurd heq hfc
        · rw [if_neg h2] at heq
          exact h.label_inj e1 e2 h0 hfc heq
    · rw [k2, k3, ← hcv]
      have hnn := hwc.numbering_nonneg
      apply (h.label_range _ _ _).2
      · rw [hcv]; omega
      · rw [hcv]; exact c1
    · rw [k3]
      exact h.written_le
  · rw [hfl, List.dropLast_concat, ← scanned_filled]
    intro e he e2 hadj
    rw [hlab]
    by_cases hec : (scanned_shape s).root.add e2 = c.2
    · rw [if_pos hec]
      exact FILLED_CUBE_ne_zero
    · rw [if_neg hec]
      exact hn e he e2 hadj

theorem initial_label (e : position) :
    initial_polycube.label e = if e = ⟨0, 0, 0⟩ then FILLED_CUBE else 0 := by
  unfold rooted_polycube.label rooted_polycube.value
  by_cases he : e = ⟨0, 0, 0⟩
  · rw [if_pos he, he]
    decide
  · rw [if_neg he, if_neg]
    intro hbox
    apply he
    unfold in_box at hbox
    have h1 : (initial_polycube.root.add e).x = e.x := by
      show (0 : Int) + e.x = e.x
      omega
    have h2 : (initial_polycube.root.add e).y = e.y := by
      show (0 : Int) + e.y = e.y
      omega
    have h3 : (initial_polycube.root.add e).z = e.z := by
      show (0 : Int) + e.z = e.z
      omega
    have d1 : initial_polycube.dim.x = 1 := rfl
    have d2 : initial_polycube.dim.y = 1 := rfl
    have d3 : initial_polycube.dim.z = 1 := rfl
    rw [h1, h2, h3, d1, d2, d3] at hbox
    exact position_ext _ _ (by show e.x = 0; omega) (by show e.y = 0; omega)
      (by show e.z = 0; omega)

/-- Every shape the search is run on, of at most 5000 cubes, satisfies the
label invariant, and every neighbour of each of its filled cells other than
the last is labelled. -/
theorem search_current_label_inv (s : rooted_polycube) (h : search_current s) :
    s.k ≤ 5000 →
      s.label_inv (6 * s.k) ∧ neighbours_labelled s s.filled_cubes.dropLast := by
  induction h with
  | initial =>
    intro _
    constructor
    · refine
        { filled_only := ?_, label_range := ?_, label_inj := ?_, numbering_le := by decide
          written_le := by decide }
      · intro e he
        rw [initial_label] at he
        by_cases h0 : e = ⟨0, 0, 0⟩
        · rw [h0]
          exact List.mem_singleton_self _
        · rw [if_neg h0] at he
          exact absurd he.symm FILLED_CUBE_ne_zero
      · intro e h0 hf
        rw [initial_label] at h0 hf
        by_cases he : e = ⟨0, 0, 0⟩
        · rw [if_pos he] at hf
          exact absurd rfl hf
        · rw [if_neg he] at h0
          exact absurd rfl h0
      · intro e1 e2 h0 hf _
        rw [initial_label] at h0 hf
        by_cases he : e1 = ⟨0, 0, 0⟩
        · rw [if_pos he] at hf
          exact absurd rfl hf
        · rw [if_neg he] at h0
          exact absurd rfl h0
    · intro e he
      exact absurd he (List.not_mem_nil e)
  | filled current c hcur hc hcand ih =>
    intro hk
    obtain ⟨k1, _, _, _⟩ := filled_shape_header current c
    rw [k1] at hk
    obtain ⟨i1, i2⟩ := ih (by omega)
    obtain ⟨hwf, hf⟩ := search_current_wf current hcur
    have hb : 6 * current.k + 6 < FILLED_CUBE := by
      have : FILLED_CUBE = 32767 := rfl
      omega
    obtain ⟨j1, j2⟩ := scanned_label_inv current hwf hf _ i1 hb i2
    have := filled_label_inv current hwf hf _ j1 j2 c hc hcand
    rw [k1]
    have h6 : 6 * (current.k + 1) = 6 * current.k + 6 := by ring
    rw [h6]
    exact this


/-! ### One level of the search: which shapes lie below which candidate -/

theorem connected_cut (S : Finset position) (hS : face_connected S) (P : position → Prop)
    (a : position) (ha : a ∈ S) (hPa : P a) (b : position) (hb : b ∈ S) (hPb : ¬ P b) :
    ∃ u ∈ S, ∃ v ∈ S, P u ∧ ¬ P v ∧ adjacent u v := by
  have key : ∀ c, Relation.ReflTransGen (fun u v => u ∈ S ∧ v ∈ S ∧ adjacent u v) a c →
      P c ∨ ∃ u ∈ S, ∃ v ∈ S, P u ∧ ¬ P v ∧ adjacent u v := by
    intro c hc
    induction hc with
    | refl => exact Or.inl hPa
    | @tail x y _ hstep ih =>
      rcases ih with h | h
      · by_cases hy : P y
        · exact Or.inl hy
        · exact Or.inr ⟨x, hstep.1, y, hstep.2.1, h, hy, hstep.2.2⟩
      · exact Or.inr h
  rcases key b (hS a ha b hb) with h | h
  · exact absurd h hPb
  · exact h

theorem adjacent_symm (a b : position) (h : adjacent a b) : adjacent b a := by
  unfold adjacent at *
  omega

/-- A sequence in which every cell after the first touches an earlier one is
face-connected as a set. -/
theorem face_connected_of_grown (l : List position) (h : grown_by_faces l) :
    face_connected l.toFinset := by
  have hsymm : Symmetric (fun u v : position =>
      u ∈ l.toFinset ∧ v ∈ l.toFinset ∧ adjacent u v) :=
    fun u v huv => ⟨huv.2.1, huv.1, adjacent_symm u v huv.2.2⟩
  have key : ∀ i : Nat, ∀ a b, l[0]? = some a → l[i]? = some b →
      Relation.ReflTransGen (fun u v => u ∈ l.toFinset ∧ v ∈ l.toFinset ∧ adjacent u v) a b := by
    intro i
    induction i using Nat.strong_induction_on with
    | _ i ih =>
      intro a b ha hb
      by_cases hi : i = 0
      · subst hi
        rw [ha] at hb
        cases hb
        exact Relation.ReflTransGen.refl
      · obtain ⟨j, c, hj, hc, hadj⟩ := h i b (by omega) hb
        have h1 := ih j hj a c ha hc
        refine Relation.ReflTransGen.tail h1 ⟨?_, ?_, hadj⟩
        · exact List.mem_toFinset.mpr (List.mem_iff_getElem?.mpr ⟨j, hc⟩)
        · exact List.mem_toFinset.mpr (List.mem_iff_getElem?.mpr ⟨i, hb⟩)
  intro a ha b hb
  obtain ⟨i, hi⟩ := List.mem_iff_getElem?.mp (List.mem_toFinset.mp ha)
  obtain ⟨j, hj⟩ := List.mem_iff_getElem?.mp (List.mem_toFinset.mp hb)
  have hne : l ≠ [] := by
    intro h0
    rw [h0] at hi
    simp at hi
  obtain ⟨r, hr⟩ : ∃ r, l[0]? = some r := by
    cases l with
    | nil => exact absurd rfl hne
    | cons x _ => exact ⟨x, List.getElem?_cons_zero⟩
  have h1 := key i r a hr hi
  have h2 := key j r b hr hj
  exact Relation.ReflTransGen.trans (Relation.ReflTransGen.symmetric hsymm h1) h2

theorem not_before_root_of_lex (cr : rooted_polycube) (e : position) (h : lex_ge_root e) :
    before_root cr (cr.root.add e).x (cr.root.add e).y (cr.root.add e).z = false := by
  unfold lex_ge_root at h
  unfold before_root
  simp only [position.add]
  rw [if_neg (by omega), if_neg (by omega), if_neg (by omega)]

/-- The cell of the scanned grid at an offset where the grid holds something. -/
theorem cell_of_offset (cr : rooted_polycube) (hd : 0 < cr.dim.x ∧ 0 < cr.dim.y ∧ 0 < cr.dim.z)
    (e : position) (h : cr.label e ≠ 0) :
    ∃ c ∈ for_each_cube_cells cr.dim, c.2 = cr.root.add e := by
  have hbox := in_box_of_value_ne_zero cr _ h
  have h0 := index_nonneg cr.dim _ hd hbox
  refine ⟨(((cr.root.add e).z * (cr.dim.y * cr.dim.x) + (cr.root.add e).y * cr.dim.x
    + (cr.root.add e).x).toNat, cr.root.add e), ?_, rfl⟩
  rw [cells_mem_iff]
  exact ⟨hbox, Int.toNat_of_nonneg h0⟩

theorem cell_eq_of_pos_eq (dim : position) (c1 c2 : Nat × position)
    (h1 : c1 ∈ for_each_cube_cells dim) (h2 : c2 ∈ for_each_cube_cells dim)
    (h : c1.2 = c2.2) : c1 = c2 := by
  obtain ⟨_, i1⟩ := (cells_mem_iff dim c1.1 c1.2).mp h1
  obtain ⟨_, i2⟩ := (cells_mem_iff dim c2.1 c2.2).mp h2
  rw [h] at i1
  have : c1.1 = c2.1 := by
    have : (c1.1 : Int) = (c2.1 : Int) := by rw [i1, i2]
    exact_mod_cast this
  exact Prod.ext this h

theorem search_level_facts (s : rooted_polycube) (h : search_current s) (hk : s.k ≤ 5000) :
    level_facts s := by
  obtain ⟨hwf, hf⟩ := search_current_wf s h
  obtain ⟨i1, i2⟩ := search_current_label_inv s h hk
  have hb : 6 * s.k + 6 < FILLED_CUBE := by
    have : FILLED_CUBE = 32767 := rfl
    omega
  obtain ⟨j1, j2⟩ := scanned_label_inv s hwf hf _ i1 hb i2
  have hw0 : 0 ≤ s.highest_written := le_trans hwf.numbering_nonneg i1.numbering_le
  obtain ⟨p1, p2, _, _, _, p7⟩ := scanned_label s hwf hf hw0
  rw [scanned_filled] at j2
  exact
    { wf := hwf, faces := hf, scan_wf := (scanned_shape_wf s hwf hf).1, scan_inv := j1
      scan_nb := j2, kept := p1
      fresh := fun e he => ⟨(p2 e he).1, (p2 e he).2.2.1⟩
      numbering := p7, numbering_le := i1.numbering_le
      lex := (search_current_lex s h).2 }

theorem candidate_label (s : rooted_polycube) (c : Nat × position)
    (hc : c ∈ for_each_cube_cells (scanned_shape s).dim) :
    array_get (scanned_shape s).cubes c.1
      = (scanned_shape s).label ⟨c.2.x - (scanned_shape s).root.x,
          c.2.y - (scanned_shape s).root.y, c.2.z - (scanned_shape s).root.z⟩ := by
  obtain ⟨_, hv, _⟩ := is_candidate_value _ c hc
  unfold rooted_polycube.label
  rw [offset_of_cell, hv]

/-- A shape that can be reached from `s` and has more cells than `s` can be
reached through one of the candidates of the scan. -/
theorem step_exists (s : rooted_polycube) (L : level_facts s) (n : Int) (hk : s.k < n)
    (S : Finset position) (ext : extends_to s n S) :
    ∃ c ∈ for_each_cube_cells (scanned_shape s).dim,
      is_candidate (scanned_shape s) c ∧ extends_to (filled_shape s c) n S := by
  have hFS : ∀ e ∈ s.filled_cubes, e ∈ S := ext.contains
  -- a cell of `S` that is not filled
  have hout : ∃ b ∈ S, b ∉ s.filled_cubes := by
    by_contra hno
    push_neg at hno
    have hsub : S ⊆ s.filled_cubes.toFinset := fun b hb => List.mem_toFinset.mpr (hno b hb)
    have h1 := Finset.card_le_card hsub
    have h2 := List.toFinset_card_le s.filled_cubes
    have h3 := L.wf.k_eq
    have h4 := ext.card_eq
    omega
  obtain ⟨b, hbS, hbF⟩ := hout
  have hmem := last_filled_mem s L.wf.nonempty
  obtain ⟨u, _, v, hvS, huF, hvF, hadj⟩ :=
    connected_cut S ext.connected (fun e => e ∈ s.filled_cubes) _ (hFS _ hmem) hmem b hbS hbF
  have hvl : (scanned_shape s).label v ≠ 0 := L.scan_nb u huF v hadj
  -- the labelled cell of `S` outside the filled cells with the least label
  have hne : (S.filter fun e => e ∉ s.filled_cubes ∧ (scanned_shape s).label e ≠ 0).Nonempty :=
    ⟨v, Finset.mem_filter.mpr ⟨hvS, hvF, hvl⟩⟩
  obtain ⟨m, hm, hmin⟩ := Finset.exists_min_image _ (fun e => (scanned_shape s).label e) hne
  obtain ⟨hmS, hmF, hml⟩ := Finset.mem_filter.mp hm
  obtain ⟨c, hc, hcm⟩ := cell_of_offset _ L.scan_wf.dim_pos m hml
  have hoff : (⟨c.2.x - (scanned_shape s).root.x, c.2.y - (scanned_shape s).root.y,
      c.2.z - (scanned_shape s).root.z⟩ : position) = m := by
    apply root_add_inj (scanned_shape s).root
    rw [offset_of_cell, hcm]
  have hcl := candidate_label s c hc
  rw [hoff] at hcl
  have hnf : (scanned_shape s).label m ≠ FILLED_CUBE := by
    intro hfl
    have := L.scan_inv.filled_only m hfl
    rw [scanned_filled] at this
    exact hmF this
  have hgt : (scanned_shape s).label m > s.highest_numbering := by
    by_cases h0 : s.label m = 0
    · have hdiff : (scanned_shape s).label m ≠ s.label m := by rw [h0]; exact hml
      have := (L.fresh m hdiff).2
      have := L.numbering_le
      omega
    · have hk1 := L.kept m h0
      rcases ext.avoids m hmS with h | h | h
      · exact absurd h h0
      · rw [hk1] at hnf
        exact absurd h hnf
      · rw [hk1]
        exact h
  have hcand : is_candidate (scanned_shape s) c := by
    refine ⟨⟨?_, ?_⟩, ?_⟩
    · rw [hcl]; exact hnf
    · rw [hcl, L.numbering]; exact hgt
    · rw [hcm]
      exact not_before_root_of_lex _ m (ext.lex m hmS)
  refine ⟨c, hc, hcand, ?_⟩
  refine
    { card_eq := ext.card_eq, connected := ext.connected, contains := ?_, lex := ext.lex
      avoids := ?_ }
  · intro e he
    rw [filled_shape_filled, hoff] at he
    rcases List.mem_append.mp he with h | h
    · exact hFS e h
    · rw [List.mem_singleton] at h
      rw [h]
      exact hmS
  · intro e he
    rw [filled_shape_label s L.wf L.faces c hc]
    by_cases hec : (scanned_shape s).root.add e = c.2
    · rw [if_pos hec]
      exact Or.inr (Or.inl rfl)
    · rw [if_neg hec]
      by_cases h0 : (scanned_shape s).label e = 0
      · exact Or.inl h0
      · by_cases heF : e ∈ s.filled_cubes
        · right; left
          have := L.scan_wf.filled e (by rw [scanned_filled]; exact heF)
          exact this
        · right; right
          have hle := hmin e (Finset.mem_filter.mpr ⟨he, heF, h0⟩)
          have hne2 : (scanned_shape s).label m ≠ (scanned_shape s).label e := by
            intro heq
            have := L.scan_inv.label_inj m e hml hnf heq
            apply hec
            rw [← this, hcm]
          show (scanned_shape s).label e > array_get (scanned_shape s).cubes c.1
          rw [hcl]
          omega

/-- A shape can be reached through at most one candidate of the scan. -/
theorem step_unique (s : rooted_polycube) (L : level_facts s) (n : Int)
    (S : Finset position) (c1 c2 : Nat × position)
    (h1 : c1 ∈ for_each_cube_cells (scanned_shape s).dim)
    (h2 : c2 ∈ for_each_cube_cells (scanned_shape s).dim)
    (k1 : is_candidate (scanned_shape s) c1) (k2 : is_candidate (scanned_shape s) c2)
    (e1 : extends_to (filled_shape s c1) n S) (e2 : extends_to (filled_shape s c2) n S) :
    c1 = c2 := by
  have key : ∀ (a b : Nat × position), a ∈ for_each_cube_cells (scanned_shape s).dim →
      b ∈ for_each_cube_cells (scanned_shape s).dim → is_candidate (scanned_shape s) a →
      extends_to (filled_shape s a) n S → extends_to (filled_shape s b) n S → a.2 ≠ b.2 →
      array_get (scanned_shape s).cubes a.1 > array_get (scanned_shape s).cubes b.1 := by
    intro a b ha hb ka ea eb hne
    have hmem : (⟨a.2.x - (scanned_shape s).root.x, a.2.y - (scanned_shape s).root.y,
        a.2.z - (scanned_shape s).root.z⟩ : position) ∈ S := by
      apply ea.contains
      rw [filled_shape_filled]
      exact List.mem_append_right _ (List.mem_singleton_self _)
    have hav := eb.avoids _ hmem
    rw [filled_shape_label s L.wf L.faces b hb, offset_of_cell, if_neg hne,
      ← candidate_label s a ha] at hav
    have hnn := L.scan_wf.numbering_nonneg
    obtain ⟨⟨ka1, ka2⟩, _⟩ := ka
    rcases hav with h | h | h
    · omega
    · exact absurd h ka1
    · exact h
  by_cases hpos : c1.2 = c2.2
  · exact cell_eq_of_pos_eq _ c1 c2 h1 h2 hpos
  · have g1 := key c1 c2 h1 h2 k1 e1 e2 hpos
    have g2 := key c2 c1 h2 h1 k2 e2 e1 (fun h => hpos h.symm)
    omega

/-- What can be reached through a candidate can be reached from `s`. -/
theorem step_mono (s : rooted_polycube) (L : level_facts s) (n : Int)
    (S : Finset position) (c : Nat × position)
    (hc : c ∈ for_each_cube_cells (scanned_shape s).dim)
    (hcand : is_candidate (scanned_shape s) c) (ext : extends_to (filled_shape s c) n S) :
    extends_to s n S := by
  refine
    { card_eq := ext.card_eq, connected := ext.connected, contains := ?_, lex := ext.lex
      avoids := ?_ }
  · intro e he
    apply ext.contains
    rw [filled_shape_filled]
    exact List.mem_append_left _ he
  · intro e he
    by_cases h0 : s.label e = 0
    · exact Or.inl h0
    · right
      have hk1 := L.kept e h0
      have hav := ext.avoids e he
      rw [filled_shape_label s L.wf L.faces c hc] at hav
      obtain ⟨⟨_, k2⟩, _⟩ := hcand
      rw [L.numbering] at k2
      by_cases hec : (scanned_shape s).root.add e = c.2
      · right
        have hoff : (⟨c.2.x - (scanned_shape s).root.x, c.2.y - (scanned_shape s).root.y,
            c.2.z - (scanned_shape s).root.z⟩ : position) = e := by
          apply root_add_inj (scanned_shape s).root
          rw [offset_of_cell, hec]
        rw [candidate_label s c hc, hoff, hk1] at k2
        exact k2
      · rw [if_neg hec, hk1] at hav
        rcases hav with h | h | h
        · exact absurd h h0
        · exact Or.inl h
        · right
          have : (filled_shape s c).highest_numbering = array_get (scanned_shape s).cubes c.1 :=
            rfl
          rw [this] at h
          omega

/-- From a shape that has `n` cells already, only its own cell set can be reached. -/
theorem extends_to_leaf (s : rooted_polycube) (hwf : s.wf) (hlex : ∀ e ∈ s.filled_cubes,
    lex_ge_root e) (n : Int) (hk : s.k = n) (S : Finset position) :
    extends_to s n S ↔ S = s.cells := by
  have hcard : (s.cells.card : Int) = n := by
    unfold rooted_polycube.cells
    rw [List.toFinset_card_of_nodup hwf.nodup, ← hwf.k_eq, hk]
  constructor
  · intro ext
    symm
    apply Finset.eq_of_subset_of_card_le
    · intro e he
      exact ext.contains e (List.mem_toFinset.mp he)
    · have := ext.card_eq
      omega
  · intro hS
    rw [hS]
    refine
      { card_eq := hcard
        connected := face_connected_of_grown _ hwf.grown
        contains := fun e he => List.mem_toFinset.mpr he
        lex := fun e he => hlex e (List.mem_toFinset.mp he)
        avoids := fun e he => Or.inr (Or.inl (hwf.filled e (List.mem_toFinset.mp he))) }


/-! ### The shapes with `n` cubes that the search reaches -/

theorem foldl_prefix {α β : Type} (P : List α → β → Prop) (f : β → α → β) (l : List α)
    (b : β) (h0 : P [] b)
    (hstep : ∀ pre a b, (pre ++ [a]) <+: l → P pre b → P (pre ++ [a]) (f b a)) :
    P l (l.foldl f b) := by
  have key : ∀ (rest pre : List α) (b : β), pre ++ rest = l → P pre b →
      P l (rest.foldl f b) := by
    intro rest
    induction rest with
    | nil =>
      intro pre b hl hp
      rw [List.append_nil] at hl
      rw [← hl]
      exact hp
    | cons a rest ih =>
      intro pre b hl hp
      simp only [List.foldl_cons]
      apply ih (pre ++ [a])
      · rw [List.append_assoc]
        exact hl
      · apply hstep pre a b _ hp
        exact ⟨rest, by rw [List.append_assoc]; exact hl⟩
  exact key l [] b rfl h0

theorem cells_nodup (dim : position) : (for_each_cube_cells dim).Nodup := by
  unfold for_each_cube_cells
  exact List.Nodup.of_map _ (List.nodup_enum_map_fst _)

/-- What one visit of the scan adds to the list handed to `on_expanded`, in
the search with target size `n + 1` and cutoff `n`. -/
theorem dfs_visit_leaves (recurse : rooted_polycube → dfs_output) (n : Int)
    (s : rooted_polycube) (hk : s.k < n) (out : dfs_output) (c : Nat × position)
    (hc : c ∈ for_each_cube_cells (scanned_shape s).dim) :
    (dfs_visit recurse (n + 1) n (scanned_shape s).highest_numbering
        (scanned_shape s).min_bounds (scanned_shape s).max_bounds
        (scanned_shape s, out) c).1 = scanned_shape s ∧
    (dfs_visit recurse (n + 1) n (scanned_shape s).highest_numbering
        (scanned_shape s).min_bounds (scanned_shape s).max_bounds
        (scanned_shape s, out) c).2.expanded
      = out.expanded ++
        (if is_candidate (scanned_shape s) c then
          (if s.k + 1 = n then [filled_shape s c] else (recurse (filled_shape s c)).expanded)
        else []) := by
  obtain ⟨_, hv, hv2⟩ := is_candidate_value _ c hc
  obtain ⟨k1, _, _, _⟩ := filled_shape_header s c
  unfold dfs_visit
  dsimp only
  by_cases hcand : array_get (scanned_shape s).cubes c.1 ≠ FILLED_CUBE ∧
      array_get (scanned_shape s).cubes c.1 > (scanned_shape s).highest_numbering
  · rw [if_pos hcand]
    by_cases hbr : before_root (scanned_shape s) c.2.x c.2.y c.2.z = true
    · rw [if_pos hbr]
      have hnc : ¬ is_candidate (scanned_shape s) c := by
        intro h
        rw [h.2] at hbr
        exact absurd hbr (by decide)
      rw [if_neg hnc, List.append_nil]
      exact ⟨rfl, rfl⟩
    · rw [if_neg hbr]
      have hic : is_candidate (scanned_shape s) c := ⟨hcand, by simpa using hbr⟩
      rw [if_pos hic]
      constructor
      · have := restore_fill (scanned_shape s) c.2.x c.2.y c.2.z
        rw [hv2, ← hv] at this
        exact this
      · show (dfs_emit recurse (n + 1) n (filled_shape s c) out).expanded = _
        unfold dfs_emit
        dsimp only
        rw [if_neg (by rw [k1]; omega)]
        by_cases hkn : s.k + 1 = n
        · rw [if_pos (by rw [k1]; exact hkn), if_pos hkn]
        · rw [if_neg (by rw [k1]; exact hkn), if_neg hkn]
  · rw [if_neg hcand]
    have hnc : ¬ is_candidate (scanned_shape s) c := fun h => hcand h.1
    rw [if_neg hnc, List.append_nil]
    exact ⟨rfl, rfl⟩

/-- One activation of the search with cutoff `n`: if the recursive call
reaches every shape below each candidate once, the activation reaches every
shape below `s` once. -/
theorem dfs_level_leaves (recurse : rooted_polycube → dfs_output) (n : Int)
    (s : rooted_polycube) (hcur : search_current s) (hk : s.k < n) (hn : n ≤ 5000)
    (hrec : ∀ t : rooted_polycube, search_current t → t.k = s.k + 1 → t.k < n →
      ((recurse t).expanded.map rooted_polycube.cells).Nodup ∧
      ∀ S, S ∈ (recurse t).expanded.map rooted_polycube.cells ↔ extends_to t n S) :
    ((dfs_level recurse (n + 1) n s).expanded.map rooted_polycube.cells).Nodup ∧
    ∀ S, S ∈ (dfs_level recurse (n + 1) n s).expanded.map rooted_polycube.cells ↔
      extends_to s n S := by
  have L := search_level_facts s hcur (by omega)
  have k1 : ∀ c, (filled_shape s c).k = s.k + 1 := fun c => (filled_shape_header s c).1
  have hinv := foldl_prefix
    (fun (pre : List (Nat × position)) (st : rooted_polycube × dfs_output) =>
      st.1 = scanned_shape s ∧
      (st.2.expanded.map rooted_polycube.cells).Nodup ∧
      ∀ S, S ∈ st.2.expanded.map rooted_polycube.cells ↔
        ∃ c ∈ pre, is_candidate (scanned_shape s) c ∧ extends_to (filled_shape s c) n S)
    (dfs_visit recurse (n + 1) n (scanned_shape s).highest_numbering
      (scanned_shape s).min_bounds (scanned_shape s).max_bounds)
    (for_each_cube_cells (scanned_shape s).dim) (scanned_shape s, ⟨0, [], []⟩)
    ⟨rfl, List.nodup_nil, fun S =>
      ⟨fun h => absurd h (List.not_mem_nil S), fun ⟨_, h, _⟩ => absurd h (List.not_mem_nil _)⟩⟩
    (fun pre c st hpre hst => by
      obtain ⟨st1, out⟩ := st
      obtain ⟨h1, h2, h3⟩ := hst
      dsimp only at h1 h2 h3
      subst h1
      have hc : c ∈ for_each_cube_cells (scanned_shape s).dim :=
        hpre.subset (List.mem_append_right _ (List.mem_singleton_self _))
      have hnotin : c ∉ pre := by
        have hnd := (cells_nodup (scanned_shape s).dim).sublist hpre.sublist
        rw [List.nodup_append] at hnd
        intro hin
        exact hnd.2.2 hin (List.mem_singleton_self _)
      obtain ⟨v1, v2⟩ := dfs_visit_leaves recurse n s hk out c hc
      -- what the visit adds
      have hnew : ∀ nw : List rooted_polycube,
          nw = (if is_candidate (scanned_shape s) c then
            (if s.k + 1 = n then [filled_shape s c] else (recurse (filled_shape s c)).expanded)
            else []) →
          (nw.map rooted_polycube.cells).Nodup ∧
          ∀ S, S ∈ nw.map rooted_polycube.cells ↔
            (is_candidate (scanned_shape s) c ∧ extends_to (filled_shape s c) n S) := by
        intro nw hnw
        by_cases hcand : is_candidate (scanned_shape s) c
        · rw [if_pos hcand] at hnw
          have hfs : search_current (filled_shape s c) :=
            search_current.filled s c hcur hc hcand
          by_cases hkn : s.k + 1 = n
          · rw [if_pos hkn] at hnw
            rw [hnw]
            refine ⟨by simp, ?_⟩
            intro S
            rw [List.map_singleton, List.mem_singleton,
              extends_to_leaf _ (search_current_wf _ hfs).1 (search_current_lex _ hfs).2 n
                (by rw [k1]; exact hkn) S]
            exact ⟨fun h => ⟨hcand, h⟩, fun h => h.2⟩
          · rw [if_neg hkn] at hnw
            rw [hnw]
            obtain ⟨r1, r2⟩ := hrec _ hfs (k1 c) (by rw [k1]; omega)
            exact ⟨r1, fun S => ⟨fun h => ⟨hcand, (r2 S).mp h⟩, fun h => (r2 S).mpr h.2⟩⟩
        · rw [if_neg hcand] at hnw
          rw [hnw]
          exact ⟨List.nodup_nil, fun S =>
            ⟨fun h => absurd h (List.not_mem_nil S), fun h => absurd h.1 hcand⟩⟩
      obtain ⟨n1, n2⟩ := hnew _ rfl
      refine ⟨v1, ?_, ?_⟩
      · rw [v2, List.map_append, List.nodup_append]
        refine ⟨h2, n1, ?_⟩
        intro S hS1 hS2
        obtain ⟨c', hc', hcand', hext'⟩ := (h3 S).mp hS1
        obtain ⟨hcand, hext⟩ := (n2 S).mp hS2
        have hc'mem : c' ∈ for_each_cube_cells (scanned_shape s).dim :=
          hpre.subset (List.mem_append_left _ hc')
        have := step_unique s L n S c' c hc'mem hc hcand' hcand hext' hext
        rw [this] at hc'
        exact hnotin hc'
      · intro S
        rw [v2, List.map_append, List.mem_append, h3 S, n2 S]
        constructor
        · rintro (⟨c', hc', h⟩ | h)
          · exact ⟨c', List.mem_append_left _ hc', h⟩
          · exact ⟨c, List.mem_append_right _ (List.mem_singleton_self _), h⟩
        · rintro ⟨c', hc', h⟩
          rcases List.mem_append.mp hc' with h1 | h1
          · exact Or.inl ⟨c', h1, h⟩
          · rw [List.mem_singleton] at h1
            rw [h1] at h
            exact Or.inr h)
  obtain ⟨_, g2, g3⟩ := hinv
  refine ⟨g2, ?_⟩
  intro S
  refine Iff.trans (g3 S) ?_
  constructor
  · rintro ⟨c, hc, hcand, hext⟩
    exact step_mono s L n S c hc hcand hext
  · intro hext
    exact step_exists s L n hk S hext

/-- The search with cutoff `n` hands to `on_expanded`, below a shape `s` of
the search with fewer than `n` cubes, every shape with `n` cells that can be
reached from `s`, each of them once. -/
theorem leaves_spec (n : Int) (hn : n ≤ 5000) (fuel : Nat) :
    ∀ s : rooted_polycube, search_current s → s.k < n → n - s.k ≤ fuel →
      ((expand_polycubes_dfs_from_current_fuel fuel (n + 1) n s).expanded.map
        rooted_polycube.cells).Nodup ∧
      ∀ S, S ∈ (expand_polycubes_dfs_from_current_fuel fuel (n + 1) n s).expanded.map
        rooted_polycube.cells ↔ extends_to s n S := by
  induction fuel with
  | zero =>
    intro s _ hk hf
    simp only [Nat.cast_zero] at hf
    omega
  | succ fuel ih =>
    intro s hcur hk hf
    unfold expand_polycubes_dfs_from_current_fuel
    apply dfs_level_leaves _ n s hcur hk hn
    intro t ht hts htk
    apply ih t ht htk
    push_cast at hf
    omega


/-! ### The search for the target size runs its tests on these shapes -/

theorem dfs_visit_filter (rec1 rec2 : rooted_polycube → dfs_output) (n : Int)
    (s : rooted_polycube) (hk : s.k < n) (out1 out2 : dfs_output) (c : Nat × position)
    (hrec : ∀ t : rooted_polycube, t.k = s.k + 1 → t.k < n →
      (rec1 t).found = ((rec2 t).expanded.filter is_counted).map get_polycube_sparse_from_rooted ∧
      (rec1 t).count = ((rec2 t).expanded.filter is_counted).length)
    (hout : out1.found = (out2.expanded.filter is_counted).map get_polycube_sparse_from_rooted ∧
      out1.count = (out2.expanded.filter is_counted).length) :
    (dfs_visit rec1 n n (scanned_shape s).highest_numbering (scanned_shape s).min_bounds
        (scanned_shape s).max_bounds (scanned_shape s, out1) c).1
      = (dfs_visit rec2 (n + 1) n (scanned_shape s).highest_numbering
          (scanned_shape s).min_bounds (scanned_shape s).max_bounds (scanned_shape s, out2) c).1 ∧
    (dfs_visit rec1 n n (scanned_shape s).highest_numbering (scanned_shape s).min_bounds
        (scanned_shape s).max_bounds (scanned_shape s, out1) c).2.found
      = ((dfs_visit rec2 (n + 1) n (scanned_shape s).highest_numbering
          (scanned_shape s).min_bounds (scanned_shape s).max_bounds
          (scanned_shape s, out2) c).2.expanded.filter is_counted).map
            get_polycube_sparse_from_rooted ∧
    (dfs_visit rec1 n n (scanned_shape s).highest_numbering (scanned_shape s).min_bounds
        (scanned_shape s).max_bounds (scanned_shape s, out1) c).2.count
      = ((dfs_visit rec2 (n + 1) n (scanned_shape s).highest_numbering
          (scanned_shape s).min_bounds (scanned_shape s).max_bounds
          (scanned_shape s, out2) c).2.expanded.filter is_counted).length := by
  have k1 : (filled_shape s c).k = s.k + 1 := (filled_shape_header s c).1
  unfold dfs_visit
  dsimp only
  split
  · split
    · exact ⟨rfl, hout⟩
    · refine ⟨rfl, ?_⟩
      show (dfs_emit rec1 n n (filled_shape s c) out1).found
          = ((dfs_emit rec2 (n + 1) n (filled_shape s c) out2).expanded.filter is_counted).map
              get_polycube_sparse_from_rooted ∧
        (dfs_emit rec1 n n (filled_shape s c) out1).count
          = ((dfs_emit rec2 (n + 1) n (filled_shape s c) out2).expanded.filter is_counted).length
      unfold dfs_emit
      dsimp only
      rw [if_neg (show ¬ (filled_shape s c).k = n + 1 by rw [k1]; omega)]
      by_cases hkn : (filled_shape s c).k = n
      · rw [if_pos hkn, if_pos hkn]
        dsimp only
        rw [List.filter_append, List.map_append, List.length_append, ← hout.1, ← hout.2]
        by_cases h1 : consider_this (filled_shape s c) = true
        · rw [if_pos h1]
          by_cases h2 : is_polycube_canonical_sparse
              (get_polycube_sparse_from_rooted (filled_shape s c)) = true
          · rw [if_pos h2]
            have hcnt : is_counted (filled_shape s c) = true := by
              unfold is_counted
              rw [h1, h2]
              rfl
            rw [List.filter_cons_of_pos hcnt]
            exact ⟨rfl, rfl⟩
          · rw [if_neg h2]
            have hcnt : ¬ is_counted (filled_shape s c) = true := by
              unfold is_counted
              rw [h1]
              simpa using h2
            rw [List.filter_cons_of_neg hcnt]
            simp
        · rw [if_neg h1]
          have hcnt : ¬ is_counted (filled_shape s c) = true := by
            unfold is_counted
            simp [h1]
          rw [List.filter_cons_of_neg hcnt]
          simp
      · rw [if_neg hkn, if_neg hkn, if_neg hkn]
        dsimp only
        obtain ⟨r1, r2⟩ := hrec _ k1 (by rw [k1] at hkn ⊢; omega)
        rw [List.filter_append, List.map_append, List.length_append, ← hout.1, ← hout.2,
          ← r1, ← r2]
        exact ⟨rfl, rfl⟩
  · exact ⟨rfl, hout⟩

theorem dfs_fuel_filter (n : Int) (fuel : Nat) :
    ∀ s : rooted_polycube, s.k < n → n - s.k ≤ fuel →
      (expand_polycubes_dfs_from_current_fuel fuel n n s).found
        = ((expand_polycubes_dfs_from_current_fuel (fuel + 1) (n + 1) n s).expanded.filter
            is_counted).map get_polycube_sparse_from_rooted ∧
      (expand_polycubes_dfs_from_current_fuel fuel n n s).count
        = ((expand_polycubes_dfs_from_current_fuel (fuel + 1) (n + 1) n s).expanded.filter
            is_counted).length := by
  induction fuel with
  | zero =>
    intro s hk hf
    simp only [Nat.cast_zero] at hf
    omega
  | succ fuel ih =>
    intro s hk hf
    show (dfs_level (expand_polycubes_dfs_from_current_fuel fuel n n) n n s).found
        = ((dfs_level (expand_polycubes_dfs_from_current_fuel (fuel + 1) (n + 1) n)
            (n + 1) n s).expanded.filter is_counted).map get_polycube_sparse_from_rooted ∧
      (dfs_level (expand_polycubes_dfs_from_current_fuel fuel n n) n n s).count
        = ((dfs_level (expand_polycubes_dfs_from_current_fuel (fuel + 1) (n + 1) n)
            (n + 1) n s).expanded.filter is_counted).length
    unfold dfs_level
    dsimp only
    have hrel := foldl_relation
      (fun (s1 s2 : rooted_polycube × dfs_output) => s1.1 = scanned_shape s ∧ s1.1 = s2.1 ∧
        s1.2.found = (s2.2.expanded.filter is_counted).map get_polycube_sparse_from_rooted ∧
        s1.2.count = (s2.2.expanded.filter is_counted).length)
      (dfs_visit (expand_polycubes_dfs_from_current_fuel fuel n n) n n
        (scanned_shape s).highest_numbering (scanned_shape s).min_bounds
        (scanned_shape s).max_bounds)
      (dfs_visit (expand_polycubes_dfs_from_current_fuel (fuel + 1) (n + 1) n) (n + 1) n
        (scanned_shape s).highest_numbering (scanned_shape s).min_bounds
        (scanned_shape s).max_bounds)
      (for_each_cube_cells (scanned_shape s).dim)
      (scanned_shape s, ⟨0, [], []⟩) (scanned_shape s, ⟨0, [], []⟩) ⟨rfl, rfl, rfl, rfl⟩
      (fun s1 s2 c _ h => by
        obtain ⟨a1, out1⟩ := s1
        obtain ⟨a2, out2⟩ := s2
        obtain ⟨h1, h2, h3⟩ := h
        dsimp only at h1 h2 h3
        subst h1
        subst h2
        obtain ⟨v1, v2⟩ := dfs_visit_filter
          (expand_polycubes_dfs_from_current_fuel fuel n n)
          (expand_polycubes_dfs_from_current_fuel (fuel + 1) (n + 1) n) n s hk out1 out2 c
          (fun t ht htk => ih t htk (by push_cast at hf; omega)) h3
        refine ⟨?_, v1, v2⟩
        rw [v1]
        exact (dfs_visit_leaves _ n s hk out2 c ‹_›).1)
    exact hrel.2.2

/-- The search for the target size `n >= 3` counts and hands to `on_found`
exactly those of the shapes of `full_size_shapes n` that pass the bounding-box
test and the canonical test, in the same order. -/
theorem found_eq_filter (n : Int) (hn : n ≥ 3) :
    (expand_polycubes_dfs n n).found
      = ((full_size_shapes n).filter is_counted).map get_polycube_sparse_from_rooted ∧
    (expand_polycubes_dfs n n).count = ((full_size_shapes n).filter is_counted).length := by
  unfold full_size_shapes expand_polycubes_dfs
  rw [if_neg (by omega), if_neg (by omega), if_neg (by omega), if_neg (by omega)]
  unfold expand_polycubes_dfs_from_current
  have hk : initial_polycube.k = 1 := rfl
  rw [hk]
  have hf : (n + 1 - 1).toNat = (n - 1).toNat + 1 := by omega
  rw [hf]
  exact dfs_fuel_filter n _ initial_polycube (by rw [hk]; omega) (by rw [hk]; omega)


/-! ### Every fixed polycube is reached once -/

theorem full_size_spec (n : Int) (h3 : 3 ≤ n) (hn : n ≤ 5000) :
    ((full_size_shapes n).map rooted_polycube.cells).Nodup ∧
    ∀ S, S ∈ (full_size_shapes n).map rooted_polycube.cells ↔ extends_to initial_polycube n S := by
  unfold full_size_shapes expand_polycubes_dfs
  rw [if_neg (by omega), if_neg (by omega)]
  unfold expand_polycubes_dfs_from_current
  have hk : initial_polycube.k = 1 := rfl
  exact leaves_spec n hn _ initial_polycube search_current.initial (by rw [hk]; omega)
    (by rw [hk]; omega)

theorem initial_extends_iff (n : Int) (S : Finset position) :
    extends_to initial_polycube n S ↔
      ((S.card : Int) = n ∧ face_connected S ∧ (⟨0, 0, 0⟩ : position) ∈ S ∧
        ∀ e ∈ S, lex_ge_root e) := by
  constructor
  · intro h
    exact ⟨h.card_eq, h.connected, h.contains _ (List.mem_singleton_self _), h.lex⟩
  · rintro ⟨h1, h2, h3, h4⟩
    refine { card_eq := h1, connected := h2, contains := ?_, lex := h4, avoids := ?_ }
    · intro e he
      have : e = ⟨0, 0, 0⟩ := List.mem_singleton.mp he
      rw [this]
      exact h3
    · intro e _
      rw [initial_label]
      by_cases he : e = ⟨0, 0, 0⟩
      · rw [if_pos he]
        exact Or.inr (Or.inl rfl)
      · rw [if_neg he]
        exact Or.inl rfl

theorem add_injective (t : position) : Function.Injective fun p : position => p.add t := by
  intro a b h
  have hx := congrArg position.x h
  have hy := congrArg position.y h
  have hz := congrArg position.z h
  simp only [position.add] at hx hy hz
  exact position_ext _ _ (by omega) (by omega) (by omega)

theorem translate_card (t : position) (S : Finset position) : (translate t S).card = S.card :=
  Finset.card_image_of_injective S (add_injective t)

theorem mem_translate (t : position) (S : Finset position) (p : position) :
    p ∈ translate t S ↔ p.add t.neg ∈ S := by
  unfold translate
  rw [Finset.mem_image]
  constructor
  · rintro ⟨q, hq, rfl⟩
    rw [add_add_neg_pos]
    exact hq
  · intro h
    exact ⟨_, h, add_neg_cancel_pos p t⟩

theorem translate_back (t : position) (S : Finset position) :
    translate t (translate t.neg S) = S := by
  ext p
  rw [mem_translate, mem_translate]
  have : (p.add t.neg).add t.neg.neg = p := by
    apply position_ext <;> simp only [position.add, position.neg] <;> omega
  rw [this]

theorem translate_connected (t : position) (S : Finset position) (h : face_connected S) :
    face_connected (translate t S) := by
  intro a ha b hb
  rw [mem_translate] at ha hb
  have hab := h _ ha _ hb
  have hlift : Relation.ReflTransGen
      (fun u v => u ∈ translate t S ∧ v ∈ translate t S ∧ adjacent u v)
      ((a.add t.neg).add t) ((b.add t.neg).add t) :=
    Relation.ReflTransGen.lift (fun p : position => p.add t)
      (fun u v huv =>
        ⟨by rw [mem_translate, add_add_neg_pos]; exact huv.1,
          by rw [mem_translate, add_add_neg_pos]; exact huv.2.1,
          (adjacent_add u v t).mpr huv.2.2⟩) hab
  rw [add_neg_cancel_pos, add_neg_cancel_pos] at hlift
  exact hlift

/-- A nonempty finite set has a first cell in the order by z, then y, then x. -/
theorem exists_first_cell (S : Finset position) (h : S.Nonempty) :
    ∃ m ∈ S, ∀ p ∈ S, lex_ge_root (p.add m.neg) := by
  obtain ⟨m, hm, hmin⟩ := Finset.exists_min_image S
    (fun p : position => toLex (p.z, toLex (p.y, p.x))) h
  refine ⟨m, hm, ?_⟩
  intro p hp
  have hle := hmin p hp
  rw [Prod.Lex.le_iff] at hle
  unfold lex_ge_root
  simp only [position.add, position.neg]
  rcases hle with h1 | ⟨h1, h2⟩
  · left
    dsimp only at h1
    omega
  · right
    dsimp only at h1 h2
    rw [Prod.Lex.le_iff] at h2
    rcases h2 with h3 | ⟨h3, h4⟩
    · dsimp only at h3
      omega
    · dsimp only at h3 h4
      omega

theorem lex_zero_of_both (t : position) (h1 : lex_ge_root t) (h2 : lex_ge_root t.neg) :
    t = ⟨0, 0, 0⟩ := by
  unfold lex_ge_root at h1 h2
  simp only [position.neg] at h2
  exact position_ext _ _ (by show t.x = 0; omega) (by show t.y = 0; omega)
    (by show t.z = 0; omega)

theorem translate_zero (S : Finset position) : translate ⟨0, 0, 0⟩ S = S := by
  ext p
  rw [mem_translate]
  have : p.add (⟨0, 0, 0⟩ : position).neg = p := by
    apply position_ext <;> simp [position.add, position.neg]
  rw [this]

/-- Two normalised shapes that are translates of one another are equal. -/
theorem eq_of_translate (n : Int) (A B : Finset position) (t : position)
    (hA : extends_to initial_polycube n A) (hB : extends_to initial_polycube n B)
    (h : A = translate t B) : A = B := by
  have a0 : (⟨0, 0, 0⟩ : position) ∈ A := hA.contains _ (List.mem_singleton_self _)
  have b0 : (⟨0, 0, 0⟩ : position) ∈ B := hB.contains _ (List.mem_singleton_self _)
  have h1 : (⟨0, 0, 0⟩ : position).add t.neg ∈ B := by
    rw [h, mem_translate] at a0
    exact a0
  have h2 : t ∈ A := by
    rw [h, mem_translate]
    have : t.add t.neg = ⟨0, 0, 0⟩ := by
      apply position_ext <;> simp [position.add, position.neg]
    rw [this]
    exact b0
  have e1 : (⟨0, 0, 0⟩ : position).add t.neg = t.neg := by
    apply position_ext <;> simp [position.add, position.neg]
  rw [e1] at h1
  have := lex_zero_of_both t (hA.lex t h2) (hB.lex _ h1)
  rw [this, translate_zero] at h
  exact h


/-! ### Counting the shapes of the search on the table of labels -/

theorem table_get_append (a b : List (position × Int)) (e : position) :
    table_get (a ++ b) e = if e ∈ a.map Prod.fst then table_get a e else table_get b e := by
  induction a with
  | nil => simp [table_get]
  | cons p a ih =>
    obtain ⟨q, l⟩ := p
    show (if q = e then l else table_get (a ++ b) e) = _
    by_cases h : q = e
    · rw [if_pos h, if_pos (by simp [h])]
      show l = if q = e then l else _
      rw [if_pos h]
    · rw [if_neg h, ih]
      have hne : ¬ e = q := fun h2 => h h2.symm
      by_cases hm : e ∈ a.map Prod.fst
      · rw [if_pos hm, if_pos (by simp only [List.map_cons, List.mem_cons]; exact Or.inr hm)]
        show _ = if q = e then l else _
        rw [if_neg h]
      · rw [if_neg hm, if_neg (by
          simp only [List.map_cons, List.mem_cons]
          rintro (h2 | h2)
          · exact hne h2
          · exact hm h2)]

theorem number_from_keys (l : List position) (v : Int) :
    (number_from l v).map Prod.fst = l := by
  induction l generalizing v with
  | nil => rfl
  | cons e l ih =>
    show e :: (number_from l (v + 1)).map Prod.fst = e :: l
    rw [ih]

theorem table_get_number_from (l : List position) (v : Int) (e : position) (he : e ∈ l) :
    table_get (number_from l v) e = v + (l.indexOf e : Int) := by
  induction l generalizing v with
  | nil => exact absurd he (List.not_mem_nil e)
  | cons a l ih =>
    show (if a = e then v else table_get (number_from l (v + 1)) e) = _
    by_cases h : a = e
    · rw [if_pos h, h, List.indexOf_cons_self]
      simp
    · rw [if_neg h]
      have hmem : e ∈ l := by
        rcases List.mem_cons.mp he with h2 | h2
        · exact absurd h2.symm h
        · exact h2
      rw [ih (v + 1) hmem, List.indexOf_cons_ne _ h]
      push_cast
      omega

theorem mem_keys_of_table_get (l : List (position × Int)) (e : position)
    (h : table_get l e ≠ 0) : e ∈ l.map Prod.fst := by
  induction l with
  | nil => exact absurd rfl h
  | cons p l ih =>
    obtain ⟨q, v⟩ := p
    by_cases hq : q = e
    · simp [hq]
    · have h2 : table_get ((q, v) :: l) e = table_get l e := by
        show (if q = e then v else table_get l e) = _
        rw [if_neg hq]
      rw [h2] at h
      simp only [List.map_cons, List.mem_cons]
      exact Or.inr (ih h)

theorem indexOf_map_of_injective {α β : Type} [DecidableEq α] [DecidableEq β] (f : α → β)
    (hf : ∀ a b, f a = f b → a = b) (l : List α) (a : α) :
    (l.map f).indexOf (f a) = l.indexOf a := by
  induction l with
  | nil => rfl
  | cons b l ih =>
    by_cases h : b = a
    · rw [h, List.map_cons, List.indexOf_cons_self, List.indexOf_cons_self]
    · have h2 : f b ≠ f a := fun h3 => h (hf _ _ h3)
      rw [List.map_cons, List.indexOf_cons_ne _ h2, List.indexOf_cons_ne _ h, ih]

theorem face_neighbours_add (r q : position) :
    face_neighbours (r.add q) = (face_neighbours q).map r.add := by
  simp only [face_neighbours, List.map_cons, List.map_nil, position.add, add_assoc,
    add_sub_assoc]

/-- The scanned shape holds the labels of the expanded shape. -/
theorem scanned_eq_expand (s : rooted_polycube) (hwf : s.wf) (hf : s.k > 3 → s.faces_ok) :
    (∀ e, (scanned_shape s).label e = (expand_empty_slots s).label e) ∧
    (scanned_shape s).highest_written = (expand_empty_slots s).highest_written ∧
    (scanned_shape s).highest_numbering = (expand_empty_slots s).highest_numbering := by
  unfold scanned_shape
  by_cases hk : s.k < 3
  · rw [if_pos hk]
    obtain ⟨hwe, _⟩ := expand_wf s hwf hf
    have hroot : (expand_empty_slots s).value
        ((expand_empty_slots s).root.add (expand_empty_slots s).last_filled) ≠ 0 := by
      rw [hwe.filled _ (last_filled_mem _ hwe.nonempty)]
      exact FILLED_CUBE_ne_zero
    obtain ⟨⟨a1, a2, a3⟩, ⟨a4, a5, a6⟩⟩ := hwe.labeled_bounds _ hroot
    have hle : (expand_empty_slots s).labeled_min_bounds.le
        (expand_empty_slots s).labeled_max_bounds := by
      unfold position.le; omega
    obtain ⟨hm, _⟩ := crop_cube_moved (expand_empty_slots s) hwe.labeled_bounds hle
    exact ⟨fun e => label_moved _ _ _ hm e, hm.written_eq, hm.numbering_eq⟩
  · rw [if_neg hk]
    exact ⟨fun _ => rfl, rfl, rfl⟩

/-- The fresh cells of `expand_empty_slots` are the fresh offsets of the table. -/
theorem fresh_cells_table (s : rooted_polycube) (hwf : s.wf) (t : label_table)
    (hr : represents s t) :
    fresh_cells s = t.fresh.map (pad_cube s).1.root.add := by
  obtain ⟨hm, hlo, hdim⟩ := pad_cube_moved s hwf.dim_pos
  have hcell : expansion_cell s = (pad_cube s).1.root.add s.last_filled := by
    unfold expansion_cell
    rw [hm.root_eq, hlo]
    apply position_ext <;> simp only [position.add] <;> omega
  have hlab : ∀ e, (pad_cube s).1.value ((pad_cube s).1.root.add e) = s.label e :=
    fun e => label_moved s _ _ hm e
  unfold fresh_cells label_table.fresh
  rw [hcell, face_neighbours_add, List.filter_map, hr.last_eq]
  congr 1
  apply List.filter_congr
  intro e _
  show decide ((pad_cube s).1.value ((pad_cube s).1.root.add e) = 0) = _
  rw [hlab, hr.label_eq]

/-- The table after the scan holds the label state of the scanned shape. -/
theorem scan_represents (s : rooted_polycube) (hwf : s.wf) (hf : s.k > 3 → s.faces_ok)
    (t : label_table) (hr : represents s t) : represents (scanned_shape s) t.scan := by
  obtain ⟨x1, x2, _, x4, x5, _, _⟩ := expand_label s hwf hf
  obtain ⟨y1, y2, y3⟩ := scanned_eq_expand s hwf hf
  have hfresh := fresh_cells_table s hwf t hr
  have hinj : ∀ a b, (pad_cube s).1.root.add a = (pad_cube s).1.root.add b → a = b :=
    fun a b h => root_add_inj _ _ _ h
  have hmem : ∀ e, (pad_cube s).1.root.add e ∈ fresh_cells s ↔ e ∈ t.fresh := by
    intro e
    rw [hfresh, List.mem_map]
    constructor
    · rintro ⟨a, ha, hae⟩
      rw [← hinj _ _ hae]
      exact ha
    · intro h
      exact ⟨e, h, rfl⟩
  refine { label_eq := ?_, last_eq := ?_, numbering_eq := ?_, written_eq := ?_ }
  · intro e
    rw [y1]
    show _ = table_get (number_from t.fresh (t.highest_written + 1) ++ t.labels) e
    rw [table_get_append, number_from_keys]
    by_cases he : e ∈ t.fresh
    · rw [if_pos he, table_get_number_from _ _ _ he, (x2 e ((hmem e).mpr he)).2.2, hfresh,
        indexOf_map_of_injective _ hinj, hr.written_eq]
    · rw [if_neg he, x1 e (fun h => he ((hmem e).mp h)), hr.label_eq]
  · show (scanned_shape s).filled_cubes.getLastD _ = _
    rw [scanned_filled]
    exact hr.last_eq
  · rw [y3, x5]
    exact hr.numbering_eq
  · rw [y2, x4, hfresh, List.length_map, hr.written_eq]
    rfl

/-- The table after the fill step holds the label state of the filled shape. -/
theorem fill_represents (s : rooted_polycube) (hwf : s.wf) (hf : s.k > 3 → s.faces_ok)
    (t : label_table) (hr : represents (scanned_shape s) t) (c : Nat × position)
    (hc : c ∈ for_each_cube_cells (scanned_shape s).dim) :
    represents (filled_shape s c)
      (t.fill ⟨c.2.x - (scanned_shape s).root.x, c.2.y - (scanned_shape s).root.y,
        c.2.z - (scanned_shape s).root.z⟩) := by
  obtain ⟨_, k2, k3, _⟩ := filled_shape_header s c
  refine { label_eq := ?_, last_eq := ?_, numbering_eq := ?_, written_eq := ?_ }
  · intro e
    rw [filled_shape_label s hwf hf c hc e]
    show _ = if _ = e then FILLED_CUBE else table_get t.labels e
    by_cases h : (scanned_shape s).root.add e = c.2
    · rw [if_pos h, if_pos]
      rw [← h]
      apply position_ext <;> simp only [position.add] <;> omega
    · rw [if_neg h, if_neg, hr.label_eq]
      intro h2
      apply h
      rw [← h2]
      exact offset_of_cell _ _
  · show (filled_shape s c).filled_cubes.getLastD _ = _
    rw [filled_shape_filled]
    simp
    rfl
  · rw [k2]
    show _ = table_get t.labels _
    rw [← hr.label_eq]
    exact candidate_label s c hc
  · rw [k3]
    exact hr.written_eq

/-- The candidates of the scan, read as offsets, are the candidates of the table. -/
theorem candidates_perm (s : rooted_polycube) (L : level_facts s) (t : label_table)
    (hr : represents (scanned_shape s) t) :
    (((for_each_cube_cells (scanned_shape s).dim).filter fun c =>
        decide (is_candidate (scanned_shape s) c)).map fun c =>
      (⟨c.2.x - (scanned_shape s).root.x, c.2.y - (scanned_shape s).root.y,
        c.2.z - (scanned_shape s).root.z⟩ : position)).Perm t.candidates := by
  have hn0 : 0 ≤ (scanned_shape s).highest_numbering := L.scan_wf.numbering_nonneg
  apply (List.perm_ext_iff_of_nodup ?_ ?_).mpr
  · intro e
    unfold label_table.candidates
    simp only [List.mem_map, List.mem_filter, decide_eq_true_eq, List.mem_dedup]
    constructor
    · rintro ⟨c, ⟨hc, hcand⟩, hce⟩
      have hlab := candidate_label s c hc
      rw [hce, hr.label_eq] at hlab
      obtain ⟨⟨c1, c2⟩, c3⟩ := hcand
      rw [hlab] at c1 c2
      rw [hr.numbering_eq] at c2
      have hlex := lex_of_not_before_root _ _ c3
      rw [hce] at hlex
      refine ⟨?_, ⟨c1, c2⟩, hlex⟩
      have hne : table_get t.labels e ≠ 0 := by
        rw [hr.numbering_eq] at hn0
        omega
      have := mem_keys_of_table_get _ _ hne
      rw [List.mem_map] at this
      exact this
    · rintro ⟨_, ⟨c1, c2⟩, hlex⟩
      rw [← hr.label_eq] at c1 c2
      rw [← hr.numbering_eq] at c2
      have hne : (scanned_shape s).label e ≠ 0 := by omega
      obtain ⟨c, hc, hce⟩ := cell_of_offset _ L.scan_wf.dim_pos e hne
      have hoff : (⟨c.2.x - (scanned_shape s).root.x, c.2.y - (scanned_shape s).root.y,
          c.2.z - (scanned_shape s).root.z⟩ : position) = e := by
        rw [hce]
        apply position_ext <;> simp only [position.add] <;> omega
      have hlab := candidate_label s c hc
      rw [hoff] at hlab
      refine ⟨c, ⟨hc, ⟨?_, ?_⟩, ?_⟩, hoff⟩
      · rw [hlab]; exact c1
      · rw [hlab]; exact c2
      · have := not_before_root_of_lex (scanned_shape s) e hlex
        rw [← hce] at this
        exact this
  · apply List.Nodup.map_on
    · intro a ha b hb hab
      rw [List.mem_filter] at ha hb
      apply cell_eq_of_pos_eq _ a b ha.1 hb.1
      have hx := congrArg position.x hab
      have hy := congrArg position.y hab
      have hz := congrArg position.z hab
      dsimp only at hx hy hz
      exact position_ext _ _ (by omega) (by omega) (by omega)
    · exact (cells_nodup _).filter _
  · exact (List.nodup_dedup _).filter _

theorem sum_map_ite_filter {α : Type} (l : List α) (p : α → Prop) [DecidablePred p]
    (f : α → Nat) :
    (l.map fun a => if p a then f a else 0).sum = ((l.filter fun a => decide (p a)).map f).sum := by
  induction l with
  | nil => rfl
  | cons a l ih =>
    rw [List.map_cons, List.sum_cons, ih]
    by_cases h : p a
    · rw [if_pos h, List.filter_cons_of_pos (by simpa using h), List.map_cons, List.sum_cons]
    · rw [if_neg h, List.filter_cons_of_neg (by simpa using h), Nat.zero_add]

/-- The number of shapes that one activation of the search with cutoff `n`
hands to `on_expanded`: a sum over the candidates of the scan. -/
theorem dfs_level_length (recurse : rooted_polycube → dfs_output) (n : Int)
    (s : rooted_polycube) (hk : s.k < n) :
    (dfs_level recurse (n + 1) n s).expanded.length =
      (((for_each_cube_cells (scanned_shape s).dim).filter fun c =>
        decide (is_candidate (scanned_shape s) c)).map fun c =>
          if s.k + 1 = n then 1 else (recurse (filled_shape s c)).expanded.length).sum := by
  rw [← sum_map_ite_filter]
  have hinv := foldl_prefix
    (fun (pre : List (Nat × position)) (st : rooted_polycube × dfs_output) =>
      st.1 = scanned_shape s ∧
      st.2.expanded.length = (pre.map fun c =>
        if is_candidate (scanned_shape s) c then
          (if s.k + 1 = n then 1 else (recurse (filled_shape s c)).expanded.length)
        else 0).sum)
    (dfs_visit recurse (n + 1) n (scanned_shape s).highest_numbering
      (scanned_shape s).min_bounds (scanned_shape s).max_bounds)
    (for_each_cube_cells (scanned_shape s).dim) (scanned_shape s, ⟨0, [], []⟩)
    ⟨rfl, rfl⟩
    (fun pre c st hpre hst => by
      obtain ⟨st1, out⟩ := st
      obtain ⟨h1, h2⟩ := hst
      dsimp only at h1 h2
      subst h1
      have hc : c ∈ for_each_cube_cells (scanned_shape s).dim :=
        hpre.subset (List.mem_append_right _ (List.mem_singleton_self _))
      obtain ⟨v1, v2⟩ := dfs_visit_leaves recurse n s hk out c hc
      refine ⟨v1, ?_⟩
      rw [v2, List.length_append, h2, List.map_append, List.sum_append, List.map_singleton,
        List.sum_singleton]
      congr 1
      by_cases hcand : is_candidate (scanned_shape s) c
      · rw [if_pos hcand, if_pos hcand]
        by_cases hkn : s.k + 1 = n
        · rw [if_pos hkn, if_pos hkn]; rfl
        · rw [if_neg hkn, if_neg hkn]
      · rw [if_neg hcand, if_neg hcand]; rfl)
  exact hinv.2

/-- The search with cutoff `n` hands to `on_expanded`, below a shape of the
search with `m + 1` cubes fewer than `n`, as many shapes as the count on the
table of its labels. -/
theorem table_count_eq (n : Int) (hn : n ≤ 5000) (fuel : Nat) :
    ∀ (s : rooted_polycube) (t : label_table) (m : Nat), search_current s → represents s t →
      s.k + ((m + 1 : Nat) : Int) = n → m + 1 ≤ fuel →
      (expand_polycubes_dfs_from_current_fuel fuel (n + 1) n s).expanded.length
        = label_table.count (m + 1) t := by
  induction fuel with
  | zero =>
    intro s t m _ _ _ hf
    omega
  | succ fuel ih =>
    intro s t m hcur hr hk hf
    have L := search_level_facts s hcur (by omega)
    have hsr := scan_represents s L.wf L.faces t hr
    show (dfs_level (expand_polycubes_dfs_from_current_fuel fuel (n + 1) n) (n + 1) n
      s).expanded.length = _
    rw [dfs_level_length _ n s (by omega)]
    show _ = ((t.scan.candidates).map fun e => label_table.count m (t.scan.fill e)).sum
    rw [← ((candidates_perm s L t.scan hsr).map _).sum_eq, List.map_map]
    congr 1
    apply List.map_congr_left
    intro c hc
    rw [List.mem_filter] at hc
    obtain ⟨hc, hcand⟩ := hc
    have hcand2 : is_candidate (scanned_shape s) c := by simpa using hcand
    have hfr := fill_represents s L.wf L.faces t.scan hsr c hc
    show _ = label_table.count m (t.scan.fill _)
    cases m with
    | zero =>
      rw [if_pos (by push_cast at hk; omega)]
      rfl
    | succ m =>
      rw [if_neg (by push_cast at hk; omega)]
      exact ih (filled_shape s c) _ m (search_current.filled s c hcur hc hcand2) hfr
        (by rw [(filled_shape_header s c).1]; push_cast at hk ⊢; omega) (by omega)

theorem initial_represents : represents initial_polycube initial_table :=
  { label_eq := fun e => by
      rw [initial_label]
      show _ = if (⟨0, 0, 0⟩ : position) = e then FILLED_CUBE else 0
      by_cases h : e = ⟨0, 0, 0⟩
      · rw [if_pos h, if_pos h.symm]
      · rw [if_neg h, if_neg (fun h2 => h h2.symm)]
    last_eq := rfl
    numbering_eq := rfl
    written_eq := rfl }

/-- The number of rooted shapes with `n` cubes that the search reaches, as
counted on the table of labels. -/
theorem full_size_length (n : Nat) (h3 : 3 ≤ n) (hn : n ≤ 5000) :
    (full_size_shapes n).length = label_table.count (n - 1) initial_table := by
  unfold full_size_shapes expand_polycubes_dfs
  rw [if_neg (by omega), if_neg (by omega)]
  unfold expand_polycubes_dfs_from_current
  have hk : initial_polycube.k = 1 := rfl
  obtain ⟨m, hm⟩ : ∃ m, n = m + 2 := ⟨n - 2, by omega⟩
  subst hm
  have := table_count_eq ((m + 2 : Nat) : Int) (by exact_mod_cast hn)
    ((((m + 2 : Nat) : Int) + 1 - initial_polycube.k).toNat) initial_polycube initial_table m
    search_current.initial initial_represents (by rw [hk]; push_cast; omega)
    (by rw [hk]; push_cast; omega)
  rw [this]
  rfl

theorem full_size_three : (full_size_shapes 3).length = 15 := by
  have h := full_size_length 3 (by decide) (by decide)
  have hc : label_table.count 2 initial_table = 15 := by decide!
  exact h.trans hc

theorem full_size_four : (full_size_shapes 4).length = 86 := by
  have h := full_size_length 4 (by decide) (by decide)
  have hc : label_table.count 3 initial_table = 86 := by decide!
  exact h.trans hc

theorem full_size_five : (full_size_shapes 5).length = 534 := by
  have h := full_size_length 5 (by decide) (by decide)
  have hc : label_table.count 4 initial_table = 534 := by decide!
  exact h.trans hc

theorem full_size_searched (n : Int) :
    ∀ s ∈ full_size_shapes n, search_current s ∧ s.k = n :=
  (dfs_searched (n + 1) n).1

theorem full_size_pairwise (n : Int) (h3 : 3 ≤ n) (hn : n ≤ 5000) :
    (full_size_shapes n).Pairwise fun a b => ∀ t, a.cells ≠ translate t b.cells := by
  obtain ⟨hnd, hmem⟩ := full_size_spec n h3 hn
  have hp : (full_size_shapes n).Pairwise fun a b => a.cells ≠ b.cells :=
    List.pairwise_map.mp hnd
  refine List.Pairwise.imp_of_mem ?_ hp
  intro a b ha hb hne t heq
  apply hne
  exact eq_of_translate n a.cells b.cells t
    ((hmem _).mp (List.mem_map_of_mem _ ha)) ((hmem _).mp (List.mem_map_of_mem _ hb)) heq

theorem full_size_complete (n : Int) (h3 : 3 ≤ n) (hn : n ≤ 5000) (S : Finset position)
    (hcard : (S.card : Int) = n) (hconn : face_connected S) :
    ∃ s ∈ full_size_shapes n, ∃ t, S = translate t s.cells := by
  obtain ⟨_, hmem⟩ := full_size_spec n h3 hn
  have hne : S.Nonempty := by
    rw [← Finset.card_pos]
    omega
  obtain ⟨m, hm, hfirst⟩ := exists_first_cell S hne
  have hnn : m.neg.neg = m := by
    apply position_ext <;> simp [position.neg]
  have hext : extends_to initial_polycube n (translate m.neg S) := by
    rw [initial_extends_iff]
    refine ⟨by rw [translate_card]; exact hcard, translate_connected _ _ hconn, ?_, ?_⟩
    · rw [mem_translate, hnn]
      have : (⟨0, 0, 0⟩ : position).add m = m := by
        apply position_ext <;> simp [position.add]
      rw [this]
      exact hm
    · intro e he
      rw [mem_translate, hnn] at he
      have := hfirst _ he
      rw [add_add_neg_pos] at this
      exact this
  obtain ⟨s, hs, hcells⟩ := List.mem_map.mp ((hmem _).mpr hext)
  refine ⟨s, hs, m, ?_⟩
  rw [hcells]
  have := translate_back m S
  exact this.symm

/-- C14: for every target size `n` from 3 to 32, the rooted shapes with `n`
cubes that the search reaches (`full_size_shapes n`: the search for the
target size `n` runs the bounding-box test and the canonical test on exactly
these shapes) are shapes of the search with `n` cubes whose cells form a
face-connected set of `n` cells; no two of them are translates of one
another; and every face-connected set of `n` cells of the grid is a translate
of the cell set of one of them.  So every fixed polycube of size `n` is
reached exactly once.  There are 15 such shapes for `n = 3`, 86 for `n = 4`
and 534 for `n = 5`. -/
theorem c14_every_fixed_polycube_once (n : Int) (h3 : 3 ≤ n) (h32 : n ≤ 32) :
    ((expand_polycubes_dfs n n).found
        = ((full_size_shapes n).filter is_counted).map get_polycube_sparse_from_rooted ∧
      (expand_polycubes_dfs n n).count = ((full_size_shapes n).filter is_counted).length) ∧
    (∀ s ∈ full_size_shapes n, search_current s ∧ s.k = n ∧ (s.cells.card : Int) = n ∧
      face_connected s.cells) ∧
    ((full_size_shapes n).Pairwise fun a b => ∀ t, a.cells ≠ translate t b.cells) ∧
    (∀ S : Finset position, (S.card : Int) = n → face_connected S →
      ∃ s ∈ full_size_shapes n, ∃ t, S = translate t s.cells) ∧
    (full_size_shapes 3).length = 15 ∧ (full_size_shapes 4).length = 86 ∧
    (full_size_shapes 5).length = 534 := by
  refine ⟨found_eq_filter n h3, ?_, full_size_pairwise n h3 (by omega),
    full_size_complete n h3 (by omega), full_size_three, full_size_four, full_size_five⟩
  intro s hs
  obtain ⟨h1, h2⟩ := full_size_searched n s hs
  have hext := ((full_size_spec n h3 (by omega)).2 _).mp (List.mem_map_of_mem _ hs)
  exact ⟨h1, h2, hext.card_eq, hext.connected⟩

theorem c14_every_fixed_polycube_once_witness :
    ((3 : Int) ≤ 3 ∧ (3 : Int) ≤ 32) ∧
    (full_size_shapes 3).length = 15 ∧
    ((full_size_shapes 3).Pairwise fun a b => ∀ t, a.cells ≠ translate t b.cells) ∧
    ∀ S : Finset position, (S.card : Int) = 3 → face_connected S →
      ∃ s ∈ full_size_shapes 3, ∃ t, S = translate t s.cells :=
  ⟨⟨by decide, by decide⟩, (c14_every_fixed_polycube_once 3 (by decide) (by decide)).2.2.2.2.1,
    (c14_every_fixed_polycube_once 3 (by decide) (by decide)).2.2.1,
    (c14_every_fixed_polycube_once 3 (by decide) (by decide)).2.2.2.1⟩


/-! ### The hand-off at the cutoff size -/

/-- At the cutoff size the shape is handed to `on_expanded` and nothing else
is done: the recursive call is not made. -/
theorem dfs_emit_cutoff (recurse : rooted_polycube → dfs_output) (n m : Int)
    (filled : rooted_polycube) (out : dfs_output) (hm : filled.k = m) (hn : m ≠ n) :
    dfs_emit recurse n m filled out = { out with expanded := out.expanded ++ [filled] } := by
  unfold dfs_emit
  rw [if_neg (by rw [hm]; exact hn), if_pos hm]

/-- What is done with a filled shape that has at most `m` cubes, for a target size above `m`. -/
theorem dfs_emit_below (recurse : rooted_polycube → dfs_output) (n m : Int)
    (filled : rooted_polycube) (out : dfs_output) (hk : filled.k ≤ m) (hmn : m < n) :
    dfs_emit recurse n m filled out =
      if filled.k = m then { out with expanded := out.expanded ++ [filled] }
      else
        { count := out.count + (recurse filled).count
          found := out.found ++ (recurse filled).found
          expanded := out.expanded ++ (recurse filled).expanded } := by
  unfold dfs_emit
  have hne : ¬ filled.k = n := by omega
  rw [if_neg hne]

theorem dfs_visit_cutoff (r1 r2 : rooted_polycube → dfs_output) (n1 n2 m hn : Int)
    (cmin cmax : position) (st : rooted_polycube × dfs_output) (c : Nat × position)
    (hk : st.1.k < m) (h1 : m < n1) (h2 : m < n2)
    (h : ∀ s : rooted_polycube, s.k = st.1.k + 1 → s.k < m → r1 s = r2 s) :
    dfs_visit r1 n1 m hn cmin cmax st c = dfs_visit r2 n2 m hn cmin cmax st c := by
  unfold dfs_visit
  dsimp only
  split
  · split
    · rfl
    · have hkf : (fill_cell st.1 c.2.x c.2.y c.2.z (array_get st.1.cubes c.1)).k = st.1.k + 1 :=
        rfl
      congr 1
      rw [dfs_emit_below r1 n1 m _ _ (by rw [hkf]; omega) h1,
        dfs_emit_below r2 n2 m _ _ (by rw [hkf]; omega) h2]
      by_cases hm : (fill_cell st.1 c.2.x c.2.y c.2.z (array_get st.1.cubes c.1)).k = m
      · rw [if_pos hm, if_pos hm]
      · rw [if_neg hm, if_neg hm, h _ hkf (by rw [hkf] at hm ⊢; omega)]
  · rfl

theorem dfs_fold_cutoff (r1 r2 : rooted_polycube → dfs_output) (n1 n2 m hn : Int)
    (cmin cmax : position) (l : List (Nat × position)) (st : rooted_polycube × dfs_output)
    (hk : st.1.k < m) (h1 : m < n1) (h2 : m < n2)
    (h : ∀ s : rooted_polycube, s.k = st.1.k + 1 → s.k < m → r1 s = r2 s) :
    l.foldl (dfs_visit r1 n1 m hn cmin cmax) st = l.foldl (dfs_visit r2 n2 m hn cmin cmax) st := by
  induction l generalizing st with
  | nil => rfl
  | cons c l ih =>
    rw [List.foldl_cons, List.foldl_cons, dfs_visit_cutoff r1 r2 n1 n2 m hn cmin cmax st c hk h1 h2 h]
    have hk2 := dfs_visit_k r2 n2 m hn cmin cmax st c
    apply ih
    · rw [hk2]; exact hk
    · intro s hs
      rw [hk2] at hs
      exact h s hs

theorem dfs_level_cutoff (r1 r2 : rooted_polycube → dfs_output) (n1 n2 m : Int)
    (current : rooted_polycube) (hk : current.k < m) (h1 : m < n1) (h2 : m < n2)
    (h : ∀ s : rooted_polycube, s.k = current.k + 1 → s.k < m → r1 s = r2 s) :
    dfs_level r1 n1 m current = dfs_level r2 n2 m current := by
  unfold dfs_level
  dsimp only
  have hck := cropped_k current
  rw [dfs_fold_cutoff r1 r2 n1 n2 m _ _ _ _ _ (by rw [hck]; exact hk) h1 h2
    (by rw [hck]; exact h)]

/-- Below the cutoff `m` the search does not depend on the target size, and
`m - current.k` levels of recursion are enough. -/
theorem dfs_cutoff_indep (m n1 n2 : Int) (h1 : m < n1) (h2 : m < n2) (f1 : Nat) :
    ∀ (f2 : Nat) (current : rooted_polycube), current.k < m →
      (m - current.k).toNat ≤ f1 → (m - current.k).toNat ≤ f2 →
      expand_polycubes_dfs_from_current_fuel f1 n1 m current
        = expand_polycubes_dfs_from_current_fuel f2 n2 m current := by
  induction f1 with
  | zero =>
    intro f2 current hk hf1 _
    omega
  | succ f1 ih =>
    intro f2 current hk _ hf2
    cases f2 with
    | zero => omega
    | succ f2 =>
      show dfs_level _ n1 m current = dfs_level _ n2 m current
      apply dfs_level_cutoff _ _ n1 n2 m current hk h1 h2
      intro s hs hsm
      exact ih f2 s hsm (by omega) (by omega)

theorem dfs_visit_cutoff_found (recurse : rooted_polycube → dfs_output) (n m hn : Int)
    (cmin cmax : position) (st : rooted_polycube × dfs_output) (c : Nat × position)
    (hk : st.1.k < m) (hmn : m < n)
    (hrec : ∀ s : rooted_polycube, s.k = st.1.k + 1 → s.k < m →
      (recurse s).found = [] ∧ (recurse s).count = 0)
    (hst : st.2.found = [] ∧ st.2.count = 0) :
    (dfs_visit recurse n m hn cmin cmax st c).2.found = [] ∧
    (dfs_visit recurse n m hn cmin cmax st c).2.count = 0 := by
  unfold dfs_visit
  dsimp only
  split
  · split
    · exact hst
    · have hkf : (fill_cell st.1 c.2.x c.2.y c.2.z (array_get st.1.cubes c.1)).k = st.1.k + 1 :=
        rfl
      dsimp only
      rw [dfs_emit_below recurse n m _ _ (by rw [hkf]; omega) hmn]
      by_cases hm : (fill_cell st.1 c.2.x c.2.y c.2.z (array_get st.1.cubes c.1)).k = m
      · rw [if_pos hm]
        exact hst
      · rw [if_neg hm]
        obtain ⟨r1, r2⟩ := hrec _ hkf (by rw [hkf] at hm ⊢; omega)
        dsimp only
        rw [r1, r2, hst.1, hst.2]
        exact ⟨rfl, rfl⟩
  · exact hst

/-- Below the cutoff the search finds nothing and counts nothing. -/
theorem dfs_cutoff_found (n m : Int) (hmn : m < n) (fuel : Nat) :
    ∀ current : rooted_polycube, current.k < m →
      (expand_polycubes_dfs_from_current_fuel fuel n m current).found = [] ∧
      (expand_polycubes_dfs_from_current_fuel fuel n m current).count = 0 := by
  induction fuel with
  | zero =>
    intro current _
    exact ⟨rfl, rfl⟩
  | succ fuel ih =>
    intro current hk
    show (dfs_level _ n m current).found = [] ∧ (dfs_level _ n m current).count = 0
    unfold dfs_level
    dsimp only
    have hck := cropped_k current
    have hinv := foldl_invariant
      (fun st : rooted_polycube × dfs_output =>
        st.1.k = current.k ∧ st.2.found = [] ∧ st.2.count = 0)
      (dfs_visit (expand_polycubes_dfs_from_current_fuel fuel n m) n m
        (if current.k < 3 then crop_cube (expand_empty_slots current)
          else expand_empty_slots current).highest_numbering
        (if current.k < 3 then crop_cube (expand_empty_slots current)
          else expand_empty_slots current).min_bounds
        (if current.k < 3 then crop_cube (expand_empty_slots current)
          else expand_empty_slots current).max_bounds)
      (for_each_cube_cells (if current.k < 3 then crop_cube (expand_empty_slots current)
          else expand_empty_slots current).dim)
      (if current.k < 3 then crop_cube (expand_empty_slots current)
          else expand_empty_slots current, ⟨0, [], []⟩)
      ⟨hck, rfl, rfl⟩
      (fun st c _ hst => by
        obtain ⟨k1, k2⟩ := hst
        refine ⟨by rw [dfs_visit_k]; exact k1, ?_⟩
        apply dfs_visit_cutoff_found _ n m _ _ _ st c (by rw [k1]; exact hk) hmn _ k2
        intro s _ hsm
        exact ih s hsm)
    exact hinv.2

/-- C30: for every cutoff `m` with `2 ≤ m < n` and `m ≤ 32` (32 cubes is
what the arrays of a shape hold), the search
`expand_polycubes_dfs(n, m)` hands to `on_expanded` only shapes of the search
with `m` cubes, hands nothing to `on_found` and returns 0.  At a shape with
`m` cubes it makes no recursive call (`dfs_emit` only appends the shape to
the sink, whatever the recursive call would do), so `m - 1` levels of
recursion are enough, and the shapes handed over do not depend on `n`: they
are the shapes with `m` cubes that the search reaches. -/
theorem c30_cutoff_handoff (n m : Int) (hm : 2 ≤ m) (hmn : m < n) (hm32 : m ≤ 32) :
    (∀ t ∈ (expand_polycubes_dfs n m).expanded, search_current t ∧ t.k = m) ∧
    (expand_polycubes_dfs n m).found = [] ∧
    (expand_polycubes_dfs n m).count = 0 ∧
    (∀ (recurse : rooted_polycube → dfs_output) (filled : rooted_polycube) (out : dfs_output),
      filled.k = m →
        dfs_emit recurse n m filled out = { out with expanded := out.expanded ++ [filled] }) ∧
    (∀ fuel : Nat, (m - 1).toNat ≤ fuel →
      expand_polycubes_dfs_from_current_fuel fuel n m initial_polycube
        = expand_polycubes_dfs n m) ∧
    (expand_polycubes_dfs n m).expanded = full_size_shapes m := by
  have hk : initial_polycube.k = 1 := rfl
  have hdef : ∀ n1 : Int, m < n1 → expand_polycubes_dfs n1 m
      = expand_polycubes_dfs_from_current_fuel (n1 - 1).toNat n1 m initial_polycube := by
    intro n1 h1
    unfold expand_polycubes_dfs
    rw [if_neg (by omega), if_neg (by omega)]
    rfl
  refine ⟨(dfs_searched n m).1, ?_, ?_, ?_, ?_, ?_⟩
  · rw [hdef n hmn]
    exact (dfs_cutoff_found n m hmn _ initial_polycube (by rw [hk]; omega)).1
  · rw [hdef n hmn]
    exact (dfs_cutoff_found n m hmn _ initial_polycube (by rw [hk]; omega)).2
  · intro recurse filled out hf
    exact dfs_emit_cutoff recurse n m filled out hf (by omega)
  · intro fuel hfuel
    rw [hdef n hmn]
    exact dfs_cutoff_indep m n n hmn hmn fuel _ initial_polycube (by rw [hk]; omega)
      (by rw [hk]; exact hfuel) (by rw [hk]; omega)
  · unfold full_size_shapes
    rw [hdef n hmn, hdef (m + 1) (by omega)]
    rw [dfs_cutoff_indep m n (m + 1) hmn (by omega) (n - 1).toNat (m + 1 - 1).toNat
      initial_polycube (by rw [hk]; omega) (by rw [hk]; omega) (by rw [hk]; omega)]

theorem c30_cutoff_handoff_witness :
    ((2 : Int) ≤ 2 ∧ (2 : Int) < 3 ∧ (2 : Int) ≤ 32) ∧
    (∀ t ∈ (expand_polycubes_dfs 3 2).expanded, search_current t ∧ t.k = 2) ∧
    (expand_polycubes_dfs 3 2).found = [] ∧ (expand_polycubes_dfs 3 2).count = 0 :=
  ⟨⟨by decide, by decide, by decide⟩,
    (c30_cutoff_handoff 3 2 (by decide) (by decide) (by decide)).1,
    (c30_cutoff_handoff 3 2 (by decide) (by decide) (by decide)).2.1,
    (c30_cutoff_handoff 3 2 (by decide) (by decide) (by decide)).2.2.1⟩

/-! ### The backtrack step -/

/-- One visited cell leaves the scanned shape as it was. -/
theorem dfs_visit_restores (recurse : rooted_polycube → dfs_output) (n m : Int)
    (cr : rooted_polycube) (out : dfs_output) (c : Nat × position)
    (hc : c ∈ for_each_cube_cells cr.dim) :
    (dfs_visit recurse n m cr.highest_numbering cr.min_bounds cr.max_bounds (cr, out) c).1
      = cr := by
  obtain ⟨_, hv, hv2⟩ := is_candidate_value cr c hc
  unfold dfs_visit
  dsimp only
  split
  · split
    · rfl
    · have := restore_fill cr c.2.x c.2.y c.2.z
      rw [hv2, ← hv] at this
      exact this
  · rfl

/-- C23: for every cell `c` that the scan of a shape `cr` visits, the
backtrack step undoes the fill step: `restore_cell` applied to the filled
shape gives `cr` again, with its cube count, `highest_numbering`, filled
bounds, filled stack and every grid cell (the cell `c` holds its label
again).  So the working shape after the visit, whatever the branch did, is
the shape before the visit, and so is the working shape after the whole
scan.  For a candidate the branch works on the filled shape.  The shape
`current` from which `cr` was made is not part of the state of the scan: the
source only reads it. -/
theorem c23_backtrack_restores (recurse : rooted_polycube → dfs_output) (n m : Int)
    (cr : rooted_polycube) (out : dfs_output) (c : Nat × position)
    (hc : c ∈ for_each_cube_cells cr.dim) :
    restore_cell (fill_cell cr c.2.x c.2.y c.2.z (array_get cr.cubes c.1)) c.2.x c.2.y c.2.z
      (array_get cr.cubes c.1) cr.highest_numbering cr.min_bounds cr.max_bounds = cr ∧
    (dfs_visit recurse n m cr.highest_numbering cr.min_bounds cr.max_bounds (cr, out) c).1
      = cr ∧
    (is_candidate cr c →
      (dfs_visit recurse n m cr.highest_numbering cr.min_bounds cr.max_bounds (cr, out) c).2
        = dfs_emit recurse n m (fill_cell cr c.2.x c.2.y c.2.z (array_get cr.cubes c.1)) out) ∧
    ((for_each_cube_cells cr.dim).foldl
      (dfs_visit recurse n m cr.highest_numbering cr.min_bounds cr.max_bounds) (cr, out)).1
      = cr := by
  obtain ⟨_, hv, hv2⟩ := is_candidate_value cr c hc
  refine ⟨?_, dfs_visit_restores recurse n m cr out c hc, ?_, ?_⟩
  · have := restore_fill cr c.2.x c.2.y c.2.z
    rw [hv2, ← hv] at this
    exact this
  · intro hcand
    unfold dfs_visit
    dsimp only
    rw [if_pos hcand.1, if_neg (by rw [hcand.2]; decide)]
  · exact foldl_invariant (fun st : rooted_polycube × dfs_output => st.1 = cr)
      (dfs_visit recurse n m cr.highest_numbering cr.min_bounds cr.max_bounds)
      (for_each_cube_cells cr.dim) (cr, out) rfl
      (fun st c2 hc2 hst => by
        obtain ⟨s1, o1⟩ := st
        dsimp only at hst
        subst hst
        exact dfs_visit_restores recurse n m s1 o1 c2 hc2)

theorem c23_backtrack_restores_witness :
    (14, (⟨2, 1, 1⟩ : position)) ∈ for_each_cube_cells (scanned_shape initial_polycube).dim ∧
    is_candidate (scanned_shape initial_polycube) (14, ⟨2, 1, 1⟩) ∧
    (fill_cell (scanned_shape initial_polycube) 2 1 1
      (array_get (scanned_shape initial_polycube).cubes 14)).k = 2 ∧
    restore_cell (fill_cell (scanned_shape initial_polycube) 2 1 1
        (array_get (scanned_shape initial_polycube).cubes 14)) 2 1 1
      (array_get (scanned_shape initial_polycube).cubes 14)
      (scanned_shape initial_polycube).highest_numbering
      (scanned_shape initial_polycube).min_bounds
      (scanned_shape initial_polycube).max_bounds = scanned_shape initial_polycube :=
  ⟨(cells_mem_iff _ 14 ⟨2, 1, 1⟩).mpr ⟨by decide, by decide⟩, by decide, by decide,
    (c23_backtrack_restores (fun _ => ⟨0, [], []⟩) 3 3 (scanned_shape initial_polycube)
      ⟨0, [], []⟩ (14, ⟨2, 1, 1⟩)
      ((cells_mem_iff _ 14 ⟨2, 1, 1⟩).mpr ⟨by decide, by decide⟩)).1⟩

/-! ### The order in which the candidates are tried -/

/-- With the cutoff one above the size of `s`, the shapes handed to
`on_expanded` by one activation are the filled shapes of the candidates, in
the order of the scan. -/
theorem dfs_level_order (recurse : rooted_polycube → dfs_output) (s : rooted_polycube) :
    (dfs_level recurse (s.k + 1 + 1) (s.k + 1) s).expanded =
      ((for_each_cube_cells (scanned_shape s).dim).filter fun c =>
        decide (is_candidate (scanned_shape s) c)).map (filled_shape s) := by
  have hinv := foldl_prefix
    (fun (pre : List (Nat × position)) (st : rooted_polycube × dfs_output) =>
      st.1 = scanned_shape s ∧
      st.2.expanded = (pre.filter fun c =>
        decide (is_candidate (scanned_shape s) c)).map (filled_shape s))
    (dfs_visit recurse (s.k + 1 + 1) (s.k + 1) (scanned_shape s).highest_numbering
      (scanned_shape s).min_bounds (scanned_shape s).max_bounds)
    (for_each_cube_cells (scanned_shape s).dim) (scanned_shape s, ⟨0, [], []⟩)
    ⟨rfl, rfl⟩
    (fun pre c st hpre hst => by
      obtain ⟨st1, out⟩ := st
      obtain ⟨h1, h2⟩ := hst
      dsimp only at h1 h2
      subst h1
      have hc : c ∈ for_each_cube_cells (scanned_shape s).dim :=
        hpre.subset (List.mem_append_right _ (List.mem_singleton_self _))
      obtain ⟨v1, v2⟩ := dfs_visit_leaves recurse (s.k + 1) s (by omega) out c hc
      refine ⟨v1, ?_⟩
      rw [v2, h2, List.filter_append, List.map_append]
      congr 1
      by_cases hcand : is_candidate (scanned_shape s) c
      · rw [if_pos hcand, if_pos rfl, List.filter_cons_of_pos (by simpa using hcand),
          List.filter_nil, List.map_singleton]
      · rw [if_neg hcand, List.filter_cons_of_neg (by simpa using hcand), List.filter_nil,
          List.map_nil])
  exact hinv.2

/-- C24 (as the code has it): at every level the candidates are tried in the
order in which `for_each_cube` visits the grid, that is by ascending linear
index `z * (dim.y * dim.x) + y * dim.x + x`: by z, then y, then x.  With the
cutoff one above the size of `s` the shapes handed to `on_expanded` are the
filled shapes of the candidate cells in that order, and the labels tried are
the labels of those cells in that order; every cell is visited once. -/
theorem c24_candidates_in_scan_order (recurse : rooted_polycube → dfs_output)
    (s : rooted_polycube) :
    (dfs_level recurse (s.k + 1 + 1) (s.k + 1) s).expanded =
      ((for_each_cube_cells (scanned_shape s).dim).filter fun c =>
        decide (is_candidate (scanned_shape s) c)).map (filled_shape s) ∧
    (dfs_level recurse (s.k + 1 + 1) (s.k + 1) s).expanded.map
        (fun t => t.highest_numbering) =
      ((for_each_cube_cells (scanned_shape s).dim).filter fun c =>
        decide (is_candidate (scanned_shape s) c)).map
          (fun c => array_get (scanned_shape s).cubes c.1) ∧
    (for_each_cube_cells (scanned_shape s).dim).map Prod.fst
      = List.range (for_each_cube_cells (scanned_shape s).dim).length ∧
    (for_each_cube_cells (scanned_shape s).dim).Pairwise (fun a b => a.1 < b.1) ∧
    ∀ c ∈ for_each_cube_cells (scanned_shape s).dim,
      in_box (scanned_shape s).dim c.2 ∧
      (c.1 : Int) = c.2.z * ((scanned_shape s).dim.y * (scanned_shape s).dim.x)
        + c.2.y * (scanned_shape s).dim.x + c.2.x := by
  have hfst : (for_each_cube_cells (scanned_shape s).dim).map Prod.fst
      = List.range (for_each_cube_cells (scanned_shape s).dim).length := by
    unfold for_each_cube_cells
    rw [List.enum_map_fst, List.enum_length]
  refine ⟨dfs_level_order recurse s, ?_, hfst, ?_, ?_⟩
  · rw [dfs_level_order recurse s, List.map_map]
    rfl
  · have := List.pairwise_lt_range (for_each_cube_cells (scanned_shape s).dim).length
    rw [← hfst, List.pairwise_map] at this
    exact this
  · intro c hc
    exact (cells_mem_iff _ c.1 c.2).mp hc

/-- C24, counterexample: the shape of two cubes made by the first fill step
is a shape of the search, and the labels tried at its level are, in the
order in which they are tried, 8, 4, 9, 6, 11: not in increasing order.
These are the labels of the first five shapes that the search with target
size 4 and cutoff 3 hands to `on_expanded`. -/
theorem c24_counterexample :
    search_current label_order_example ∧
    (dfs_level (fun _ => ⟨0, [], []⟩) 4 3 label_order_example).expanded.map
        (fun t => t.highest_numbering) = [8, 4, 9, 6, 11] ∧
    ¬ ((dfs_level (fun _ => ⟨0, [], []⟩) 4 3 label_order_example).expanded.map
        (fun t => t.highest_numbering)).Pairwise (fun a b => a < b) ∧
    ((expand_polycubes_dfs 4 3).expanded.map (fun t => t.highest_numbering)).take 5
      = [8, 4, 9, 6, 11] := by
  have h : (dfs_level (fun _ => ⟨0, [], []⟩) 4 3 label_order_example).expanded.map
      (fun t => t.highest_numbering) = [8, 4, 9, 6, 11] := by decide!
  refine ⟨?_, h, ?_, by decide!⟩
  · exact search_current.filled initial_polycube (14, ⟨2, 1, 1⟩) search_current.initial
      ((cells_mem_iff _ 14 ⟨2, 1, 1⟩).mpr ⟨by decide, by decide⟩) (by decide)
  · rw [h]
    decide

/-! ### The bounding-box test -/

/-- What the three tests of `consider_this` add up to. -/
theorem consider_this_iff (s : rooted_polycube) :
    consider_this s = true ↔
      ((filled_extents s).y ≥ (filled_extents s).z ∧
        ((filled_extents s).x ≥ (filled_extents s).y ∨
          (filled_extents s).y = (filled_extents s).z)) := by
  unfold consider_this filled_extents
  dsimp only
  constructor
  · intro h
    split at h
    · exact absurd h (by decide)
    · split at h
      · exact absurd h (by decide)
      · split at h
        · exact absurd h (by decide)
        · omega
  · intro h
    rw [if_neg (by omega), if_neg (by omega), if_neg (by omega)]

/-- The bounding-box test as coded: it passes a shape on to the canonical
test iff its height is at least its depth and either its width is at least
its height or its height equals its depth.  So every shape with
width >= height >= depth is passed on, every shape that is rejected fails
width >= height >= depth, and the shapes with height = depth > width are
passed on as well.  For a shape with `n` cubes the search runs the canonical
test exactly when `consider_this` holds. -/
theorem prefilter_as_coded (s : rooted_polycube) :
    (consider_this s = true ↔
      ((filled_extents s).y ≥ (filled_extents s).z ∧
        ((filled_extents s).x ≥ (filled_extents s).y ∨
          (filled_extents s).y = (filled_extents s).z))) ∧
    (((filled_extents s).x ≥ (filled_extents s).y ∧ (filled_extents s).y ≥ (filled_extents s).z) →
      consider_this s = true) ∧
    (consider_this s = false →
      ¬ ((filled_extents s).x ≥ (filled_extents s).y ∧
        (filled_extents s).y ≥ (filled_extents s).z)) ∧
    (∀ (recurse : rooted_polycube → dfs_output) (n m : Int) (out : dfs_output), s.k = n →
      dfs_emit recurse n m s out =
        if consider_this s = true then
          (if is_polycube_canonical_sparse (get_polycube_sparse_from_rooted s) = true then
            { out with count := out.count + 1
                       found := out.found ++ [get_polycube_sparse_from_rooted s] }
          else out)
        else out) := by
  have hiff := consider_this_iff s
  refine ⟨hiff, ?_, ?_, ?_⟩
  · intro h
    exact hiff.mpr ⟨h.2, Or.inl h.1⟩
  · intro hf h
    have := hiff.mpr ⟨h.2, Or.inl h.1⟩
    rw [hf] at this
    exact absurd this (by decide)
  · intro recurse n m out hk
    unfold dfs_emit
    rw [if_pos hk]

/-- C25 fails in the code: among the shapes with three cubes that the search
reaches there is one whose filled bounding box has the extents
(width, height, depth) = (1, 2, 2), so that width >= height >= depth does
not hold, and that the bounding-box test passes on all the same; the
canonical test then rejects it at its first check.  The three tests of
`consider_this` miss the case height = depth > width. -/
theorem c25_counterexample :
    ∃ s ∈ full_size_shapes 3,
      s.k = 3 ∧ filled_extents s = ⟨1, 2, 2⟩ ∧
      consider_this s = true ∧
      ¬ ((filled_extents s).x ≥ (filled_extents s).y ∧
        (filled_extents s).y ≥ (filled_extents s).z) ∧
      is_polycube_canonical_sparse (get_polycube_sparse_from_rooted s) = false := by
  have h : (full_size_shapes 3).any (fun s =>
      decide (s.k = 3) && decide (filled_extents s = ⟨1, 2, 2⟩) && consider_this s &&
        !is_polycube_canonical_sparse (get_polycube_sparse_from_rooted s)) = true := by
    decide!
  obtain ⟨s, hs, hp⟩ := List.any_eq_true.mp h
  simp only [Bool.and_eq_true, decide_eq_true_eq, Bool.not_eq_true'] at hp
  obtain ⟨⟨⟨hk, he⟩, hc⟩, hcan⟩ := hp
  refine ⟨s, hs, hk, he, hc, ?_, hcan⟩
  rw [he]
  decide

/-! ### The search without the bounding-box test -/

/-- A shape that the bounding-box test rejects is not canonical. -/
theorem rejected_not_canonical (s : rooted_polycube) (h : consider_this s = false) :
    is_polycube_canonical_sparse (get_polycube_sparse_from_rooted s) = false := by
  have hiff := consider_this_iff s
  have hno : ¬ ((filled_extents s).y ≥ (filled_extents s).z ∧
      ((filled_extents s).x ≥ (filled_extents s).y ∨
        (filled_extents s).y = (filled_extents s).z)) := by
    intro h2
    have := hiff.mpr h2
    rw [h] at this
    exact absurd this (by decide)
  unfold filled_extents at hno
  dsimp only at hno
  unfold is_polycube_canonical_sparse get_polycube_sparse_from_rooted
  dsimp only
  rw [if_pos (by omega)]

theorem dfs_emit_unfiltered_eq (recurse : rooted_polycube → dfs_output) (n m : Int)
    (filled : rooted_polycube) (out : dfs_output) :
    dfs_emit_unfiltered recurse n m filled out = dfs_emit recurse n m filled out := by
  unfold dfs_emit_unfiltered dfs_emit
  by_cases hk : filled.k = n
  · rw [if_pos hk, if_pos hk]
    by_cases hc : consider_this filled = true
    · rw [if_pos hc]
    · rw [if_neg hc]
      have := rejected_not_canonical filled (by simpa using hc)
      dsimp only
      rw [this]
      rfl
  · rw [if_neg hk, if_neg hk]

theorem dfs_visit_unfiltered_eq (r1 r2 : rooted_polycube → dfs_output)
    (h : ∀ s, r1 s = r2 s) (n m hn : Int) (cmin cmax : position)
    (st : rooted_polycube × dfs_output) (c : Nat × position) :
    dfs_visit_unfiltered r1 n m hn cmin cmax st c = dfs_visit r2 n m hn cmin cmax st c := by
  have hr : r1 = r2 := funext h
  subst hr
  unfold dfs_visit_unfiltered dfs_visit
  dsimp only
  split
  · split
    · rfl
    · rw [dfs_emit_unfiltered_eq]
  · rfl

theorem dfs_level_unfiltered_eq (r1 r2 : rooted_polycube → dfs_output)
    (h : ∀ s, r1 s = r2 s) (n m : Int) (current : rooted_polycube) :
    dfs_level_unfiltered r1 n m current = dfs_level r2 n m current := by
  unfold dfs_level_unfiltered dfs_level
  dsimp only
  have hf : dfs_visit_unfiltered r1 n m
      (if current.k < 3 then crop_cube (expand_empty_slots current)
        else expand_empty_slots current).highest_numbering
      (if current.k < 3 then crop_cube (expand_empty_slots current)
        else expand_empty_slots current).min_bounds
      (if current.k < 3 then crop_cube (expand_empty_slots current)
        else expand_empty_slots current).max_bounds
      = dfs_visit r2 n m
      (if current.k < 3 then crop_cube (expand_empty_slots current)
        else expand_empty_slots current).highest_numbering
      (if current.k < 3 then crop_cube (expand_empty_slots current)
        else expand_empty_slots current).min_bounds
      (if current.k < 3 then crop_cube (expand_empty_slots current)
        else expand_empty_slots current).max_bounds := by
    funext st c
    exact dfs_visit_unfiltered_eq r1 r2 h n m _ _ _ st c
  rw [hf]

theorem from_current_fuel_unfiltered_eq (fuel : Nat) (n m : Int) :
    ∀ current : rooted_polycube,
      expand_polycubes_dfs_from_current_fuel_unfiltered fuel n m current
        = expand_polycubes_dfs_from_current_fuel fuel n m current := by
  induction fuel with
  | zero => intro current; rfl
  | succ fuel ih =>
    intro current
    show dfs_level_unfiltered _ n m current = dfs_level _ n m current
    exact dfs_level_unfiltered_eq _ _ ih n m current

/-- C26: a shape that the bounding-box test rejects is rejected by the
canonical test as well (`is_polycube_canonical_sparse` of its sparse form is
false), so the test changes nothing: the search that runs the canonical test
on every shape with `n` cubes returns the same count and hands the same
shapes, in the same order, to both sinks. -/
theorem c26_prefilter_is_sound (n m : Int) :
    (∀ s : rooted_polycube, consider_this s = false →
      is_polycube_canonical_sparse (get_polycube_sparse_from_rooted s) = false) ∧
    expand_polycubes_dfs_unfiltered n m = expand_polycubes_dfs n m ∧
    (expand_polycubes_dfs_unfiltered n m).count = (expand_polycubes_dfs n m).count ∧
    (expand_polycubes_dfs_unfiltered n m).found = (expand_polycubes_dfs n m).found ∧
    ∀ (fuel : Nat) (current : rooted_polycube),
      expand_polycubes_dfs_from_current_fuel_unfiltered fuel n m current
        = expand_polycubes_dfs_from_current_fuel fuel n m current := by
  have heq : expand_polycubes_dfs_unfiltered n m = expand_polycubes_dfs n m := by
    unfold expand_polycubes_dfs_unfiltered expand_polycubes_dfs expand_polycubes_dfs_from_current
    rw [from_current_fuel_unfiltered_eq]
  exact ⟨rejected_not_canonical, heq, by rw [heq], by rw [heq],
    fun fuel current => from_current_fuel_unfiltered_eq fuel n m current⟩

/-! ### The filled cells of the shapes of the search -/

theorem label_inv_congr (a b : rooted_polycube) (bd : Int)
    (hl : ∀ e, b.label e = a.label e) (hf : b.filled_cubes = a.filled_cubes)
    (hn : b.highest_numbering = a.highest_numbering)
    (hw : b.highest_written = a.highest_written) (h : a.label_inv bd) : b.label_inv bd :=
  { filled_only := fun e he => by
      rw [hl] at he
      rw [hf]
      exact h.filled_only e he
    label_range := fun e h0 hF => by
      rw [hl] at h0 hF ⊢
      rw [hw]
      exact h.label_range e h0 hF
    label_inj := fun e1 e2 h0 hF heq => by
      rw [hl] at h0 hF heq
      rw [hl] at heq
      exact h.label_inj e1 e2 h0 hF heq
    numbering_le := by rw [hn, hw]; exact h.numbering_le
    written_le := by rw [hw]; exact h.written_le }

theorem label_inv_mono (s : rooted_polycube) (b b2 : Int) (hb : b ≤ b2) (h : s.label_inv b) :
    s.label_inv b2 :=
  { filled_only := h.filled_only
    label_range := h.label_range
    label_inj := h.label_inj
    numbering_le := h.numbering_le
    written_le := le_trans h.written_le hb }

/-- The labels of every shape that the search builds satisfy the invariant. -/
theorem search_shape_label_inv (s : rooted_polycube) (h : search_shape s) (hk : s.k ≤ 5000) :
    s.label_inv (6 * s.k + 6) := by
  have hF : FILLED_CUBE = 32767 := rfl
  cases h with
  | current _ hc =>
    exact label_inv_mono s _ _ (by omega) (search_current_label_inv s hc hk).1
  | padded t hc =>
    rw [pad_cube_k] at hk ⊢
    obtain ⟨hwf, _⟩ := search_current_wf t hc
    obtain ⟨hm, _, _⟩ := pad_cube_moved t hwf.dim_pos
    exact label_inv_mono _ _ _ (by omega)
      (label_inv_moved t _ _ _ hm (search_current_label_inv t hc hk).1)
  | expanded t hc =>
    rw [expand_empty_slots_k] at hk ⊢
    obtain ⟨hwf, hf⟩ := search_current_wf t hc
    obtain ⟨i1, i2⟩ := search_current_label_inv t hc hk
    obtain ⟨j1, _⟩ := scanned_label_inv t hwf hf _ i1 (by omega) i2
    obtain ⟨y1, y2, y3⟩ := scanned_eq_expand t hwf hf
    exact label_inv_congr (scanned_shape t) _ _ (fun e => (y1 e).symm)
      (by rw [scanned_filled, expand_filled]) y3.symm y2.symm j1
  | cropped t hc hk3 =>
    rw [crop_cube_k, expand_empty_slots_k] at hk ⊢
    obtain ⟨hwf, hf⟩ := search_current_wf t hc
    obtain ⟨i1, i2⟩ := search_current_label_inv t hc hk
    obtain ⟨j1, _⟩ := scanned_label_inv t hwf hf _ i1 (by omega) i2
    have hs : scanned_shape t = crop_cube (expand_empty_slots t) := by
      unfold scanned_shape
      rw [if_pos hk3]
    rw [← hs]
    exact j1

theorem search_shape_root_mem (s : rooted_polycube) (h : search_shape s) :
    (⟨0, 0, 0⟩ : position) ∈ s.filled_cubes := by
  obtain ⟨t, ht, hf⟩ := search_shape_filled s h
  rw [hf]
  exact List.mem_of_mem_head? (search_current_lex t ht).1

theorem map_getD_range (l : List Int) :
    (List.range l.length).map (fun i => l.getD i 0) = l := by
  apply List.ext_getElem
  · simp
  · intro i h1 h2
    simp [List.getElem?_eq_getElem h2]

/-- The grid read cell by cell in the order of `for_each_cube`. -/
theorem cubes_eq_map_cells (s : rooted_polycube) (hwf : s.wf) :
    s.cubes = (for_each_cube_cells s.dim).map fun c => array_get s.cubes c.1 := by
  have hfst : (for_each_cube_cells s.dim).map Prod.fst = List.range s.cubes.length := by
    unfold for_each_cube_cells
    rw [List.enum_map_fst, cells_length, hwf.length_eq]
    congr 1
    obtain ⟨hx, hy, hz⟩ := hwf.dim_pos
    have h1 : ((s.dim.z.toNat * (s.dim.y.toNat * s.dim.x.toNat) : Nat) : Int)
        = (s.size : Int) := by
      rw [size_eq_of_pos s hwf.dim_pos]
      push_cast
      rw [Int.toNat_of_nonneg (by omega), Int.toNat_of_nonneg (by omega),
        Int.toNat_of_nonneg (by omega)]
      ring
    exact_mod_cast h1
  have h2 : (for_each_cube_cells s.dim).map (fun c => array_get s.cubes c.1)
      = ((for_each_cube_cells s.dim).map Prod.fst).map (fun i : Nat => s.cubes.getD i 0) := by
    rw [List.map_map]
    apply List.map_congr_left
    intro c _
    show array_get s.cubes c.1 = s.cubes.getD c.1 0
    unfold array_get
    rw [if_neg (by omega), Int.toNat_ofNat]
  rw [h2, hfst, map_getD_range]

/-- The cells of the grid that hold `FILLED_CUBE`, read as offsets from the
root, are the entries of the filled stack. -/
theorem filled_cells_perm (s : rooted_polycube) (hwf : s.wf)
    (hfo : ∀ e, s.label e = FILLED_CUBE → e ∈ s.filled_cubes) :
    (((for_each_cube_cells s.dim).filter fun c =>
        decide (array_get s.cubes c.1 = FILLED_CUBE)).map fun c =>
      (⟨c.2.x - s.root.x, c.2.y - s.root.y, c.2.z - s.root.z⟩ : position)).Perm
      s.filled_cubes := by
  apply (List.perm_ext_iff_of_nodup ?_ hwf.nodup).mpr
  · intro e
    simp only [List.mem_map, List.mem_filter, decide_eq_true_eq]
    constructor
    · rintro ⟨c, ⟨hc, hv⟩, hce⟩
      obtain ⟨_, hval, _⟩ := is_candidate_value s c hc
      apply hfo
      unfold rooted_polycube.label
      rw [← hce, offset_of_cell, ← hval]
      exact hv
    · intro he
      have hv := hwf.filled e he
      have hne : s.label e ≠ 0 := by
        unfold rooted_polycube.label
        rw [hv]
        exact FILLED_CUBE_ne_zero
      obtain ⟨c, hc, hce⟩ := cell_of_offset s hwf.dim_pos e hne
      obtain ⟨_, hval, _⟩ := is_candidate_value s c hc
      refine ⟨c, ⟨hc, ?_⟩, ?_⟩
      · rw [hval, hce]
        exact hv
      · rw [hce]
        apply position_ext <;> simp only [position.add] <;> omega
  · apply List.Nodup.map_on
    · intro a ha b hb hab
      rw [List.mem_filter] at ha hb
      apply cell_eq_of_pos_eq _ a b ha.1 hb.1
      have hx := congrArg position.x hab
      have hy := congrArg position.y hab
      have hz := congrArg position.z hab
      dsimp only at hx hy hz
      exact position_ext _ _ (by omega) (by omega) (by omega)
    · exact (cells_nodup _).filter _

/-- C21: in every rooted shape that the search builds (the single cube and
what `pad_cube`, `expand_empty_slots`, `crop_cube` and a fill step make; a
backtrack step gives the scanned shape again) with at most 32 cubes, the
cell at the root holds `FILLED_CUBE`, so `check_root` holds; the filled
stack has `k` entries; for each entry the cell at root + entry lies in the
grid and holds `FILLED_CUBE`; and exactly `k` cells of the grid hold
`FILLED_CUBE`. -/
theorem c21_root_and_filled (s : rooted_polycube) (h : search_shape s) (hk : s.k ≤ 32) :
    s.check_root = true ∧
    (s.filled_cubes.length : Int) = s.k ∧
    (∀ e ∈ s.filled_cubes, in_box s.dim (s.root.add e) ∧
      s.get_cube (s.root.add e).x (s.root.add e).y (s.root.add e).z = FILLED_CUBE) ∧
    (((for_each_cube_cells s.dim).filter fun c =>
      decide (s.get_cube c.2.x c.2.y c.2.z = FILLED_CUBE)).length : Int) = s.k ∧
    (s.cubes.count FILLED_CUBE : Int) = s.k := by
  have hwf := search_shape_wf s h
  have hinv := search_shape_label_inv s h (by omega)
  have hget : ∀ e ∈ s.filled_cubes, in_box s.dim (s.root.add e) ∧
      s.get_cube (s.root.add e).x (s.root.add e).y (s.root.add e).z = FILLED_CUBE := by
    intro e he
    have hv := hwf.filled e he
    have hbox := in_box_of_value_ne_zero s _ (by rw [hv]; exact FILLED_CUBE_ne_zero)
    refine ⟨hbox, ?_⟩
    unfold rooted_polycube.value at hv
    rw [if_pos hbox] at hv
    exact hv
  have hperm := filled_cells_perm s hwf hinv.filled_only
  have hlen := hperm.length_eq
  rw [List.length_map] at hlen
  refine ⟨?_, hwf.k_eq.symm, hget, ?_, ?_⟩
  · have h0 := (hget _ (search_shape_root_mem s h)).2
    have hr : s.root.add ⟨0, 0, 0⟩ = s.root := by
      apply position_ext <;> simp [position.add]
    rw [hr] at h0
    unfold rooted_polycube.check_root
    rw [h0]
    exact beq_self_eq_true _
  · have hfil : ((for_each_cube_cells s.dim).filter fun c =>
        decide (s.get_cube c.2.x c.2.y c.2.z = FILLED_CUBE))
        = (for_each_cube_cells s.dim).filter fun c =>
          decide (array_get s.cubes c.1 = FILLED_CUBE) := by
      apply List.filter_congr
      intro c hc
      obtain ⟨_, hv1, hv2⟩ := is_candidate_value s c hc
      show decide (array_get s.cubes (s.index c.2.x c.2.y c.2.z) = FILLED_CUBE) = _
      rw [hv2, hv1]
    rw [hfil, hlen]
    exact hwf.k_eq.symm
  · have hc : s.cubes.count FILLED_CUBE
        = ((for_each_cube_cells s.dim).filter fun c =>
          decide (array_get s.cubes c.1 = FILLED_CUBE)).length := by
      conv_lhs => rw [cubes_eq_map_cells s hwf]
      rw [List.count_eq_countP, List.countP_eq_length_filter, List.filter_map, List.length_map]
      congr 1
    rw [hc, hlen]
    exact hwf.k_eq.symm

theorem c21_root_and_filled_witness :
    search_shape (expand_empty_slots initial_polycube) ∧
    (expand_empty_slots initial_polycube).k ≤ 32 ∧
    (expand_empty_slots initial_polycube).check_root = true ∧
    ((expand_empty_slots initial_polycube).cubes.count FILLED_CUBE : Int)
      = (expand_empty_slots initial_polycube).k :=
  ⟨search_shape.expanded _ search_current.initial, by decide,
    (c21_root_and_filled _ (search_shape.expanded _ search_current.initial) (by decide)).1,
    (c21_root_and_filled _ (search_shape.expanded _ search_current.initial)
      (by decide)).2.2.2.2⟩

/-! ### The labels along a search path -/

/-- One step of a search path keeps every label, except that the fill step
overwrites the label of the filled cell with `FILLED_CUBE`. -/
theorem search_step_label (a b : rooted_polycube) (h : search_step a b) (e : position)
    (he : a.label e ≠ 0) : b.label e = a.label e ∨ b.label e = FILLED_CUBE := by
  cases h with
  | pad _ hc =>
    obtain ⟨hwf, _⟩ := search_current_wf a hc
    obtain ⟨hm, _, _⟩ := pad_cube_moved a hwf.dim_pos
    exact Or.inl (label_moved a _ _ hm e)
  | expand s hc =>
    obtain ⟨hwf, hf⟩ := search_current_wf s hc
    obtain ⟨hm, _, _⟩ := pad_cube_moved s hwf.dim_pos
    obtain ⟨x1, x2, _⟩ := expand_label s hwf hf
    have hpad : (pad_cube s).1.label e = s.label e := label_moved s _ _ hm e
    rw [hpad] at he ⊢
    left
    apply x1
    intro hfr
    exact he (x2 e hfr).1
  | crop s hc hk =>
    obtain ⟨hwf, hf⟩ := search_current_wf s hc
    obtain ⟨y1, _, _⟩ := scanned_eq_expand s hwf hf
    have hs : scanned_shape s = crop_cube (expand_empty_slots s) := by
      unfold scanned_shape
      rw [if_pos hk]
    rw [← hs]
    exact Or.inl (y1 e)
  | fill s c hc hmem hcand =>
    obtain ⟨hwf, hf⟩ := search_current_wf s hc
    rw [filled_shape_label s hwf hf c hmem e]
    by_cases hp : (scanned_shape s).root.add e = c.2
    · rw [if_pos hp]
      exact Or.inr rfl
    · rw [if_neg hp]
      exact Or.inl rfl

/-- Along a search path a cell keeps the label it has, until it is filled. -/
theorem search_path_label (a b : rooted_polycube)
    (h : Relation.ReflTransGen search_step a b) (e : position) (he : a.label e ≠ 0) :
    b.label e = a.label e ∨ b.label e = FILLED_CUBE := by
  induction h with
  | refl => exact Or.inl rfl
  | @tail x y _ hstep ih =>
    have hx : x.label e ≠ 0 := by
      rcases ih with h1 | h1
      · rw [h1]; exact he
      · rw [h1]; exact FILLED_CUBE_ne_zero
    rcases search_step_label x y hstep e hx with h2 | h2
    · rcases ih with h1 | h1
      · exact Or.inl (h2.trans h1)
      · exact Or.inr (h2.trans h1)
    · exact Or.inr h2

theorem value_eq_label (s : rooted_polycube) (p : position) :
    s.value p = s.label ⟨p.x - s.root.x, p.y - s.root.y, p.z - s.root.z⟩ := by
  unfold rooted_polycube.label
  rw [offset_of_cell]

/-- C22: in every rooted shape that the search builds, with at most 32
cubes, the labels in the grid (the values that are neither 0 nor
`FILLED_CUBE`) are pairwise different, positive and at most
`highest_written`, and `highest_numbering <= highest_written`.  In every
later shape of a search path that goes through the shape, a cell that holds a
label, taken at its offset from the root, holds the same label or
`FILLED_CUBE` (the fill step overwrites the label, the backtrack step gives
the scanned shape with the label again). -/
theorem c22_labels_distinct_and_kept (s : rooted_polycube) (h : search_shape s)
    (hk : s.k ≤ 32) :
    (∀ p q, s.value p ≠ 0 → s.value p ≠ FILLED_CUBE → s.value p = s.value q → p = q) ∧
    (∀ p, s.value p ≠ 0 → s.value p ≠ FILLED_CUBE →
      0 < s.value p ∧ s.value p ≤ s.highest_written) ∧
    s.highest_numbering ≤ s.highest_written ∧
    (∀ t, Relation.ReflTransGen search_step s t → ∀ e, s.label e ≠ 0 →
      s.label e ≠ FILLED_CUBE → t.label e = s.label e ∨ t.label e = FILLED_CUBE) := by
  have hinv := search_shape_label_inv s h (by omega)
  refine ⟨?_, ?_, hinv.numbering_le, ?_⟩
  · intro p q h0 hF heq
    rw [value_eq_label s p] at h0 hF heq
    rw [value_eq_label s q] at heq
    have := hinv.label_inj _ _ h0 hF heq
    have hx := congrArg position.x this
    have hy := congrArg position.y this
    have hz := congrArg position.z this
    dsimp only at hx hy hz
    exact position_ext _ _ (by omega) (by omega) (by omega)
  · intro p h0 hF
    rw [value_eq_label s p] at h0 hF ⊢
    exact hinv.label_range _ h0 hF
  · intro t hpath e he _
    exact search_path_label s t hpath e he

theorem c22_labels_distinct_and_kept_witness :
    search_shape (expand_empty_slots initial_polycube) ∧
    (expand_empty_slots initial_polycube).k ≤ 32 ∧
    (∀ p q, (expand_empty_slots initial_polycube).value p ≠ 0 →
      (expand_empty_slots initial_polycube).value p ≠ FILLED_CUBE →
      (expand_empty_slots initial_polycube).value p
        = (expand_empty_slots initial_polycube).value q → p = q) ∧
    (expand_empty_slots initial_polycube).value ⟨2, 1, 1⟩ = 2 ∧
    (expand_empty_slots initial_polycube).highest_written = 7 :=
  ⟨search_shape.expanded _ search_current.initial, by decide,
    (c22_labels_distinct_and_kept _ (search_shape.expanded _ search_current.initial)
      (by decide)).1, by decide, by decide⟩

/-! ### The 24 orientations are the proper rotations of the cube -/

theorem axis_row_dot_vec (a : axis_id) (f : Bool) (c : position) :
    Matrix.dotProduct (axis_row a f) c.vec = (if f then -1 else 1) * c.get a := by
  cases a <;> cases f <;>
    simp [Matrix.dotProduct, Fin.sum_univ_three, axis_row, position.vec, position.get,
      axis_id.rank]

theorem orient_coord_affine (dim c : position) (a : axis_id) (f : Bool) :
    orient_coord dim c a f
      = (if f then -1 else 1) * c.get a + orient_coord dim ⟨0, 0, 0⟩ a f := by
  cases f <;> cases a <;> simp [orient_coord, position.get] <;> ring

/-- The image of a cell: the matrix applied to the cell, plus the shift that
brings the image of the box back to the origin. -/
theorem apply_pos_affine (o : orientation) (dim c : position) :
    (o.apply_pos dim c).vec
      = o.matrix.mulVec c.vec + (o.apply_pos dim ⟨0, 0, 0⟩).vec := by
  funext j
  fin_cases j
  · show orient_coord dim c o.sx o.fx
      = Matrix.dotProduct (axis_row o.sx o.fx) c.vec + orient_coord dim ⟨0, 0, 0⟩ o.sx o.fx
    rw [axis_row_dot_vec, ← orient_coord_affine]
  · show orient_coord dim c o.sy o.fy
      = Matrix.dotProduct (axis_row o.sy o.fy) c.vec + orient_coord dim ⟨0, 0, 0⟩ o.sy o.fy
    rw [axis_row_dot_vec, ← orient_coord_affine]
  · show orient_coord dim c o.sz o.fz
      = Matrix.dotProduct (axis_row o.sz o.fz) c.vec + orient_coord dim ⟨0, 0, 0⟩ o.sz o.fz
    rw [axis_row_dot_vec, ← orient_coord_affine]

theorem axis_row_dot_row (a b : axis_id) (f g : Bool) :
    Matrix.dotProduct (axis_row a f) (axis_row b g)
      = if a = b then (if f = g then 1 else -1) else 0 := by
  cases a <;> cases b <;> cases f <;> cases g <;>
    simp [Matrix.dotProduct, Fin.sum_univ_three, axis_row, axis_id.rank]

theorem axis_row_inj (a b : axis_id) (f g : Bool) (h : axis_row a f = axis_row b g) :
    a = b ∧ f = g := by
  have h0 := congrFun h 0
  have h1 := congrFun h 1
  have h2 := congrFun h 2
  cases a <;> cases b <;> cases f <;> cases g <;>
    simp [axis_row, axis_id.rank] at h0 h1 h2 ⊢

theorem orientation_matrix_inj (o1 o2 : orientation) (h : o1.matrix = o2.matrix) : o1 = o2 := by
  have hrow : ∀ i, o1.matrix i = o2.matrix i := fun i => by rw [h]
  obtain ⟨a1, b1⟩ := axis_row_inj _ _ _ _ (hrow 0)
  obtain ⟨a2, b2⟩ := axis_row_inj _ _ _ _ (hrow 1)
  obtain ⟨a3, b3⟩ := axis_row_inj _ _ _ _ (hrow 2)
  obtain ⟨sx, sy, sz, fx, fy, fz⟩ := o1
  obtain ⟨tx, ty, tz, gx, gy, gz⟩ := o2
  dsimp only at a1 a2 a3 b1 b2 b3
  rw [a1, a2, a3, b1, b2, b3]

/-- The matrix of an orientation is orthogonal iff the three output axes
read three different source axes. -/
theorem orientation_matrix_orthogonal (o : orientation) :
    o.matrix * o.matrix.transpose = 1 ↔ o.is_permutation = true := by
  have hentry : ∀ i j, (o.matrix * o.matrix.transpose) i j
      = Matrix.dotProduct (o.matrix i) (o.matrix j) := fun i j => rfl
  have r0 : o.matrix 0 = axis_row o.sx o.fx := rfl
  have r1 : o.matrix 1 = axis_row o.sy o.fy := rfl
  have r2 : o.matrix 2 = axis_row o.sz o.fz := rfl
  unfold orientation.is_permutation
  rw [decide_eq_true_eq]
  constructor
  · intro h
    have h01 := congrFun (congrFun h 0) 1
    have h12 := congrFun (congrFun h 1) 2
    have h02 := congrFun (congrFun h 0) 2
    rw [hentry, r0, r1, axis_row_dot_row] at h01
    rw [hentry, r1, r2, axis_row_dot_row] at h12
    rw [hentry, r0, r2, axis_row_dot_row] at h02
    simp only [Matrix.one_apply] at h01 h12 h02
    refine ⟨?_, ?_, ?_⟩
    · intro he
      rw [if_pos he] at h01
      split at h01 <;> simp at h01
    · intro he
      rw [if_pos he] at h12
      split at h12 <;> simp at h12
    · intro he
      rw [if_pos he] at h02
      split at h02 <;> simp at h02
  · rintro ⟨hxy, hyz, hxz⟩
    funext i j
    rw [hentry]
    fin_cases i <;> fin_cases j <;>
      simp only [Fin.zero_eta, Fin.mk_one, Fin.reduceFinMk, r0, r1, r2, axis_row_dot_row,
        Matrix.one_apply] <;>
      simp [hxy, hyz, hxz, Ne.symm hxy, Ne.symm hyz, Ne.symm hxz]

/-- The determinant of the matrix of an orientation, written out. -/
theorem orientation_matrix_det (o : orientation) :
    o.matrix.det =
      axis_row o.sx o.fx 0 * axis_row o.sy o.fy 1 * axis_row o.sz o.fz 2
      - axis_row o.sx o.fx 0 * axis_row o.sy o.fy 2 * axis_row o.sz o.fz 1
      - axis_row o.sx o.fx 1 * axis_row o.sy o.fy 0 * axis_row o.sz o.fz 2
      + axis_row o.sx o.fx 1 * axis_row o.sy o.fy 2 * axis_row o.sz o.fz 0
      + axis_row o.sx o.fx 2 * axis_row o.sy o.fy 0 * axis_row o.sz o.fz 1
      - axis_row o.sx o.fx 2 * axis_row o.sy o.fy 1 * axis_row o.sz o.fz 0 := by
  rw [Matrix.det_fin_three]
  rfl

theorem proper_iff_det (o : orientation) :
    o.is_proper = true ↔ (o.is_permutation = true ∧
      axis_row o.sx o.fx 0 * axis_row o.sy o.fy 1 * axis_row o.sz o.fz 2
      - axis_row o.sx o.fx 0 * axis_row o.sy o.fy 2 * axis_row o.sz o.fz 1
      - axis_row o.sx o.fx 1 * axis_row o.sy o.fy 0 * axis_row o.sz o.fz 2
      + axis_row o.sx o.fx 1 * axis_row o.sy o.fy 2 * axis_row o.sz o.fz 0
      + axis_row o.sx o.fx 2 * axis_row o.sy o.fy 0 * axis_row o.sz o.fz 1
      - axis_row o.sx o.fx 2 * axis_row o.sy o.fy 1 * axis_row o.sz o.fz 0 = 1) := by
  obtain ⟨sx, sy, sz, fx, fy, fz⟩ := o
  cases sx <;> cases sy <;> cases sz <;> cases fx <;> cases fy <;> cases fz <;> decide

/-- An orientation is a proper rotation iff its matrix is orthogonal with determinant 1. -/
theorem proper_iff_special_orthogonal (o : orientation) :
    o.is_proper = true ↔ (o.matrix * o.matrix.transpose = 1 ∧ o.matrix.det = 1) := by
  rw [proper_iff_det, orientation_matrix_orthogonal, orientation_matrix_det]

theorem unit_row (r : Fin 3 → Int) (h : Matrix.dotProduct r r = 1) :
    ∃ a f, r = axis_row a f := by
  simp only [Matrix.dotProduct, Fin.sum_univ_three] at h
  have h0 : -1 ≤ r 0 ∧ r 0 ≤ 1 := by constructor <;> nlinarith [sq_nonneg (r 1), sq_nonneg (r 2)]
  have h1 : -1 ≤ r 1 ∧ r 1 ≤ 1 := by constructor <;> nlinarith [sq_nonneg (r 0), sq_nonneg (r 2)]
  have h2 : -1 ≤ r 2 ∧ r 2 ≤ 1 := by constructor <;> nlinarith [sq_nonneg (r 0), sq_nonneg (r 1)]
  obtain ⟨a0, b0⟩ := h0
  obtain ⟨a1, b1⟩ := h1
  obtain ⟨a2, b2⟩ := h2
  have key : ∀ x y z : Int, r 0 = x → r 1 = y → r 2 = z → r = ![x, y, z] := by
    intro x y z hx hy hz
    funext j
    fin_cases j
    · exact hx
    · exact hy
    · exact hz
  have e0 : r 0 = -1 ∨ r 0 = 0 ∨ r 0 = 1 := by omega
  have e1 : r 1 = -1 ∨ r 1 = 0 ∨ r 1 = 1 := by omega
  have e2 : r 2 = -1 ∨ r 2 = 0 ∨ r 2 = 1 := by omega
  have t1 : axis_row .x true = ![-1, 0, 0] := by funext j; fin_cases j <;> rfl
  have t2 : axis_row .x false = ![1, 0, 0] := by funext j; fin_cases j <;> rfl
  have t3 : axis_row .y true = ![0, -1, 0] := by funext j; fin_cases j <;> rfl
  have t4 : axis_row .y false = ![0, 1, 0] := by funext j; fin_cases j <;> rfl
  have t5 : axis_row .z true = ![0, 0, -1] := by funext j; fin_cases j <;> rfl
  have t6 : axis_row .z false = ![0, 0, 1] := by funext j; fin_cases j <;> rfl
  rcases e0 with x | x | x <;> rcases e1 with y | y | y <;> rcases e2 with z | z | z <;>
    rw [x, y, z] at h <;> first
    | exact absurd h (by decide)
    | exact ⟨.x, true, (key _ _ _ x y z).trans t1.symm⟩
    | exact ⟨.x, false, (key _ _ _ x y z).trans t2.symm⟩
    | exact ⟨.y, true, (key _ _ _ x y z).trans t3.symm⟩
    | exact ⟨.y, false, (key _ _ _ x y z).trans t4.symm⟩
    | exact ⟨.z, true, (key _ _ _ x y z).trans t5.symm⟩
    | exact ⟨.z, false, (key _ _ _ x y z).trans t6.symm⟩

/-- The integer matrices that are orthogonal with determinant 1, the proper
rotations of the cube, are the matrices of the 24 orientations. -/
theorem special_orthogonal_iff_rotation (M : Matrix (Fin 3) (Fin 3) Int) :
    (M * M.transpose = 1 ∧ M.det = 1) ↔ ∃ o ∈ rotations_24, o.matrix = M := by
  constructor
  · rintro ⟨horth, hdet⟩
    have hrow : ∀ i, Matrix.dotProduct (M i) (M i) = 1 := by
      intro i
      have := congrFun (congrFun horth i) i
      rw [Matrix.one_apply_eq] at this
      exact this
    obtain ⟨a0, f0, e0⟩ := unit_row _ (hrow 0)
    obtain ⟨a1, f1, e1⟩ := unit_row _ (hrow 1)
    obtain ⟨a2, f2, e2⟩ := unit_row _ (hrow 2)
    have hM : (⟨a0, a1, a2, f0, f1, f2⟩ : orientation).matrix = M := by
      funext i
      fin_cases i
      · exact e0.symm
      · exact e1.symm
      · exact e2.symm
    refine ⟨⟨a0, a1, a2, f0, f1, f2⟩, ?_, hM⟩
    apply proper_mem_rotations_24
    rw [proper_iff_special_orthogonal, hM]
    exact ⟨horth, hdet⟩
  · rintro ⟨o, ho, rfl⟩
    exact (proper_iff_special_orthogonal o).mp (rotations_24_proper.2.2 o ho)

theorem orient_coord_in_range (dim c : position) (h : in_box dim c) (a : axis_id) (f : Bool) :
    0 ≤ orient_coord dim c a f ∧ orient_coord dim c a f < dim.get a := by
  unfold in_box at h
  cases a <;> cases f <;> simp only [orient_coord, position.get] <;>
    constructor <;> simp <;> omega

/-- The image of a cell of the box lies in the image of the box. -/
theorem apply_pos_in_box (o : orientation) (dim c : position) (h : in_box dim c) :
    in_box (o.apply_dim dim) (o.apply_pos dim c) := by
  obtain ⟨x1, x2⟩ := orient_coord_in_range dim c h o.sx o.fx
  obtain ⟨y1, y2⟩ := orient_coord_in_range dim c h o.sy o.fy
  obtain ⟨z1, z2⟩ := orient_coord_in_range dim c h o.sz o.fz
  exact ⟨x1, x2, y1, y2, z1, z2⟩

/-- C27: for every sparse shape whose cells lie inside its bounding box,
`all_rotations_generator_sparse` yields 24 orientations: the images of the
shape under the 24 members of `rotations_24`.  Their matrices are pairwise
different, and they are exactly the integer matrices that are orthogonal
with determinant 1, that is the proper rotations of the cube.  Each
orientation permutes the dimensions of the box, maps every cell by its
matrix followed by the shift that brings the box back to the origin, and
the image of the shape lies inside the image of the box. -/
theorem c27_all_rotations (pc : polycube_sparse) (hin : ∀ c ∈ pc.cubes, in_box pc.dim c) :
    (all_rotations pc).length = 24 ∧
    all_rotations pc = rotations_24.map (fun o => o.apply pc) ∧
    (rotations_24.map orientation.matrix).Nodup ∧
    (∀ M : Matrix (Fin 3) (Fin 3) Int,
      M ∈ rotations_24.map orientation.matrix ↔ (M * M.transpose = 1 ∧ M.det = 1)) ∧
    ∀ o ∈ rotations_24,
      o.is_permutation = true ∧
      (o.apply pc).dim = ⟨pc.dim.get o.sx, pc.dim.get o.sy, pc.dim.get o.sz⟩ ∧
      (o.apply pc).cubes = pc.cubes.map (o.apply_pos pc.dim) ∧
      (∀ c, (o.apply_pos pc.dim c).vec
        = o.matrix.mulVec c.vec + (o.apply_pos pc.dim ⟨0, 0, 0⟩).vec) ∧
      ∀ c ∈ (o.apply pc).cubes, in_box (o.apply pc).dim c := by
  obtain ⟨hlen, hnd, hprop⟩ := rotations_24_proper
  refine ⟨?_, all_rotations_eq pc, ?_, ?_, ?_⟩
  · rw [all_rotations_eq, List.length_map, hlen]
  · exact List.Nodup.map_on (fun a _ b _ hab => orientation_matrix_inj a b hab) hnd
  · intro M
    rw [special_orthogonal_iff_rotation, List.mem_map]
  · intro o ho
    have hp := hprop o ho
    refine ⟨?_, rfl, rfl, fun c => apply_pos_affine o pc.dim c, ?_⟩
    · unfold orientation.is_proper at hp
      rw [Bool.and_eq_true] at hp
      exact hp.1
    · intro c hc
      obtain ⟨c0, hc0, rfl⟩ := List.mem_map.mp hc
      exact apply_pos_in_box o pc.dim c0 (hin c0 hc0)

theorem c27_all_rotations_witness :
    (∀ c ∈ order_example_a.cubes, in_box order_example_a.dim c) ∧
    (all_rotations order_example_a).length = 24 ∧
    all_rotations order_example_a = rotations_24.map (fun o => o.apply order_example_a) :=
  ⟨by decide, (c27_all_rotations order_example_a (by decide)).1,
    (c27_all_rotations order_example_a (by decide)).2.1⟩

/-! ### The walk through the half turns -/

theorem rotations_8_eq :
    rotations_8 = [orientation.one, orientation.rotate_twice X_AXIS,
      orientation.rotate_twice Z_AXIS, orientation.rotate_twice Y_AXIS,
      orientation.rotate_twice X_AXIS, orientation.one,
      orientation.rotate_twice Y_AXIS, orientation.rotate_twice Z_AXIS] := by
  decide!

/-- C28 (as the code has it): the eight orientations yielded by
`all_180_rotations_generator_sparse` are the shape itself and then, seven
times, the previous orientation turned by 180 degrees about one axis, in the
order x, y, x, z, x, y, x.  They are only four different rigid motions, each
yielded twice: the identity and the half turns about x, y and z, which are
pairwise different proper rotations.  The walk yields the shape, its half
turns about x, z, y, x, the shape again, and its half turns about y and z. -/
theorem c28_half_turn_walk (pc : polycube_sparse) :
    all_180_rotations pc =
      [pc,
        rotate_twice_sparse X_AXIS pc,
        rotate_twice_sparse Y_AXIS (rotate_twice_sparse X_AXIS pc),
        rotate_twice_sparse X_AXIS (rotate_twice_sparse Y_AXIS (rotate_twice_sparse X_AXIS pc)),
        rotate_twice_sparse Z_AXIS (rotate_twice_sparse X_AXIS
          (rotate_twice_sparse Y_AXIS (rotate_twice_sparse X_AXIS pc))),
        rotate_twice_sparse X_AXIS (rotate_twice_sparse Z_AXIS (rotate_twice_sparse X_AXIS
          (rotate_twice_sparse Y_AXIS (rotate_twice_sparse X_AXIS pc)))),
        rotate_twice_sparse Y_AXIS (rotate_twice_sparse X_AXIS (rotate_twice_sparse Z_AXIS
          (rotate_twice_sparse X_AXIS (rotate_twice_sparse Y_AXIS
            (rotate_twice_sparse X_AXIS pc))))),
        rotate_twice_sparse X_AXIS (rotate_twice_sparse Y_AXIS (rotate_twice_sparse X_AXIS
          (rotate_twice_sparse Z_AXIS (rotate_twice_sparse X_AXIS (rotate_twice_sparse Y_AXIS
            (rotate_twice_sparse X_AXIS pc))))))] ∧
    all_180_rotations pc = rotations_8.map (fun o => o.apply pc) ∧
    all_180_rotations pc =
      [pc, rotate_twice_sparse X_AXIS pc, rotate_twice_sparse Z_AXIS pc,
        rotate_twice_sparse Y_AXIS pc, rotate_twice_sparse X_AXIS pc, pc,
        rotate_twice_sparse Y_AXIS pc, rotate_twice_sparse Z_AXIS pc] ∧
    rotations_8.dedup.length = 4 ∧
    (∀ o ∈ rotations_8, rotations_8.count o = 2 ∧ o.is_proper = true) ∧
    [orientation.one, orientation.rotate_twice X_AXIS, orientation.rotate_twice Y_AXIS,
      orientation.rotate_twice Z_AXIS].Nodup ∧
    ([orientation.one, orientation.rotate_twice X_AXIS, orientation.rotate_twice Y_AXIS,
      orientation.rotate_twice Z_AXIS].map orientation.matrix).Nodup := by
  have hnd : [orientation.one, orientation.rotate_twice X_AXIS, orientation.rotate_twice Y_AXIS,
      orientation.rotate_twice Z_AXIS].Nodup := by decide
  refine ⟨rfl, all_180_rotations_eq pc, ?_, by decide!, by decide!, hnd, ?_⟩
  · rw [all_180_rotations_eq pc, rotations_8_eq]
    simp only [List.map_cons, List.map_nil, apply_one, rotate_twice_X, rotate_twice_Y,
      rotate_twice_Z]
  · exact List.Nodup.map_on (fun a _ b _ hab => orientation_matrix_inj a b hab) hnd

/-- C28, counterexample: for the L-shaped tetracube in the box 3 x 2 x 1,
whose three dimensions are different, the eight orientations yielded are not
pairwise different: the sixth is the shape itself, like the first, and the
eight rigid motions walked are not pairwise different either. -/
theorem c28_counterexample :
    (half_turn_example.dim.x ≠ half_turn_example.dim.y ∧
      half_turn_example.dim.x ≠ half_turn_example.dim.z ∧
      half_turn_example.dim.y ≠ half_turn_example.dim.z) ∧
    (all_180_rotations half_turn_example).length = 8 ∧
    (all_180_rotations half_turn_example)[0]? = some half_turn_example ∧
    (all_180_rotations half_turn_example)[5]? = some half_turn_example ∧
    ¬ (all_180_rotations half_turn_example).Nodup ∧
    ¬ rotations_8.Nodup := by
  decide!

/-! ### The encoding of labels below 256 -/

theorem log16_one (l : Int) (h1 : l < 16) : log_smallest_power_of_16 l = 1 := by
  unfold log_smallest_power_of_16
  cases l.toNat with
  | zero => rfl
  | succ n =>
    unfold log_smallest_power_of_16_loop
    rw [if_neg (by omega)]

theorem log16_two (l : Int) (h0 : 16 ≤ l) (h1 : l < 256) : log_smallest_power_of_16 l = 2 := by
  unfold log_smallest_power_of_16
  obtain ⟨n, hn⟩ : ∃ n, l.toNat = n + 2 := ⟨l.toNat - 2, by omega⟩
  rw [hn]
  unfold log_smallest_power_of_16_loop
  rw [if_pos h0]
  unfold log_smallest_power_of_16_loop
  rw [if_neg (by omega)]

theorem hex_char_inj (i j : Int) (hi0 : 0 ≤ i) (hi : i < 16) (hj0 : 0 ≤ j) (hj : j < 16)
    (h : hex_map.getD i.toNat '0' = hex_map.getD j.toNat '0') : i = j := by
  obtain ⟨a, rfl⟩ := Int.eq_ofNat_of_zero_le hi0
  obtain ⟨b, rfl⟩ := Int.eq_ofNat_of_zero_le hj0
  simp only [Int.toNat_ofNat] at h
  have ha : a < 16 := by omega
  have hb : b < 16 := by omega
  have : a = b := by
    interval_cases a <;> interval_cases b <;> first | rfl | exact absurd h (by decide)
  rw [this]

theorem encode_cons_one (l : Int) (rest : List Int) (h1 : l < 16) :
    encode_labels (l :: rest) = hex_map.getD (l % 16).toNat '0' :: encode_labels rest := by
  show hex_digits (log_smallest_power_of_16 l) l (encode_labels rest) = _
  rw [log16_one l h1]
  rfl

theorem encode_cons_two (l : Int) (rest : List Int) (h0 : 16 ≤ l) (h1 : l < 256) :
    encode_labels (l :: rest) = hex_map.getD (l / 16 % 16).toNat '0' ::
      hex_map.getD (l % 16).toNat '0' :: encode_labels rest := by
  show hex_digits (log_smallest_power_of_16 l) l (encode_labels rest) = _
  rw [log16_two l h0 h1]
  rfl

theorem encode_length_le (l : List Int) (h : ∀ a ∈ l, 0 ≤ a ∧ a < 256) :
    (encode_labels l).length ≤ 2 * l.length := by
  induction l with
  | nil => exact Nat.le_refl _
  | cons a l ih =>
    have ha := h a (List.mem_cons_self _ _)
    have ih2 := ih (fun b hb => h b (List.mem_cons_of_mem _ hb))
    by_cases h16 : a < 16
    · rw [encode_cons_one a l h16]
      simp only [List.length_cons]
      omega
    · rw [encode_cons_two a l (by omega) ha.2]
      simp only [List.length_cons]
      omega

theorem encode_length_two (l : List Int) (h : ∀ a ∈ l, 16 ≤ a ∧ a < 256) :
    (encode_labels l).length = 2 * l.length := by
  induction l with
  | nil => rfl
  | cons a l ih =>
    have ha := h a (List.mem_cons_self _ _)
    have ih2 := ih (fun b hb => h b (List.mem_cons_of_mem _ hb))
    rw [encode_cons_two a l ha.1 ha.2]
    simp only [List.length_cons]
    omega

/-- Two non-decreasing sequences of the same length of labels below 256 that
are encoded by the same string are equal. -/
theorem encode_small_inj (l1 : List Int) :
    ∀ l2 : List Int, l1.length = l2.length →
      (∀ a ∈ l1, 0 ≤ a ∧ a < 256) → (∀ a ∈ l2, 0 ≤ a ∧ a < 256) →
      l1.Pairwise (fun a b => a ≤ b) → l2.Pairwise (fun a b => a ≤ b) →
      encode_labels l1 = encode_labels l2 → l1 = l2 := by
  induction l1 with
  | nil =>
    intro l2 hlen _ _ _ _ _
    exact (List.length_eq_zero.mp hlen.symm).symm
  | cons a r1 ih =>
    intro l2 hlen hb1 hb2 hs1 hs2 henc
    cases l2 with
    | nil => exact absurd hlen (by simp)
    | cons b r2 =>
      have ha := hb1 a (List.mem_cons_self _ _)
      have hb := hb2 b (List.mem_cons_self _ _)
      have hr1 : ∀ c ∈ r1, 0 ≤ c ∧ c < 256 := fun c hc => hb1 c (List.mem_cons_of_mem _ hc)
      have hr2 : ∀ c ∈ r2, 0 ≤ c ∧ c < 256 := fun c hc => hb2 c (List.mem_cons_of_mem _ hc)
      have hlen2 : r1.length = r2.length := by
        simp only [List.length_cons] at hlen
        omega
      rw [List.pairwise_cons] at hs1 hs2
      -- a label of one digit against a label of two digits: the lengths differ
      have hmixed : ∀ (x y : Int) (rx ry : List Int), x < 16 → 16 ≤ y →
          rx.length = ry.length → (∀ c ∈ rx, 0 ≤ c ∧ c < 256) → y < 256 →
          (∀ c ∈ ry, 0 ≤ c ∧ c < 256) → (∀ c ∈ ry, y ≤ c) →
          encode_labels (x :: rx) ≠ encode_labels (y :: ry) := by
        intro x y rx ry hx hy hl hrx hy2 hry hsy heq
        have h1 := congrArg List.length heq
        rw [encode_cons_one x rx hx, encode_cons_two y ry hy hy2] at h1
        simp only [List.length_cons] at h1
        have h2 := encode_length_le rx hrx
        have h3 := encode_length_two ry (fun c hc => ⟨le_trans hy (hsy c hc), (hry c hc).2⟩)
        omega
      by_cases ha16 : a < 16
      · by_cases hb16 : b < 16
        · rw [encode_cons_one a r1 ha16, encode_cons_one b r2 hb16] at henc
          obtain ⟨hc, hrest⟩ := List.cons.inj henc
          have hab : a % 16 = b % 16 :=
            hex_char_inj _ _ (by omega) (by omega) (by omega) (by omega) hc
          have : a = b := by omega
          rw [this, ih r2 hlen2 hr1 hr2 hs1.2 hs2.2 hrest]
        · exact absurd henc
            (hmixed a b r1 r2 ha16 (by omega) hlen2 hr1 hb.2 hr2 hs2.1)
      · by_cases hb16 : b < 16
        · exact absurd henc.symm
            (hmixed b a r2 r1 hb16 (by omega) hlen2.symm hr2 ha.2 hr1 hs1.1)
        · rw [encode_cons_two a r1 (by omega) ha.2, encode_cons_two b r2 (by omega) hb.2] at henc
          obtain ⟨hc1, htl⟩ := List.cons.inj henc
          obtain ⟨hc2, hrest⟩ := List.cons.inj htl
          have h1 : a / 16 % 16 = b / 16 % 16 :=
            hex_char_inj _ _ (by omega) (by omega) (by omega) (by omega) hc1
          have h2 : a % 16 = b % 16 :=
            hex_char_inj _ _ (by omega) (by omega) (by omega) (by omega) hc2
          have : a = b := by omega
          rw [this, ih r2 hlen2 hr1 hr2 hs1.2 hs2.2 hrest]

/-- The list kept by the insertion sort, top element first, stays non-increasing. -/
theorem insert_label_sorted (label : Int) (loc : List Int)
    (h : loc.Pairwise (fun a b => b ≤ a)) :
    (insert_label label loc).Pairwise (fun a b => b ≤ a) ∧
    ∀ x, x ∈ insert_label label loc ↔ x = label ∨ x ∈ loc := by
  induction loc with
  | nil =>
    constructor
    · exact List.pairwise_singleton _ _
    · intro x
      simp [insert_label]
  | cons top rest ih =>
    rw [List.pairwise_cons] at h
    obtain ⟨i1, i2⟩ := ih h.2
    unfold insert_label
    by_cases hlt : label < top
    · rw [if_pos hlt]
      constructor
      · rw [List.pairwise_cons]
        refine ⟨?_, i1⟩
        intro x hx
        rcases (i2 x).mp hx with hx1 | hx1
        · rw [hx1]; omega
        · exact h.1 x hx1
      · intro x
        rw [List.mem_cons, i2 x, List.mem_cons]
        constructor
        · rintro (h1 | h1 | h1)
          · exact Or.inr (Or.inl h1)
          · exact Or.inl h1
          · exact Or.inr (Or.inr h1)
        · rintro (h1 | h1 | h1)
          · exact Or.inr (Or.inl h1)
          · exact Or.inl h1
          · exact Or.inr (Or.inr h1)
    · rw [if_neg hlt]
      constructor
      · rw [List.pairwise_cons, List.pairwise_cons]
        refine ⟨?_, h⟩
        intro x hx
        rcases List.mem_cons.mp hx with hx1 | hx1
        · rw [hx1]; omega
        · have := h.1 x hx1
          omega
      · intro x
        rw [List.mem_cons]

/-- The labels of a sparse shape after the insertion sort: in non-decreasing
order, and the labels of its cells. -/
theorem sorted_labels_sorted (pc : polycube_sparse) :
    (sorted_labels pc).Pairwise (fun a b => a ≤ b) ∧
    (∀ x, x ∈ sorted_labels pc ↔ ∃ c ∈ pc.cubes, x = cell_label pc.dim c) ∧
    (sorted_labels pc).length = pc.num_cubes := by
  unfold sorted_labels polycube_sparse.num_cubes
  have key : ∀ (cs : List position) (loc : List Int), loc.Pairwise (fun a b => b ≤ a) →
      (cs.foldl (fun loc c => insert_label (cell_label pc.dim c) loc) loc).Pairwise
        (fun a b => b ≤ a) ∧
      (∀ x, x ∈ cs.foldl (fun loc c => insert_label (cell_label pc.dim c) loc) loc ↔
        (x ∈ loc ∨ ∃ c ∈ cs, x = cell_label pc.dim c)) ∧
      (cs.foldl (fun loc c => insert_label (cell_label pc.dim c) loc) loc).length
        = loc.length + cs.length := by
    intro cs
    induction cs with
    | nil =>
      intro loc h
      exact ⟨h, fun x => by simp, rfl⟩
    | cons c cs ih =>
      intro loc h
      obtain ⟨i1, i2⟩ := insert_label_sorted (cell_label pc.dim c) loc h
      obtain ⟨j1, j2, j3⟩ := ih _ i1
      rw [List.foldl_cons]
      refine ⟨j1, ?_, ?_⟩
      · intro x
        rw [j2 x, i2 x]
        constructor
        · rintro ((h1 | h1) | ⟨c2, hc2, h1⟩)
          · exact Or.inr ⟨c, List.mem_cons_self _ _, h1⟩
          · exact Or.inl h1
          · exact Or.inr ⟨c2, List.mem_cons_of_mem _ hc2, h1⟩
        · rintro (h1 | ⟨c2, hc2, h1⟩)
          · exact Or.inl (Or.inr h1)
          · rcases List.mem_cons.mp hc2 with h2 | h2
            · rw [h2] at h1
              exact Or.inl (Or.inl h1)
            · exact Or.inr ⟨c2, h2, h1⟩
      · rw [j3]
        have hl : (insert_label (cell_label pc.dim c) loc).length = loc.length + 1 := by
          clear i1 i2 j1 j2 j3 h
          induction loc with
          | nil => rfl
          | cons t r ihr =>
            unfold insert_label
            split
            · simp only [List.length_cons]
              omega
            · rfl
        rw [hl, List.length_cons]
        omega
  obtain ⟨k1, k2, k3⟩ := key pc.cubes [] List.Pairwise.nil
  refine ⟨?_, ?_, ?_⟩
  · rw [List.pairwise_reverse]
    exact k1
  · intro x
    rw [List.mem_reverse, k2 x]
    simp
  · rw [List.length_reverse, k3]
    simp

/-! ### Cell sets that are not polycubes -/

/-- Without face connection two cell sets can be written as the same string:
two sets of four cells in the box 10 x 10 x 6, each lying in the box and
touching all six faces, whose sorted label sequences 0, 1, 564, 599 and
0, 18, 52, 599 differ, are both written "01234257".  Neither set is
face-connected, so neither is a polycube, and the search never hands such a
shape to the encoding.  As long as every label is below 256 (at most two
hex digits), two shapes with the same number of cells that are written as
the same string have the same sorted label sequence. -/
theorem encoding_collision_unconnected :
    encoding_example_a.dim = encoding_example_b.dim ∧
    encoding_example_a.num_cubes = encoding_example_b.num_cubes ∧
    (∀ c ∈ encoding_example_a.cubes, in_box encoding_example_a.dim c) ∧
    (∀ c ∈ encoding_example_b.cubes, in_box encoding_example_b.dim c) ∧
    sorted_labels encoding_example_a = [0, 1, 564, 599] ∧
    sorted_labels encoding_example_b = [0, 18, 52, 599] ∧
    sorted_labels encoding_example_a ≠ sorted_labels encoding_example_b ∧
    str_encoding_hex_sparse encoding_example_a = ['0', '1', '2', '3', '4', '2', '5', '7'] ∧
    str_encoding_hex_sparse encoding_example_b = ['0', '1', '2', '3', '4', '2', '5', '7'] ∧
    str_encoding_hex_sparse encoding_example_a = str_encoding_hex_sparse encoding_example_b ∧
    ∀ pc1 pc2 : polycube_sparse, pc1.num_cubes = pc2.num_cubes →
      (∀ c ∈ pc1.cubes, 0 ≤ cell_label pc1.dim c ∧ cell_label pc1.dim c < 256) →
      (∀ c ∈ pc2.cubes, 0 ≤ cell_label pc2.dim c ∧ cell_label pc2.dim c < 256) →
      str_encoding_hex_sparse pc1 = str_encoding_hex_sparse pc2 →
      sorted_labels pc1 = sorted_labels pc2 := by
  refine ⟨by decide, by decide, by decide, by decide, by decide, by decide, by decide,
    by decide, by decide, by decide, ?_⟩
  intro pc1 pc2 hn h1 h2 henc
  obtain ⟨s1, m1, l1⟩ := sorted_labels_sorted pc1
  obtain ⟨s2, m2, l2⟩ := sorted_labels_sorted pc2
  apply encode_small_inj _ _ (by rw [l1, l2, hn]) _ _ s1 s2 henc
  · intro a ha
    obtain ⟨c, hc, rfl⟩ := (m1 a).mp ha
    exact h1 c hc
  · intro a ha
    obtain ⟨c, hc, rfl⟩ := (m2 a).mp ha
    exact h2 c hc

/-! ### The quarter turns undo each other -/

theorem map_id_of_forall {α : Type} (f : α → α) (l : List α) (h : ∀ a, f a = a) :
    l.map f = l := by
  induction l with
  | nil => rfl
  | cons a l ih => rw [List.map_cons, h a, ih]

theorem rotate_90_once_X_eq (d : position) (c : List position) :
    rotate_90_once_sparse X_AXIS ⟨d, c⟩
      = ⟨⟨d.x, d.z, d.y⟩, c.map fun cube => ⟨cube.x, d.z - 1 - cube.z, cube.y⟩⟩ := rfl

theorem rotate_90_reverse_X_eq (d : position) (c : List position) :
    rotate_90_reverse_sparse X_AXIS ⟨d, c⟩
      = ⟨⟨d.x, d.z, d.y⟩, c.map fun cube => ⟨cube.x, cube.z, d.y - 1 - cube.y⟩⟩ := rfl

theorem reverse_once_X (pc : polycube_sparse) :
    rotate_90_reverse_sparse X_AXIS (rotate_90_once_sparse X_AXIS pc) = pc := by
  obtain ⟨d, c⟩ := pc
  rw [rotate_90_once_X_eq, rotate_90_reverse_X_eq, List.map_map, map_id_of_forall]
  intro a
  apply position_ext <;> simp only [Function.comp]
  omega

theorem once_reverse_X (pc : polycube_sparse) :
    rotate_90_once_sparse X_AXIS (rotate_90_reverse_sparse X_AXIS pc) = pc := by
  obtain ⟨d, c⟩ := pc
  rw [rotate_90_reverse_X_eq, rotate_90_once_X_eq, List.map_map, map_id_of_forall]
  intro a
  apply position_ext <;> simp only [Function.comp]
  omega

theorem rotate_90_once_Y_eq (d : position) (c : List position) :
    rotate_90_once_sparse Y_AXIS ⟨d, c⟩
      = ⟨⟨d.z, d.y, d.x⟩, c.map fun cube => ⟨cube.z, cube.y, d.x - 1 - cube.x⟩⟩ := rfl

theorem rotate_90_reverse_Y_eq (d : position) (c : List position) :
    rotate_90_reverse_sparse Y_AXIS ⟨d, c⟩
      = ⟨⟨d.z, d.y, d.x⟩, c.map fun cube => ⟨d.z - 1 - cube.z, cube.y, cube.x⟩⟩ := rfl

theorem reverse_once_Y (pc : polycube_sparse) :
    rotate_90_reverse_sparse Y_AXIS (rotate_90_once_sparse Y_AXIS pc) = pc := by
  obtain ⟨d, c⟩ := pc
  rw [rotate_90_once_Y_eq, rotate_90_reverse_Y_eq, List.map_map, map_id_of_forall]
  intro a
  apply position_ext <;> simp only [Function.comp]
  omega

theorem once_reverse_Y (pc : polycube_sparse) :
    rotate_90_once_sparse Y_AXIS (rotate_90_reverse_sparse Y_AXIS pc) = pc := by
  obtain ⟨d, c⟩ := pc
  rw [rotate_90_reverse_Y_eq, rotate_90_once_Y_eq, List.map_map, map_id_of_forall]
  intro a
  apply position_ext <;> simp only [Function.comp]
  omega

theorem rotate_90_once_Z_eq (d : position) (c : List position) :
    rotate_90_once_sparse Z_AXIS ⟨d, c⟩
      = ⟨⟨d.y, d.x, d.z⟩, c.map fun cube => ⟨d.y - 1 - cube.y, cube.x, cube.z⟩⟩ := rfl

theorem rotate_90_reverse_Z_eq (d : position) (c : List position) :
    rotate_90_reverse_sparse Z_AXIS ⟨d, c⟩
      = ⟨⟨d.y, d.x, d.z⟩, c.map fun cube => ⟨cube.y, d.x - 1 - cube.x, cube.z⟩⟩ := rfl

theorem reverse_once_Z (pc : polycube_sparse) :
    rotate_90_reverse_sparse Z_AXIS (rotate_90_once_sparse Z_AXIS pc) = pc := by
  obtain ⟨d, c⟩ := pc
  rw [rotate_90_once_Z_eq, rotate_90_reverse_Z_eq, List.map_map, map_id_of_forall]
  intro a
  apply position_ext <;> simp only [Function.comp]
  omega

theorem once_reverse_Z (pc : polycube_sparse) :
    rotate_90_once_sparse Z_AXIS (rotate_90_reverse_sparse Z_AXIS pc) = pc := by
  obtain ⟨d, c⟩ := pc
  rw [rotate_90_reverse_Z_eq, rotate_90_once_Z_eq, List.map_map, map_id_of_forall]
  intro a
  apply position_ext <;> simp only [Function.comp]
  omega

theorem rotate_90_X_in_box (pc : polycube_sparse) (hin : ∀ c ∈ pc.cubes, in_box pc.dim c) :
    (∀ c ∈ (rotate_90_once_sparse X_AXIS pc).cubes,
      in_box (rotate_90_once_sparse X_AXIS pc).dim c) ∧
    (∀ c ∈ (rotate_90_reverse_sparse X_AXIS pc).cubes,
      in_box (rotate_90_reverse_sparse X_AXIS pc).dim c) := by
  obtain ⟨d, cs⟩ := pc
  rw [rotate_90_once_X_eq, rotate_90_reverse_X_eq]
  constructor
  · intro c hc
    obtain ⟨c0, hc0, rfl⟩ := List.mem_map.mp hc
    have h := hin c0 hc0
    unfold in_box at h ⊢
    dsimp only at h ⊢
    omega
  · intro c hc
    obtain ⟨c0, hc0, rfl⟩ := List.mem_map.mp hc
    have h := hin c0 hc0
    unfold in_box at h ⊢
    dsimp only at h ⊢
    omega

theorem rotate_90_Y_in_box (pc : polycube_sparse) (hin : ∀ c ∈ pc.cubes, in_box pc.dim c) :
    (∀ c ∈ (rotate_90_once_sparse Y_AXIS pc).cubes,
      in_box (rotate_90_once_sparse Y_AXIS pc).dim c) ∧
    (∀ c ∈ (rotate_90_reverse_sparse Y_AXIS pc).cubes,
      in_box (rotate_90_reverse_sparse Y_AXIS pc).dim c) := by
  obtain ⟨d, cs⟩ := pc
  rw [rotate_90_once_Y_eq, rotate_90_reverse_Y_eq]
  constructor
  · intro c hc
    obtain ⟨c0, hc0, rfl⟩ := List.mem_map.mp hc
    have h := hin c0 hc0
    unfold in_box at h ⊢
    dsimp only at h ⊢
    omega
  · intro c hc
    obtain ⟨c0, hc0, rfl⟩ := List.mem_map.mp hc
    have h := hin c0 hc0
    unfold in_box at h ⊢
    dsimp only at h ⊢
    omega

theorem rotate_90_Z_in_box (pc : polycube_sparse) (hin : ∀ c ∈ pc.cubes, in_box pc.dim c) :
    (∀ c ∈ (rotate_90_once_sparse Z_AXIS pc).cubes,
      in_box (rotate_90_once_sparse Z_AXIS pc).dim c) ∧
    (∀ c ∈ (rotate_90_reverse_sparse Z_AXIS pc).cubes,
      in_box (rotate_90_reverse_sparse Z_AXIS pc).dim c) := by
  obtain ⟨d, cs⟩ := pc
  rw [rotate_90_once_Z_eq, rotate_90_reverse_Z_eq]
  constructor
  · intro c hc
    obtain ⟨c0, hc0, rfl⟩ := List.mem_map.mp hc
    have h := hin c0 hc0
    unfold in_box at h ⊢
    dsimp only at h ⊢
    omega
  · intro c hc
    obtain ⟨c0, hc0, rfl⟩ := List.mem_map.mp hc
    have h := hin c0 hc0
    unfold in_box at h ⊢
    dsimp only at h ⊢
    omega

/-- C32: for each of the axes x, y and z and every sparse shape,
`rotate_90_reverse_sparse` undoes `rotate_90_once_sparse` and
`rotate_90_once_sparse` undoes `rotate_90_reverse_sparse`: one applied after
the other about the same axis gives the shape again, with its dimensions and
with its cells at their places in the sequence.  Each of the two keeps
`num_cubes`, and when the cells of the shape lie inside its box, the cells
of the turned shape lie inside the turned box, so that no coordinate
computed on the way leaves the range of the box. -/
theorem c32_quarter_turns_inverse (pc : polycube_sparse) :
    (rotate_90_reverse_sparse X_AXIS (rotate_90_once_sparse X_AXIS pc) = pc ∧
      rotate_90_once_sparse X_AXIS (rotate_90_reverse_sparse X_AXIS pc) = pc) ∧
    (rotate_90_reverse_sparse Y_AXIS (rotate_90_once_sparse Y_AXIS pc) = pc ∧
      rotate_90_once_sparse Y_AXIS (rotate_90_reverse_sparse Y_AXIS pc) = pc) ∧
    (rotate_90_reverse_sparse Z_AXIS (rotate_90_once_sparse Z_AXIS pc) = pc ∧
      rotate_90_once_sparse Z_AXIS (rotate_90_reverse_sparse Z_AXIS pc) = pc) ∧
    (∀ axis, axis = X_AXIS ∨ axis = Y_AXIS ∨ axis = Z_AXIS →
      (rotate_90_once_sparse axis pc).num_cubes = pc.num_cubes ∧
      (rotate_90_reverse_sparse axis pc).num_cubes = pc.num_cubes ∧
      rotate_90_reverse_sparse axis (rotate_90_once_sparse axis pc) = pc ∧
      rotate_90_once_sparse axis (rotate_90_reverse_sparse axis pc) = pc ∧
      ((∀ c ∈ pc.cubes, in_box pc.dim c) →
        (∀ c ∈ (rotate_90_once_sparse axis pc).cubes,
          in_box (rotate_90_once_sparse axis pc).dim c) ∧
        (∀ c ∈ (rotate_90_reverse_sparse axis pc).cubes,
          in_box (rotate_90_reverse_sparse axis pc).dim c))) := by
  refine ⟨⟨reverse_once_X pc, once_reverse_X pc⟩, ⟨reverse_once_Y pc, once_reverse_Y pc⟩,
    ⟨reverse_once_Z pc, once_reverse_Z pc⟩, ?_⟩
  intro axis haxis
  rcases haxis with h | h | h
  · rw [h]
    exact ⟨List.length_map _ _, List.length_map _ _, reverse_once_X pc, once_reverse_X pc,
      rotate_90_X_in_box pc⟩
  · rw [h]
    exact ⟨List.length_map _ _, List.length_map _ _, reverse_once_Y pc, once_reverse_Y pc,
      rotate_90_Y_in_box pc⟩
  · rw [h]
    exact ⟨List.length_map _ _, List.length_map _ _, reverse_once_Z pc, once_reverse_Z pc,
      rotate_90_Z_in_box pc⟩


/-! ### The encoding does not depend on the order of the cells -/

theorem insert_label_perm (label : Int) (loc : List Int) :
    (insert_label label loc).Perm (label :: loc) := by
  induction loc with
  | nil => exact List.Perm.refl _
  | cons top rest ih =>
    show (if label < top then top :: insert_label label rest else label :: top :: rest).Perm _
    split
    · exact (List.Perm.cons top ih).trans (List.Perm.swap label top rest)
    · exact List.Perm.refl _

theorem sorted_labels_perm (pc : polycube_sparse) :
    (sorted_labels pc).Perm (pc.cubes.map (cell_label pc.dim)) := by
  unfold sorted_labels
  refine (List.reverse_perm _).trans ?_
  have key : ∀ (l : List position) (acc : List Int),
      (l.foldl (fun loc c => insert_label (cell_label pc.dim c) loc) acc).Perm
        (acc ++ l.map (cell_label pc.dim)) := by
    intro l
    induction l with
    | nil => intro acc; simp
    | cons c l ih =>
      intro acc
      rw [List.foldl_cons, List.map_cons]
      refine (ih _).trans ?_
      refine (List.Perm.append_right _ (insert_label_perm _ acc)).trans ?_
      rw [List.cons_append]
      exact List.perm_middle.symm
  simpa using key pc.cubes []

theorem sorted_labels_eq_spec (pc : polycube_sparse) :
    sorted_labels pc = sorted_labels_spec pc := by
  apply List.eq_of_perm_of_sorted (r := fun a b : Int => a ≤ b)
  · exact (sorted_labels_perm pc).trans (List.perm_insertionSort _ _).symm
  · exact (sorted_labels_sorted pc).1
  · exact List.sorted_insertionSort _ _

theorem sorted_labels_spec_perm (dim : position) (c1 c2 : List position) (h : c1.Perm c2) :
    sorted_labels_spec ⟨dim, c1⟩ = sorted_labels_spec ⟨dim, c2⟩ := by
  apply List.eq_of_perm_of_sorted (r := fun a b : Int => a ≤ b)
  · exact ((List.perm_insertionSort _ _).trans (h.map _)).trans (List.perm_insertionSort _ _).symm
  · exact List.sorted_insertionSort _ _
  · exact List.sorted_insertionSort _ _

theorem log16_loop_eq (n : Nat) : ∀ (fuel j : Nat), 1 ≤ j → j ≤ Nat.log 16 n + 1 →
    Nat.log 16 n + 1 ≤ fuel + j →
    log_smallest_power_of_16_loop fuel ((16 : Int) ^ j) j (n : Int) = Nat.log 16 n + 1 := by
  intro fuel
  induction fuel with
  | zero =>
    intro j _ h2 h3
    show j = _
    omega
  | succ fuel ih =>
    intro j h1 h2 h3
    show (if (16 : Int) ^ j ≤ (n : Int)
      then log_smallest_power_of_16_loop fuel ((16 : Int) ^ j * 16) (j + 1) (n : Int) else j) = _
    by_cases hp : 16 ^ j ≤ n
    · have hp2 : (16 : Int) ^ j ≤ (n : Int) := by exact_mod_cast hp
      rw [if_pos hp2, ← pow_succ]
      have hn0 : n ≠ 0 := by
        intro h0
        rw [h0] at hp
        have := Nat.pos_of_ne_zero (pow_ne_zero j (show (16 : Nat) ≠ 0 by decide))
        omega
      have hj : j ≤ Nat.log 16 n := (Nat.pow_le_iff_le_log (by decide) hn0).mp hp
      exact ih (j + 1) (by omega) (by omega) (by omega)
    · have hp2 : ¬ (16 : Int) ^ j ≤ (n : Int) := by exact_mod_cast hp
      rw [if_neg hp2]
      have hlt : n < 16 ^ j := Nat.lt_of_not_le hp
      by_cases hn0 : n = 0
      · rw [hn0, Nat.log_zero_right] at h2 ⊢
        omega
      · have hj : Nat.log 16 n < j := Nat.log_lt_of_lt_pow hn0 hlt
        omega

theorem log16_eq (n : Nat) : log_smallest_power_of_16 (n : Int) = Nat.log 16 n + 1 := by
  unfold log_smallest_power_of_16
  have h := log16_loop_eq n n 1 (le_refl _) (by omega)
    (by have := Nat.log_le_self 16 n; omega)
  rw [pow_one] at h
  rw [Int.toNat_ofNat]
  exact h

theorem hex_map_upper (d : Nat) (h : d < 16) :
    hex_map.getD d '0' = (Nat.digitChar d).toUpper := by
  interval_cases d <;> decide

theorem hex_digits_toDigitsCore : ∀ (fuel n : Nat) (ds : List Char), n < fuel →
    hex_digits (Nat.log 16 n + 1) (n : Int) (ds.map Char.toUpper)
      = (Nat.toDigitsCore 16 fuel n ds).map Char.toUpper := by
  intro fuel
  induction fuel with
  | zero => intro n ds h; omega
  | succ fuel ih =>
    intro n ds h
    show hex_digits (Nat.log 16 n) ((n : Int) / 16)
      (hex_map.getD ((n : Int) % 16).toNat '0' :: ds.map Char.toUpper) = _
    have e1 : ((n : Int) % 16).toNat = n % 16 := by omega
    have e2 : ((n : Int) / 16) = ((n / 16 : Nat) : Int) := by omega
    rw [e1, e2, hex_map_upper _ (Nat.mod_lt _ (by decide)), ← List.map_cons]
    unfold Nat.toDigitsCore
    dsimp only
    by_cases h0 : n / 16 = 0
    · rw [if_pos h0]
      have hlt : n < 16 := by omega
      rw [Nat.log_of_lt hlt]
      rfl
    · rw [if_neg h0]
      have hge : 16 ≤ n := by omega
      rw [Nat.log_of_one_lt_of_le (by decide) hge]
      exact ih (n / 16) _ (by omega)

theorem hex_digits_append : ∀ (digits : Nat) (tmp : Int) (front rest : List Char),
    hex_digits digits tmp (front ++ rest) = hex_digits digits tmp front ++ rest := by
  intro digits
  induction digits with
  | zero => intro tmp front rest; rfl
  | succ digits ih =>
    intro tmp front rest
    show hex_digits digits (tmp / 16) (_ :: (front ++ rest))
      = hex_digits digits (tmp / 16) (_ :: front) ++ rest
    rw [← List.cons_append, ih]

theorem hex_digits_upper (n : Nat) (rest : List Char) :
    hex_digits (log_smallest_power_of_16 (n : Int)) (n : Int) rest = upper_hex n ++ rest := by
  have h := hex_digits_toDigitsCore (n + 1) n [] (Nat.lt_succ_self n)
  rw [log16_eq]
  have h2 := hex_digits_append (Nat.log 16 n + 1) (n : Int) [] rest
  rw [List.nil_append] at h2
  rw [h2]
  congr 1

theorem encode_labels_spec (labels : List Int) (h : ∀ l ∈ labels, 0 ≤ l) :
    encode_labels labels = (labels.map (fun label => upper_hex label.toNat)).flatten := by
  induction labels with
  | nil => rfl
  | cons l rest ih =>
    obtain ⟨a, rfl⟩ := Int.eq_ofNat_of_zero_le (h l (List.mem_cons_self _ _))
    show hex_digits (log_smallest_power_of_16 (a : Int)) (a : Int) (encode_labels rest) = _
    rw [hex_digits_upper, ih (fun x hx => h x (List.mem_cons_of_mem _ hx))]
    rfl

theorem cell_label_nonneg (dim c : position) (h : in_box dim c) : 0 ≤ cell_label dim c := by
  unfold in_box at h
  unfold cell_label
  have h1 : 0 ≤ c.z * (dim.y * dim.x) :=
    mul_nonneg (by omega) (mul_nonneg (by omega) (by omega))
  have h2 : 0 ≤ c.y * dim.x := mul_nonneg (by omega) (by omega)
  omega

/-- C33: the string computed by `str_encoding_hex_sparse` does not depend on
the order of the cells in `cubes`: a shape with the same dimensions and any
permutation of the cell sequence has the same sorted labels and the same
encoding.  The labels left by the insertion sort are the labels sorted in
ascending order, and when no label is negative (as when the cells lie in the
box) the string is the concatenation of the ascending-sorted labels written
in upper-case base 16. -/
theorem c33_encoding_order_independent (pc : polycube_sparse) (cubes : List position)
    (hp : cubes.Perm pc.cubes) :
    str_encoding_hex_sparse ⟨pc.dim, cubes⟩ = str_encoding_hex_sparse pc ∧
    sorted_labels ⟨pc.dim, cubes⟩ = sorted_labels pc ∧
    sorted_labels pc = sorted_labels_spec pc ∧
    ((∀ c ∈ pc.cubes, 0 ≤ cell_label pc.dim c) →
      str_encoding_hex_sparse pc = str_encoding_spec pc ∧
      str_encoding_hex_sparse ⟨pc.dim, cubes⟩ = str_encoding_spec pc) ∧
    ((∀ c ∈ pc.cubes, in_box pc.dim c) → ∀ c ∈ pc.cubes, 0 ≤ cell_label pc.dim c) := by
  have hs : sorted_labels ⟨pc.dim, cubes⟩ = sorted_labels pc := by
    rw [sorted_labels_eq_spec, sorted_labels_eq_spec]
    exact sorted_labels_spec_perm pc.dim cubes pc.cubes hp
  have he : str_encoding_hex_sparse ⟨pc.dim, cubes⟩ = str_encoding_hex_sparse pc := by
    unfold str_encoding_hex_sparse
    rw [hs]
  refine ⟨he, hs, sorted_labels_eq_spec pc, ?_, ?_⟩
  · intro hnn
    have hspec : str_encoding_hex_sparse pc = str_encoding_spec pc := by
      unfold str_encoding_hex_sparse str_encoding_spec
      rw [← sorted_labels_eq_spec]
      apply encode_labels_spec
      intro l hl
      obtain ⟨c, hc, rfl⟩ := ((sorted_labels_sorted pc).2.1 l).mp hl
      exact hnn c hc
    exact ⟨hspec, he.trans hspec⟩
  · intro hin c hc
    exact cell_label_nonneg pc.dim c (hin c hc)

theorem c33_encoding_order_independent_witness :
    permuted_example_b.Perm permuted_example_a.cubes ∧
    str_encoding_hex_sparse ⟨permuted_example_a.dim, permuted_example_b⟩
      = str_encoding_hex_sparse permuted_example_a ∧
    str_encoding_hex_sparse permuted_example_a = str_encoding_spec permuted_example_a ∧
    str_encoding_hex_sparse permuted_example_a = ['0', '1', 'A', 'B', '1', '1'] :=
  ⟨by decide,
    (c33_encoding_order_independent permuted_example_a permuted_example_b (by decide)).1,
    ((c33_encoding_order_independent permuted_example_a permuted_example_b (by decide)).2.2.2.1
      (by decide)).1,
    by decide⟩


/-! ### The recursion ends -/

theorem dfs_emit_checked_eq (rc : rooted_polycube → Option dfs_output)
    (r : rooted_polycube → dfs_output) (n m : Int) (filled : rooted_polycube) (out : dfs_output)
    (h : filled.k ≠ n → rc filled = some (r filled)) :
    dfs_emit_checked rc n m filled out = some (dfs_emit r n m filled out) := by
  unfold dfs_emit_checked dfs_emit
  dsimp only
  by_cases hn : filled.k = n
  · rw [if_pos hn, if_pos hn]
    split
    · split <;> rfl
    · rfl
  · rw [if_neg hn, if_neg hn]
    split
    · rfl
    · rw [h hn]

theorem dfs_visit_checked_eq (rc : rooted_polycube → Option dfs_output)
    (r : rooted_polycube → dfs_output) (n m hn : Int) (cmin cmax : position)
    (st : rooted_polycube × dfs_output) (c : Nat × position)
    (h : ∀ s : rooted_polycube, s.k = st.1.k + 1 → s.k ≠ n → rc s = some (r s)) :
    dfs_visit_checked rc n m hn cmin cmax (some st) c
      = some (dfs_visit r n m hn cmin cmax st c) := by
  unfold dfs_visit_checked dfs_visit
  dsimp only
  split
  · split
    · rfl
    · rw [dfs_emit_checked_eq rc r n m _ _ (fun hne => h _ (fill_cell_k _ _ _ _ _) hne)]
  · rfl

theorem dfs_fold_checked_eq (rc : rooted_polycube → Option dfs_output)
    (r : rooted_polycube → dfs_output) (n m hn : Int) (cmin cmax : position)
    (l : List (Nat × position)) (st : rooted_polycube × dfs_output)
    (h : ∀ s : rooted_polycube, s.k = st.1.k + 1 → s.k ≠ n → rc s = some (r s)) :
    l.foldl (dfs_visit_checked rc n m hn cmin cmax) (some st)
      = some (l.foldl (dfs_visit r n m hn cmin cmax) st) := by
  have hrel := foldl_relation
    (fun (s1 : Option (rooted_polycube × dfs_output)) (s2 : rooted_polycube × dfs_output) =>
      s2.1.k = st.1.k ∧ s1 = some s2)
    (dfs_visit_checked rc n m hn cmin cmax) (dfs_visit r n m hn cmin cmax) l (some st) st
    ⟨rfl, rfl⟩
    (fun s1 s2 c _ hs => by
      refine ⟨by rw [dfs_visit_k]; exact hs.1, ?_⟩
      rw [hs.2]
      exact dfs_visit_checked_eq rc r n m hn cmin cmax s2 c
        (fun s hk hne => h s (by rw [hk, hs.1]) hne))
  exact hrel.2

theorem dfs_level_checked_eq (rc : rooted_polycube → Option dfs_output)
    (r : rooted_polycube → dfs_output) (n m : Int) (current : rooted_polycube)
    (h : ∀ s : rooted_polycube, s.k = current.k + 1 → s.k ≠ n → rc s = some (r s)) :
    dfs_level_checked rc n m current = some (dfs_level r n m current) := by
  unfold dfs_level_checked dfs_level
  dsimp only
  rw [dfs_fold_checked_eq rc r n m _ _ _ _ _
    (fun s hk hne => h s (by rw [hk]; exact congrArg (· + 1) (cropped_k current)) hne)]
  rfl

theorem from_current_level_eq (n m : Int) (current : rooted_polycube) (hk : current.k < n) :
    dfs_level (expand_polycubes_dfs_from_current n m) n m current
      = expand_polycubes_dfs_from_current n m current := by
  have hf : (n - current.k).toNat = (n - current.k).toNat - 1 + 1 := by omega
  have e : expand_polycubes_dfs_from_current n m current
      = dfs_level (expand_polycubes_dfs_from_current_fuel ((n - current.k).toNat - 1) n m)
          n m current := by
    unfold expand_polycubes_dfs_from_current
    rw [hf]
    rfl
  rw [e]
  apply dfs_level_congr
  intro s hs _
  show expand_polycubes_dfs_from_current_fuel (n - s.k).toNat n m s = _
  congr 1
  omega

theorem from_current_checked_eq (n m : Int) : ∀ (depth : Nat) (current : rooted_polycube),
    current.k < n → (n - current.k).toNat ≤ depth →
    expand_polycubes_dfs_from_current_checked depth n m current
      = some (expand_polycubes_dfs_from_current n m current) := by
  intro depth
  induction depth with
  | zero => intro current hk hd; omega
  | succ depth ih =>
    intro current hk hd
    show dfs_level_checked (expand_polycubes_dfs_from_current_checked depth n m) n m current = _
    rw [dfs_level_checked_eq _ (expand_polycubes_dfs_from_current n m) n m current
      (fun s hs hne => ih s (by omega) (by omega)), from_current_level_eq n m current hk]

theorem dfs_level_guarded (r : rooted_polycube → dfs_output) (n m : Int)
    (current : rooted_polycube) :
    dfs_level_checked (guarded_call r n current) n m current
      = some (dfs_level r n m current) :=
  dfs_level_checked_eq _ r n m current
    (fun _ hs hne => if_pos ⟨hs, hne⟩)

theorem dfs_level_last (n m : Int) (current : rooted_polycube) (hk : current.k + 1 = n) :
    dfs_level_checked (fun _ => none) n m current
      = some (expand_polycubes_dfs_from_current n m current) := by
  rw [dfs_level_checked_eq _ (expand_polycubes_dfs_from_current_fuel 0 n m) n m current
    (fun s hs hne => absurd (hs.trans hk) hne)]
  have hf : (n - current.k).toNat = 1 := by omega
  unfold expand_polycubes_dfs_from_current
  rw [hf]
  rfl

/-- C34: for a target size `n ≤ 32` (32 cubes is what the arrays of a shape
hold), started on a shape with `k < n` cubes,
`expand_polycubes_dfs_from_current` returns, and it does so with at most
`n - k` nested activations: run with any bound `depth ≥ n - k` on the
recursion depth, it returns the output of the function.  One activation
makes its recursive calls only on shapes with exactly one cube more than
its own and with a number of cubes other than `n`: with a recursive call
that does not return on any other shape, the activation still returns, and
its result is the same.  An activation on a shape with `n - 1` cubes makes
no recursive call at all: it returns even when no recursive call does. -/
theorem c34_search_terminates (n m : Int) (current : rooted_polycube) (hk : current.k < n)
    (hn32 : n ≤ 32) :
    (∀ depth : Nat, (n - current.k).toNat ≤ depth →
      expand_polycubes_dfs_from_current_checked depth n m current
        = some (expand_polycubes_dfs_from_current n m current)) ∧
    (∀ recurse : rooted_polycube → dfs_output,
      dfs_level_checked (guarded_call recurse n current) n m current
        = some (dfs_level recurse n m current)) ∧
    (∀ depth : Nat, (n - current.k).toNat ≤ depth + 1 →
      dfs_level_checked (fun s => if s.k = current.k + 1 ∧ s.k ≠ n
          then expand_polycubes_dfs_from_current_checked depth n m s else none) n m current
        = some (expand_polycubes_dfs_from_current n m current)) ∧
    (current.k + 1 = n →
      dfs_level_checked (fun _ => none) n m current
        = some (expand_polycubes_dfs_from_current n m current)) := by
  refine ⟨fun depth hd => from_current_checked_eq n m depth current hk hd,
    fun recurse => dfs_level_guarded recurse n m current, ?_,
    fun h => dfs_level_last n m current h⟩
  intro depth hd
  rw [← from_current_checked_eq n m (depth + 1) current hk hd]
  show _ = dfs_level_checked (expand_polycubes_dfs_from_current_checked depth n m) n m current
  rw [dfs_level_checked_eq _ (expand_polycubes_dfs_from_current n m) n m current,
    dfs_level_checked_eq _ (expand_polycubes_dfs_from_current n m) n m current]
  · intro s hs hne
    exact from_current_checked_eq n m depth s (by omega) (by omega)
  · intro s hs hne
    rw [if_pos ⟨hs, hne⟩]
    exact from_current_checked_eq n m depth s (by omega) (by omega)

theorem c34_search_terminates_witness :
    initial_polycube.k < 4 ∧ (4 : Int) ≤ 32 ∧
    expand_polycubes_dfs_from_current_checked 3 4 4 initial_polycube
      = some (expand_polycubes_dfs_from_current 4 4 initial_polycube) ∧
    (expand_polycubes_dfs_from_current_checked 2 4 4 initial_polycube).isSome = false :=
  ⟨by decide, by decide,
    (c34_search_terminates 4 4 initial_polycube (by decide) (by decide)).1 3 (by decide),
    by decide!⟩


/-! ### The arena is never exhausted -/

theorem dfs_emit_arena_eq (rc : rooted_polycube → arena_run → Option (dfs_output × arena_run))
    (r : rooted_polycube → dfs_output) (n m : Int) (filled : rooted_polycube) (out : dfs_output)
    (a : arena_run) (P : arena_run → Prop) (hP : P a)
    (h : filled.k ≠ n → ∃ b, rc filled a = some (r filled, b) ∧ P b) :
    ∃ b, dfs_emit_arena rc n m filled out a = some (dfs_emit r n m filled out, b) ∧ P b := by
  unfold dfs_emit_arena dfs_emit
  dsimp only
  by_cases hn : filled.k = n
  · rw [if_pos hn, if_pos hn]
    split
    · split
      · exact ⟨a, rfl, hP⟩
      · exact ⟨a, rfl, hP⟩
    · exact ⟨a, rfl, hP⟩
  · rw [if_neg hn, if_neg hn]
    split
    · exact ⟨a, rfl, hP⟩
    · obtain ⟨b, hb, hPb⟩ := h hn
      rw [hb]
      exact ⟨b, rfl, hPb⟩

theorem dfs_visit_arena_eq (rc : rooted_polycube → arena_run → Option (dfs_output × arena_run))
    (r : rooted_polycube → dfs_output) (n m hn : Int) (cmin cmax : position)
    (st : rooted_polycube × dfs_output) (a : arena_run) (c : Nat × position)
    (P : arena_run → Prop) (hP : P a)
    (h : ∀ (s : rooted_polycube) (b : arena_run), s.k = st.1.k + 1 → s.k ≠ n → P b →
      ∃ b2, rc s b = some (r s, b2) ∧ P b2) :
    ∃ b, dfs_visit_arena rc n m hn cmin cmax (some (st.1, st.2, a)) c
        = some ((dfs_visit r n m hn cmin cmax st c).1, (dfs_visit r n m hn cmin cmax st c).2, b)
      ∧ P b := by
  unfold dfs_visit_arena dfs_visit
  dsimp only
  split
  · split
    · exact ⟨a, rfl, hP⟩
    · obtain ⟨b, hb, hPb⟩ := dfs_emit_arena_eq rc r n m
        (fill_cell st.1 c.2.x c.2.y c.2.z (array_get st.1.cubes c.1)) st.2 a P hP
        (fun hne => h _ a (fill_cell_k _ _ _ _ _) hne hP)
      rw [hb]
      exact ⟨b, rfl, hPb⟩
  · exact ⟨a, rfl, hP⟩

theorem dfs_fold_arena_eq (rc : rooted_polycube → arena_run → Option (dfs_output × arena_run))
    (r : rooted_polycube → dfs_output) (n m hn : Int) (cmin cmax : position) (k0 : Int)
    (P : arena_run → Prop)
    (h : ∀ (s : rooted_polycube) (b : arena_run), s.k = k0 + 1 → s.k ≠ n → P b →
      ∃ b2, rc s b = some (r s, b2) ∧ P b2) :
    ∀ (l : List (Nat × position)) (st : rooted_polycube × dfs_output) (a : arena_run),
      st.1.k = k0 → P a →
      ∃ b, l.foldl (dfs_visit_arena rc n m hn cmin cmax) (some (st.1, st.2, a))
          = some ((l.foldl (dfs_visit r n m hn cmin cmax) st).1,
              (l.foldl (dfs_visit r n m hn cmin cmax) st).2, b)
        ∧ P b := by
  intro l
  induction l with
  | nil => intro st a _ hP; exact ⟨a, rfl, hP⟩
  | cons c l ih =>
    intro st a hk hP
    obtain ⟨b, hb, hPb⟩ := dfs_visit_arena_eq rc r n m hn cmin cmax st a c P hP
      (fun s b hs hne hb => h s b (by rw [hs, hk]) hne hb)
    rw [List.foldl_cons, List.foldl_cons, hb]
    exact ih (dfs_visit r n m hn cmin cmax st c) b (by rw [dfs_visit_k]; exact hk) hPb

theorem dfs_level_arena_eq (rc : rooted_polycube → arena_run → Option (dfs_output × arena_run))
    (r : rooted_polycube → dfs_output) (n m : Int) (current : rooted_polycube) (a : arena_run)
    (P : arena_run → Prop)
    (hP : P (if current.k < 3 then a.allocate.allocate else a.allocate))
    (h : ∀ (s : rooted_polycube) (b : arena_run), s.k = current.k + 1 → s.k ≠ n → P b →
      ∃ b2, rc s b = some (r s, b2) ∧ P b2) :
    ∃ b, dfs_level_arena rc n m current a
        = some (dfs_level r n m current, b.release (stack_marker_typed.create a.allocator))
      ∧ P b := by
  unfold dfs_level_arena dfs_level
  dsimp only
  obtain ⟨b, hb, hPb⟩ := dfs_fold_arena_eq rc r n m
    (if current.k < 3 then crop_cube (expand_empty_slots current)
      else expand_empty_slots current).highest_numbering
    (if current.k < 3 then crop_cube (expand_empty_slots current)
      else expand_empty_slots current).min_bounds
    (if current.k < 3 then crop_cube (expand_empty_slots current)
      else expand_empty_slots current).max_bounds
    current.k P h
    (for_each_cube_cells (if current.k < 3 then crop_cube (expand_empty_slots current)
      else expand_empty_slots current).dim)
    (if current.k < 3 then crop_cube (expand_empty_slots current)
      else expand_empty_slots current, ⟨0, [], []⟩)
    (if current.k < 3 then a.allocate.allocate else a.allocate)
    (cropped_k current) hP
  rw [hb]
  exact ⟨b, rfl, hPb⟩

theorem arena_grows_refl (a : arena_run) (hi : Nat) : a.grows a hi :=
  ⟨⟨[], (List.append_nil _).symm, fun _ h => absurd h (List.not_mem_nil _)⟩, le_max_left _ _⟩

theorem arena_grows_trans (a b c : arena_run) (hi : Nat) (h1 : a.grows b hi)
    (h2 : b.grows c hi) : a.grows c hi := by
  obtain ⟨⟨n1, e1, g1⟩, p1⟩ := h1
  obtain ⟨⟨n2, e2, g2⟩, p2⟩ := h2
  refine ⟨⟨n1 ++ n2, by rw [e2, e1, List.append_assoc], ?_⟩, ?_⟩
  · intro r hr
    rcases List.mem_append.mp hr with h | h
    · exact g1 r h
    · exact g2 r h
  · have := le_max_left a.peak hi
    have := le_max_right a.peak hi
    have := le_max_left b.peak hi
    have := le_max_right b.peak hi
    rcases max_cases a.peak hi with h | h <;> rcases max_cases b.peak hi with h3 | h3 <;> omega

theorem arena_allocate_ok (a : arena_run) (hi : Nat) (h : a.allocator.m_ptr < hi)
    (h64 : hi ≤ 64) :
    a.allocate.allocator.m_ptr = a.allocator.m_ptr + 1 ∧
    a.allocate.returned = a.returned ++ [some a.allocator.m_ptr] ∧
    a.allocate.peak = max a.peak (a.allocator.m_ptr + 1) ∧
    a.grows a.allocate hi := by
  have hlt : ¬ a.allocator.m_ptr ≥ 64 := by omega
  have e : a.allocator.allocate = (some a.allocator.m_ptr, ⟨a.allocator.m_ptr + 1⟩) := by
    unfold stack_allocator_typed.allocate
    rw [if_neg hlt]
  have e1 : a.allocate.allocator.m_ptr = a.allocator.m_ptr + 1 := by
    show a.allocator.allocate.2.m_ptr = _
    rw [e]
  have e2 : a.allocate.returned = a.returned ++ [some a.allocator.m_ptr] := by
    show a.returned ++ [a.allocator.allocate.1] = _
    rw [e]
  have e3 : a.allocate.peak = max a.peak (a.allocator.m_ptr + 1) := by
    show max a.peak a.allocator.allocate.2.m_ptr = _
    rw [e]
  refine ⟨e1, e2, e3, ⟨⟨[some a.allocator.m_ptr], e2, ?_⟩, ?_⟩⟩
  · intro r hr
    rw [List.mem_singleton] at hr
    exact ⟨a.allocator.m_ptr, hr, h⟩
  · rw [e3]
    exact max_le_max (le_refl _) (by omega)

theorem arena_release_create (a b : arena_run) :
    (b.release (stack_marker_typed.create a.allocator)).allocator = a.allocator ∧
    (b.release (stack_marker_typed.create a.allocator)).returned = b.returned ∧
    (b.release (stack_marker_typed.create a.allocator)).peak = b.peak :=
  ⟨rfl, rfl, rfl⟩

/-- The slots taken by one activation: one, or two when `current.k < 3`. -/
theorem arena_level_slots (a : arena_run) (k : Int) (hi : Nat)
    (h : a.allocator.m_ptr + 2 ≤ hi) (h64 : hi ≤ 64) :
    (if k < 3 then a.allocate.allocate else a.allocate).allocator.m_ptr
      ≤ a.allocator.m_ptr + 2 ∧
    a.grows (if k < 3 then a.allocate.allocate else a.allocate) hi := by
  obtain ⟨e1, _, _, g1⟩ := arena_allocate_ok a hi (by omega) h64
  obtain ⟨e2, _, _, g2⟩ := arena_allocate_ok a.allocate hi (by omega) h64
  split
  · exact ⟨by omega, arena_grows_trans _ _ _ hi g1 g2⟩
  · exact ⟨by omega, g1⟩

theorem from_current_arena_ok (n m : Int) : ∀ (depth : Nat) (current : rooted_polycube)
    (a : arena_run) (hi : Nat), current.k < n → (n - current.k).toNat ≤ depth →
    a.allocator.m_ptr + 2 * (n - current.k).toNat ≤ hi → hi ≤ 64 →
    ∃ b, expand_polycubes_dfs_from_current_arena depth n m current a
        = some (expand_polycubes_dfs_from_current n m current, b)
      ∧ b.allocator = a.allocator ∧ a.grows b hi := by
  intro depth
  induction depth with
  | zero => intro current a hi hk hd; omega
  | succ depth ih =>
    intro current a hi hk hd hhi h64
    have hs := arena_level_slots a current.k hi (by omega) h64
    obtain ⟨b, hb, hPb⟩ := dfs_level_arena_eq
      (expand_polycubes_dfs_from_current_arena depth n m)
      (expand_polycubes_dfs_from_current n m) n m current a
      (fun b => b.allocator.m_ptr ≤ a.allocator.m_ptr + 2 ∧ a.grows b hi) hs
      (fun s b hsk hne hPb => by
        obtain ⟨b2, hb2, hal, hg⟩ := ih s b hi (by omega) (by omega) (by have := hPb.1; omega) h64
        exact ⟨b2, hb2, by rw [hal]; exact hPb.1, arena_grows_trans _ _ _ hi hPb.2 hg⟩)
    refine ⟨b.release (stack_marker_typed.create a.allocator), ?_, rfl, hPb.2⟩
    show dfs_level_arena (expand_polycubes_dfs_from_current_arena depth n m) n m current a = _
    rw [hb, from_current_level_eq n m current hk]

theorem dfs_level_arena_alone (r : rooted_polycube → dfs_output) (n m : Int)
    (current : rooted_polycube) (a : arena_run) :
    dfs_level_arena (fun s b => some (r s, b)) n m current a
      = some (dfs_level r n m current,
          (if current.k < 3 then a.allocate.allocate else a.allocate).release
            (stack_marker_typed.create a.allocator)) := by
  obtain ⟨b, hb, hPb⟩ := dfs_level_arena_eq (fun s b => some (r s, b)) r n m current a
    (fun b => b = if current.k < 3 then a.allocate.allocate else a.allocate) rfl
    (fun s b _ _ hPb => ⟨b, rfl, hPb⟩)
  rw [hb, hPb]

/-- C31: for `3 ≤ n ≤ 32` and an arena on which nothing is allocated,
`expand_polycubes_dfs(n, m)` returns the output of the search, within
`n - 1` nested activations, and no `allocate()` call made on the way returns
`nullptr`: every call returns a slot with an index below `2 * n - 1 ≤ 63`,
the cursor never goes above `2 * n - 1`, hence never above the capacity 64,
and it is back at its entry value 0 when the search returns.  One
activation of `expand_polycubes_dfs_from_current` taken alone, entered with
two free slots, takes one slot, or two when `current.k < 3`, and leaves the
cursor where it was at its entry. -/
theorem c31_arena_never_exhausted (n m : Int) (h3 : 3 ≤ n) (h32 : n ≤ 32) :
    (∀ depth : Nat, (n - 1).toNat ≤ depth →
      ∃ b, expand_polycubes_dfs_arena depth n m empty_arena
          = some (expand_polycubes_dfs n m, b) ∧
        b.allocator = empty_arena.allocator ∧
        b.allocator.m_ptr = 0 ∧
        none ∉ b.returned ∧
        (∀ r ∈ b.returned, ∃ i, r = some i ∧ i < 2 * n.toNat - 1 ∧ i < 64) ∧
        b.peak ≤ 2 * n.toNat - 1 ∧
        b.peak ≤ 64) ∧
    (∀ (recurse : rooted_polycube → dfs_output) (current : rooted_polycube) (a : arena_run),
      a.allocator.m_ptr + 2 ≤ 64 →
      ∃ b, dfs_level_arena (fun s b => some (recurse s, b)) n m current a
          = some (dfs_level recurse n m current, b) ∧
        b.allocator = a.allocator ∧
        (b.returned = a.returned ++ [some a.allocator.m_ptr] ∨
          b.returned = a.returned ++ [some a.allocator.m_ptr, some (a.allocator.m_ptr + 1)]) ∧
        b.peak ≤ max a.peak (a.allocator.m_ptr + 2)) := by
  constructor
  · intro depth hd
    obtain ⟨e1, e2, e3, g1⟩ := arena_allocate_ok empty_arena (2 * n.toNat - 1)
      (by show 0 < _; omega) (by omega)
    obtain ⟨b, hb, hal, hg⟩ := from_current_arena_ok n m depth initial_polycube
      empty_arena.allocate (2 * n.toNat - 1) (by show (1 : Int) < n; omega)
      (by show (n - 1).toNat ≤ depth; exact hd)
      (by rw [e1]; show 0 + 1 + 2 * (n - 1).toNat ≤ _; omega) (by omega)
    have hne1 : ¬ n < 1 := by omega
    have hne2 : ¬ (n = 1 ∨ n = 2) := by omega
    have hrun : expand_polycubes_dfs_arena depth n m empty_arena
        = some (expand_polycubes_dfs n m,
            b.release (stack_marker_typed.create empty_arena.allocator)) := by
      unfold expand_polycubes_dfs_arena expand_polycubes_dfs
      rw [if_neg hne1, if_neg hne2, if_neg hne1, if_neg hne2]
      dsimp only
      rw [hb]
    obtain ⟨⟨new, hnew, hall⟩, hpeak⟩ := arena_grows_trans _ _ _ _ g1 hg
    have hret : ∀ r ∈ b.returned, ∃ i, r = some i ∧ i < 2 * n.toNat - 1 ∧ i < 64 := by
      intro r hr
      rw [hnew] at hr
      rcases List.mem_append.mp hr with h | h
      · exact absurd h (List.not_mem_nil _)
      · obtain ⟨i, hi, hlt⟩ := hall r h
        exact ⟨i, hi, hlt, by omega⟩
    have hpk : b.peak ≤ 2 * n.toNat - 1 := by
      have h0 : empty_arena.peak = 0 := rfl
      rw [h0] at hpeak
      rcases max_cases 0 (2 * n.toNat - 1) with h | h <;> omega
    have hpk64 : b.peak ≤ 64 := le_trans hpk (by omega)
    refine ⟨_, hrun, rfl, rfl, ?_, hret, hpk, hpk64⟩
    intro hmem
    obtain ⟨i, hi, _⟩ := hret none hmem
    exact Option.noConfusion hi
  · intro recurse current a ha
    refine ⟨_, dfs_level_arena_alone recurse n m current a, rfl, ?_, ?_⟩
    · obtain ⟨e1, r1, _, _⟩ := arena_allocate_ok a 64 (by omega) (le_refl _)
      obtain ⟨_, r2, _, _⟩ := arena_allocate_ok a.allocate 64 (by omega) (le_refl _)
      by_cases hk : current.k < 3
      · right
        rw [if_pos hk]
        show a.allocate.allocate.returned = _
        rw [r2, r1, e1, List.append_assoc]
        rfl
      · left
        rw [if_neg hk]
        exact r1
    · obtain ⟨e1, _, p1, _⟩ := arena_allocate_ok a 64 (by omega) (le_refl _)
      obtain ⟨_, _, p2, _⟩ := arena_allocate_ok a.allocate 64 (by omega) (le_refl _)
      by_cases hk : current.k < 3
      · rw [if_pos hk]
        show a.allocate.allocate.peak ≤ _
        rw [p2, p1, e1]
        rcases max_cases a.peak (a.allocator.m_ptr + 1) with h | h <;>
          rcases max_cases (max a.peak (a.allocator.m_ptr + 1)) (a.allocator.m_ptr + 1 + 1)
            with h3 | h3 <;>
          rcases max_cases a.peak (a.allocator.m_ptr + 2) with h4 | h4 <;> omega
      · rw [if_neg hk]
        show a.allocate.peak ≤ _
        rw [p1]
        exact max_le_max (le_refl _) (by omega)

theorem c31_arena_never_exhausted_witness :
    (3 : Int) ≤ 3 ∧ (3 : Int) ≤ 32 ∧
    (∃ b, expand_polycubes_dfs_arena 2 3 3 empty_arena = some (expand_polycubes_dfs 3 3, b) ∧
      b.allocator = empty_arena.allocator ∧
      b.allocator.m_ptr = 0 ∧
      none ∉ b.returned ∧
      (∀ r ∈ b.returned, ∃ i, r = some i ∧ i < 2 * (3 : Int).toNat - 1 ∧ i < 64) ∧
      b.peak ≤ 2 * (3 : Int).toNat - 1 ∧
      b.peak ≤ 64) ∧
    (expand_polycubes_dfs_arena 2 3 3 empty_arena).map (fun res => res.2.peak) = some 5 ∧
    (expand_polycubes_dfs_arena 2 3 3 empty_arena).map (fun res => res.2.returned.take 7)
      = some [some 0, some 1, some 2, some 3, some 4, some 3, some 4] :=
  ⟨by decide, by decide,
    (c31_arena_never_exhausted 3 3 (by decide) (by decide)).1 2 (by decide),
    by decide!, by decide!⟩


/-! ### The numerals of the labels -/

theorem hex_digits_len : ∀ (digits : Nat) (tmp : Int) (rest : List Char),
    (hex_digits digits tmp rest).length = digits + rest.length := by
  intro digits
  induction digits with
  | zero => intro tmp rest; simp [hex_digits]
  | succ digits ih =>
    intro tmp rest
    show (hex_digits digits (tmp / 16) (_ :: rest)).length = _
    rw [ih, List.length_cons]
    omega

theorem hex_digit_value_map (d : Nat) (h : d < 16) :
    hex_digit_value (hex_map.getD d '0') = d := by
  interval_cases d <;> decide

theorem hex_fold_digits : ∀ (digits t acc : Nat) (rest : List Char),
    (hex_digits digits (t : Int) rest).foldl (fun acc c => 16 * acc + hex_digit_value c) acc
      = rest.foldl (fun acc c => 16 * acc + hex_digit_value c)
          (acc * 16 ^ digits + t % 16 ^ digits) := by
  intro digits
  induction digits with
  | zero =>
    intro t acc rest
    show rest.foldl _ acc = _
    rw [pow_zero, Nat.mod_one, mul_one, add_zero]
  | succ digits ih =>
    intro t acc rest
    show (hex_digits digits ((t : Int) / 16)
      (hex_map.getD ((t : Int) % 16).toNat '0' :: rest)).foldl _ acc = _
    have e1 : ((t : Int) % 16).toNat = t % 16 := by omega
    have e2 : ((t : Int) / 16) = ((t / 16 : Nat) : Int) := by omega
    rw [e1, e2, ih, List.foldl_cons, hex_digit_value_map _ (Nat.mod_lt _ (by decide))]
    congr 1
    rw [pow_succ', Nat.mod_mul]
    ring

theorem hex_fold_append (s : List Char) : ∀ acc : Nat,
    s.foldl (fun acc c => 16 * acc + hex_digit_value c) acc
      = acc * 16 ^ s.length + hex_value s := by
  unfold hex_value
  induction s with
  | nil => intro acc; simp
  | cons c s ih =>
    intro acc
    rw [List.foldl_cons, List.foldl_cons, ih, ih (16 * 0 + hex_digit_value c), List.length_cons]
    ring

theorem hex_value_append (w s : List Char) :
    hex_value (w ++ s) = hex_value w * 16 ^ s.length + hex_value s := by
  show (w ++ s).foldl _ 0 = _
  rw [List.foldl_append, hex_fold_append s]
  rfl

theorem label_numeral_length (t : Nat) :
    (label_numeral (t : Int)).length = Nat.log 16 t + 1 := by
  unfold label_numeral
  rw [hex_digits_len, log16_eq]
  rfl

theorem label_numeral_value (t : Nat) : hex_value (label_numeral (t : Int)) = t := by
  unfold label_numeral hex_value
  rw [hex_fold_digits, log16_eq]
  show 0 * 16 ^ (Nat.log 16 t + 1) + t % 16 ^ (Nat.log 16 t + 1) = t
  rw [zero_mul, zero_add, Nat.mod_eq_of_lt (Nat.lt_pow_succ_log_self (by decide) t)]

theorem encode_labels_cons (l : Int) (rest : List Int) :
    encode_labels (l :: rest) = label_numeral l ++ encode_labels rest := by
  show hex_digits _ l (encode_labels rest) = hex_digits _ l [] ++ encode_labels rest
  rw [← hex_digits_append, List.nil_append]

theorem encode_labels_append (l1 l2 : List Int) :
    encode_labels (l1 ++ l2) = encode_labels l1 ++ encode_labels l2 := by
  induction l1 with
  | nil => rfl
  | cons a l1 ih =>
    rw [List.cons_append, encode_labels_cons, encode_labels_cons, ih, List.append_assoc]

theorem encode_labels_concat (l : List Int) (a : Int) :
    encode_labels (l ++ [a]) = encode_labels l ++ label_numeral a := by
  rw [encode_labels_append, encode_labels_cons]
  show _ ++ (label_numeral a ++ []) = _
  rw [List.append_nil]

theorem log16_loop_ge : ∀ (fuel : Nat) (power : Int) (log : Nat) (x : Int),
    log ≤ log_smallest_power_of_16_loop fuel power log x := by
  intro fuel
  induction fuel with
  | zero => intro power log x; exact Nat.le_refl _
  | succ fuel ih =>
    intro power log x
    show log ≤ (if power ≤ x then log_smallest_power_of_16_loop fuel (power * 16) (log + 1) x
      else log)
    split
    · exact Nat.le_trans (Nat.le_succ _) (ih _ _ _)
    · exact Nat.le_refl _

theorem label_numeral_length_pos (l : Int) : 1 ≤ (label_numeral l).length := by
  unfold label_numeral
  rw [hex_digits_len]
  exact Nat.le_trans (log16_loop_ge _ _ _ _) (Nat.le_add_right _ _)

theorem encode_labels_length_ge (l : List Int) : l.length ≤ (encode_labels l).length := by
  induction l with
  | nil => exact Nat.le_refl _
  | cons a l ih =>
    rw [encode_labels_cons, List.length_append, List.length_cons]
    have := label_numeral_length_pos a
    omega

theorem encode_labels_length_small (l : List Int) (h : ∀ a ∈ l, 0 ≤ a ∧ a < 16) :
    (encode_labels l).length = l.length := by
  induction l with
  | nil => rfl
  | cons a l ih =>
    rw [encode_cons_one a l (h a (List.mem_cons_self _ _)).2, List.length_cons, List.length_cons,
      ih (fun b hb => h b (List.mem_cons_of_mem _ hb))]

/-! ### Two descending chains of labels with the same string -/

theorem chain_below (S : Int) : ∀ (R : List Int) (a : Int), List.Chain (label_step S) a R →
    ∀ x ∈ R, 0 ≤ x ∧ x < a := by
  intro R
  induction R with
  | nil => intro a _ x hx; exact absurd hx (List.not_mem_nil _)
  | cons b R ih =>
    intro a h x hx
    rw [List.chain_cons] at h
    rcases List.mem_cons.mp hx with rfl | hx
    · exact ⟨h.1.1, h.1.2.1⟩
    · have := ih b h.2 x hx
      exact ⟨this.1, lt_trans this.2 h.1.2.1⟩

theorem label_numeral_inj (a b : Int) (ha : 0 ≤ a) (hb : 0 ≤ b)
    (h : label_numeral a = label_numeral b) : a = b := by
  obtain ⟨ta, rfl⟩ := Int.eq_ofNat_of_zero_le ha
  obtain ⟨tb, rfl⟩ := Int.eq_ofNat_of_zero_le hb
  have := congrArg hex_value h
  rw [label_numeral_value, label_numeral_value] at this
  rw [this]

/-- A label whose numeral is shorter than the numeral of another label and
ends the same string lies at least 256 below it, unless it has one digit. -/
theorem numeral_suffix (ta tb : Nat) (w : List Char)
    (h : label_numeral (tb : Int) = w ++ label_numeral (ta : Int))
    (hlt : (label_numeral (ta : Int)).length < (label_numeral (tb : Int)).length) :
    ta + 16 ^ (Nat.log 16 ta + 1) ≤ tb := by
  have hv := congrArg hex_value h
  rw [hex_value_append, label_numeral_value, label_numeral_value, label_numeral_length] at hv
  have hne : hex_value w ≠ 0 := by
    intro h0
    rw [h0, zero_mul, zero_add] at hv
    rw [hv] at hlt
    exact absurd hlt (lt_irrefl _)
  have hpos : 1 ≤ hex_value w := Nat.one_le_iff_ne_zero.mpr hne
  have := Nat.mul_le_mul_right (16 ^ (Nat.log 16 ta + 1)) hpos
  omega

theorem shift_absurd (S bound a b : Int) (Ra Rb : List Int) (hS : S ≤ 256)
    (hlen : Ra.length = Rb.length)
    (ha : List.Chain (label_step S) bound (a :: Ra)) (hb : label_step S bound b)
    (hlt : (label_numeral a).length < (label_numeral b).length)
    (henc : encode_labels Ra.reverse ++ label_numeral a
      = encode_labels Rb.reverse ++ label_numeral b) : False := by
  rw [List.chain_cons] at ha
  obtain ⟨⟨ha0, hab, hbound⟩, hchain⟩ := ha
  obtain ⟨hb0, hbb, _⟩ := hb
  obtain ⟨ta, rfl⟩ := Int.eq_ofNat_of_zero_le ha0
  obtain ⟨tb, rfl⟩ := Int.eq_ofNat_of_zero_le hb0
  rcases List.append_eq_append_iff.mp henc with ⟨w, _, h2⟩ | ⟨w, _, h2⟩
  · have := congrArg List.length h2
    rw [List.length_append] at this
    omega
  · have hsuf := numeral_suffix ta tb w h2 hlt
    by_cases h16 : ta < 16
    · have hsmall : ∀ x ∈ Ra.reverse, 0 ≤ x ∧ x < 16 := by
        intro x hx
        have := chain_below S Ra _ hchain x (List.mem_reverse.mp hx)
        exact ⟨this.1, by omega⟩
      have l1 := encode_labels_length_small Ra.reverse hsmall
      have l2 := encode_labels_length_ge Rb.reverse
      have l3 := congrArg List.length henc
      rw [List.length_append, List.length_append, l1] at l3
      rw [label_numeral_length ta, Nat.log_of_lt h16] at hlt l3
      rw [List.length_reverse] at l2 l3
      omega
    · have hlog : 1 ≤ Nat.log 16 ta := by
        rw [← Nat.pow_le_iff_le_log (by decide) (by omega)]
        omega
      have hpow : 256 ≤ 16 ^ (Nat.log 16 ta + 1) := by
        calc 256 = 16 ^ 2 := by norm_num
          _ ≤ 16 ^ (Nat.log 16 ta + 1) := Nat.pow_le_pow_right (by decide) (by omega)
      have : (ta : Int) + 256 ≤ (tb : Int) := by omega
      omega

/-- Two descending chains of labels of the same length, started below the same
bound, with steps of at most 256, that are written as the same string are equal. -/
theorem encode_chain_inj (S : Int) (hS : S ≤ 256) : ∀ (R R2 : List Int) (bound : Int),
    R.length = R2.length → List.Chain (label_step S) bound R →
    List.Chain (label_step S) bound R2 →
    encode_labels R.reverse = encode_labels R2.reverse → R = R2 := by
  intro R
  induction R with
  | nil =>
    intro R2 bound hlen _ _ _
    exact (List.length_eq_zero.mp hlen.symm).symm
  | cons a Ra ih =>
    intro R2 bound hlen h1 h2 henc
    cases R2 with
    | nil => exact absurd hlen (by simp)
    | cons b Rb =>
      have hlen2 : Ra.length = Rb.length := by
        simp only [List.length_cons] at hlen
        omega
      rw [List.reverse_cons, List.reverse_cons, encode_labels_concat, encode_labels_concat]
        at henc
      have c1 := List.chain_cons.mp h1
      have c2 := List.chain_cons.mp h2
      rcases lt_trichotomy (label_numeral a).length (label_numeral b).length with hl | hl | hl
      · exact absurd (shift_absurd S bound a b Ra Rb hS hlen2 h1 c2.1 hl henc) id
      · obtain ⟨e1, e2⟩ := List.append_inj' henc hl
        have hab : a = b := label_numeral_inj a b c1.1.1 c2.1.1 e2
        subst hab
        rw [ih Rb a hlen2 c1.2 c2.2 e1]
      · exact absurd (shift_absurd S bound b a Rb Ra hS hlen2.symm h2 c1.1 hl henc.symm) id

/-! ### A polycube and its box -/

theorem grown_by_faces_init (l : List position) (e : position)
    (h : grown_by_faces (l ++ [e])) :
    grown_by_faces l ∧ (l ≠ [] → ∃ a ∈ l, adjacent a e) := by
  constructor
  · intro i b hi hb
    have hlt : i < l.length := by
      by_contra hge
      rw [List.getElem?_eq_none (by omega)] at hb
      exact absurd hb (by simp)
    obtain ⟨j, a, hj, ha, hadj⟩ := h i b hi (by rw [List.getElem?_append_left hlt]; exact hb)
    rw [List.getElem?_append_left (by omega)] at ha
    exact ⟨j, a, hj, ha, hadj⟩
  · intro hne
    have hpos : 0 < l.length := List.length_pos.mpr hne
    obtain ⟨j, a, hj, ha, hadj⟩ := h l.length e hpos
      (by rw [List.getElem?_append_right (le_refl _)]; simp)
    rw [List.getElem?_append_left hj] at ha
    exact ⟨a, List.mem_iff_getElem?.mpr ⟨j, ha⟩, hadj⟩

theorem axis_extend (lo hi a e : Int) (h1 : lo ≤ a) (h2 : a ≤ hi) :
    ∃ l u : Int, l ≤ lo ∧ l ≤ e ∧ hi ≤ u ∧ e ≤ u ∧ u - l ≤ hi - lo + ((a - e).natAbs : Int) := by
  refine ⟨min lo e, max hi e, min_le_left _ _, min_le_right _ _, le_max_left _ _,
    le_max_right _ _, ?_⟩
  rcases min_choice lo e with h | h <;> rcases max_choice hi e with h3 | h3 <;>
    rw [h, h3] <;> omega

/-- A sequence of cells grown by faces lies in a box whose three extents add
up to less than the number of cells plus 3. -/
theorem grown_box (l : List position) : l ≠ [] → grown_by_faces l →
    ∃ lo hi : position,
      (∀ c ∈ l, lo.x ≤ c.x ∧ c.x ≤ hi.x ∧ lo.y ≤ c.y ∧ c.y ≤ hi.y ∧ lo.z ≤ c.z ∧ c.z ≤ hi.z) ∧
      (hi.x - lo.x) + (hi.y - lo.y) + (hi.z - lo.z) + 1 ≤ (l.length : Int) := by
  induction l using List.reverseRecOn with
  | nil => intro h; exact absurd rfl h
  | append_singleton l e ih =>
    intro _ hg
    obtain ⟨hg1, hadj⟩ := grown_by_faces_init l e hg
    by_cases hl : l = []
    · subst hl
      refine ⟨e, e, ?_, ?_⟩
      · intro c hc
        rw [List.nil_append, List.mem_singleton] at hc
        subst hc
        omega
      · simp
    · obtain ⟨lo, hi, hin, hsum⟩ := ih hl hg1
      obtain ⟨a, ha, haa⟩ := hadj hl
      have hain := hin a ha
      unfold adjacent at haa
      obtain ⟨lx, ux, l1, l2, l3, l4, l5⟩ := axis_extend lo.x hi.x a.x e.x hain.1 hain.2.1
      obtain ⟨ly, uy, m1, m2, m3, m4, m5⟩ :=
        axis_extend lo.y hi.y a.y e.y hain.2.2.1 hain.2.2.2.1
      obtain ⟨lz, uz, n1, n2, n3, n4, n5⟩ :=
        axis_extend lo.z hi.z a.z e.z hain.2.2.2.2.1 hain.2.2.2.2.2
      generalize (a.x - e.x).natAbs = dx at haa l5
      generalize (a.y - e.y).natAbs = dy at haa m5
      generalize (a.z - e.z).natAbs = dz at haa n5
      refine ⟨⟨lx, ly, lz⟩, ⟨ux, uy, uz⟩, ?_, ?_⟩
      · intro c hc
        show lx ≤ c.x ∧ c.x ≤ ux ∧ ly ≤ c.y ∧ c.y ≤ uy ∧ lz ≤ c.z ∧ c.z ≤ uz
        rcases List.mem_append.mp hc with hc | hc
        · have := hin c hc
          omega
        · rw [List.mem_singleton] at hc
          subst hc
          omega
      · rw [List.length_append, List.length_singleton]
        push_cast
        show (ux - lx) + (uy - ly) + (uz - lz) + 1 ≤ (l.length : Int) + 1
        omega

theorem polycube_dims (pc : polycube_sparse) (n : Int) (h : pc.is_polycube n) :
    0 < pc.dim.x ∧ 0 < pc.dim.y ∧ 0 < pc.dim.z ∧ pc.dim.x + pc.dim.y + pc.dim.z ≤ n + 2 := by
  obtain ⟨cx, hcx, ex⟩ := h.face_x_high
  obtain ⟨cy, hcy, ey⟩ := h.face_y_high
  obtain ⟨cz, hcz, ez⟩ := h.face_z_high
  obtain ⟨bx, hbx, fx⟩ := h.face_x_low
  obtain ⟨by0, hby, fy⟩ := h.face_y_low
  obtain ⟨bz, hbz, fz⟩ := h.face_z_low
  have ix := h.inside cx hcx
  have hne : pc.cubes ≠ [] := List.ne_nil_of_mem hcx
  obtain ⟨lo, hi, hin, hsum⟩ := grown_box pc.cubes hne h.connected
  have hsz := h.size_eq
  unfold polycube_sparse.num_cubes at hsz
  have a1 := hin cx hcx
  have a2 := hin cy hcy
  have a3 := hin cz hcz
  have a4 := hin bx hbx
  have a5 := hin by0 hby
  have a6 := hin bz hbz
  unfold in_box at ix
  refine ⟨by omega, by omega, by omega, by omega⟩

/-! ### The labels of a polycube come in steps of at most 256 -/

theorem cell_label_bounds (dim c : position) (h : in_box dim c) :
    0 ≤ cell_label dim c ∧ cell_label dim c < dim.z * (dim.y * dim.x) := by
  have hd : 0 < dim.x ∧ 0 < dim.y ∧ 0 < dim.z := by
    unfold in_box at h
    omega
  have h1 := index_nonneg dim c hd h
  have h2 := index_lt dim c h
  have h3 : dim.z * (dim.y * dim.x) = dim.x * dim.y * dim.z := by ring
  unfold cell_label
  omega

theorem cell_label_inj (dim p q : position) (hp : in_box dim p) (hq : in_box dim q)
    (h : cell_label dim p = cell_label dim q) : p = q :=
  index_inj dim p q hp hq h

theorem label_stride_bounds (dim : position) (hx : 0 < dim.x) (hy : 0 < dim.y) :
    1 ≤ label_stride dim ∧ dim.x ≤ label_stride dim ∧
    (dim.z ≠ 1 → label_stride dim = dim.y * dim.x) := by
  have hP : dim.x ≤ dim.y * dim.x := le_mul_of_one_le_left (le_of_lt hx) (by omega)
  unfold label_stride
  split
  · exact ⟨by omega, le_refl _, fun h => absurd ‹dim.z = 1› h⟩
  · exact ⟨by omega, hP, fun _ => rfl⟩

/-- The labels of two cells of the box that share a face differ by at most the stride. -/
theorem adjacent_label_le (dim u v : position) (hu : in_box dim u) (hv : in_box dim v)
    (h : adjacent u v) : cell_label dim u ≤ cell_label dim v + label_stride dim := by
  have hmem := mem_face_neighbours_of_adjacent v u (adjacent_symm u v h)
  unfold in_box at hv
  obtain ⟨s1, s2, s3⟩ := label_stride_bounds dim (by omega) (by omega)
  have hP : 0 ≤ dim.y * dim.x := mul_nonneg (by omega) (by omega)
  unfold face_neighbours at hmem
  simp only [List.mem_cons, List.mem_singleton, List.not_mem_nil, or_false] at hmem
  unfold cell_label
  rcases hmem with e | e | e | e | e | e
  · rw [e]
    show v.z * (dim.y * dim.x) + v.y * dim.x + (v.x + 1) ≤ _
    omega
  · rw [e]
    show v.z * (dim.y * dim.x) + v.y * dim.x + (v.x - 1) ≤ _
    omega
  · rw [e]
    show v.z * (dim.y * dim.x) + (v.y + 1) * dim.x + v.x ≤ _
    have : (v.y + 1) * dim.x = v.y * dim.x + dim.x := by ring
    omega
  · rw [e]
    show v.z * (dim.y * dim.x) + (v.y - 1) * dim.x + v.x ≤ _
    have : (v.y - 1) * dim.x = v.y * dim.x - dim.x := by ring
    omega
  · rw [e] at hu
    unfold in_box at hu
    rw [e]
    show (v.z + 1) * (dim.y * dim.x) + v.y * dim.x + v.x ≤ _
    have : (v.z + 1) * (dim.y * dim.x) = v.z * (dim.y * dim.x) + dim.y * dim.x := by ring
    have hz : dim.z ≠ 1 := by
      have : v.z + 1 < dim.z := hu.2.2.2.2.2
      omega
    have := s3 hz
    omega
  · rw [e]
    show (v.z - 1) * (dim.y * dim.x) + v.y * dim.x + v.x ≤ _
    have : (v.z - 1) * (dim.y * dim.x) = v.z * (dim.y * dim.x) - dim.y * dim.x := by ring
    omega

/-- In a polycube of at most 32 cells the stride is at most 256. -/
theorem polycube_stride_le (pc : polycube_sparse) (n : Int) (h : pc.is_polycube n)
    (hn : n ≤ 32) : label_stride pc.dim ≤ 256 := by
  obtain ⟨hx, hy, hz, hsum⟩ := polycube_dims pc n h
  unfold label_stride
  split
  · omega
  · have hxy : pc.dim.x + pc.dim.y ≤ 32 := by omega
    nlinarith [sq_nonneg (pc.dim.x - pc.dim.y), mul_nonneg (by omega : (0 : Int) ≤ 32 - (pc.dim.x + pc.dim.y)) (by omega : (0 : Int) ≤ 32 + (pc.dim.x + pc.dim.y))]

/-- Some cell of a polycube has a label within one stride of the volume of the box. -/
theorem polycube_top (pc : polycube_sparse) (n : Int) (h : pc.is_polycube n) :
    ∃ c ∈ pc.cubes, pc.dim.z * (pc.dim.y * pc.dim.x) ≤ cell_label pc.dim c + label_stride pc.dim := by
  obtain ⟨hx, hy, hz, _⟩ := polycube_dims pc n h
  by_cases hz1 : pc.dim.z = 1
  · obtain ⟨c, hc, ey⟩ := h.face_y_high
    have hin := h.inside c hc
    unfold in_box at hin
    refine ⟨c, hc, ?_⟩
    unfold label_stride cell_label
    rw [if_pos hz1, hz1, ey]
    have hcz : c.z = 0 := by omega
    rw [hcz]
    have : (pc.dim.y - 1) * pc.dim.x = pc.dim.y * pc.dim.x - pc.dim.x := by ring
    omega
  · obtain ⟨c, hc, ez⟩ := h.face_z_high
    have hin := h.inside c hc
    unfold in_box at hin
    refine ⟨c, hc, ?_⟩
    unfold label_stride cell_label
    rw [if_neg hz1, ez]
    have : (pc.dim.z - 1) * (pc.dim.y * pc.dim.x)
        = pc.dim.z * (pc.dim.y * pc.dim.x) - pc.dim.y * pc.dim.x := by ring
    have h2 : 0 ≤ c.y * pc.dim.x := mul_nonneg (by omega) (by omega)
    omega

theorem chain_of_gaps (S : Int) : ∀ (R : List Int) (bound : Int),
    (bound :: R).Pairwise (fun a b => b < a) → (∀ x ∈ R, 0 ≤ x) →
    (∀ x ∈ bound :: R, (∃ y ∈ R, y < x) → ∃ y ∈ R, y < x ∧ x ≤ y + S) →
    List.Chain (label_step S) bound R := by
  intro R
  induction R with
  | nil => intro bound _ _ _; exact List.Chain.nil
  | cons a Ra ih =>
    intro bound hp h0 hgap
    rw [List.pairwise_cons] at hp
    obtain ⟨hb, hp2⟩ := hp
    have hp3 := List.pairwise_cons.mp hp2
    have hab : a < bound := hb a (List.mem_cons_self _ _)
    rw [List.chain_cons]
    constructor
    · obtain ⟨y, hy, hyb, hys⟩ := hgap bound (List.mem_cons_self _ _)
        ⟨a, List.mem_cons_self _ _, hab⟩
      have hya : y ≤ a := by
        rcases List.mem_cons.mp hy with rfl | hy
        · exact le_refl _
        · exact le_of_lt (hp3.1 y hy)
      exact ⟨h0 a (List.mem_cons_self _ _), hab, by omega⟩
    · apply ih a hp2 (fun x hx => h0 x (List.mem_cons_of_mem _ hx))
      intro x hx hex
      obtain ⟨y0, hy0, hy0x⟩ := hex
      obtain ⟨y, hy, hyx, hys⟩ := hgap x (List.mem_cons_of_mem _ hx)
        ⟨y0, List.mem_cons_of_mem _ hy0, hy0x⟩
      have hxa : x ≤ a := by
        rcases List.mem_cons.mp hx with rfl | hx
        · exact le_refl _
        · exact le_of_lt (hp3.1 x hx)
      rcases List.mem_cons.mp hy with rfl | hy
      · omega
      · exact ⟨y, hy, hyx, hys⟩

/-- The sorted labels of a polycube, read downwards from the volume of the box,
form a chain with steps of at most the stride. -/
theorem polycube_label_chain (pc : polycube_sparse) (n : Int) (h : pc.is_polycube n) :
    List.Chain (label_step (label_stride pc.dim)) (pc.dim.z * (pc.dim.y * pc.dim.x))
      (sorted_labels pc).reverse := by
  obtain ⟨hsorted, hmem, _⟩ := sorted_labels_sorted pc
  have hnd : (sorted_labels pc).Nodup := by
    rw [(sorted_labels_perm pc).nodup_iff]
    exact List.Nodup.map_on
      (fun a ha b hb hab => cell_label_inj pc.dim a b (h.inside a ha) (h.inside b hb) hab)
      h.nodup
  have hlt : (sorted_labels pc).Pairwise (fun a b => a < b) :=
    (hsorted.and hnd).imp (fun hab => lt_of_le_of_ne hab.1 hab.2)
  have hbound : ∀ x ∈ sorted_labels pc,
      0 ≤ x ∧ x < pc.dim.z * (pc.dim.y * pc.dim.x) := by
    intro x hx
    obtain ⟨c, hc, rfl⟩ := (hmem x).mp hx
    exact cell_label_bounds pc.dim c (h.inside c hc)
  apply chain_of_gaps
  · rw [List.pairwise_cons]
    constructor
    · intro x hx
      exact (hbound x (List.mem_reverse.mp hx)).2
    · rw [List.pairwise_reverse]
      exact hlt
  · intro x hx
    exact (hbound x (List.mem_reverse.mp hx)).1
  · intro x hx hex
    rcases List.mem_cons.mp hx with rfl | hx
    · obtain ⟨c, hc, htop⟩ := polycube_top pc n h
      refine ⟨cell_label pc.dim c, List.mem_reverse.mpr ((hmem _).mpr ⟨c, hc, rfl⟩), ?_, htop⟩
      exact (cell_label_bounds pc.dim c (h.inside c hc)).2
    · obtain ⟨y0, hy0, hy0x⟩ := hex
      obtain ⟨cx, hcx, rfl⟩ := (hmem x).mp (List.mem_reverse.mp hx)
      obtain ⟨cy, hcy, rfl⟩ := (hmem y0).mp (List.mem_reverse.mp hy0)
      obtain ⟨u, hu, v, hv, hPu, hPv, hadj⟩ := connected_cut pc.cubes.toFinset
        (face_connected_of_grown pc.cubes h.connected)
        (fun c => cell_label pc.dim cx ≤ cell_label pc.dim c)
        cx (List.mem_toFinset.mpr hcx) (le_refl _) cy (List.mem_toFinset.mpr hcy)
        (not_le.mpr hy0x)
      rw [List.mem_toFinset] at hu hv
      have hstep := adjacent_label_le pc.dim u v (h.inside u hu) (h.inside v hv) hadj
      refine ⟨cell_label pc.dim v, List.mem_reverse.mpr ((hmem _).mpr ⟨v, hv, rfl⟩),
        not_le.mp hPv, ?_⟩
      exact le_trans hPu hstep

/-! ### The orientations of a polycube are polycubes -/

theorem orient_coord_diff (dim a b : position) (s : axis_id) (f : Bool) :
    (orient_coord dim a s f - orient_coord dim b s f).natAbs = (a.get s - b.get s).natAbs := by
  unfold orient_coord
  cases f
  · rfl
  · show (dim.get s - 1 - a.get s - (dim.get s - 1 - b.get s)).natAbs = _
    omega

theorem orient_coord_inj (dim a b : position) (s : axis_id) (f : Bool)
    (h : orient_coord dim a s f = orient_coord dim b s f) : a.get s = b.get s := by
  have := orient_coord_diff dim a b s f
  rw [h] at this
  omega

theorem permutation_cases (o : orientation) (h : o.is_permutation = true) :
    (o.sx = .x ∧ o.sy = .y ∧ o.sz = .z) ∨ (o.sx = .x ∧ o.sy = .z ∧ o.sz = .y) ∨
    (o.sx = .y ∧ o.sy = .x ∧ o.sz = .z) ∨ (o.sx = .y ∧ o.sy = .z ∧ o.sz = .x) ∨
    (o.sx = .z ∧ o.sy = .x ∧ o.sz = .y) ∨ (o.sx = .z ∧ o.sy = .y ∧ o.sz = .x) := by
  obtain ⟨sx, sy, sz, fx, fy, fz⟩ := o
  revert h
  cases sx <;> cases sy <;> cases sz <;> simp [orientation.is_permutation]

theorem apply_pos_adjacent (o : orientation) (h : o.is_permutation = true) (dim a b : position)
    (hab : adjacent a b) : adjacent (o.apply_pos dim a) (o.apply_pos dim b) := by
  unfold adjacent at *
  show (orient_coord dim a o.sx o.fx - orient_coord dim b o.sx o.fx).natAbs
    + (orient_coord dim a o.sy o.fy - orient_coord dim b o.sy o.fy).natAbs
    + (orient_coord dim a o.sz o.fz - orient_coord dim b o.sz o.fz).natAbs = 1
  rw [orient_coord_diff, orient_coord_diff, orient_coord_diff]
  rcases permutation_cases o h with ⟨e1, e2, e3⟩ | ⟨e1, e2, e3⟩ | ⟨e1, e2, e3⟩ | ⟨e1, e2, e3⟩ |
    ⟨e1, e2, e3⟩ | ⟨e1, e2, e3⟩ <;> rw [e1, e2, e3] <;> simp only [position.get] <;> omega

theorem apply_pos_inj (o : orientation) (h : o.is_permutation = true) (dim a b : position)
    (hab : o.apply_pos dim a = o.apply_pos dim b) : a = b := by
  unfold orientation.apply_pos at hab
  rw [position.mk.injEq] at hab
  have h1 := orient_coord_inj dim a b o.sx o.fx hab.1
  have h2 := orient_coord_inj dim a b o.sy o.fy hab.2.1
  have h3 := orient_coord_inj dim a b o.sz o.fz hab.2.2
  apply position_ext
  all_goals
    rcases permutation_cases o h with ⟨e1, e2, e3⟩ | ⟨e1, e2, e3⟩ | ⟨e1, e2, e3⟩ |
      ⟨e1, e2, e3⟩ | ⟨e1, e2, e3⟩ | ⟨e1, e2, e3⟩ <;> rw [e1] at h1 <;> rw [e2] at h2 <;>
      rw [e3] at h3 <;> simp only [position.get] at h1 h2 h3 <;> assumption

/-- A polycube touches the lower and the upper face of its box along every axis. -/
theorem polycube_faces (pc : polycube_sparse) (n : Int) (h : pc.is_polycube n) (s : axis_id) :
    (∃ c ∈ pc.cubes, c.get s = 0) ∧ (∃ c ∈ pc.cubes, c.get s = pc.dim.get s - 1) := by
  cases s
  · exact ⟨h.face_x_low, h.face_x_high⟩
  · exact ⟨h.face_y_low, h.face_y_high⟩
  · exact ⟨h.face_z_low, h.face_z_high⟩

theorem orient_faces (pc : polycube_sparse) (n : Int) (h : pc.is_polycube n) (s : axis_id)
    (f : Bool) :
    (∃ c ∈ pc.cubes, orient_coord pc.dim c s f = 0) ∧
    (∃ c ∈ pc.cubes, orient_coord pc.dim c s f = pc.dim.get s - 1) := by
  obtain ⟨⟨c1, hc1, e1⟩, ⟨c2, hc2, e2⟩⟩ := polycube_faces pc n h s
  unfold orient_coord
  cases f
  · exact ⟨⟨c1, hc1, e1⟩, ⟨c2, hc2, e2⟩⟩
  · refine ⟨⟨c2, hc2, ?_⟩, ⟨c1, hc1, ?_⟩⟩
    · show pc.dim.get s - 1 - c2.get s = 0
      omega
    · show pc.dim.get s - 1 - c1.get s = pc.dim.get s - 1
      omega

/-- The image of a polycube under an orientation that permutes the axes is a polycube. -/
theorem orientation_is_polycube (o : orientation) (ho : o.is_permutation = true)
    (pc : polycube_sparse) (n : Int) (h : pc.is_polycube n) : (o.apply pc).is_polycube n := by
  have face : ∀ (s : axis_id) (f : Bool) (v : Int),
      (∃ c ∈ pc.cubes, orient_coord pc.dim c s f = v) →
      ∀ g : position → Int, (∀ c, g (o.apply_pos pc.dim c) = orient_coord pc.dim c s f) →
      ∃ c ∈ (o.apply pc).cubes, g c = v := by
    intro s f v ⟨c, hc, e⟩ g hg
    exact ⟨o.apply_pos pc.dim c, List.mem_map.mpr ⟨c, hc, rfl⟩, by rw [hg, e]⟩
  refine ⟨?_, ?_, ?_, ?_, ?_, ?_, ?_, ?_, ?_, ?_⟩
  · rw [← h.size_eq]
    show ((pc.cubes.map (o.apply_pos pc.dim)).length : Int) = (pc.cubes.length : Int)
    rw [List.length_map]
  · exact List.Nodup.map_on (fun a _ b _ hab => apply_pos_inj o ho pc.dim a b hab) h.nodup
  · intro c hc
    obtain ⟨c0, hc0, rfl⟩ := List.mem_map.mp hc
    exact apply_pos_in_box o pc.dim c0 (h.inside c0 hc0)
  · exact face o.sx o.fx 0 (orient_faces pc n h o.sx o.fx).1 (fun c => c.x) (fun _ => rfl)
  · exact face o.sy o.fy 0 (orient_faces pc n h o.sy o.fy).1 (fun c => c.y) (fun _ => rfl)
  · exact face o.sz o.fz 0 (orient_faces pc n h o.sz o.fz).1 (fun c => c.z) (fun _ => rfl)
  · exact face o.sx o.fx _ (orient_faces pc n h o.sx o.fx).2 (fun c => c.x) (fun _ => rfl)
  · exact face o.sy o.fy _ (orient_faces pc n h o.sy o.fy).2 (fun c => c.y) (fun _ => rfl)
  · exact face o.sz o.fz _ (orient_faces pc n h o.sz o.fz).2 (fun c => c.z) (fun _ => rfl)
  · exact grown_by_faces_map pc.cubes (o.apply_pos pc.dim)
      (fun a b hab => apply_pos_adjacent o ho pc.dim a b hab) h.connected

/-- Every orientation that `all_rotations_generator_sparse` yields for a polycube
is a polycube. -/
theorem all_rotations_polycube (pc : polycube_sparse) (n : Int) (h : pc.is_polycube n) :
    ∀ r ∈ all_rotations pc, r.is_polycube n := by
  intro r hr
  rw [all_rotations_eq] at hr
  obtain ⟨o, ho, rfl⟩ := List.mem_map.mp hr
  have hp := rotations_24_proper.2.2 o ho
  unfold orientation.is_proper at hp
  rw [Bool.and_eq_true] at hp
  exact orientation_is_polycube o hp.1 pc n h

/-! ### The encoding is injective on polycubes -/

theorem grown_check_sound : ∀ (rest pre : List position), grown_by_faces pre → pre ≠ [] →
    grown_check pre rest = true → grown_by_faces (pre ++ rest) := by
  intro rest
  induction rest with
  | nil => intro pre h _ _; rw [List.append_nil]; exact h
  | cons e rest ih =>
    intro pre h hne hc
    unfold grown_check at hc
    rw [Bool.and_eq_true, List.any_eq_true] at hc
    obtain ⟨⟨a, ha, hadj⟩, hrest⟩ := hc
    have h2 := grown_by_faces_concat pre e h ⟨a, ha, of_decide_eq_true hadj⟩
    have h3 := ih (pre ++ [e]) h2 (by simp) hrest
    rw [List.append_assoc] at h3
    exact h3

theorem grown_check_cons (c : position) (rest : List position)
    (h : grown_check [c] rest = true) : grown_by_faces (c :: rest) := by
  have h0 : grown_by_faces [c] := by
    intro i b hi hb
    rw [List.getElem?_eq_none (by simp only [List.length_singleton]; omega)] at hb
    exact absurd hb (by simp)
  exact grown_check_sound rest [c] h0 (by simp) h

theorem staircase_a_polycube : staircase_a.is_polycube 18 :=
  ⟨by decide, by decide, by decide, by decide, by decide, by decide, by decide, by decide,
    by decide, grown_check_cons _ _ (by decide)⟩

theorem staircase_b_polycube : staircase_b.is_polycube 18 :=
  ⟨by decide, by decide, by decide, by decide, by decide, by decide, by decide, by decide,
    by decide, grown_check_cons _ _ (by decide)⟩

/-- Two polycubes of the same size `n ≤ 32` in the same box that are written as
the same string have the same ascending label sequence. -/
theorem polycube_encoding_inj (n : Int) (A B : polycube_sparse) (hn : n ≤ 32)
    (hA : A.is_polycube n) (hB : B.is_polycube n) (hd : A.dim = B.dim)
    (henc : str_encoding_hex_sparse A = str_encoding_hex_sparse B) :
    sorted_labels A = sorted_labels B := by
  have hS := polycube_stride_le A n hA hn
  have cA := polycube_label_chain A n hA
  have cB := polycube_label_chain B n hB
  rw [← hd] at cB
  unfold str_encoding_hex_sparse at henc
  have hlen : (sorted_labels A).reverse.length = (sorted_labels B).reverse.length := by
    rw [List.length_reverse, List.length_reverse, (sorted_labels_sorted A).2.2,
      (sorted_labels_sorted B).2.2]
    have h1 := hA.size_eq
    have h2 := hB.size_eq
    omega
  have := encode_chain_inj (label_stride A.dim) hS _ _ _ hlen cA cB
    (by rw [List.reverse_reverse, List.reverse_reverse]; exact henc)
  exact List.reverse_injective this

/-- Two polycubes in the same box with the same ascending label sequence have the same cells. -/
theorem polycube_cells_of_labels (n : Int) (P Q : polycube_sparse) (hdim : P.dim = Q.dim)
    (hP : P.is_polycube n) (hQ : Q.is_polycube n) (hlab : sorted_labels P = sorted_labels Q) :
    ∀ c, c ∈ P.cubes → c ∈ Q.cubes := by
  intro c hc
  have h1 : cell_label P.dim c ∈ sorted_labels Q := by
    rw [← hlab]
    exact ((sorted_labels_sorted P).2.1 _).mpr ⟨c, hc, rfl⟩
  obtain ⟨c2, hc2, e⟩ := ((sorted_labels_sorted Q).2.1 _).mp h1
  have hin1 := hP.inside c hc
  have hin2 := hQ.inside c2 hc2
  rw [hdim] at hin1 e
  rw [cell_label_inj Q.dim c c2 hin1 hin2 e]
  exact hc2

/-- C29: `str_encoding_hex_sparse` is injective on the polycubes of one box:
two polycubes of the same size `n ≤ 32` (32 cells is what the arrays of a
shape hold) with the same bounding-box dimensions, each face-connected,
inside the box and touching its six faces, that are written as the same
string have the same ascending label sequence and the same cells; so two
such shapes whose label sequences differ are never written as the same
string.  No label is confused with another across a digit-count boundary
because the labels of a polycube, read downwards from the volume of the
box, come in steps of at most `label_stride`, which is at most 256.  The
orientations that `all_rotations_generator_sparse` yields for a polycube
are polycubes of the same size, so the same holds of any two of the
strings that the canonical test compares. -/
theorem c29_encoding_injective (n : Int) (A B : polycube_sparse) (hn : n ≤ 32)
    (hA : A.is_polycube n) (hB : B.is_polycube n) (hd : A.dim = B.dim) :
    (str_encoding_hex_sparse A = str_encoding_hex_sparse B →
      sorted_labels A = sorted_labels B ∧ ∀ c, c ∈ A.cubes ↔ c ∈ B.cubes) ∧
    (sorted_labels A ≠ sorted_labels B →
      str_encoding_hex_sparse A ≠ str_encoding_hex_sparse B) ∧
    label_stride A.dim ≤ 256 ∧
    List.Chain (label_step (label_stride A.dim)) (A.dim.z * (A.dim.y * A.dim.x))
      (sorted_labels A).reverse ∧
    (∀ r ∈ all_rotations A, r.is_polycube n) ∧
    (∀ r1 ∈ all_rotations A, ∀ r2 ∈ all_rotations A, r1.dim = r2.dim →
      str_encoding_hex_sparse r1 = str_encoding_hex_sparse r2 →
      sorted_labels r1 = sorted_labels r2) := by
  have key := polycube_encoding_inj n A B hn hA hB hd
  refine ⟨fun henc => ⟨key henc, fun c => ?_⟩, fun hne henc => hne (key henc),
    polycube_stride_le A n hA hn, polycube_label_chain A n hA,
    all_rotations_polycube A n hA, ?_⟩
  · exact ⟨polycube_cells_of_labels n A B hd hA hB (key henc) c,
      polycube_cells_of_labels n B A hd.symm hB hA (key henc).symm c⟩
  · intro r1 h1 r2 h2 hdim henc
    exact polycube_encoding_inj n r1 r2 hn (all_rotations_polycube A n hA r1 h1)
      (all_rotations_polycube A n hA r2 h2) hdim henc

theorem c29_encoding_injective_witness :
    (18 : Int) ≤ 32 ∧ staircase_a.is_polycube 18 ∧ staircase_b.is_polycube 18 ∧
    staircase_a.dim = staircase_b.dim ∧
    sorted_labels staircase_a
      = [0, 1, 2, 3, 4, 5, 6, 13, 20, 27, 34, 41, 48, 97, 146, 195, 244, 293] ∧
    sorted_labels staircase_b
      = [0, 49, 98, 147, 196, 245, 252, 259, 266, 273, 280, 287, 288, 289, 290, 291, 292, 293] ∧
    sorted_labels staircase_a ≠ sorted_labels staircase_b ∧
    str_encoding_hex_sparse staircase_a ≠ str_encoding_hex_sparse staircase_b ∧
    label_stride staircase_a.dim = 49 :=
  ⟨by decide, staircase_a_polycube, staircase_b_polycube, by decide, by decide, by decide,
    by decide,
    (c29_encoding_injective 18 staircase_a staircase_b (by decide) staircase_a_polycube
      staircase_b_polycube (by decide)).2.1 (by decide),
    by decide⟩

/-! ## One shape found per free polycube -/

/-! ### The order of `strcmp` on the strings of the encoding -/

theorem char_toNat_inj (a b : Char) (h : a.toNat = b.toNat) : a = b := by
  apply Char.ext
  apply UInt32.ext
  exact h

theorem lex_cons_inv (a b : Nat) (l1 l2 : List Nat)
    (h : List.Lex (fun x y : Nat => x < y) (a :: l1) (b :: l2)) :
    a < b ∨ (a = b ∧ List.Lex (fun x y : Nat => x < y) l1 l2) := by
  cases h with
  | cons h => exact Or.inr ⟨rfl, h⟩
  | rel h => exact Or.inl h

/-- On strings without the NUL byte, `strcmp` is negative exactly when the
first string comes first in the lexicographic order of the bytes. -/
theorem strcmp_neg_iff : ∀ (a b : List Char), (∀ c ∈ b, c.toNat ≠ 0) →
    (strcmp a b < 0 ↔ List.Lex (fun x y : Nat => x < y) (a.map Char.toNat) (b.map Char.toNat)) := by
  intro a
  induction a with
  | nil =>
    intro b hb
    cases b with
    | nil =>
      show (0 : Int) < 0 ↔ _
      constructor
      · intro h; omega
      · intro h; cases h
    | cons y bs =>
      show (0 : Int) - (y.toNat : Int) < 0 ↔ _
      have := hb y (List.mem_cons_self _ _)
      constructor
      · intro _; exact List.Lex.nil
      · intro _; omega
  | cons x as ih =>
    intro b hb
    cases b with
    | nil =>
      show (x.toNat : Int) < 0 ↔ _
      constructor
      · intro h; omega
      · intro h; cases h
    | cons y bs =>
      show (if x = y then strcmp as bs else (x.toNat : Int) - (y.toNat : Int)) < 0 ↔ _
      rw [List.map_cons, List.map_cons]
      by_cases hxy : x = y
      · rw [if_pos hxy, hxy, List.Lex.cons_iff]
        exact ih bs (fun c hc => hb c (List.mem_cons_of_mem _ hc))
      · rw [if_neg hxy]
        have hne : x.toNat ≠ y.toNat := fun h => hxy (char_toNat_inj x y h)
        constructor
        · intro h
          exact List.Lex.rel (by omega)
        · intro h
          rcases lex_cons_inv _ _ _ _ h with h | h
          · omega
          · exact absurd h.1 hne

theorem hex_map_getD_ne (i : Nat) : (hex_map.getD i '0').toNat ≠ 0 := by
  by_cases h : i < 16
  · interval_cases i <;> decide
  · have : hex_map.getD i '0' = '0' := by
      unfold hex_map
      rw [List.getD_eq_default]
      simp only [List.length_cons, List.length_nil]
      omega
    rw [this]
    decide

theorem hex_digits_ne : ∀ (digits : Nat) (tmp : Int) (rest : List Char),
    (∀ c ∈ rest, c.toNat ≠ 0) → ∀ c ∈ hex_digits digits tmp rest, c.toNat ≠ 0 := by
  intro digits
  induction digits with
  | zero => intro tmp rest h; exact h
  | succ digits ih =>
    intro tmp rest h
    apply ih
    intro c hc
    rcases List.mem_cons.mp hc with rfl | hc
    · exact hex_map_getD_ne _
    · exact h c hc

theorem encode_labels_ne (l : List Int) : ∀ c ∈ encode_labels l, c.toNat ≠ 0 := by
  induction l with
  | nil => intro c hc; exact absurd hc (List.not_mem_nil _)
  | cons a l ih => exact hex_digits_ne _ _ _ ih

/-- The order in which the canonical test compares two encodings. -/
theorem encoding_lt_iff (p q : polycube_sparse) :
    strcmp (str_encoding_hex_sparse p) (str_encoding_hex_sparse q) < 0 ↔
      List.Lex (fun x y : Nat => x < y) ((str_encoding_hex_sparse p).map Char.toNat)
        ((str_encoding_hex_sparse q).map Char.toNat) :=
  strcmp_neg_iff _ _ (encode_labels_ne _)

theorem encoding_lt_trans (p q r : polycube_sparse)
    (h1 : strcmp (str_encoding_hex_sparse p) (str_encoding_hex_sparse q) < 0)
    (h2 : strcmp (str_encoding_hex_sparse q) (str_encoding_hex_sparse r) < 0) :
    strcmp (str_encoding_hex_sparse p) (str_encoding_hex_sparse r) < 0 := by
  rw [encoding_lt_iff] at *
  exact IsTrans.trans _ _ _ h1 h2

theorem encoding_eq_of_not_lt (p q : polycube_sparse)
    (h1 : ¬ strcmp (str_encoding_hex_sparse p) (str_encoding_hex_sparse q) < 0)
    (h2 : ¬ strcmp (str_encoding_hex_sparse q) (str_encoding_hex_sparse p) < 0) :
    str_encoding_hex_sparse p = str_encoding_hex_sparse q := by
  rw [encoding_lt_iff] at *
  rcases trichotomous_of (List.Lex (fun x y : Nat => x < y))
    ((str_encoding_hex_sparse p).map Char.toNat) ((str_encoding_hex_sparse q).map Char.toNat)
    with h | h | h
  · exact absurd h h1
  · exact List.map_injective_iff.mpr (fun a b hab => char_toNat_inj a b hab) h
  · exact absurd h h2


/-! ### Shapes with the same box and the same cells -/

theorem sparse_perm_of_cells (P Q : polycube_sparse) (hc : P.cells = Q.cells)
    (hP : P.cubes.Nodup) (hQ : Q.cubes.Nodup) : P.cubes.Perm Q.cubes :=
  List.perm_of_nodup_nodup_toFinset_eq hP hQ hc

theorem encoding_of_cells (P Q : polycube_sparse) (hd : P.dim = Q.dim) (hc : P.cells = Q.cells)
    (hP : P.cubes.Nodup) (hQ : Q.cubes.Nodup) :
    str_encoding_hex_sparse P = str_encoding_hex_sparse Q := by
  unfold str_encoding_hex_sparse
  rw [sorted_labels_eq_spec, sorted_labels_eq_spec]
  have := sorted_labels_spec_perm P.dim P.cubes Q.cubes (sparse_perm_of_cells P Q hc hP hQ)
  obtain ⟨pd, pcubes⟩ := P
  obtain ⟨qd, qcubes⟩ := Q
  dsimp only at hd this ⊢
  subst hd
  rw [this]

theorem apply_cells (o : orientation) (P : polycube_sparse) :
    (o.apply P).cells = P.cells.image (o.apply_pos P.dim) := by
  unfold polycube_sparse.cells orientation.apply
  ext p
  simp only [List.mem_toFinset, List.mem_map, Finset.mem_image]

theorem apply_same (o : orientation) (P Q : polycube_sparse) (hd : P.dim = Q.dim)
    (hc : P.cells = Q.cells) : (o.apply P).dim = (o.apply Q).dim ∧ (o.apply P).cells = (o.apply Q).cells := by
  constructor
  · show o.apply_dim P.dim = o.apply_dim Q.dim
    rw [hd]
  · rw [apply_cells, apply_cells, hd, hc]

/-! ### Rotations and translations of sets of cells -/

theorem orient_coord_split (dim c : position) (a : axis_id) (f : Bool) :
    orient_coord dim c a f
      = orient_coord ⟨1, 1, 1⟩ c a f + orient_coord dim ⟨0, 0, 0⟩ a f := by
  unfold orient_coord
  cases f <;> cases a <;> simp [position.get] <;> omega

theorem apply_pos_split (o : orientation) (dim c : position) :
    o.apply_pos dim c = (o.rotate c).add (o.apply_pos dim ⟨0, 0, 0⟩) := by
  unfold orientation.rotate orientation.apply_pos position.add
  rw [orient_coord_split dim c o.sx, orient_coord_split dim c o.sy,
    orient_coord_split dim c o.sz]

theorem rotate_add (o : orientation) (p t : position) :
    o.rotate (p.add t) = (o.rotate p).add (o.rotate t) := by
  unfold orientation.rotate orientation.apply_pos position.add orient_coord
  apply position_ext
  · cases o.fx <;> cases o.sx <;> simp [position.get] <;> omega
  · cases o.fy <;> cases o.sy <;> simp [position.get] <;> omega
  · cases o.fz <;> cases o.sz <;> simp [position.get] <;> omega

theorem rotate_comp (o1 o2 : orientation) (p : position) :
    (o1.comp o2).rotate p = o1.rotate (o2.rotate p) := by
  unfold orientation.rotate
  rw [← apply_pos_comp]
  have : o2.apply_dim ⟨1, 1, 1⟩ = ⟨1, 1, 1⟩ := by
    unfold orientation.apply_dim
    cases o2.sx <;> cases o2.sy <;> cases o2.sz <;> rfl
  rw [this]

theorem rotate_one (p : position) : orientation.one.rotate p = p := rfl

theorem translate_translate (a b : position) (S : Finset position) :
    translate a (translate b S) = translate (b.add a) S := by
  unfold translate
  rw [Finset.image_image]
  congr 1
  funext p
  apply position_ext <;> simp only [Function.comp, position.add] <;> omega

theorem image_rotate_translate (o : orientation) (t : position) (S : Finset position) :
    (translate t S).image o.rotate = translate (o.rotate t) (S.image o.rotate) := by
  unfold translate
  rw [Finset.image_image, Finset.image_image]
  congr 1
  funext p
  exact rotate_add o p t

theorem apply_cells_rotate (o : orientation) (P : polycube_sparse) :
    (o.apply P).cells = translate (o.apply_pos P.dim ⟨0, 0, 0⟩) (P.cells.image o.rotate) := by
  rw [apply_cells]
  unfold translate
  rw [Finset.image_image]
  congr 1
  funext p
  exact apply_pos_split o P.dim p

theorem translate_neg_cancel (t : position) (S : Finset position) :
    translate t.neg (translate t S) = S := by
  rw [translate_translate]
  have : t.add t.neg = ⟨0, 0, 0⟩ := by
    apply position_ext <;> simp [position.add, position.neg]
  rw [this, translate_zero]

theorem same_free_refl (S : Finset position) : same_free_polycube S S := by
  refine ⟨orientation.one, by decide, ⟨0, 0, 0⟩, ?_⟩
  rw [translate_zero]
  have : (fun p => orientation.one.rotate p) = id := by
    funext p
    rfl
  show S = S.image (fun p => orientation.one.rotate p)
  rw [this, Finset.image_id]

theorem same_free_trans (S T U : Finset position) (h1 : same_free_polycube S T)
    (h2 : same_free_polycube T U) : same_free_polycube S U := by
  obtain ⟨o1, ho1, t1, rfl⟩ := h1
  obtain ⟨o2, ho2, t2, rfl⟩ := h2
  refine ⟨o2.comp o1, (closed_under_comp_spec rotations_24 rotations_24_closed o1 ho1 o2 ho2).1,
    (o2.rotate t1).add t2, ?_⟩
  rw [image_rotate_translate, translate_translate, Finset.image_image]
  congr 1
  congr 1
  funext p
  exact (rotate_comp o2 o1 p).symm

theorem same_free_symm (S T : Finset position) (h : same_free_polycube S T) :
    same_free_polycube T S := by
  obtain ⟨o, ho, t, rfl⟩ := h
  obtain ⟨o1, ho1, hinv⟩ :=
    (closed_under_comp_spec rotations_24 rotations_24_closed o ho orientation.one
      (by decide)).2
  refine ⟨o1, ho1, (o1.rotate t).neg, ?_⟩
  rw [image_rotate_translate, translate_neg_cancel, Finset.image_image]
  have : (o1.rotate ∘ o.rotate) = id := by
    funext p
    show o1.rotate (o.rotate p) = p
    rw [← rotate_comp, hinv]
    rfl
  rw [this, Finset.image_id]


/-! ### Polycubes that sit tightly in their box -/

/-- Two polycubes whose cell sets are translates of one another have the same
box and the same cells. -/
theorem tight_translate (n : Int) (P Q : polycube_sparse) (hP : P.is_polycube n)
    (hQ : Q.is_polycube n) (t : position) (h : Q.cells = translate t P.cells) :
    P.dim = Q.dim ∧ P.cells = Q.cells := by
  have fwd : ∀ c ∈ P.cubes, in_box Q.dim (c.add t) := by
    intro c hc
    apply hQ.inside
    have : c.add t ∈ Q.cells := by
      rw [h]
      exact Finset.mem_image_of_mem _ (List.mem_toFinset.mpr hc)
    exact List.mem_toFinset.mp this
  have bwd : ∀ q ∈ Q.cubes, in_box P.dim (q.add t.neg) := by
    intro q hq
    apply hP.inside
    have : q ∈ translate t P.cells := by
      rw [← h]
      exact List.mem_toFinset.mpr hq
    rw [mem_translate] at this
    exact List.mem_toFinset.mp this
  obtain ⟨a1, ha1, ea1⟩ := hP.face_x_low
  obtain ⟨a2, ha2, ea2⟩ := hP.face_y_low
  obtain ⟨a3, ha3, ea3⟩ := hP.face_z_low
  obtain ⟨a4, ha4, ea4⟩ := hP.face_x_high
  obtain ⟨a5, ha5, ea5⟩ := hP.face_y_high
  obtain ⟨a6, ha6, ea6⟩ := hP.face_z_high
  obtain ⟨b1, hb1, eb1⟩ := hQ.face_x_low
  obtain ⟨b2, hb2, eb2⟩ := hQ.face_y_low
  obtain ⟨b3, hb3, eb3⟩ := hQ.face_z_low
  obtain ⟨b4, hb4, eb4⟩ := hQ.face_x_high
  obtain ⟨b5, hb5, eb5⟩ := hQ.face_y_high
  obtain ⟨b6, hb6, eb6⟩ := hQ.face_z_high
  have f1 := fwd a1 ha1
  have f2 := fwd a2 ha2
  have f3 := fwd a3 ha3
  have f4 := fwd a4 ha4
  have f5 := fwd a5 ha5
  have f6 := fwd a6 ha6
  have g1 := bwd b1 hb1
  have g2 := bwd b2 hb2
  have g3 := bwd b3 hb3
  have g4 := bwd b4 hb4
  have g5 := bwd b5 hb5
  have g6 := bwd b6 hb6
  unfold in_box at f1 f2 f3 f4 f5 f6 g1 g2 g3 g4 g5 g6
  simp only [position.add, position.neg] at f1 f2 f3 f4 f5 f6 g1 g2 g3 g4 g5 g6
  have ht : t = ⟨0, 0, 0⟩ := by
    apply position_ext
    · show t.x = 0
      omega
    · show t.y = 0
      omega
    · show t.z = 0
      omega
  constructor
  · apply position_ext <;> omega
  · rw [h, ht, translate_zero]

theorem sparse_cells (s : rooted_polycube) :
    (get_polycube_sparse_from_rooted s).cells
      = translate (s.root.add ⟨-s.min_bounds.x, -s.min_bounds.y, -s.min_bounds.z⟩) s.cells := by
  unfold polycube_sparse.cells rooted_polycube.cells translate get_polycube_sparse_from_rooted
  ext p
  simp only [List.mem_toFinset, List.mem_map, Finset.mem_image]
  constructor
  · rintro ⟨c, hc, rfl⟩
    exact ⟨c, hc, by apply position_ext <;> simp only [position.add] <;> omega⟩
  · rintro ⟨c, hc, rfl⟩
    exact ⟨c, hc, by apply position_ext <;> simp only [position.add] <;> omega⟩

theorem polycube_cells_facts (n : Int) (R : polycube_sparse) (h : R.is_polycube n) :
    (R.cells.card : Int) = n ∧ face_connected R.cells := by
  constructor
  · unfold polycube_sparse.cells
    rw [List.toFinset_card_of_nodup h.nodup]
    exact h.size_eq
  · exact face_connected_of_grown R.cubes h.connected

/-- Every polycube of size `n` is, with its box and its cells, the sparse form
of one of the shapes with `n` cubes that the search reaches. -/
theorem rooted_of_polycube (n : Int) (h3 : 3 ≤ n) (h32 : n ≤ 32) (R : polycube_sparse)
    (hR : R.is_polycube n) :
    ∃ s ∈ full_size_shapes n, (get_polycube_sparse_from_rooted s).is_polycube n ∧
      (get_polycube_sparse_from_rooted s).dim = R.dim ∧
      (get_polycube_sparse_from_rooted s).cells = R.cells := by
  obtain ⟨hcard, hconn⟩ := polycube_cells_facts n R hR
  obtain ⟨s, hs, t, ht⟩ := full_size_complete n h3 (by omega) R.cells hcard hconn
  obtain ⟨hsc, hk⟩ := full_size_searched n s hs
  have hpoly := sparse_is_polycube s (search_current_wf s hsc).1 n hk
  have hcells : (get_polycube_sparse_from_rooted s).cells
      = translate (t.neg.add (s.root.add ⟨-s.min_bounds.x, -s.min_bounds.y, -s.min_bounds.z⟩))
          R.cells := by
    have h1 : s.cells = translate t.neg R.cells := by rw [ht, translate_neg_cancel]
    rw [sparse_cells, h1, translate_translate]
  obtain ⟨hd, hc⟩ := tight_translate n R _ hR hpoly _ hcells
  exact ⟨s, hs, hpoly, hd.symm, hc.symm⟩

/-! ### Boxes with sorted dimensions -/

theorem rotation_of_axes : ∀ sx sy sz : axis_id, sx ≠ sy → sy ≠ sz → sx ≠ sz →
    ∃ o ∈ rotations_24, o.sx = sx ∧ o.sy = sy ∧ o.sz = sz := by
  rw [rotations_24_eq_table]
  intro sx sy sz
  cases sx <;> cases sy <;> cases sz <;> decide

theorem exists_sorted_rotation (dim : position) :
    ∃ o ∈ rotations_24, dims_sorted (o.apply_dim dim) := by
  have cases : (dim.x ≥ dim.y ∧ dim.y ≥ dim.z) ∨ (dim.x ≥ dim.z ∧ dim.z ≥ dim.y) ∨
      (dim.y ≥ dim.x ∧ dim.x ≥ dim.z) ∨ (dim.y ≥ dim.z ∧ dim.z ≥ dim.x) ∨
      (dim.z ≥ dim.x ∧ dim.x ≥ dim.y) ∨ (dim.z ≥ dim.y ∧ dim.y ≥ dim.x) := by omega
  rcases cases with h | h | h | h | h | h
  · obtain ⟨o, ho, e1, e2, e3⟩ := rotation_of_axes .x .y .z (by decide) (by decide) (by decide)
    exact ⟨o, ho, by unfold dims_sorted orientation.apply_dim; rw [e1, e2, e3]; exact h⟩
  · obtain ⟨o, ho, e1, e2, e3⟩ := rotation_of_axes .x .z .y (by decide) (by decide) (by decide)
    exact ⟨o, ho, by unfold dims_sorted orientation.apply_dim; rw [e1, e2, e3]; exact h⟩
  · obtain ⟨o, ho, e1, e2, e3⟩ := rotation_of_axes .y .x .z (by decide) (by decide) (by decide)
    exact ⟨o, ho, by unfold dims_sorted orientation.apply_dim; rw [e1, e2, e3]; exact h⟩
  · obtain ⟨o, ho, e1, e2, e3⟩ := rotation_of_axes .y .z .x (by decide) (by decide) (by decide)
    exact ⟨o, ho, by unfold dims_sorted orientation.apply_dim; rw [e1, e2, e3]; exact h⟩
  · obtain ⟨o, ho, e1, e2, e3⟩ := rotation_of_axes .z .x .y (by decide) (by decide) (by decide)
    exact ⟨o, ho, by unfold dims_sorted orientation.apply_dim; rw [e1, e2, e3]; exact h⟩
  · obtain ⟨o, ho, e1, e2, e3⟩ := rotation_of_axes .z .y .x (by decide) (by decide) (by decide)
    exact ⟨o, ho, by unfold dims_sorted orientation.apply_dim; rw [e1, e2, e3]; exact h⟩

theorem sorted_dims_eq (o : orientation) (ho : o.is_permutation = true) (dim : position)
    (h1 : dims_sorted dim) (h2 : dims_sorted (o.apply_dim dim)) : o.apply_dim dim = dim := by
  unfold dims_sorted orientation.apply_dim at *
  rcases permutation_cases o ho with ⟨e1, e2, e3⟩ | ⟨e1, e2, e3⟩ | ⟨e1, e2, e3⟩ |
    ⟨e1, e2, e3⟩ | ⟨e1, e2, e3⟩ | ⟨e1, e2, e3⟩ <;> rw [e1, e2, e3] at h2 ⊢ <;>
    simp only [position.get] at h2 ⊢ <;> apply position_ext <;> dsimp only <;> omega

theorem rotation_is_permutation (o : orientation) (ho : o ∈ rotations_24) :
    o.is_permutation = true := by
  have hp := rotations_24_proper.2.2 o ho
  unfold orientation.is_proper at hp
  rw [Bool.and_eq_true] at hp
  exact hp.1

/-- A list that is not empty has a member below which the relation puts no member. -/
theorem exists_minimal {α : Type} (lt : α → α → Prop) (htrans : ∀ a b c, lt a b → lt b c → lt a c)
    (hirr : ∀ a, ¬ lt a a) : ∀ l : List α, l ≠ [] → ∃ m ∈ l, ∀ y ∈ l, ¬ lt y m := by
  intro l
  induction l with
  | nil => intro h; exact absurd rfl h
  | cons a l ih =>
    intro _
    by_cases hl : l = []
    · subst hl
      refine ⟨a, List.mem_singleton_self a, ?_⟩
      intro y hy
      rw [List.mem_singleton] at hy
      rw [hy]
      exact hirr a
    · obtain ⟨m, hm, hmin⟩ := ih hl
      by_cases ham : lt a m
      · refine ⟨a, List.mem_cons_self _ _, ?_⟩
        intro y hy
        rcases List.mem_cons.mp hy with rfl | hy
        · exact hirr _
        · intro hya
          exact hmin y hy (htrans y a m hya ham)
      · refine ⟨m, List.mem_cons_of_mem _ hm, ?_⟩
        intro y hy
        rcases List.mem_cons.mp hy with rfl | hy
        · exact ham
        · exact hmin y hy


/-! ### One counted shape for every free polycube -/

theorem canonical_test_iff (pc : polycube_sparse) :
    is_polycube_canonical_sparse pc = true ↔
      (dims_sorted pc.dim ∧
        ∀ r ∈ all_rotations pc, dims_sorted r.dim →
          ¬ strcmp (str_encoding_hex_sparse r) (str_encoding_hex_sparse pc) < 0) := by
  unfold is_polycube_canonical_sparse
  by_cases hbad : pc.dim.x < pc.dim.y ∨ pc.dim.x < pc.dim.z ∨ pc.dim.y < pc.dim.z
  · rw [if_pos hbad]
    constructor
    · intro h; exact absurd h (by decide)
    · intro h
      have := h.1
      unfold dims_sorted at this
      omega
  · have hxy : pc.dim.x ≥ pc.dim.y := by omega
    have hyz : pc.dim.y ≥ pc.dim.z := by omega
    rw [if_neg hbad]
    dsimp only
    refine Iff.trans ?_ (show _ ↔ _ from ⟨fun h => ⟨⟨hxy, hyz⟩, h⟩, fun h => h.2⟩)
    by_cases hd : pc.dim.x ≠ pc.dim.y ∧ pc.dim.x ≠ pc.dim.z ∧ pc.dim.y ≠ pc.dim.z
    · have hx : pc.dim.x > pc.dim.y := by omega
      have hy : pc.dim.y > pc.dim.z := by omega
      have h1 : ¬ (pc.dim.z ≥ pc.dim.x ∧ pc.dim.z ≥ pc.dim.y) := by omega
      have h2 : ¬ (pc.dim.y ≥ pc.dim.x ∧ pc.dim.y ≥ pc.dim.z) := by omega
      have h3 : ¬ pc.dim.y < pc.dim.z := by omega
      rw [if_pos hd, if_neg h1, if_neg h2, if_neg h3,
        canonical_loop_180_iff (str_encoding_hex_sparse pc) 8
          (all_180_rotations_generator_sparse.init pc)]
      have e8 : all_180_rotations_from 8 (all_180_rotations_generator_sparse.init pc)
          = rotations_8.map (fun r => r.apply pc) := all_180_rotations_eq pc
      rw [e8, all_rotations_eq]
      constructor
      · intro h r hr hs
        obtain ⟨o, ho, rfl⟩ := List.mem_map.mp hr
        rcases rotations_24_cases o ho with ⟨_, h8⟩ | hinv
        · exact h _ (List.mem_map.mpr ⟨o, h8, rfl⟩)
        · exact absurd hs (has_inversion_unsorted o hinv pc.dim hx hy)
      · intro h r hr
        obtain ⟨o, ho, rfl⟩ := List.mem_map.mp hr
        obtain ⟨hk, h24⟩ := rotations_8_cases o ho
        apply h _ (List.mem_map.mpr ⟨o, h24, rfl⟩)
        show dims_sorted (o.apply_dim pc.dim)
        rw [keeps_axes_apply_dim o hk]
        exact ⟨hxy, hyz⟩
    · rw [if_neg hd]
      exact canonical_loop_all_iff (str_encoding_hex_sparse pc) 24
        (all_rotations_generator_sparse.init pc)

theorem is_counted_iff (s : rooted_polycube) :
    is_counted s = true ↔
      is_polycube_canonical_sparse (get_polycube_sparse_from_rooted s) = true := by
  unfold is_counted
  rw [Bool.and_eq_true]
  constructor
  · intro h; exact h.2
  · intro h
    refine ⟨?_, h⟩
    by_contra hc
    have := rejected_not_canonical s (by simpa using hc)
    rw [this] at h
    exact absurd h (by decide)

theorem strcmp_self_encoding (p : polycube_sparse) :
    ¬ strcmp (str_encoding_hex_sparse p) (str_encoding_hex_sparse p) < 0 := by
  rw [encoding_lt_iff]
  exact irrefl_of (List.Lex (fun x y : Nat => x < y)) _

/-- No class is missing: every face-connected set of `n` cells is a rotated and
translated copy of the cells of a counted shape. -/
theorem counted_complete (n : Int) (h3 : 3 ≤ n) (h32 : n ≤ 32) (S : Finset position)
    (hcard : (S.card : Int) = n) (hconn : face_connected S) :
    ∃ s ∈ (full_size_shapes n).filter is_counted,
      same_free_polycube S (get_polycube_sparse_from_rooted s).cells := by
  obtain ⟨s0, hs0, t0, ht0⟩ := full_size_complete n h3 (by omega) S hcard hconn
  obtain ⟨hsc0, hk0⟩ := full_size_searched n s0 hs0
  have hP0 := sparse_is_polycube s0 (search_current_wf s0 hsc0).1 n hk0
  generalize hP0def : get_polycube_sparse_from_rooted s0 = P0 at hP0
  have hP0cells : P0.cells
      = translate (t0.neg.add (s0.root.add ⟨-s0.min_bounds.x, -s0.min_bounds.y,
          -s0.min_bounds.z⟩)) S := by
    have h1 : s0.cells = translate t0.neg S := by rw [ht0, translate_neg_cancel]
    rw [← hP0def, sparse_cells, h1, translate_translate]
  -- the orientations with a sorted box, and one with the least string among them
  have hne : rotations_24.filter (fun o => decide (dims_sorted (o.apply_dim P0.dim))) ≠ [] := by
    obtain ⟨o, ho, hso⟩ := exists_sorted_rotation P0.dim
    exact List.ne_nil_of_mem (List.mem_filter.mpr ⟨ho, decide_eq_true hso⟩)
  obtain ⟨om, hom, hmin⟩ := exists_minimal
    (fun o1 o2 : orientation => strcmp (str_encoding_hex_sparse (o1.apply P0))
      (str_encoding_hex_sparse (o2.apply P0)) < 0)
    (fun a b c hab hbc => encoding_lt_trans _ _ _ hab hbc)
    (fun a => strcmp_self_encoding _) _ hne
  rw [List.mem_filter] at hom
  obtain ⟨hom24, homs⟩ := hom
  have homs2 : dims_sorted (om.apply_dim P0.dim) := of_decide_eq_true homs
  have hRm := orientation_is_polycube om (rotation_is_permutation om hom24) P0 n hP0
  obtain ⟨s, hs, hPs, hdim, hcells⟩ := rooted_of_polycube n h3 h32 (om.apply P0) hRm
  have henc : str_encoding_hex_sparse (get_polycube_sparse_from_rooted s)
      = str_encoding_hex_sparse (om.apply P0) :=
    encoding_of_cells _ _ hdim hcells hPs.nodup hRm.nodup
  refine ⟨s, List.mem_filter.mpr ⟨hs, ?_⟩, ?_⟩
  · rw [is_counted_iff, canonical_test_iff]
    constructor
    · rw [hdim]
      exact homs2
    · intro r hr hrs
      rw [all_rotations_eq] at hr
      obtain ⟨o, ho, rfl⟩ := List.mem_map.mp hr
      have hper := rotation_is_permutation o ho
      obtain ⟨hd2, hc2⟩ := apply_same o _ _ hdim hcells
      rw [apply_comp] at hd2 hc2
      have ho2 : o.comp om ∈ rotations_24 :=
        (closed_under_comp_spec rotations_24 rotations_24_closed om hom24 o ho).1
      have hpoly1 := orientation_is_polycube o hper _ n hPs
      have hpoly2 := orientation_is_polycube (o.comp om) (rotation_is_permutation _ ho2) P0 n hP0
      have henc2 := encoding_of_cells _ _ hd2 hc2 hpoly1.nodup hpoly2.nodup
      rw [henc2, henc]
      apply hmin
      rw [List.mem_filter]
      refine ⟨ho2, decide_eq_true ?_⟩
      have : (o.apply (get_polycube_sparse_from_rooted s)).dim = ((o.comp om).apply P0).dim := hd2
      show dims_sorted ((o.comp om).apply P0).dim
      rw [← this]
      exact hrs
  · refine ⟨om, hom24, ?_⟩
    rw [hcells, apply_cells_rotate, hP0cells, image_rotate_translate, translate_translate]
    exact ⟨_, rfl⟩

/-- No two counted shapes are rotated and translated copies of one another. -/
theorem counted_distinct (n : Int) (h3 : 3 ≤ n) (h32 : n ≤ 32) :
    ((full_size_shapes n).filter is_counted).Pairwise fun a b =>
      ¬ same_free_polycube (get_polycube_sparse_from_rooted a).cells
        (get_polycube_sparse_from_rooted b).cells := by
  have hp : ((full_size_shapes n).filter is_counted).Pairwise
      (fun a b => ∀ t, a.cells ≠ translate t b.cells) :=
    (full_size_pairwise n h3 (by omega)).sublist (List.filter_sublist _)
  refine List.Pairwise.imp_of_mem ?_ hp
  intro a b ha hb hne hfree
  rw [List.mem_filter] at ha hb
  obtain ⟨hsa, hka⟩ := full_size_searched n a ha.1
  obtain ⟨hsb, hkb⟩ := full_size_searched n b hb.1
  have hPa := sparse_is_polycube a (search_current_wf a hsa).1 n hka
  have hPb := sparse_is_polycube b (search_current_wf b hsb).1 n hkb
  have hca := (canonical_test_iff _).mp ((is_counted_iff a).mp ha.2)
  have hcb := (canonical_test_iff _).mp ((is_counted_iff b).mp hb.2)
  have hcellsa := sparse_cells a
  have hcellsb := sparse_cells b
  generalize get_polycube_sparse_from_rooted a = Pa at *
  generalize get_polycube_sparse_from_rooted b = Pb at *
  obtain ⟨o, ho, t, ht⟩ := hfree
  have hper := rotation_is_permutation o ho
  have hR := orientation_is_polycube o hper Pa n hPa
  -- the image of `Pa` is `Pb`, box and cells
  have hRb : Pb.cells = translate ((o.apply_pos Pa.dim ⟨0, 0, 0⟩).neg.add t) (o.apply Pa).cells := by
    rw [apply_cells_rotate, ← translate_translate, translate_neg_cancel]
    exact ht
  obtain ⟨hd1, hc1⟩ := tight_translate n (o.apply Pa) Pb hR hPb _ hRb
  -- the inverse orientation takes `Pb` to `Pa`
  obtain ⟨o1, ho1, hinv⟩ :=
    (closed_under_comp_spec rotations_24 rotations_24_closed o ho orientation.one
      (by decide)).2
  have hper1 := rotation_is_permutation o1 ho1
  obtain ⟨hd2, hc2⟩ := apply_same o1 _ _ hd1 hc1
  rw [apply_comp, hinv, apply_one] at hd2 hc2
  have hR1 := orientation_is_polycube o1 hper1 Pb n hPb
  have e1 : str_encoding_hex_sparse (o.apply Pa) = str_encoding_hex_sparse Pb :=
    encoding_of_cells _ _ hd1 hc1 hR.nodup hPb.nodup
  have e2 : str_encoding_hex_sparse (o1.apply Pb) = str_encoding_hex_sparse Pa :=
    encoding_of_cells _ _ hd2.symm hc2.symm hR1.nodup hPa.nodup
  have n1 : ¬ strcmp (str_encoding_hex_sparse Pb) (str_encoding_hex_sparse Pa) < 0 := by
    rw [← e1]
    apply hca.2 _ (by rw [all_rotations_eq]; exact List.mem_map.mpr ⟨o, ho, rfl⟩)
    rw [hd1]
    exact hcb.1
  have n2 : ¬ strcmp (str_encoding_hex_sparse Pa) (str_encoding_hex_sparse Pb) < 0 := by
    rw [← e2]
    apply hcb.2 _ (by rw [all_rotations_eq]; exact List.mem_map.mpr ⟨o1, ho1, rfl⟩)
    rw [← hd2]
    exact hca.1
  have henc := encoding_eq_of_not_lt Pa Pb n2 n1
  have hdim : Pa.dim = Pb.dim := by
    rw [← hd1]
    have := sorted_dims_eq o hper Pa.dim hca.1 (by
      have : (o.apply Pa).dim = o.apply_dim Pa.dim := rfl
      rw [← this, hd1]
      exact hcb.1)
    exact this.symm
  have hlab := polycube_encoding_inj n Pa Pb h32 hPa hPb hdim henc
  have hsame : Pa.cells = Pb.cells := by
    ext c
    unfold polycube_sparse.cells
    rw [List.mem_toFinset, List.mem_toFinset]
    exact ⟨polycube_cells_of_labels n Pa Pb hdim hPa hPb hlab c,
      polycube_cells_of_labels n Pb Pa hdim.symm hPb hPa hlab.symm c⟩
  rw [hcellsa, hcellsb] at hsame
  apply hne ((b.root.add ⟨-b.min_bounds.x, -b.min_bounds.y, -b.min_bounds.z⟩).add
    (a.root.add ⟨-a.min_bounds.x, -a.min_bounds.y, -a.min_bounds.z⟩).neg)
  rw [← translate_translate, ← hsame, translate_neg_cancel]


theorem rotate_matrix (o : orientation) (p : position) :
    (o.rotate p).vec = o.matrix.mulVec p.vec := by
  unfold orientation.rotate
  rw [apply_pos_affine]
  have h0 : (o.apply_pos ⟨1, 1, 1⟩ ⟨0, 0, 0⟩).vec = 0 := by
    unfold orientation.apply_pos orient_coord position.vec
    funext j
    fin_cases j
    · show (if o.fx = true then (⟨1, 1, 1⟩ : position).get o.sx - 1 - (⟨0, 0, 0⟩ : position).get o.sx
        else (⟨0, 0, 0⟩ : position).get o.sx) = 0
      cases o.fx <;> cases o.sx <;> rfl
    · show (if o.fy = true then (⟨1, 1, 1⟩ : position).get o.sy - 1 - (⟨0, 0, 0⟩ : position).get o.sy
        else (⟨0, 0, 0⟩ : position).get o.sy) = 0
      cases o.fy <;> cases o.sy <;> rfl
    · show (if o.fz = true then (⟨1, 1, 1⟩ : position).get o.sz - 1 - (⟨0, 0, 0⟩ : position).get o.sz
        else (⟨0, 0, 0⟩ : position).get o.sz) = 0
      cases o.fz <;> cases o.sz <;> rfl
  rw [h0, add_zero]

/-- C2: for every target size `n` from 3 to 32, the shapes handed to the found
sink by `expand_polycubes_dfs(n, n)` hold exactly one member of every class
of face-connected sets of `n` cells of the grid under translation and the
24 proper rotations.  Every shape found is a polycube of `n` cells; every
face-connected set of `n` cells is a rotated and translated copy of the
cells of a shape found (no class is missing), and of one only; no two
shapes found are rotated and translated copies of one another; and the
count returned is the number of shapes found, so it is the number of free
polycubes of size `n`.  Being a rotated and translated copy is an
equivalence relation, and the rotations used are the 24 rotations of the
grid: the integer matrices that are orthogonal with determinant 1. -/
theorem c2_one_per_free_polycube (n : Int) (h3 : 3 ≤ n) (h32 : n ≤ 32) :
    (∀ pc ∈ (expand_polycubes_dfs n n).found,
      pc.is_polycube n ∧ (pc.cells.card : Int) = n ∧ face_connected pc.cells) ∧
    (∀ S : Finset position, (S.card : Int) = n → face_connected S →
      ∃ pc ∈ (expand_polycubes_dfs n n).found, same_free_polycube S pc.cells) ∧
    (∀ S : Finset position, ∀ p1 ∈ (expand_polycubes_dfs n n).found,
      ∀ p2 ∈ (expand_polycubes_dfs n n).found,
      same_free_polycube S p1.cells → same_free_polycube S p2.cells → p1 = p2) ∧
    ((expand_polycubes_dfs n n).found.Pairwise fun a b =>
      ¬ same_free_polycube a.cells b.cells) ∧
    (expand_polycubes_dfs n n).count = (expand_polycubes_dfs n n).found.length ∧
    ((∀ S, same_free_polycube S S) ∧
      (∀ S T, same_free_polycube S T → same_free_polycube T S) ∧
      (∀ S T U, same_free_polycube S T → same_free_polycube T U → same_free_polycube S U)) ∧
    (rotations_24.length = 24 ∧ (rotations_24.map orientation.matrix).Nodup ∧
      (∀ M : Matrix (Fin 3) (Fin 3) Int,
        M ∈ rotations_24.map orientation.matrix ↔ (M * M.transpose = 1 ∧ M.det = 1)) ∧
      ∀ (o : orientation) (p : position), (o.rotate p).vec = o.matrix.mulVec p.vec) := by
  obtain ⟨hfound, hcount⟩ := found_eq_filter n h3
  have hpair : (expand_polycubes_dfs n n).found.Pairwise fun a b =>
      ¬ same_free_polycube a.cells b.cells := by
    rw [hfound, List.pairwise_map]
    exact counted_distinct n h3 h32
  refine ⟨?_, ?_, ?_, hpair, ?_, ⟨same_free_refl, same_free_symm, same_free_trans⟩, ?_⟩
  · intro pc hpc
    rw [hfound] at hpc
    obtain ⟨s, hs, rfl⟩ := List.mem_map.mp hpc
    obtain ⟨hsc, hk⟩ := full_size_searched n s (List.mem_filter.mp hs).1
    have hp := sparse_is_polycube s (search_current_wf s hsc).1 n hk
    exact ⟨hp, polycube_cells_facts n _ hp⟩
  · intro S hcard hconn
    obtain ⟨s, hs, hfree⟩ := counted_complete n h3 h32 S hcard hconn
    exact ⟨_, by rw [hfound]; exact List.mem_map_of_mem _ hs, hfree⟩
  · intro S p1 hp1 p2 hp2 h1 h2
    by_contra hne
    have hsym : Symmetric fun a b : polycube_sparse =>
        ¬ same_free_polycube a.cells b.cells :=
      fun a b hab hba => hab (same_free_symm _ _ hba)
    exact hpair.forall hsym hp1 hp2 hne
      (same_free_trans _ _ _ (same_free_symm _ _ h1) h2)
  · rw [hcount, hfound, List.length_map]
  · obtain ⟨hlen, hnd, _⟩ := rotations_24_proper
    refine ⟨hlen, List.Nodup.map_on (fun a _ b _ hab => orientation_matrix_inj a b hab) hnd,
      ?_, rotate_matrix⟩
    intro M
    rw [special_orthogonal_iff_rotation, List.mem_map]

theorem c2_one_per_free_polycube_witness :
    ((3 : Int) ≤ 3 ∧ (3 : Int) ≤ 32) ∧
    (expand_polycubes_dfs 3 3).found.length = 2 ∧
    (expand_polycubes_dfs 3 3).count = (expand_polycubes_dfs 3 3).found.length ∧
    (∀ S : Finset position, (S.card : Int) = 3 → face_connected S →
      ∃ pc ∈ (expand_polycubes_dfs 3 3).found, same_free_polycube S pc.cells) ∧
    ((expand_polycubes_dfs 3 3).found.Pairwise fun a b =>
      ¬ same_free_polycube a.cells b.cells) :=
  ⟨⟨by decide, by decide⟩, dfs_three_found,
    (c2_one_per_free_polycube 3 (by decide) (by decide)).2.2.2.2.1,
    (c2_one_per_free_polycube 3 (by decide) (by decide)).2.1,
    (c2_one_per_free_polycube 3 (by decide) (by decide)).2.2.2.1⟩

end Polycubes
